import Mathlib

/-!
# Granite meshlet exporter: a shallow embedding and its verified properties

The definitions below transcribe, function by function, the parts of
`scene-export/meshlet_export.cpp`, `scene_formats/scene_formats.cpp` and
`vulkan/mesh/meshlet.hpp` that the verified properties talk about.

Conventions of the embedding.

* `uint32_t`, `uint16_t`, `uint8_t` values are natural numbers; where the C++
  arithmetic can wrap, the wrap is written out as `% 2 ^ w`.
* `int16_t`, `int8_t`, `int` values are integers.
* A small vector (`u16vec3`, `u8vec4`, `i16vec3`, ...) is the list of its
  components, i.e. its `data` array.
* A pointer to words (`PayloadWord *`, a scratch array, `std::vector`) is the
  list of the words it addresses.  A store outside the list is dropped by the
  model (in C++ it is undefined behaviour); every theorem that depends on a
  store states that the store is inside the buffer.
* An integer division by a stride that is zero is undefined behaviour in C++;
  in the model it has the value 0.
* Code outside the repository (the hasher, the meshoptimizer library, the
  float and file system primitives) is a parameter of the functions that call
  it; a theorem that does not constrain such a parameter holds for every
  behaviour of it.
-/

namespace Granite

/-! ## Constants of `vulkan/mesh/meshlet.hpp` -/

/-- Source constant `MaxStreams`. -/
def MaxStreams : Nat := 8
/-- Source constant `NumChunks`. -/
def NumChunks : Nat := 4
/-- Source constant `PrimitivesPerChunk`. -/
def PrimitivesPerChunk : Nat := 64
/-- Source constant `IBOBits`. -/
def IBOBits : Nat := 5
/-- Source constant `VerticesPerChunk = 1u << IBOBits`. -/
def VerticesPerChunk : Nat := 1 <<< IBOBits
/-- Source constant `MaxElementsPrim`. -/
def MaxElementsPrim : Nat := PrimitivesPerChunk * NumChunks
/-- Source constant `MaxElementsVert`. -/
def MaxElementsVert : Nat := VerticesPerChunk * NumChunks

/-! ## Bit-addressed word buffers -/

/-- The statement `words[idx] |= x` on a buffer of 32-bit words. -/
def or_word (words : List Nat) (idx x : Nat) : List Nat :=
  words.set idx (words.getD idx 0 ||| x)

/-- Bit `j` of a word buffer in linear addressing: bit `j` lives in word
`j / 32` at bit `j % 32` (little-endian within 32-bit words). -/
def getBit (words : List Nat) (j : Nat) : Bool :=
  (words.getD (j / 32) 0).testBit (j % 32)

/-- The value of the `n`-bit field that starts at linear bit `off`, least
significant bit first: what a decoder reads. -/
def read_bits (words : List Nat) (off n : Nat) : Nat :=
  (List.range n).foldl (fun acc i => acc + (if getBit words (off + i) then 2 ^ i else 0)) 0

/-- One iteration of the inner loop of `write_bits`:
`words[bit_offset / 32] |= ((value >> i) & 1) << (bit_offset & 31)` followed by
`bit_offset++` on the `unsigned` cursor.  The state is `(words, bit_offset)`.
The shifted operand is a single bit moved by at most 31 places, so it is a
32-bit word without reduction. -/
def write_bit (value : Nat) (st : List Nat × Nat) (i : Nat) : List Nat × Nat :=
  (or_word st.1 (st.2 / 32) (((value >>> i) &&& 1) <<< (st.2 &&& 31)), (st.2 + 1) % 2 ^ 32)

/-- The inner loop of `write_bits` for one component:
`for (i = 0; i < bit_count; i++, bit_offset++)`. -/
def write_component (bit_count : Nat) (st : List Nat × Nat) (value : Nat) : List Nat × Nat :=
  (List.range bit_count).foldl (write_bit value) st

/-- Source function `write_bits` (meshlet_export.cpp:312-323).  `values` is the
`data` array of the vector being written; `bit_offset` is an `unsigned`, so the
product `element_index * component_count * bit_count` is taken modulo `2^32`. -/
def write_bits (words : List Nat) (values : List Nat)
    (component_count element_index bit_count : Nat) : List Nat :=
  ((List.range component_count).foldl
    (fun st c => write_component bit_count st (values.getD c 0))
    (words, (element_index * component_count * bit_count) % 2 ^ 32)).1

/-- Source function `encode_index_stream` (meshlet_export.cpp:325-338).  The
scratch array `p` has `(IBOBits * 3 * PrimitivesPerChunk + 31) / 32` zeroed
words; `stream_buffer[i]` is the `data` array of the `u8vec3` of primitive `i`. -/
def encode_index_stream (out_payload_buffer : List Nat) (stream_buffer : List (List Nat))
    (count : Nat) : List Nat :=
  let p := (List.range count).foldl
    (fun p i => write_bits p (stream_buffer.getD i []) 3 i IBOBits)
    (List.replicate ((IBOBits * 3 * PrimitivesPerChunk + 31) / 32) 0)
  out_payload_buffer ++ p.take (((IBOBits * 3 * count + 31) % 2 ^ 32) / 32)

/-! ## Attribute streams (`encode_attribute_stream`) -/

/-- Source struct `Stream` (meshlet.hpp:51-62).  `base_value` is the six-word
member of the union `u`; the other member, `offsets[6]`, overlays word `c` with
the pair `{prim_offset, attr_offset}` of 16-bit fields. -/
structure Stream where
  base_value : List Nat
  bits_per_chunk : Nat
  aux : Int
  offsets_in_words : List Nat
deriving DecidableEq

/-- A value-initialised `Stream` (`Metadata out_meshlet = {}`). -/
def Stream.zero : Stream :=
  { base_value := List.replicate 6 0, bits_per_chunk := 0, aux := 0,
    offsets_in_words := List.replicate 4 0 }

/-- The three instantiations of the template parameter `T` of
`encode_attribute_stream` (position, UV, normal/tangent). -/
inductive AttrType where
  | u16vec3
  | u16vec2
  | u8vec4
deriving DecidableEq

/-- Source trait `to_components<T>::components`. -/
def AttrType.components : AttrType → Nat
  | .u16vec3 => 3
  | .u16vec2 => 2
  | .u8vec4 => 4

/-- Source constant `bits_per_component = sizeof(UnsignedScalar) * 8`. -/
def AttrType.bits_per_component : AttrType → Nat
  | .u16vec3 => 16
  | .u16vec2 => 16
  | .u8vec4 => 8

/-- Conversion of a `w`-bit unsigned scalar to the signed scalar of the same
width (`SignedT(p)`, two's complement). -/
def to_signed (w : Nat) (x : Nat) : Int :=
  if x % 2 ^ w < 2 ^ (w - 1) then ((x % 2 ^ w : Nat) : Int) else ((x % 2 ^ w : Nat) : Int) - 2 ^ w

/-- Conversion of a signed scalar to the `w`-bit unsigned scalar (`T(slo)`). -/
def to_unsigned (w : Nat) (x : Int) : Nat :=
  (x % 2 ^ w).toNat

/-- Subtraction of `w`-bit unsigned scalars (wraps modulo `2^w`). -/
def sub_wrap (w : Nat) (a b : Nat) : Nat :=
  (a + (2 ^ w - b % 2 ^ w)) % 2 ^ w

/-- Number of significant bits of `x`, by halving at most `fuel` times. -/
def bit_length : Nat → Nat → Nat
  | 0, _ => 0
  | fuel + 1, x => if x = 0 then 0 else bit_length fuel (x / 2) + 1

/-- Modelled from the spec: `leading_zeroes` of `util/bitops.hpp` is not among
the sources; it is the count of zero bits above the highest set bit of a 32-bit
word (32 for the word 0), so that `32 - leading_zeroes(delta)` is the spec's
`ceil(log2(delta + 1))`. -/
def leading_zeroes (x : Nat) : Nat :=
  32 - bit_length 32 (x % 2 ^ 32)

/-- Source function `compute_required_bits_unsigned` (meshlet_export.cpp:298-301). -/
def compute_required_bits_unsigned (delta : Nat) : Nat :=
  if delta = 0 then 0 else 32 - leading_zeroes delta

/-- Source function `max_component` (meshlet_export.cpp:387-394). -/
def max_component (value : List Nat) : Nat :=
  value.foldl max 0

/-- The index expression `vbo_remap ? vbo_remap[i] : i` of
`encode_attribute_stream` (a null `vbo_remap` is `none`). -/
def remap_index (vbo_remap : Option (List Nat)) (i : Nat) : Nat :=
  match vbo_remap with
  | some r => r.getD i 0
  | none => i

/-- The gather and padding loops of `encode_attribute_stream`
(meshlet_export.cpp:408-412): `attributes[i] = raw_attributes[vbo_remap ?
vbo_remap[i] : i]` for `i < num_attributes`, then the remaining slots up to
`VerticesPerChunk` repeat `attributes[0]`. -/
def gather_attributes (raw_attributes : List (List Nat)) (vbo_remap : Option (List Nat))
    (num_attributes : Nat) : List (List Nat) :=
  let gathered := (List.range num_attributes).map fun i =>
    raw_attributes.getD (remap_index vbo_remap i) []
  gathered ++ List.replicate (VerticesPerChunk - num_attributes) (gathered.getD 0 [])

/-- Source function template `encode_bitplane_16_inner<Components>`
(meshlet_export.cpp:340-350). -/
def encode_bitplane_16_inner (Components : Nat) (out_payload_buffer : List Nat)
    (values : List (List Nat)) (encoded_bits count : Nat) : List Nat :=
  let p := (List.range count).foldl
    (fun p i => write_bits p (values.getD i []) Components i encoded_bits)
    (List.replicate (16 * Components * (VerticesPerChunk / 32)) 0)
  out_payload_buffer ++ p.take (((encoded_bits * Components * count + 31) % 2 ^ 32) / 32)

/-- Source function `encode_bitplane` for `u8vec4` (meshlet_export.cpp:352-361). -/
def encode_bitplane_u8vec4 (out_payload_buffer : List Nat)
    (values : List (List Nat)) (encoded_bits count : Nat) : List Nat :=
  let p := (List.range count).foldl
    (fun p i => write_bits p (values.getD i []) 4 i encoded_bits)
    (List.replicate (8 * 4 * (VerticesPerChunk / 32)) 0)
  out_payload_buffer ++ p.take (((encoded_bits * 4 * count + 31) % 2 ^ 32) / 32)

/-- Overload resolution of `encode_bitplane` (meshlet_export.cpp:352-375). -/
def encode_bitplane (T : AttrType) (out_payload_buffer : List Nat)
    (values : List (List Nat)) (encoded_bits count : Nat) : List Nat :=
  match T with
  | .u16vec3 => encode_bitplane_16_inner 3 out_payload_buffer values encoded_bits count
  | .u16vec2 => encode_bitplane_16_inner 2 out_payload_buffer values encoded_bits count
  | .u8vec4 => encode_bitplane_u8vec4 out_payload_buffer values encoded_bits count

/-- The per-chunk statistics computed by `encode_attribute_stream`
(meshlet_export.cpp:414-448): the base `ulo` finally chosen and the bit width
`bits`, from the 32 padded `attributes`. -/
structure ChunkStats where
  ulo : List Nat
  uhi : List Nat
  slo : List Int
  shi : List Int
  diff_max_unsigned : Nat
  diff_max_signed : Nat
  base : List Nat
  bits : Nat

/-- Lines 414-448 of `encode_attribute_stream`: running minima and maxima in
both interpretations, the choice of interpretation, the width and the 13..15
to 16 promotion of the three-component 16-bit stream. -/
def chunk_stats (T : AttrType) (attributes : List (List Nat)) : ChunkStats :=
  let w := T.bits_per_component
  let C := T.components
  let ulo := attributes.foldl (fun acc p => List.zipWith min acc p) (List.replicate C (2 ^ w - 1))
  let uhi := attributes.foldl (fun acc p => List.zipWith max acc p) (List.replicate C 0)
  let slo := attributes.foldl (fun acc p => List.zipWith min acc (p.map (to_signed w)))
    (List.replicate C ((2 : Int) ^ (w - 1) - 1))
  let shi := attributes.foldl (fun acc p => List.zipWith max acc (p.map (to_signed w)))
    (List.replicate C (-(2 : Int) ^ (w - 1)))
  let diff_unsigned := List.zipWith (sub_wrap w) uhi ulo
  let diff_signed := List.zipWith (sub_wrap w) (shi.map (to_unsigned w)) (slo.map (to_unsigned w))
  let diff_max_unsigned := max_component diff_unsigned
  let diff_max_signed := max_component diff_signed
  let base := if diff_max_signed < diff_max_unsigned then slo.map (to_unsigned w) else ulo
  let diff_max := if diff_max_signed < diff_max_unsigned then diff_max_signed else diff_max_unsigned
  let bits0 := compute_required_bits_unsigned diff_max
  let bits :=
    if w = 16 ∧ C = 3 then (if bits0 < 16 ∧ bits0 > 12 then 16 else bits0) else bits0
  { ulo := ulo, uhi := uhi, slo := slo, shi := shi,
    diff_max_unsigned := diff_max_unsigned, diff_max_signed := diff_max_signed,
    base := base, bits := bits }

/-- Source function template `encode_attribute_stream<T>`
(meshlet_export.cpp:396-457).  Returns the payload and the updated `Stream`. -/
def encode_attribute_stream (T : AttrType) (out_payload_buffer : List Nat) (stream : Stream)
    (raw_attributes : List (List Nat)) (chunk_index : Nat) (vbo_remap : Option (List Nat))
    (num_attributes : Nat) : List Nat × Stream :=
  let attributes := gather_attributes raw_attributes vbo_remap num_attributes
  let st := chunk_stats T attributes
  let stream1 : Stream :=
    { stream with
      base_value := write_bits stream.base_value st.base T.components chunk_index
        T.bits_per_component
      bits_per_chunk :=
        stream.bits_per_chunk ||| ((st.bits <<< (8 * chunk_index)) % 2 ^ 32) }
  let attributes1 := attributes.map fun p => List.zipWith (sub_wrap T.bits_per_component) p st.base
  (encode_bitplane T out_payload_buffer attributes1 st.bits num_attributes, stream1)

/-! ## `encode_mesh` -/

/-- Source struct `Meshlet` of meshlet_export.cpp (lines 58-66): one chunk
handed to `encode_mesh`.  The pointers `local_indices` and `attribute_remap`
are the lists they point to. -/
structure Meshlet where
  global_indices_offset : Nat
  primitive_count : Nat
  vertex_count : Nat
  local_indices : List Nat
  attribute_remap : List Nat
deriving DecidableEq

/-- A `Meshlet` of zeros, read by the model where C++ would read out of
bounds. -/
def Meshlet.zero : Meshlet :=
  { global_indices_offset := 0, primitive_count := 0, vertex_count := 0,
    local_indices := [], attribute_remap := [] }

/-- Source struct `NormalTangent` (meshlet_export.cpp:158-163). -/
structure NormalTangent where
  n : List Int
  t : List Int
  t_sign : Bool
deriving DecidableEq

/-- The arrays behind `pp_data`, by stream type: `pp_data[Position]` read as
`u16vec3`, `pp_data[NormalTangentOct8]` as `NormalTangent`, `pp_data[UV]` as
`u16vec2`. -/
structure StreamData where
  position : List (List Nat)
  normal_tangent : List NormalTangent
  uv : List (List Nat)

/-- Source struct `Metadata` (a `Header` with `bound` and
`streams[MaxStreams]`).  The `bound` member, eight `float`s, is kept as the
eight 32-bit words of their object representation; `encode_mesh` leaves it
value-initialised and `export_mesh_to_meshlet` fills it in afterwards. -/
structure Metadata where
  base_vertex_offset : Nat
  num_chunks : Nat
  streams : List Stream
  bound : List Nat := List.replicate 8 0
deriving DecidableEq

/-- A value-initialised `Metadata`. -/
def Metadata.zero : Metadata :=
  { base_vertex_offset := 0, num_chunks := 0, streams := List.replicate MaxStreams Stream.zero }

/-- Source struct `CombinedMesh`; `mesh_style` is the enum value. -/
structure CombinedMesh where
  stream_count : Nat
  mesh_style : Nat
  meshlets : List Metadata
deriving DecidableEq

/-- Source struct `Encoded`. -/
structure Encoded where
  payload : List Nat
  mesh : CombinedMesh
deriving DecidableEq

/-- The assignment `stream.u.offsets[chunk_index] = {prim_offset, attr_offset}`:
two `uint16_t` fields that overlay word `chunk_index` of `base_value`
(little-endian: `prim_offset` is the low half). -/
def set_offsets (stream : Stream) (chunk_index prim_offset attr_offset : Nat) : Stream :=
  { stream with
    base_value := stream.base_value.set chunk_index
      (prim_offset % 2 ^ 16 + (attr_offset % 2 ^ 16) * 2 ^ 16) }

/-- The array `index_stream_buffer[PrimitivesPerChunk]` of `encode_mesh`
(lines 495-499): the chunk's triples, then zeros. -/
def index_stream_buffer (meshlet : Meshlet) : List (List Nat) :=
  (List.range PrimitivesPerChunk).map fun i =>
    if i < meshlet.primitive_count then
      [meshlet.local_indices.getD (3 * i) 0, meshlet.local_indices.getD (3 * i + 1) 0,
        meshlet.local_indices.getD (3 * i + 2) 0]
    else [0, 0, 0]

/-- State of the primitive-stream loop of one output meshlet. -/
structure PrimState where
  payload : List Nat
  index_stream : Stream
  num_attributes : Nat
  num_primitives : Nat

/-- One iteration of the primitive-stream loop (meshlet_export.cpp:490-514).
The counters that only feed log messages are left out. -/
def encode_primitive_chunk (meshlets : List Meshlet) (full_meshlet_index : Nat)
    (st : PrimState) (chunk_index : Nat) : PrimState :=
  let meshlet := meshlets.getD (full_meshlet_index * NumChunks + chunk_index) Meshlet.zero
  let s1 : Stream :=
    { st.index_stream with
      offsets_in_words :=
        st.index_stream.offsets_in_words.set chunk_index (st.payload.length % 2 ^ 32) }
  let s2 := set_offsets s1 chunk_index st.num_primitives st.num_attributes
  { payload := encode_index_stream st.payload (index_stream_buffer meshlet)
      meshlet.primitive_count
    index_stream := s2
    num_attributes := (st.num_attributes + meshlet.vertex_count) % 2 ^ 32
    num_primitives := (st.num_primitives + meshlet.primitive_count) % 2 ^ 32 }

/-- The loop that builds `sign_mask` (meshlet_export.cpp:556-561). -/
def nt_sign_mask (nt : List NormalTangent) (meshlet : Meshlet) : Nat :=
  (List.range meshlet.vertex_count).foldl
    (fun mask i =>
      mask ||| (((if (nt.getD (meshlet.attribute_remap.getD i 0) ⟨[], [], false⟩).t_sign
        then 1 else 0) <<< i) % 2 ^ 32))
    0

/-- The array `nts[VerticesPerChunk]` after the gather loop: the octahedral
bytes of normal and tangent as `u8vec4`, zeros in the unused slots. -/
def nt_gather (nt : List NormalTangent) (meshlet : Meshlet) : List (List Nat) :=
  (List.range VerticesPerChunk).map fun i =>
    if i < meshlet.vertex_count then
      let m := nt.getD (meshlet.attribute_remap.getD i 0) ⟨[], [], false⟩
      [to_unsigned 8 (m.n.getD 0 0), to_unsigned 8 (m.n.getD 1 0),
        to_unsigned 8 (m.t.getD 0 0), to_unsigned 8 (m.t.getD 1 0)]
    else [0, 0, 0, 0]

/-- The `NormalTangentOct8` case of `encode_mesh` (meshlet_export.cpp:551-587). -/
def encode_normal_tangent_chunk (payload : List Nat) (stream : Stream)
    (nt : List NormalTangent) (meshlet : Meshlet) (chunk_index : Nat) : List Nat × Stream :=
  let nts := nt_gather nt meshlet
  let mask0 := nt_sign_mask nt meshlet
  let sign_mask :=
    if meshlet.vertex_count < VerticesPerChunk ∧
        mask0 = ((1 <<< meshlet.vertex_count) % 2 ^ 32 + 2 ^ 32 - 1) % 2 ^ 32
    then 2 ^ 32 - 1 else mask0
  if sign_mask = 0 then
    encode_attribute_stream AttrType.u8vec4 payload
      { stream with aux := Int.lor stream.aux ((1 <<< (2 * chunk_index) : Nat) : Int) }
      nts chunk_index none meshlet.vertex_count
  else if sign_mask = 2 ^ 32 - 1 then
    encode_attribute_stream AttrType.u8vec4 payload
      { stream with aux := Int.lor stream.aux ((2 <<< (2 * chunk_index) : Nat) : Int) }
      nts chunk_index none meshlet.vertex_count
  else
    let nts1 := (List.range VerticesPerChunk).map fun i =>
      let v := nts.getD i []
      if i < meshlet.vertex_count then
        v.set 3 (((v.getD 3 0) &&& 0xfe) ||| ((sign_mask >>> i) &&& 1))
      else v
    encode_attribute_stream AttrType.u8vec4 payload
      { stream with aux := Int.lor stream.aux ((3 <<< (2 * chunk_index) : Nat) : Int) }
      nts1 chunk_index none meshlet.vertex_count

/-- One iteration of the chunk loop of an attribute stream
(meshlet_export.cpp:532-592); `stream_index` is the `StreamType` value. -/
def encode_attribute_chunk (meshlets : List Meshlet) (data : StreamData)
    (full_meshlet_index stream_index : Nat) (st : List Nat × Stream) (chunk_index : Nat) :
    List Nat × Stream :=
  let stream : Stream :=
    { st.2 with offsets_in_words := st.2.offsets_in_words.set chunk_index (st.1.length % 2 ^ 32) }
  let meshlet := meshlets.getD (full_meshlet_index * NumChunks + chunk_index) Meshlet.zero
  match stream_index with
  | 1 => encode_attribute_stream AttrType.u16vec3 st.1 stream data.position chunk_index
      (some meshlet.attribute_remap) meshlet.vertex_count
  | 3 => encode_attribute_stream AttrType.u16vec2 st.1 stream data.uv chunk_index
      (some meshlet.attribute_remap) meshlet.vertex_count
  | 2 => encode_normal_tangent_chunk st.1 stream data.normal_tangent meshlet chunk_index
  | _ => (st.1, stream)

/-- One iteration of the stream loop of an output meshlet
(meshlet_export.cpp:526-595).  The state is the payload and `streams[]`. -/
def encode_attribute_streams_step (meshlets : List Meshlet) (data : StreamData)
    (p_aux : List Int) (full_meshlet_index num_chunks : Nat)
    (acc : List Nat × List Stream) (stream_index : Nat) : List Nat × List Stream :=
  let stream0 : Stream :=
    { acc.2.getD stream_index Stream.zero with aux := p_aux.getD stream_index 0 }
  let r := (List.range num_chunks).foldl
    (encode_attribute_chunk meshlets data full_meshlet_index stream_index) (acc.1, stream0)
  (r.1, acc.2.set stream_index r.2)

/-- One iteration of the loop over output meshlets (meshlet_export.cpp:477-598).
The state is the `Encoded` built so far and `base_vertex_offset`. -/
def encode_meshlet (meshlets : List Meshlet) (data : StreamData) (p_aux : List Int)
    (num_streams : Nat) (st : Encoded × Nat) (full_meshlet_index : Nat) : Encoded × Nat :=
  let num_chunks :=
    min ((meshlets.length - full_meshlet_index * NumChunks) % 2 ^ 32) NumChunks
  let prim := (List.range num_chunks).foldl
    (encode_primitive_chunk meshlets full_meshlet_index)
    { payload := st.1.payload, index_stream := Stream.zero, num_attributes := 0,
      num_primitives := 0 }
  let index_stream := (List.range' num_chunks (NumChunks + 1 - num_chunks)).foldl
    (fun s chunk_index => set_offsets s chunk_index prim.num_primitives prim.num_attributes)
    prim.index_stream
  let r := (List.range' 1 (num_streams - 1)).foldl
    (encode_attribute_streams_step meshlets data p_aux full_meshlet_index num_chunks)
    (prim.payload, (List.replicate MaxStreams Stream.zero).set 0 index_stream)
  let out_meshlet : Metadata :=
    { base_vertex_offset := st.2, num_chunks := num_chunks, streams := r.2 }
  ({ payload := r.1
     mesh := { st.1.mesh with meshlets := st.1.mesh.meshlets ++ [out_meshlet] } },
    (st.2 + prim.num_attributes) % 2 ^ 32)

/-- Source function `encode_mesh` (meshlet_export.cpp:459-607); `num_meshlets`
is the length of `meshlets`. -/
def encode_mesh (meshlets : List Meshlet) (data : StreamData) (p_aux : List Int)
    (num_streams : Nat) : Encoded :=
  let num_full_meshlets := (meshlets.length + NumChunks - 1) / NumChunks
  ((List.range num_full_meshlets).foldl (encode_meshlet meshlets data p_aux num_streams)
    ({ payload := [], mesh := { stream_count := num_streams, mesh_style := 0, meshlets := [] } },
      0)).1

/-- Source struct `meshopt_Meshlet` of the clustering library, as used by
`export_mesh_to_meshlet`. -/
structure meshopt_Meshlet where
  vertex_offset : Nat
  triangle_offset : Nat
  vertex_count : Nat
  triangle_count : Nat
deriving DecidableEq

/-- One iteration of the loop of `export_mesh_to_meshlet` that turns the
clusterer's output into `Meshlet`s and the global triangle list
`out_index_buffer` (meshlet_export.cpp:757-777). -/
def build_out_meshlet (out_vertex_redirection_buffer local_index_buffer : List Nat)
    (st : List Meshlet × List (List Nat)) (meshlet : meshopt_Meshlet) :
    List Meshlet × List (List Nat) :=
  let local_indices := local_index_buffer.drop meshlet.triangle_offset
  let m : Meshlet :=
    { local_indices := local_indices
      attribute_remap := out_vertex_redirection_buffer.drop meshlet.vertex_offset
      primitive_count := meshlet.triangle_count
      vertex_count := meshlet.vertex_count
      global_indices_offset := st.2.length % 2 ^ 32 }
  (st.1 ++ [m],
    st.2 ++ (List.range meshlet.triangle_count).map fun i =>
      [out_vertex_redirection_buffer.getD (local_indices.getD (3 * i + 0) 0 + meshlet.vertex_offset) 0,
        out_vertex_redirection_buffer.getD (local_indices.getD (3 * i + 1) 0 + meshlet.vertex_offset) 0,
        out_vertex_redirection_buffer.getD (local_indices.getD (3 * i + 2) 0 + meshlet.vertex_offset) 0])

/-- The loop of `export_mesh_to_meshlet` over the clusterer's meshlets:
`out_meshlets` and `out_index_buffer`. -/
def build_out_meshlets (meshlets : List meshopt_Meshlet)
    (out_vertex_redirection_buffer local_index_buffer : List Nat) :
    List Meshlet × List (List Nat) :=
  meshlets.foldl (build_out_meshlet out_vertex_redirection_buffer local_index_buffer) ([], [])

/-! ## Vertex deduplication (`scene_formats.cpp`) -/

/-- The values of `VkIndexType` that `build_canonical_index_buffer`
distinguishes; every other value is `other`. -/
inductive IndexType where
  | uint16
  | uint32
  | other
deriving DecidableEq

/-- One entry of the array `Mesh::attribute_layout`: the `VkFormat` value of the
attribute and its byte offset inside a vertex. -/
structure MeshAttributeLayout where
  format : Nat
  offset : Nat
deriving DecidableEq

/-- The array `Mesh::attribute_layout`, indexed in the source by the enum
`MeshAttribute` (whose declaration is not among the sources): one field for
each of the four entries that the exporter reads. -/
structure AttributeLayout where
  position : MeshAttributeLayout
  uv : MeshAttributeLayout
  normal : MeshAttributeLayout
  tangent : MeshAttributeLayout
deriving DecidableEq

/-- The members of `SceneFormats::Mesh` (declared in scene_formats.hpp, which
is not among the sources) that the preprocessing functions and the exporter
read and write.  Byte buffers are lists of bytes.  A default-constructed mesh
has every attribute format `VK_FORMAT_UNDEFINED` (0). -/
structure Mesh where
  positions : List Nat
  attributes : List Nat
  position_stride : Nat
  attribute_stride : Nat
  indices : List Nat
  index_type : IndexType
  count : Nat
  topology : Nat
  primitive_restart : Bool
  attribute_layout : AttributeLayout := ⟨⟨0, 0⟩, ⟨0, 0⟩, ⟨0, 0⟩, ⟨0, 0⟩⟩
deriving DecidableEq

/-- The `len` bytes at `buf + start`, as read by `memcpy` or `Hasher::data`
(0 where C++ would read past the buffer). -/
def read_bytes (buf : List Nat) (start len : Nat) : List Nat :=
  (List.range len).map fun b => buf.getD (start + b) 0

/-- The bytes that `build_index_remap_list` feeds to the hasher for vertex `i`
(scene_formats.cpp:61-64): `position_stride` position bytes, then, unless the
attribute buffer is empty, `attribute_stride` attribute bytes.  The offsets
`i * stride` are 32-bit unsigned products. -/
def vertex_key (mesh : Mesh) (i : Nat) : List Nat :=
  read_bytes mesh.positions ((i * mesh.position_stride) % 2 ^ 32) mesh.position_stride ++
    (if mesh.attributes = [] then []
      else read_bytes mesh.attributes ((i * mesh.attribute_stride) % 2 ^ 32)
        mesh.attribute_stride)

/-- Loop state of `build_index_remap_list`: the `unordered_map` as an
association list, the two output vectors and `unique_count`. -/
structure RemapState where
  attribute_remapper : List (Nat × Nat)
  index_remap : List Nat
  unique_attrib_to_source_index : List Nat
  unique_count : Nat

/-- Source struct `IndexRemapping`. -/
structure IndexRemapping where
  index_remap : List Nat
  unique_attrib_to_source_index : List Nat
deriving DecidableEq

/-- One iteration of the loop of `build_index_remap_list`
(scene_formats.cpp:59-79).  `hash` stands for `Hasher` (util/hash.hpp, not
among the sources): the hash value as a function of the bytes fed to it. -/
def build_index_remap_step (hash : List Nat → Nat) (mesh : Mesh) (st : RemapState) (i : Nat) :
    RemapState :=
  match st.attribute_remapper.lookup (hash (vertex_key mesh i)) with
  | some idx => { st with index_remap := st.index_remap ++ [idx] }
  | none =>
    { attribute_remapper := (hash (vertex_key mesh i), st.unique_count) :: st.attribute_remapper
      index_remap := st.index_remap ++ [st.unique_count]
      unique_attrib_to_source_index := st.unique_attrib_to_source_index ++ [i]
      unique_count := (st.unique_count + 1) % 2 ^ 32 }

/-- The loop of `build_index_remap_list` over the first `n` vertices. -/
def build_index_remap_loop (hash : List Nat → Nat) (mesh : Mesh) (n : Nat) : RemapState :=
  (List.range n).foldl (build_index_remap_step hash mesh)
    { attribute_remapper := [], index_remap := [], unique_attrib_to_source_index := [],
      unique_count := 0 }

/-- The vertex count `unsigned(mesh.positions.size() / mesh.position_stride)`. -/
def attribute_count (mesh : Mesh) : Nat :=
  (mesh.positions.length / mesh.position_stride) % 2 ^ 32

/-- Source function `build_index_remap_list` (scene_formats.cpp:51-82). -/
def build_index_remap_list (hash : List Nat → Nat) (mesh : Mesh) : IndexRemapping :=
  { index_remap := (build_index_remap_loop hash mesh (attribute_count mesh)).index_remap
    unique_attrib_to_source_index :=
      (build_index_remap_loop hash mesh (attribute_count mesh)).unique_attrib_to_source_index }

/-- Element `i` of a byte buffer read as `const uint32_t *` (little-endian). -/
def read_u32 (bytes : List Nat) (i : Nat) : Nat :=
  bytes.getD (4 * i) 0 + 2 ^ 8 * bytes.getD (4 * i + 1) 0 + 2 ^ 16 * bytes.getD (4 * i + 2) 0
    + 2 ^ 24 * bytes.getD (4 * i + 3) 0

/-- Element `i` of a byte buffer read as `const uint16_t *` (little-endian). -/
def read_u16 (bytes : List Nat) (i : Nat) : Nat :=
  bytes.getD (2 * i) 0 + 2 ^ 8 * bytes.getD (2 * i + 1) 0

/-- The four bytes of a `uint32_t` (little-endian). -/
def u32_bytes (x : Nat) : List Nat :=
  [x % 2 ^ 8, x / 2 ^ 8 % 2 ^ 8, x / 2 ^ 16 % 2 ^ 8, x / 2 ^ 24 % 2 ^ 8]

/-- The source index of position `i` of the index buffer, as read by
`build_canonical_index_buffer`: `i` itself when there is no index buffer. -/
def source_index (mesh : Mesh) (i : Nat) : Option Nat :=
  if mesh.indices = [] then some i
  else match mesh.index_type with
    | .uint32 => some (read_u32 mesh.indices i)
    | .uint16 => some (read_u16 mesh.indices i)
    | .other => none

/-- Source function `build_canonical_index_buffer` (scene_formats.cpp:84-107). -/
def build_canonical_index_buffer (mesh : Mesh) (index_remap : List Nat) : List Nat :=
  if mesh.indices = [] then
    (List.range mesh.count).map fun i => index_remap.getD i 0
  else match mesh.index_type with
    | .uint32 => (List.range mesh.count).map fun i => index_remap.getD (read_u32 mesh.indices i) 0
    | .uint16 => (List.range mesh.count).map fun i => index_remap.getD (read_u16 mesh.indices i) 0
    | .other => []

/-- One output buffer of `rebuild_new_attributes_remap_src`
(scene_formats.cpp:109-138): for each unique vertex, `stride` bytes copied from
`source + unique_attrib_to_source_index[i] * stride` (a 32-bit product). -/
def rebuild_buffer (source : List Nat) (stride : Nat) (unique_attrib_to_source_index : List Nat) :
    List Nat :=
  unique_attrib_to_source_index.flatMap fun src =>
    read_bytes source ((src * stride) % 2 ^ 32) stride

/-- Source function `rebuild_new_attributes_remap_src`: the new position and
attribute buffers (the latter stays empty when `attribute_stride` is 0). -/
def rebuild_new_attributes_remap_src (position_stride attribute_stride : Nat)
    (source_positions source_attributes unique_attrib_to_source_index : List Nat) :
    List Nat × List Nat :=
  (rebuild_buffer source_positions position_stride unique_attrib_to_source_index,
    if attribute_stride ≠ 0 then
      rebuild_buffer source_attributes attribute_stride unique_attrib_to_source_index
    else [])

/-- Source function `mesh_deduplicate_vertices` (scene_formats.cpp:180-194). -/
def mesh_deduplicate_vertices (hash : List Nat → Nat) (mesh : Mesh) : Mesh :=
  let index_remap := build_index_remap_list hash mesh
  let index_buffer := build_canonical_index_buffer mesh index_remap.index_remap
  let rebuilt := rebuild_new_attributes_remap_src mesh.position_stride mesh.attribute_stride
    mesh.positions mesh.attributes index_remap.unique_attrib_to_source_index
  { mesh with
    positions := rebuilt.1
    attributes := rebuilt.2
    index_type := IndexType.uint32
    indices := index_buffer.flatMap u32_bytes
    count := index_buffer.length % 2 ^ 32 }

/-! ## Quantisation (`adjust_quant`) -/

/-- Number of trailing zero bits of a non-zero `x`, by halving at most `fuel`
times. -/
def count_trailing : Nat → Nat → Nat
  | 0, _ => 0
  | fuel + 1, x => if x % 2 = 1 then 0 else count_trailing fuel (x / 2) + 1

/-- Modelled from the spec: `trailing_zeroes` of `util/bitops.hpp` is not among
the sources; the spec's "count trailing zero bits" of a 32-bit word (32 for the
word 0). -/
def trailing_zeroes (x : Nat) : Nat :=
  if x % 2 ^ 32 = 0 then 32 else count_trailing 32 (x % 2 ^ 32)

/-- The first loop of `adjust_quant`: `active_bits |= c` over all components of
all values.  The signed component is converted to `uint32_t` (sign extension,
two's complement). -/
def active_bits (values : List (List Int)) : Nat :=
  values.foldl (fun acc value => value.foldl (fun a c => a ||| to_unsigned 32 c) acc) 0

/-- Source function template `adjust_quant` (meshlet_export.cpp:93-110) on
vectors of signed components: returns the shifted values and the new exponent.
`c >>= extra_shift` is the arithmetic right shift. -/
def adjust_quant (values : List (List Int)) (exp : Int) : List (List Int) × Int :=
  if active_bits values = 0 then (values, exp)
  else
    let extra_shift := trailing_zeroes (active_bits values)
    (values.map fun value => value.map fun c => Int.shiftRight c extra_shift,
      exp + (extra_shift : Int))

/-! ## Position quantisation, in exact arithmetic

The float computations of `mesh_extract_position_snorm_exp` are modelled over
the rationals: `ldexpf` is an exact multiplication by a power of two, and the
rounding function `round` of the math library, which is not among the sources,
is a parameter `rnd`. -/

/-- The C function `ldexpf(v, e)` in exact arithmetic. -/
def ldexp (v : ℚ) (e : Int) : ℚ := v * (2 : ℚ) ^ e

/-- Source function `encode_vec3_to_snorm_exp` (meshlet_export.cpp:68-75):
scale, round, clamp to `[-0x8000, 0x7fff]` (`clamp(x, lo, hi)` is
`min(max(x, lo), hi)`), convert to `int16_t`. -/
def encode_vec3_to_snorm_exp (rnd : ℚ → Int) (v : List ℚ) (scale_log2 : Int) : List Int :=
  v.map fun x => min (max (rnd (ldexp x scale_log2)) (-0x8000)) 0x7fff

/-- Modelled from the spec: `muglm::floor` and `muglm::log2` are not among the
sources; in exact arithmetic `floor(log2(x))` of a positive `x` is the integer
logarithm. -/
def floor_log2 (x : ℚ) : Int := Int.log 2 x

/-- Source function `compute_log2_scale` (meshlet_export.cpp:85-91), in exact
arithmetic: the logarithm is the real one.  `compute_log2_scale_float` is the
same function with the float logarithm it calls. -/
def compute_log2_scale (max_value : ℚ) : Int :=
  14 - floor_log2 max_value

/-- Source function `compute_log2_scale` (meshlet_export.cpp:85-91) on `float`
values.  `muglm::log2` (the math library is not among the sources) is the
parameter `log2f`, a function from floats to floats; `muglm::floor` of a float
and the conversion of the integral result to `int` are exact. -/
def compute_log2_scale_float (log2f : ℚ → ℚ) (max_value : ℚ) : Int :=
  14 - Int.floor (log2f max_value)

/-- Source function `mesh_extract_position_snorm_exp`, lines 139-155: from the
decoded `positions` (each a `vec3`) to the encoded values and the exponent. -/
def mesh_extract_position_snorm_exp (rnd : ℚ → Int) (positions : List (List ℚ)) :
    List (List Int) × Int :=
  let max_extent := positions.foldl (fun m p => List.zipWith max m (p.map fun x => abs x))
    [0, 0, 0]
  let max_value := max (max (max_extent.getD 0 0) (max_extent.getD 1 0)) (max_extent.getD 2 0)
  let log2_scale := min (compute_log2_scale max_value) 12
  let encoded_positions := positions.map fun pos => encode_vec3_to_snorm_exp rnd pos log2_scale
  adjust_quant encoded_positions (-log2_scale)

/-- Source function `decode_snorm_exp` (meshlet_export.cpp:303-310). -/
def decode_snorm_exp (p : List Int) (exp : Int) : List ℚ :=
  p.map fun (c : Int) => ldexp (c : ℚ) exp

/-! ## Index buffer optimisation (`mesh_optimize_index_buffer`) -/

/-- The Vulkan constant `VK_PRIMITIVE_TOPOLOGY_TRIANGLE_LIST`. -/
def VK_PRIMITIVE_TOPOLOGY_TRIANGLE_LIST : Nat := 3
/-- The Vulkan constant `VK_PRIMITIVE_TOPOLOGY_TRIANGLE_STRIP`. -/
def VK_PRIMITIVE_TOPOLOGY_TRIANGLE_STRIP : Nat := 4

/-- Source struct `meshopt_Bounds` of the clustering library, the members that
`export_mesh_to_meshlet` copies; every `float` is the 32-bit word of its object
representation. -/
structure meshopt_Bounds where
  center : List Nat
  radius : Nat
  cone_axis : List Nat
  cone_cutoff : Nat

/-- What `meshopt_buildMeshlets` hands back: the meshlets it reports (the
returned count is the length of the list) and the two buffers it fills. -/
structure ClusterOutput where
  meshlets : List meshopt_Meshlet
  out_vertex_redirection_buffer : List Nat
  local_index_buffer : List Nat

/-- The entry points of the external meshoptimizer library that the sources
call.  The library is not part of the repository; each entry point is a
parameter that gives what the library writes to its output buffer.
`optimizeVertexCache indices vertex_count`, `optimizeVertexFetchRemap indices
vertex_count` (the remap table) and `stripify indices vertex_count` (the strip;
the returned index count is its length) act on index buffers,
`encodeFilterOct` on a list of `vec4`, `buildMeshlets indices positions` is the
clusterer and `computeClusterBounds` the bounds of a triangle list. -/
structure MeshOptimizer where
  optimizeVertexCache : List Nat → Nat → List Nat
  optimizeVertexFetchRemap : List Nat → Nat → List Nat
  stripify : List Nat → Nat → List Nat
  encodeFilterOct : List (List ℚ) → List (List Int)
  buildMeshlets : List Nat → List (List ℚ) → ClusterOutput
  computeClusterBounds : List (List Nat) → List (List ℚ) → meshopt_Bounds

/-- The `uint32_t` buffer `old` after a library call wrote `out` over it from
its first element: the size of the buffer is unchanged, elements are 32-bit
words, and an element that was not written keeps its value. -/
def u32_buffer (old out : List Nat) : List Nat :=
  (List.range old.length).map fun i => out.getD i (old.getD i 0) % 2 ^ 32

/-- The call `v.resize(n)` on a `std::vector<uint32_t>`: the first `n`
elements, zeros where the vector was shorter. -/
def resize (v : List Nat) (n : Nat) : List Nat :=
  (List.range n).map fun i => v.getD i 0

/-- Source function `remap_indices` (scene_formats.cpp:171-178). -/
def remap_indices (indices remap_table : List Nat) : List Nat :=
  indices.map fun i => remap_table.getD i 0

/-- The call `memcpy(buf + start, bytes, bytes.size())`. -/
def write_bytes (buf : List Nat) (start : Nat) (bytes : List Nat) : List Nat :=
  (List.range bytes.length).foldl (fun b k => b.set (start + k) (bytes.getD k 0)) buf

/-- One output buffer of `rebuild_new_attributes_remap_dst`
(scene_formats.cpp:140-169): a zeroed buffer of `stride` bytes per table entry,
into which the `stride` bytes of source vertex `i` are copied at
`unique_attrib_to_dest_index[i] * stride` (a 32-bit product; the source offset
`i * stride` is a `size_t`). -/
def rebuild_buffer_dst (source : List Nat) (stride : Nat)
    (unique_attrib_to_dest_index : List Nat) : List Nat :=
  (List.range unique_attrib_to_dest_index.length).foldl
    (fun buf i =>
      write_bytes buf ((unique_attrib_to_dest_index.getD i 0 * stride) % 2 ^ 32)
        (read_bytes source ((i * stride) % 2 ^ 64) stride))
    (List.replicate ((stride * unique_attrib_to_dest_index.length) % 2 ^ 64) 0)

/-- Source function `rebuild_new_attributes_remap_dst`: the new position and
attribute buffers (the latter stays empty when `attribute_stride` is 0). -/
def rebuild_new_attributes_remap_dst (position_stride attribute_stride : Nat)
    (source_positions source_attributes unique_attrib_to_dest_index : List Nat) :
    List Nat × List Nat :=
  (rebuild_buffer_dst source_positions position_stride unique_attrib_to_dest_index,
    if attribute_stride ≠ 0 then
      rebuild_buffer_dst source_attributes attribute_stride unique_attrib_to_dest_index
    else [])

/-- The local state of `mesh_optimize_index_buffer` when it reaches line 226:
the triangle-list `index_buffer`, the vertex buffers of `optimized` and
`vertex_count`. -/
structure OptimizeState where
  index_buffer : List Nat
  positions : List Nat
  attributes : List Nat
  vertex_count : Nat

/-- Lines 205-224 of `mesh_optimize_index_buffer`: redundant vertices are
removed, the index buffer is reordered for the vertex cache in place, and
vertices and indices are renumbered through the fetch remap table. -/
def optimize_reorder (hash : List Nat → Nat) (lib : MeshOptimizer) (mesh : Mesh) :
    OptimizeState :=
  let index_remap := build_index_remap_list hash mesh
  let index_buffer := build_canonical_index_buffer mesh index_remap.index_remap
  let rebuilt := rebuild_new_attributes_remap_src mesh.position_stride mesh.attribute_stride
    mesh.positions mesh.attributes index_remap.unique_attrib_to_source_index
  let vertex_count := rebuilt.1.length / mesh.position_stride
  let index_buffer := u32_buffer index_buffer (lib.optimizeVertexCache index_buffer vertex_count)
  let remap_table := u32_buffer (List.replicate vertex_count 0)
    (lib.optimizeVertexFetchRemap index_buffer vertex_count)
  let rebuilt_dst := rebuild_new_attributes_remap_dst mesh.position_stride mesh.attribute_stride
    rebuilt.1 rebuilt.2 remap_table
  { index_buffer := remap_indices index_buffer remap_table
    positions := rebuilt_dst.1
    attributes := rebuilt_dst.2
    vertex_count := vertex_count }

/-- Lines 232-237 of `mesh_optimize_index_buffer`: the buffer
`stripped_index_buffer` of `(index_buffer.size() / 3) * 4` zeroed elements
after `meshopt_stripify` wrote the strip to it and it was resized to the
returned index count. -/
def stripped_index_buffer (lib : MeshOptimizer) (index_buffer : List Nat) (vertex_count : Nat) :
    List Nat :=
  resize
    (u32_buffer (List.replicate ((index_buffer.length / 3) * 4) 0)
      (lib.stripify index_buffer vertex_count))
    (lib.stripify index_buffer vertex_count).length

/-- The test of lines 229 and 238: stripification was requested and the strip
has fewer indices than the triangle list. -/
def strip_kept (hash : List Nat → Nat) (lib : MeshOptimizer) (mesh : Mesh) (stripify : Bool) :
    Bool :=
  stripify &&
    decide ((stripped_index_buffer lib (optimize_reorder hash lib mesh).index_buffer
        (optimize_reorder hash lib mesh).vertex_count).length
      < (optimize_reorder hash lib mesh).index_buffer.length)

/-- The variable `index_buffer` of `mesh_optimize_index_buffer` when it reaches
line 246: the strip if it was kept, the triangle list otherwise. -/
def final_index_buffer (hash : List Nat → Nat) (lib : MeshOptimizer) (mesh : Mesh)
    (stripify : Bool) : List Nat :=
  if strip_kept hash lib mesh stripify then
    stripped_index_buffer lib (optimize_reorder hash lib mesh).index_buffer
      (optimize_reorder hash lib mesh).vertex_count
  else (optimize_reorder hash lib mesh).index_buffer

/-- Lines 246-249 of `mesh_optimize_index_buffer`: the largest index other than
the restart marker `~0u`. -/
def max_index (index_buffer : List Nat) : Nat :=
  index_buffer.foldl (fun m i => if i ≠ 0xffffffff then max m i else m) 0

/-- The two bytes of a `uint16_t` (little-endian). -/
def u16_bytes (x : Nat) : List Nat :=
  [x % 2 ^ 8, x / 2 ^ 8 % 2 ^ 8]

/-- Lines 251-269 of `mesh_optimize_index_buffer`: the index type and the bytes
of `optimized.indices`.  With 16-bit indices the restart marker `~0u` is stored
as `0xffff` and every other index is converted with `uint16_t(...)`. -/
def store_index_buffer (index_buffer : List Nat) : IndexType × List Nat :=
  if max_index index_buffer ≤ 0xffff then
    (IndexType.uint16,
      index_buffer.flatMap fun i => u16_bytes (if i = 0xffffffff then 0xffff else i % 2 ^ 16))
  else
    (IndexType.uint32, index_buffer.flatMap u32_bytes)

/-- Source function `mesh_optimize_index_buffer` (scene_formats.cpp:196-279).
The members `material_index`, `has_material` and `static_aabb`, which are
copied from the input, are not part of the model. -/
def mesh_optimize_index_buffer (hash : List Nat → Nat) (lib : MeshOptimizer) (mesh : Mesh)
    (stripify : Bool) : Mesh :=
  if mesh.topology ≠ VK_PRIMITIVE_TOPOLOGY_TRIANGLE_LIST then mesh
  else
    { positions := (optimize_reorder hash lib mesh).positions
      attributes := (optimize_reorder hash lib mesh).attributes
      position_stride := mesh.position_stride
      attribute_stride := mesh.attribute_stride
      indices := (store_index_buffer (final_index_buffer hash lib mesh stripify)).2
      index_type := (store_index_buffer (final_index_buffer hash lib mesh stripify)).1
      count := (final_index_buffer hash lib mesh stripify).length % 2 ^ 32
      topology :=
        if strip_kept hash lib mesh stripify then VK_PRIMITIVE_TOPOLOGY_TRIANGLE_STRIP
        else VK_PRIMITIVE_TOPOLOGY_TRIANGLE_LIST
      primitive_restart := strip_kept hash lib mesh stripify
      attribute_layout := mesh.attribute_layout }

/-! ## Attribute extraction (`mesh_extract_*`)

Float values are rationals, as for the position quantisation above.  The value
of a `float` as a function of the four bytes of its object representation is
the parameter `float_of_bytes`. -/

/-- The Vulkan constant `VK_FORMAT_UNDEFINED`. -/
def VK_FORMAT_UNDEFINED : Nat := 0
/-- The Vulkan constant `VK_FORMAT_R16G16_UNORM`. -/
def VK_FORMAT_R16G16_UNORM : Nat := 77
/-- The Vulkan constant `VK_FORMAT_R32G32_SFLOAT`. -/
def VK_FORMAT_R32G32_SFLOAT : Nat := 103
/-- The Vulkan constant `VK_FORMAT_R32G32B32_SFLOAT`. -/
def VK_FORMAT_R32G32B32_SFLOAT : Nat := 106
/-- The Vulkan constant `VK_FORMAT_R32G32B32A32_SFLOAT`. -/
def VK_FORMAT_R32G32B32A32_SFLOAT : Nat := 109

/-- Source enumerator `MeshStyle::Wireframe` (meshlet.hpp:92-97). -/
def MeshStyle.Wireframe : Nat := 0
/-- Source enumerator `MeshStyle::Textured`. -/
def MeshStyle.Textured : Nat := 1
/-- Source enumerator `MeshStyle::Skinned`. -/
def MeshStyle.Skinned : Nat := 2

/-- Source enumerator `StreamType::Position` (meshlet.hpp:82-90). -/
def StreamType.Position : Nat := 1
/-- Source enumerator `StreamType::NormalTangentOct8`. -/
def StreamType.NormalTangentOct8 : Nat := 2
/-- Source enumerator `StreamType::UV`. -/
def StreamType.UV : Nat := 3

/-- The call `memcpy(v.data, buf + start, sizeof(float) * n)`: `n` consecutive
floats read from a byte buffer. -/
def read_floats (float_of_bytes : List Nat → ℚ) (buf : List Nat) (start n : Nat) : List ℚ :=
  (List.range n).map fun k => float_of_bytes (read_bytes buf (start + 4 * k) 4)

/-- Lines 117-137 of `mesh_extract_position_snorm_exp`: the `vec3` positions
read from the mesh, or `none` where the function returns an empty vector
because the position format is undefined or unexpected.  A zero
`position_stride`, for which line 117 divides by zero, is outside the model:
the quotient has the value 0 there. -/
def read_positions (float_of_bytes : List Nat → ℚ) (mesh : Mesh) : Option (List (List ℚ)) :=
  let num_positions := mesh.positions.length / mesh.position_stride
  let layout := mesh.attribute_layout.position
  if layout.format = VK_FORMAT_R32G32B32A32_SFLOAT ∨ layout.format = VK_FORMAT_R32G32B32_SFLOAT
  then
    some ((List.range num_positions).map fun i =>
      read_floats float_of_bytes mesh.positions (i * mesh.position_stride + layout.offset) 3)
  else none

/-- Source function `mesh_extract_position_snorm_exp` (meshlet_export.cpp:
112-156) on a mesh: the encoded positions and the value of the reference
parameter `exp` on return, which keeps the value `exp` it had on entry when the
function returns early. -/
def mesh_extract_position_snorm_exp_of_mesh (float_of_bytes : List Nat → ℚ) (rnd : ℚ → Int)
    (mesh : Mesh) (exp : Int) : List (List Int) × Int :=
  match read_positions float_of_bytes mesh with
  | none => ([], exp)
  | some positions => mesh_extract_position_snorm_exp rnd positions

/-- Source function `encode_vec2_to_snorm_exp` (meshlet_export.cpp:77-83). -/
def encode_vec2_to_snorm_exp (rnd : ℚ → Int) (v : List ℚ) (scale_log2 : Int) : List Int :=
  v.map fun x => min (max (rnd (ldexp x scale_log2)) (-0x8000)) 0x7fff

/-- Lines 246-274 of `mesh_extract_uv_snorm_scale`: the `vec2` UVs read from
the mesh (zeros when the UV format is undefined), or `none` where the function
returns an empty vector because the format is unexpected.  A `u16vec2` is two
little-endian 16-bit values, scaled by `1 / 0xffff`.  A zero
`attribute_stride`, for which line 246 divides by zero before any format is
tested, is outside the model: the quotient has the value 0 there, and the
properties of the failure paths take the stride to be non-zero. -/
def read_uvs (float_of_bytes : List Nat → ℚ) (mesh : Mesh) : Option (List (List ℚ)) :=
  let num_uvs := mesh.attributes.length / mesh.attribute_stride
  let layout := mesh.attribute_layout.uv
  if layout.format = VK_FORMAT_R32G32_SFLOAT then
    some ((List.range num_uvs).map fun i =>
      read_floats float_of_bytes mesh.attributes (i * mesh.attribute_stride + layout.offset) 2)
  else if layout.format = VK_FORMAT_R16G16_UNORM then
    some ((List.range num_uvs).map fun i =>
      (List.range 2).map fun k =>
        ((mesh.attributes.getD (i * mesh.attribute_stride + layout.offset + 2 * k) 0
          + 2 ^ 8 * mesh.attributes.getD (i * mesh.attribute_stride + layout.offset + 2 * k + 1) 0
          : Nat) : ℚ) * (1 / 0xffff))
  else if layout.format = VK_FORMAT_UNDEFINED then
    some (List.replicate num_uvs [0, 0])
  else none

/-- Lines 276-294 of `mesh_extract_uv_snorm_scale`: from the decoded UVs to
the encoded values and the exponent. -/
def encode_uvs_snorm_scale (rnd : ℚ → Int) (uvs : List (List ℚ)) : List (List Int) × Int :=
  let uvs := uvs.map fun uv => uv.map fun (x : ℚ) => 2 * x - 1
  let max_extent := uvs.foldl (fun m uv => List.zipWith max m (uv.map fun x => abs x)) [0, 0]
  let max_value := max (max_extent.getD 0 0) (max_extent.getD 1 0)
  let log2_scale := compute_log2_scale max_value
  let encoded_uvs := uvs.map fun uv => encode_vec2_to_snorm_exp rnd uv log2_scale
  adjust_quant encoded_uvs (-log2_scale)

/-- Source function `mesh_extract_uv_snorm_scale` (meshlet_export.cpp:241-295):
the encoded UVs and the value of the reference parameter `exp` on return. -/
def mesh_extract_uv_snorm_scale (float_of_bytes : List Nat → ℚ) (rnd : ℚ → Int)
    (mesh : Mesh) (exp : Int) : List (List Int) × Int :=
  match read_uvs float_of_bytes mesh with
  | none => ([], exp)
  | some uvs => encode_uvs_snorm_scale rnd uvs

/-- Lines 174-196 of `mesh_extract_normal_tangent_oct8`: the normals as `vec4`
(zeros when the format is undefined), or `none` for an unexpected format.  A
zero `attribute_stride`, for which line 174 divides by zero, is outside the
model, as for `read_uvs`. -/
def read_normals (float_of_bytes : List Nat → ℚ) (mesh : Mesh) : Option (List (List ℚ)) :=
  let num_attrs := mesh.attributes.length / mesh.attribute_stride
  let normal := mesh.attribute_layout.normal
  if normal.format = VK_FORMAT_R32G32B32_SFLOAT ∨ normal.format = VK_FORMAT_R32G32B32A32_SFLOAT
  then
    some ((List.range num_attrs).map fun i =>
      read_floats float_of_bytes mesh.attributes (i * mesh.attribute_stride + normal.offset) 3
        ++ [0])
  else if normal.format = VK_FORMAT_UNDEFINED then
    some (List.replicate num_attrs [0, 0, 0, 0])
  else none

/-- Lines 198-226 of `mesh_extract_normal_tangent_oct8`: the tangents as
`vec4`, or `none` for an unexpected format. -/
def read_tangents (float_of_bytes : List Nat → ℚ) (mesh : Mesh) : Option (List (List ℚ)) :=
  let num_attrs := mesh.attributes.length / mesh.attribute_stride
  let tangent := mesh.attribute_layout.tangent
  if tangent.format = VK_FORMAT_R32G32B32_SFLOAT then
    some ((List.range num_attrs).map fun i =>
      read_floats float_of_bytes mesh.attributes (i * mesh.attribute_stride + tangent.offset) 3
        ++ [0])
  else if tangent.format = VK_FORMAT_R32G32B32A32_SFLOAT then
    some ((List.range num_attrs).map fun i =>
      read_floats float_of_bytes mesh.attributes (i * mesh.attribute_stride + tangent.offset) 4)
  else if tangent.format = VK_FORMAT_UNDEFINED then
    some (List.replicate num_attrs [0, 0, 0, 0])
  else none

/-- Source function `mesh_extract_normal_tangent_oct8` (meshlet_export.cpp:
165-239).  The buffers `n` and `t` hold what `meshopt_encodeFilterOct` wrote
for the normals and for the tangents. -/
def mesh_extract_normal_tangent_oct8 (float_of_bytes : List Nat → ℚ) (lib : MeshOptimizer)
    (mesh : Mesh) : List NormalTangent :=
  match read_normals float_of_bytes mesh with
  | none => []
  | some normals =>
    match read_tangents float_of_bytes mesh with
    | none => []
    | some tangents =>
      let n := lib.encodeFilterOct normals
      let t := lib.encodeFilterOct tangents
      (List.range normals.length).map fun i =>
        { n := [(n.getD i []).getD 0 0, (n.getD i []).getD 1 0]
          t := [(t.getD i []).getD 0 0, (t.getD i []).getD 1 0]
          t_sign := decide ((tangents.getD i []).getD 3 0 < 0) }

/-! ## The container writer (`export_encoded_mesh`) -/

/-- Source constant `magic` (meshlet.hpp:118): the characters `MESHLET3`. -/
def magic : List Nat := [77, 69, 83, 72, 76, 69, 84, 51]

/-- Source struct `FormatHeader` (meshlet.hpp:99-105). -/
structure FormatHeader where
  style : Nat
  stream_count : Nat
  meshlet_count : Nat
  payload_size_words : Nat
deriving DecidableEq

/-- The value of `sizeof(magic)`. -/
def sizeof_magic : Nat := 8
/-- The value of `sizeof(FormatHeader)`: four 32-bit members. -/
def sizeof_FormatHeader : Nat := 16
/-- The value of `sizeof(Header)`: two 32-bit members. -/
def sizeof_Header : Nat := 8
/-- The value of `sizeof(Bound)`: eight `float`s. -/
def sizeof_Bound : Nat := 32
/-- The value of `sizeof(Stream)`, fixed by the `static_assert` of
meshlet.hpp:62. -/
def sizeof_Stream : Nat := 48
/-- The value of `sizeof(PayloadWord)`. -/
def sizeof_PayloadWord : Nat := 4

/-- The bytes of an array of `n` 32-bit words (little-endian). -/
def words_bytes (n : Nat) (words : List Nat) : List Nat :=
  (List.range n).flatMap fun i => u32_bytes (words.getD i 0)

/-- The object representation of a `FormatHeader`. -/
def FormatHeader.bytes (h : FormatHeader) : List Nat :=
  u32_bytes h.style ++ u32_bytes h.stream_count ++ u32_bytes h.meshlet_count
    ++ u32_bytes h.payload_size_words

/-- The object representation of the `Header` base of a `Metadata`. -/
def Metadata.header_bytes (m : Metadata) : List Nat :=
  u32_bytes m.base_vertex_offset ++ u32_bytes m.num_chunks

/-- The object representation of the `bound` member of a `Metadata`. -/
def Metadata.bound_bytes (m : Metadata) : List Nat :=
  words_bytes 8 m.bound

/-- The object representation of a `Stream`: the six words of the union, then
`bits_per_chunk`, `aux` (a two's complement `int32_t`) and the four words of
`offsets_in_words`. -/
def Stream.bytes (s : Stream) : List Nat :=
  words_bytes 6 s.base_value ++ u32_bytes s.bits_per_chunk ++ u32_bytes (to_unsigned 32 s.aux)
    ++ words_bytes 4 s.offsets_in_words

/-- The file system behind `GRANITE_FILESYSTEM()`, which is not part of the
sources: whether `open(path, WriteOnly)` yields a file, whether
`map_write(size)` yields a mapping, and the byte a fresh mapping holds at each
offset. -/
structure FileSystem where
  can_open : String → Bool
  can_map : String → Nat → Bool
  initial : Nat → Nat

/-- The state of the copy phase of `export_encoded_mesh`: the mapped bytes,
the pointer `ptr` as an offset from the start of the mapping, and the
`(offset, size)` of every `memcpy` and `memset` done so far, in order. -/
structure Mapping where
  data : List Nat
  ptr : Nat
  writes : List (Nat × Nat)
deriving DecidableEq

/-- The call `memcpy(ptr, src, n)`. -/
def Mapping.memcpy (m : Mapping) (src : List Nat) (n : Nat) : Mapping :=
  { m with data := write_bytes m.data m.ptr (read_bytes src 0 n)
           writes := m.writes ++ [(m.ptr, n)] }

/-- The call `memset(ptr, 0, n)`. -/
def Mapping.memset_zero (m : Mapping) (n : Nat) : Mapping :=
  { m with data := write_bytes m.data m.ptr (List.replicate n 0)
           writes := m.writes ++ [(m.ptr, n)] }

/-- The statement `ptr += n`. -/
def Mapping.advance (m : Mapping) (n : Nat) : Mapping :=
  { m with ptr := m.ptr + n }

/-- How a call of `export_encoded_mesh` ends: `return false` because the file
could not be opened (line 638), `return false` because `map_write` of
`required_size` bytes failed (line 642), or `return true` after the copy phase
with the final state of the mapping. -/
inductive WriteOutcome where
  | open_failed
  | map_failed (required_size : Nat)
  | written (required_size : Nat) (mapping : Mapping)
deriving DecidableEq

/-- The `bool` that `export_encoded_mesh` returns. -/
def WriteOutcome.result : WriteOutcome → Bool
  | .written _ _ => true
  | _ => false

/-- Lines 613-618 of `export_encoded_mesh`: the header, with the two sizes
converted to `uint32_t`. -/
def format_header (encoded : Encoded) : FormatHeader :=
  { style := encoded.mesh.mesh_style
    stream_count := encoded.mesh.stream_count
    meshlet_count := encoded.mesh.meshlets.length % 2 ^ 32
    payload_size_words := encoded.payload.length % 2 ^ 32 }

/-- Lines 611-634 of `export_encoded_mesh`: `required_size`, a `size_t` (the
sum is taken modulo `2^64`). -/
def required_size (encoded : Encoded) : Nat :=
  (sizeof_magic + sizeof_FormatHeader
    + encoded.mesh.meshlets.length * sizeof_Header
    + encoded.mesh.meshlets.length * sizeof_Bound
    + encoded.mesh.stream_count * encoded.mesh.meshlets.length * sizeof_Stream
    + (encoded.payload.length + 1) * sizeof_PayloadWord) % 2 ^ 64

/-- Lines 644-676 of `export_encoded_mesh`: the copy phase, from the fresh
mapping to its final state. -/
def write_container (encoded : Encoded) (m : Mapping) : Mapping :=
  let header := format_header encoded
  let m := (m.memcpy magic sizeof_magic).advance sizeof_magic
  let m := (m.memcpy header.bytes sizeof_FormatHeader).advance sizeof_FormatHeader
  let m := (List.range header.meshlet_count).foldl
    (fun m i =>
      (m.memcpy (encoded.mesh.meshlets.getD i Metadata.zero).header_bytes sizeof_Header).advance
        sizeof_Header)
    m
  let m := (List.range header.meshlet_count).foldl
    (fun m i =>
      (m.memcpy (encoded.mesh.meshlets.getD i Metadata.zero).bound_bytes sizeof_Bound).advance
        sizeof_Bound)
    m
  let m := (List.range header.meshlet_count).foldl
    (fun m i =>
      (List.range header.stream_count).foldl
        (fun m j =>
          (m.memcpy
            (((encoded.mesh.meshlets.getD i Metadata.zero).streams.getD j Stream.zero).bytes)
            sizeof_Stream).advance sizeof_Stream)
        m)
    m
  let m := (m.memcpy (encoded.payload.flatMap u32_bytes)
      (encoded.payload.length * sizeof_PayloadWord)).advance
    (encoded.payload.length * sizeof_PayloadWord)
  m.memset_zero sizeof_PayloadWord

/-- Source function `export_encoded_mesh` (meshlet_export.cpp:609-678). -/
def export_encoded_mesh (fs : FileSystem) (path : String) (encoded : Encoded) : WriteOutcome :=
  if fs.can_open path = false then WriteOutcome.open_failed
  else if fs.can_map path (required_size encoded) = false then
    WriteOutcome.map_failed (required_size encoded)
  else
    WriteOutcome.written (required_size encoded)
      (write_container encoded
        { data := (List.range (required_size encoded)).map fs.initial, ptr := 0, writes := [] })

/-! ## The exporter (`export_mesh_to_meshlet`) -/

/-- Everything `export_mesh_to_meshlet` reaches outside the sources: the
hasher, the meshoptimizer library, the value of a `float`, `round`, the file
system, and `mesh_ok`, the conversion to `bool` that line 683 applies to the
`Mesh` returned by `mesh_optimize_index_buffer` (it belongs to the declaration
of `Mesh` in scene_formats.hpp). -/
structure Environment where
  hash : List Nat → Nat
  lib : MeshOptimizer
  float_of_bytes : List Nat → ℚ
  rnd : ℚ → Int
  mesh_ok : Mesh → Bool
  fs : FileSystem

/-- How a call of `export_mesh_to_meshlet` ends: at one of its six
`return false` statements (lines 684, 698, 705, 711, 721, 729), or at line 835
with what `export_encoded_mesh` did with the encoded mesh. -/
inductive ExportOutcome where
  | optimize_failed
  | unimplemented
  | no_uvs
  | no_normal_tangent
  | no_positions
  | unknown_style
  | exported (encoded : Encoded) (file : WriteOutcome)
deriving DecidableEq

/-- The `bool` that `export_mesh_to_meshlet` returns. -/
def ExportOutcome.result : ExportOutcome → Bool
  | .exported _ file => file.result
  | _ => false

/-- Whether the call returned before line 738, that is before the clusterer,
`encode_mesh` and the file system were reached. -/
def ExportOutcome.before_clustering : ExportOutcome → Bool
  | .exported _ _ => false
  | _ => true

/-- The bytes of the container that the call wrote, if it wrote one. -/
def ExportOutcome.container : ExportOutcome → Option (List Nat)
  | .exported _ (.written _ m) => some m.data
  | _ => none

/-- The local variables of `export_mesh_to_meshlet` after the `switch` of
lines 694-730: the three attribute vectors, `aux[]` and
`num_attribute_streams`. -/
structure ExportStreams where
  positions : List (List Int)
  uv : List (List Int)
  normal_tangent : List NormalTangent
  aux : List Int
  num_attribute_streams : Nat

/-- Lines 716-725 of `export_mesh_to_meshlet`, the `Wireframe` case that the
`Textured` case falls through to. -/
def extract_positions (env : Environment) (mesh : Mesh) (uv : List (List Int))
    (normal_tangent : List NormalTangent) (aux : List Int) (num_attribute_streams : Nat) :
    Except ExportOutcome ExportStreams :=
  let positions := mesh_extract_position_snorm_exp_of_mesh env.float_of_bytes env.rnd mesh
    (aux.getD StreamType.Position 0)
  if positions.1 = [] then Except.error ExportOutcome.no_positions
  else
    Except.ok
      { positions := positions.1, uv := uv, normal_tangent := normal_tangent
        aux := aux.set StreamType.Position positions.2
        num_attribute_streams := num_attribute_streams + 1 }

/-- Lines 694-730 of `export_mesh_to_meshlet`: the `switch` on the style. -/
def extract_streams (env : Environment) (mesh : Mesh) (style : Nat) :
    Except ExportOutcome ExportStreams :=
  let aux : List Int := List.replicate MaxStreams 0
  if style = MeshStyle.Skinned then Except.error ExportOutcome.unimplemented
  else if style = MeshStyle.Textured then
    let uv := mesh_extract_uv_snorm_scale env.float_of_bytes env.rnd mesh
      (aux.getD StreamType.UV 0)
    if uv.1 = [] then Except.error ExportOutcome.no_uvs
    else
      let normal_tangent := mesh_extract_normal_tangent_oct8 env.float_of_bytes env.lib mesh
      if normal_tangent = [] then Except.error ExportOutcome.no_normal_tangent
      else extract_positions env mesh uv.1 normal_tangent (aux.set StreamType.UV uv.2) 2
  else if style = MeshStyle.Wireframe then extract_positions env mesh [] [] aux 0
  else Except.error ExportOutcome.unknown_style

/-- Lines 790-803 of `export_mesh_to_meshlet`: the triangles gathered into
`tmp_indices` for the group of chunks that starts at chunk `i`. -/
def gather_tmp_indices (out_meshlets : List Meshlet) (out_index_buffer : List (List Nat))
    (i : Nat) : List (List Nat) :=
  (List.range (min (out_meshlets.length - i) NumChunks)).flatMap fun chunk =>
    (List.range (out_meshlets.getD (i + chunk) Meshlet.zero).primitive_count).map fun k =>
      out_index_buffer.getD
        ((out_meshlets.getD (i + chunk) Meshlet.zero).global_indices_offset + k) [0, 0, 0]

/-- Lines 785-809 of `export_mesh_to_meshlet`: one bound per group of
`NumChunks` chunks. -/
def compute_bounds (lib : MeshOptimizer) (out_meshlets : List Meshlet)
    (out_index_buffer : List (List Nat)) (position_buffer : List (List ℚ)) :
    List meshopt_Bounds :=
  (List.range ((out_meshlets.length + NumChunks - 1) / NumChunks)).map fun g =>
    lib.computeClusterBounds (gather_tmp_indices out_meshlets out_index_buffer (g * NumChunks))
      position_buffer

/-- Lines 815-818 of `export_mesh_to_meshlet`: the eight words of a `Bound`
filled from a `meshopt_Bounds`. -/
def bound_words (b : meshopt_Bounds) : List Nat :=
  [b.center.getD 0 0, b.center.getD 1 0, b.center.getD 2 0, b.radius,
    b.cone_axis.getD 0 0, b.cone_axis.getD 1 0, b.cone_axis.getD 2 0, b.cone_cutoff]

/-- Lines 812-820 of `export_mesh_to_meshlet`: meshlet `k` receives bound `k`. -/
def assign_bounds (meshlets : List Metadata) (bounds : List meshopt_Bounds) : List Metadata :=
  (List.range meshlets.length).map fun k =>
    { meshlets.getD k Metadata.zero with
      bound := bound_words
        (bounds.getD k { center := [], radius := 0, cone_axis := [], cone_cutoff := 0 }) }

/-- Lines 732-820 of `export_mesh_to_meshlet`: clustering, `encode_mesh` and
the bounds.  The clusterer is called with the 32-bit indices of the mesh and
the decoded positions (and the caps `VerticesPerChunk`, `PrimitivesPerChunk`
and cone weight of the call, which are constants). -/
def cluster_and_encode (lib : MeshOptimizer) (mesh : Mesh) (style : Nat) (s : ExportStreams) :
    Encoded :=
  let position_buffer := s.positions.map fun p =>
    decode_snorm_exp p (s.aux.getD StreamType.Position 0)
  let clusters := lib.buildMeshlets ((List.range mesh.count).map fun i => read_u32 mesh.indices i)
    position_buffer
  let out := build_out_meshlets clusters.meshlets clusters.out_vertex_redirection_buffer
    clusters.local_index_buffer
  let data : StreamData :=
    { position := s.positions.map fun p => p.map fun c => to_unsigned 16 c
      normal_tangent := s.normal_tangent
      uv := s.uv.map fun p => p.map fun c => to_unsigned 16 c }
  let encoded := encode_mesh out.1 data s.aux (s.num_attribute_streams + 1)
  let bounds := compute_bounds lib out.1 out.2 position_buffer
  { payload := encoded.payload
    mesh :=
      { stream_count := encoded.mesh.stream_count
        mesh_style := style
        meshlets := assign_bounds encoded.mesh.meshlets bounds } }

/-- Source function `export_mesh_to_meshlet` (meshlet_export.cpp:680-836).
The callee of line 683 takes the mesh by `const` reference, so the mesh used
from line 686 on is the deduplicated one. -/
def export_mesh_to_meshlet (env : Environment) (path : String) (mesh : Mesh) (style : Nat) :
    ExportOutcome :=
  let mesh := mesh_deduplicate_vertices env.hash mesh
  if env.mesh_ok (mesh_optimize_index_buffer env.hash env.lib mesh false) = false then
    ExportOutcome.optimize_failed
  else
    match extract_streams env mesh style with
    | Except.error e => e
    | Except.ok s =>
      ExportOutcome.exported (cluster_and_encode env.lib mesh style s)
        (export_encoded_mesh env.fs path (cluster_and_encode env.lib mesh style s))

/-! ## The stores of `write_bits`, logged -/

/-- The statement of `write_bit` with a log: next to `(words, bit_offset)` the
state carries the word indices `bit_offset / 32` of the stores made so far. -/
def write_bit_logged (value : Nat) (st : (List Nat × Nat) × List Nat) (i : Nat) :
    (List Nat × Nat) × List Nat :=
  (write_bit value st.1 i, st.2 ++ [st.1.2 / 32])

/-- The inner loop of `write_bits` for one component, logged. -/
def write_component_logged (bit_count : Nat) (st : (List Nat × Nat) × List Nat) (value : Nat) :
    (List Nat × Nat) × List Nat :=
  (List.range bit_count).foldl (write_bit_logged value) st

/-- Source function `write_bits` (meshlet_export.cpp:312-323), logged: the
state is the buffer and the log of the word indices stored to. -/
def write_bits_logged (st : List Nat × List Nat) (values : List Nat)
    (component_count element_index bit_count : Nat) : List Nat × List Nat :=
  let r := (List.range component_count).foldl
    (fun st c => write_component_logged bit_count st (values.getD c 0))
    ((st.1, (element_index * component_count * bit_count) % 2 ^ 32), st.2)
  (r.1.1, r.2)

/-- The scratch array `p` of `encode_index_stream` after its loop
(meshlet_export.cpp:328-335), with the log of the word indices stored to. -/
def encode_index_stream_logged (stream_buffer : List (List Nat)) (count : Nat) :
    List Nat × List Nat :=
  (List.range count).foldl
    (fun st i => write_bits_logged st (stream_buffer.getD i []) 3 i IBOBits)
    (List.replicate ((IBOBits * 3 * PrimitivesPerChunk + 31) / 32) 0, [])

/-- The scratch array `p` of `encode_bitplane_16_inner<Components>` after its
loop (meshlet_export.cpp:345-347), with the log of the word indices stored to. -/
def encode_bitplane_16_inner_logged (Components : Nat) (values : List (List Nat))
    (encoded_bits count : Nat) : List Nat × List Nat :=
  (List.range count).foldl
    (fun st i => write_bits_logged st (values.getD i []) Components i encoded_bits)
    (List.replicate (16 * Components * (VerticesPerChunk / 32)) 0, [])

/-- The scratch array `p` of `encode_bitplane` for `u8vec4` after its loop
(meshlet_export.cpp:356-358), with the log of the word indices stored to. -/
def encode_bitplane_u8vec4_logged (values : List (List Nat)) (encoded_bits count : Nat) :
    List Nat × List Nat :=
  (List.range count).foldl
    (fun st i => write_bits_logged st (values.getD i []) 4 i encoded_bits)
    (List.replicate (8 * 4 * (VerticesPerChunk / 32)) 0, [])

/-- Overload resolution of `encode_bitplane`, for the logged scratch arrays. -/
def encode_bitplane_logged (T : AttrType) (values : List (List Nat))
    (encoded_bits count : Nat) : List Nat × List Nat :=
  match T with
  | .u16vec3 => encode_bitplane_16_inner_logged 3 values encoded_bits count
  | .u16vec2 => encode_bitplane_16_inner_logged 2 values encoded_bits count
  | .u8vec4 => encode_bitplane_u8vec4_logged values encoded_bits count

/-- Sample clusterer output: two chunks, of two triangles and of one. -/
def sample_clusters : List meshopt_Meshlet :=
  [{ vertex_offset := 0, triangle_offset := 0, vertex_count := 4, triangle_count := 2 },
    { vertex_offset := 4, triangle_offset := 6, vertex_count := 3, triangle_count := 1 }]

/-- Sample vertex redirection buffer for `sample_clusters`. -/
def sample_redirection : List Nat := [10, 11, 12, 13, 12, 13, 14]

/-- Sample local index buffer for `sample_clusters`. -/
def sample_local_indices : List Nat := [0, 1, 2, 2, 1, 3, 0, 1, 2]

/-- Sample stream data: seven `u16vec3` positions, no other stream. -/
def sample_stream_data : StreamData :=
  { position := [[0, 0, 0], [1, 0, 0], [0, 1, 0], [1, 1, 0], [2, 0, 0], [2, 1, 0], [3, 3, 0],
      [0, 0, 0], [0, 0, 0], [0, 0, 0], [0, 0, 0], [0, 0, 0], [0, 0, 0], [0, 0, 0], [0, 0, 1]],
    normal_tangent := [], uv := [] }

/-- Sample data for the position round trip: two `vec3` positions. -/
def sample_positions : List (List ℚ) := [[1, 0, 0], [1 / 3, -5 / 7, 0]]

/-- Sample data for the trim: two `i16vec3` values whose components share the
factor 4. -/
def sample_quant : List (List Int) := [[4, -8, 0], [12, 0, -32768]]

/-! ## Vocabulary of the properties -/

/-- Decoder side: the bit width of chunk slot `c`, byte `c` of the packed
`bits_per_chunk` field. -/
def Stream.chunk_bits (stream : Stream) (c : Nat) : Nat :=
  (stream.bits_per_chunk / 2 ^ (8 * c)) % 256

/-- Decoder side: component `k` of the base value of chunk slot `c`, the
scalar-wide field of `base_value` at bit `(c * components + k) * width`. -/
def Stream.chunk_base (T : AttrType) (stream : Stream) (c k : Nat) : Nat :=
  read_bits stream.base_value ((c * T.components + k) * T.bits_per_component)
    T.bits_per_component

/-- Well-formed `T` values: every vector has `components` scalars, each of
`bits_per_component` bits. -/
def WellFormedAttrs (T : AttrType) (attrs : List (List Nat)) : Prop :=
  ∀ p ∈ attrs, p.length = T.components ∧ ∀ k, k < T.components → p.getD k 0 < 2 ^ T.bits_per_component

/-- Spec wording, "maximum delta across components" under the interpretation
`I` of the scalars: `d` bounds `I(p[k]) - I(q[k])` for every component `k` and
all vectors `p`, `q` of the chunk, and is attained; that is, `d` is the largest
per-component `max - min`. -/
def IsMaxDelta (I : Nat → Int) (C : Nat) (vals : List (List Nat)) (d : Int) : Prop :=
  (∀ k, k < C → ∀ p ∈ vals, ∀ q ∈ vals, I (p.getD k 0) - I (q.getD k 0) ≤ d) ∧
  (∃ k, k < C ∧ ∃ p ∈ vals, ∃ q ∈ vals, I (p.getD k 0) - I (q.getD k 0) = d)

/-- Spec wording, "per-component minimum" under the interpretation `I`: `m` is
the scalar of some vector of the chunk in component `k` and no vector has a
smaller one. -/
def IsColumnMin (I : Nat → Int) (k : Nat) (vals : List (List Nat)) (m : Nat) : Prop :=
  (∃ p ∈ vals, p.getD k 0 = m) ∧ ∀ q ∈ vals, I m ≤ I (q.getD k 0)

/-- The triangles of a chunk in mesh-global indices: local index triples mapped
through the chunk's vertex remap. -/
def chunk_triangles (chunk : Meshlet) : List (List Nat) :=
  (List.range chunk.primitive_count).map fun i =>
    [chunk.attribute_remap.getD (chunk.local_indices.getD (3 * i) 0) 0,
      chunk.attribute_remap.getD (chunk.local_indices.getD (3 * i + 1) 0) 0,
      chunk.attribute_remap.getD (chunk.local_indices.getD (3 * i + 2) 0) 0]

/-- The words `encode_index_stream` produces for a chunk. -/
def index_words (chunk : Meshlet) : List Nat :=
  encode_index_stream [] (index_stream_buffer chunk) chunk.primitive_count

/-- The words `app` occupy the payload from word offset `off` on. -/
def HasSegment (payload : List Nat) (off : Nat) (app : List Nat) : Prop :=
  ∃ pre post, payload = pre ++ app ++ post ∧ pre.length = off

/-- The byte content of vertex `u` of a mesh: its `position_stride` position
bytes together with its `attribute_stride` attribute bytes. -/
def vertex_content (mesh : Mesh) (u : Nat) : List Nat × List Nat :=
  (read_bytes mesh.positions (u * mesh.position_stride) mesh.position_stride,
    read_bytes mesh.attributes (u * mesh.attribute_stride) mesh.attribute_stride)

/-- A mesh the preprocessing functions can be called on: a non-zero position
stride, buffers addressable with 32-bit offsets, an attribute buffer that
holds `attribute_stride` bytes for every vertex, and a 32-bit `count`. -/
def WellFormedMesh (mesh : Mesh) : Prop :=
  0 < mesh.position_stride ∧ mesh.positions.length < 2 ^ 32 ∧
  mesh.attributes.length < 2 ^ 32 ∧
  mesh.attribute_stride * attribute_count mesh ≤ mesh.attributes.length ∧
  mesh.count < 2 ^ 32

/-- A sample hash for the deduplication properties: the sum of the bytes (it
has collisions). -/
def sample_hash (bytes : List Nat) : Nat := bytes.foldl (fun h b => h + b) 0

/-- A sample mesh for the deduplication properties: five vertices with two
position bytes and one attribute byte each, 16-bit indices. -/
def sample_mesh : Mesh :=
  { positions := [1, 2, 3, 4, 1, 2, 5, 6, 3, 4], attributes := [9, 8, 9, 7, 8],
    position_stride := 2, attribute_stride := 1,
    indices := [0, 0, 1, 0, 2, 0, 3, 0, 4, 0, 2, 0], index_type := IndexType.uint16,
    count := 6, topology := 3, primitive_restart := false }

/-- The unsigned reading of a scalar. -/
def as_unsigned (x : Nat) : Int := (x : Int)

/-- The values of a chunk, in local vertex order: `raw_attributes[remap[i]]`
for `i < n`, without the padding. -/
def chunk_values (raw_attributes : List (List Nat)) (vbo_remap : Option (List Nat))
    (n : Nat) : List (List Nat) :=
  (List.range n).map fun i => raw_attributes.getD (remap_index vbo_remap i) []

/-- Sample data for the attribute-stream properties: three `u16vec3` values,
one of them negative when read as signed. -/
def sample_u16vec3 : List (List Nat) := [[1, 2, 3], [65535, 5, 3], [0, 7, 3]]

/-- A mesh of two vertices with two position bytes each and no attributes: the
vertices differ, and their bytes have the same sum. -/
def collision_mesh : Mesh :=
  { positions := [1, 2, 2, 1], attributes := [], position_stride := 2, attribute_stride := 0,
    indices := [], index_type := IndexType.uint32, count := 0, topology := 3,
    primitive_restart := false }

/-- The nine little-endian bytes of a number below `2^72`. -/
def nine_bytes (n : Nat) : List Nat :=
  [n % 256, n / 2 ^ 8 % 256, n / 2 ^ 16 % 256, n / 2 ^ 24 % 256, n / 2 ^ 32 % 256,
    n / 2 ^ 40 % 256, n / 2 ^ 48 % 256, n / 2 ^ 56 % 256, n / 2 ^ 64 % 256]

/-- A mesh of two vertices whose nine position bytes spell `n` and `m`. -/
def two_vertex_mesh (n m : Nat) : Mesh :=
  { positions := nine_bytes n ++ nine_bytes m, attributes := [], position_stride := 9,
    attribute_stride := 0, indices := [], index_type := IndexType.uint32, count := 0,
    topology := 3, primitive_restart := false }

/-- A sample stripifier: two triangles that share an edge become a strip of
four indices; any other list is returned as it is. -/
def sample_stripify (indices : List Nat) : List Nat :=
  match indices with
  | [a, b, c, d, e, f] => if d = c ∧ e = b then [a, b, c, f] else indices
  | _ => indices

/-- A sample clusterer: every triangle becomes a chunk of its own. -/
def sample_buildMeshlets (indices : List Nat) : ClusterOutput :=
  { meshlets := (List.range (indices.length / 3)).map fun t =>
      { vertex_offset := 3 * t, triangle_offset := 3 * t, vertex_count := 3,
        triangle_count := 1 }
    out_vertex_redirection_buffer := indices
    local_index_buffer := (List.range (indices.length / 3)).flatMap fun _ => [0, 1, 2] }

/-- A sample instance of the external library: the optimisers leave the order
as it is, the octahedral filter returns zeros, the clusterer is
`sample_buildMeshlets` and every bound is zero. -/
def sample_optimizer : MeshOptimizer :=
  { optimizeVertexCache := fun indices _ => indices
    optimizeVertexFetchRemap := fun _ vertex_count => List.range vertex_count
    stripify := fun indices _ => sample_stripify indices
    encodeFilterOct := fun v => v.map fun _ => [0, 0, 0, 0]
    buildMeshlets := fun indices _ => sample_buildMeshlets indices
    computeClusterBounds := fun _ _ =>
      { center := [0, 0, 0], radius := 0, cone_axis := [0, 0, 0], cone_cutoff := 0 } }

/-- A sample quad: four vertices with two position bytes each and two
triangles that share the edge `(1, 2)`, as a triangle list with 16-bit
indices. -/
def sample_quad : Mesh :=
  { positions := [0, 0, 1, 0, 0, 2, 3, 3], attributes := [], position_stride := 2,
    attribute_stride := 0, indices := [0, 0, 1, 0, 2, 0, 2, 0, 1, 0, 3, 0],
    index_type := IndexType.uint16, count := 6,
    topology := VK_PRIMITIVE_TOPOLOGY_TRIANGLE_LIST, primitive_restart := false }

/-- The sample quad as a triangle strip of four indices. -/
def sample_strip_mesh : Mesh :=
  { positions := [0, 0, 1, 0, 0, 2, 3, 3], attributes := [], position_stride := 2,
    attribute_stride := 0, indices := [0, 0, 1, 0, 2, 0, 3, 0],
    index_type := IndexType.uint16, count := 4,
    topology := VK_PRIMITIVE_TOPOLOGY_TRIANGLE_STRIP, primitive_restart := true }

/-- The writes `ws`, each an `(offset, size)` pair, are contiguous from offset
`s` to offset `e`: the first starts at `s`, each following one starts where
the one before it ended, and the last ends at `e`. -/
def Contiguous : Nat → List (Nat × Nat) → Nat → Prop
  | s, [], e => s = e
  | s, w :: ws, e => w.1 = s ∧ Contiguous (s + w.2) ws e

/-- The state of the copy phase after the bytes `pre` have been written to a
mapping of `R` bytes by writes of the sizes `sizes`: the pointer stands right
after `pre`, the mapping starts with `pre`, and the writes done so far are
contiguous from offset 0 to the pointer. -/
def Mapping.Holds (m : Mapping) (pre : List Nat) (sizes : List Nat) (R : Nat) : Prop :=
  m.ptr = pre.length ∧ m.data.length = R ∧ m.data.take pre.length = pre ∧
  Contiguous 0 m.writes m.ptr ∧ m.writes.map Prod.snd = sizes

/-- The byte offset of the payload in a container of `N` meshlets with `S`
streams each. -/
def payload_offset (N S : Nat) : Nat :=
  sizeof_magic + sizeof_FormatHeader + N * sizeof_Header + N * sizeof_Bound
    + S * N * sizeof_Stream

/-- The bytes of the container of an encoded mesh, in file order: magic,
header, the meshlet headers, the bounds, the stream records meshlet by
meshlet, the payload words and the pad word. -/
def container_bytes (encoded : Encoded) : List Nat :=
  magic ++ (format_header encoded).bytes
    ++ ((List.range encoded.mesh.meshlets.length).flatMap fun i =>
        (encoded.mesh.meshlets.getD i Metadata.zero).header_bytes)
    ++ ((List.range encoded.mesh.meshlets.length).flatMap fun i =>
        (encoded.mesh.meshlets.getD i Metadata.zero).bound_bytes)
    ++ ((List.range encoded.mesh.meshlets.length).flatMap fun i =>
        (List.range encoded.mesh.stream_count).flatMap fun j =>
          ((encoded.mesh.meshlets.getD i Metadata.zero).streams.getD j Stream.zero).bytes)
    ++ encoded.payload.flatMap u32_bytes
    ++ List.replicate sizeof_PayloadWord 0

/-- The sizes of the writes of the copy phase, in order. -/
def container_writes (encoded : Encoded) : List Nat :=
  [sizeof_magic, sizeof_FormatHeader]
    ++ List.replicate encoded.mesh.meshlets.length sizeof_Header
    ++ List.replicate encoded.mesh.meshlets.length sizeof_Bound
    ++ List.replicate (encoded.mesh.meshlets.length * encoded.mesh.stream_count) sizeof_Stream
    ++ [encoded.payload.length * sizeof_PayloadWord, sizeof_PayloadWord]

/-- A sample file system: every file can be opened and mapped, and a fresh
mapping holds the byte `0xcd` everywhere. -/
def sample_fs : FileSystem :=
  { can_open := fun _ => true, can_map := fun _ _ => true, initial := fun _ => 0xcd }

/-- A sample encoded mesh: one meshlet with two streams and two payload words. -/
def sample_encoded : Encoded :=
  { payload := [0x820, 5]
    mesh :=
      { stream_count := 2, mesh_style := 0
        meshlets :=
          [{ base_vertex_offset := 0, num_chunks := 1
             streams := List.replicate MaxStreams Stream.zero }] } }

/-- A sample environment: the byte-sum hash, the sample library, a float
decoder that reads the four bytes as a little-endian integer, rounding to the
nearest integer, a mesh conversion that always yields `true` and the sample
file system. -/
def sample_env : Environment :=
  { hash := sample_hash
    lib := sample_optimizer
    float_of_bytes := fun bytes =>
      ((bytes.getD 0 0 + 2 ^ 8 * bytes.getD 1 0 + 2 ^ 16 * bytes.getD 2 0
        + 2 ^ 24 * bytes.getD 3 0 : Nat) : ℚ)
    rnd := round
    mesh_ok := fun _ => true
    fs := sample_fs }

/-- The sample environment with a clusterer that returns no chunk at all. -/
def zero_chunk_env : Environment :=
  { sample_env with
    lib :=
      { sample_optimizer with
        buildMeshlets := fun _ _ =>
          { meshlets := [], out_vertex_redirection_buffer := [], local_index_buffer := [] } } }

/-- A sample triangle: three vertices with `float3` positions (12 bytes each)
and `float3` normals (12 attribute bytes each), no UVs and no tangents, and the
16-bit index buffer `0, 1, 2`. -/
def sample_triangle : Mesh :=
  { positions := [1, 0, 0, 0, 0, 0, 0, 0, 0, 0, 0, 0,
      2, 0, 0, 0, 0, 0, 0, 0, 0, 0, 0, 0,
      3, 0, 0, 0, 0, 0, 0, 0, 0, 0, 0, 0]
    attributes := [0, 0, 0, 0, 0, 0, 0, 0, 1, 0, 0, 0,
      0, 0, 0, 0, 0, 0, 0, 0, 1, 0, 0, 0,
      0, 0, 0, 0, 0, 0, 0, 0, 1, 0, 0, 0]
    position_stride := 12, attribute_stride := 12
    indices := [0, 0, 1, 0, 2, 0], index_type := IndexType.uint16, count := 3
    topology := VK_PRIMITIVE_TOPOLOGY_TRIANGLE_LIST, primitive_restart := false
    attribute_layout :=
      { position := ⟨VK_FORMAT_R32G32B32_SFLOAT, 0⟩, uv := ⟨VK_FORMAT_UNDEFINED, 0⟩
        normal := ⟨VK_FORMAT_R32G32B32_SFLOAT, 0⟩, tangent := ⟨VK_FORMAT_UNDEFINED, 0⟩ } }

/-- The sample triangle with positions in the unsupported format
`VK_FORMAT_R16G16_UNORM`. -/
def sample_bad_positions : Mesh :=
  { sample_triangle with
    attribute_layout :=
      { sample_triangle.attribute_layout with position := ⟨VK_FORMAT_R16G16_UNORM, 0⟩ } }

/-- The number of attribute elements of a mesh, as the extraction functions
compute it: `mesh.attributes.size() / mesh.attribute_stride`, for a non-zero
stride (the source divides by zero otherwise; the value 0 that the quotient has
here for a zero stride is not a behaviour of the code). -/
def num_attrs (mesh : Mesh) : Nat :=
  mesh.attributes.length / mesh.attribute_stride

/-- The number of positions of a mesh, as `mesh_extract_position_snorm_exp`
computes it: `mesh.positions.size() / mesh.position_stride`, for a non-zero
stride. -/
def num_positions (mesh : Mesh) : Nat :=
  mesh.positions.length / mesh.position_stride

/-- The encoded mesh without any meshlet: no payload word and no meshlet
record. -/
def empty_encoded (stream_count style : Nat) : Encoded :=
  { payload := [], mesh := { stream_count := stream_count, mesh_style := style, meshlets := [] } }

/-- The local variables that the `switch` of `export_mesh_to_meshlet` leaves
for the deduplicated sample triangle and style `Wireframe` in
`zero_chunk_env`: the encoded positions and their exponent. -/
def sample_wireframe_streams : ExportStreams :=
  { positions := (mesh_extract_position_snorm_exp_of_mesh zero_chunk_env.float_of_bytes
      zero_chunk_env.rnd (mesh_deduplicate_vertices zero_chunk_env.hash sample_triangle) 0).1
    uv := [], normal_tangent := []
    aux := (List.replicate MaxStreams 0).set StreamType.Position
      (mesh_extract_position_snorm_exp_of_mesh zero_chunk_env.float_of_bytes
        zero_chunk_env.rnd (mesh_deduplicate_vertices zero_chunk_env.hash sample_triangle) 0).2
    num_attribute_streams := 1 }

/-- The triangle list of one strip over the vertices `0 .. n + 1`: triangle `i`
has the vertices `i`, `i + 1`, `i + 2`, the first two swapped for odd `i` to
keep the winding. -/
def strip_triangles (n : Nat) : List Nat :=
  (List.range n).flatMap fun i => if i % 2 = 0 then [i, i + 1, i + 2] else [i + 1, i, i + 2]

/-- A mesh of `n + 2` distinct vertices, each with two position bytes that
spell the vertex number, and the `n` triangles of `strip_triangles` as a
triangle list with 32-bit indices. -/
def strip_list_mesh (n : Nat) : Mesh :=
  { positions := (List.range (n + 2)).flatMap fun v => [v % 256, v / 256]
    attributes := [], position_stride := 2, attribute_stride := 0
    indices := (strip_triangles n).flatMap u32_bytes
    index_type := IndexType.uint32, count := 3 * n
    topology := VK_PRIMITIVE_TOPOLOGY_TRIANGLE_LIST, primitive_restart := false }

/-- A hash that reads the first two bytes as a little-endian number. -/
def two_byte_hash (bytes : List Nat) : Nat :=
  bytes.getD 0 0 + 256 * bytes.getD 1 0

/-- The sample library with a stripifier that answers with the single strip
`0, 1, ..., vertex_count - 1`, which is the strip of `strip_list_mesh`. -/
def strip_optimizer : MeshOptimizer :=
  { sample_optimizer with stripify := fun _ vertex_count => List.range vertex_count }

/-- The number of chunks of output meshlet `m` when `n` chunks are encoded: the
expression `std::min<uint32_t>(num_meshlets - full_meshlet_index * NumChunks,
NumChunks)` of `encode_mesh`. -/
def meshlet_chunks (n m : Nat) : Nat :=
  min ((n - m * NumChunks) % 2 ^ 32) NumChunks

/-- The words that stream `s` contributes for one input chunk: the index words
for the primitive stream, the bit planes of the chunk's positions, normals and
tangents, or UVs for the attribute streams, nothing for a stream type that
`encode_mesh` does not encode. -/
def chunk_words (data : StreamData) (s : Nat) (chunk : Meshlet) : List Nat :=
  match s with
  | 0 => index_words chunk
  | 1 => (encode_attribute_stream AttrType.u16vec3 [] Stream.zero data.position 0
      (some chunk.attribute_remap) chunk.vertex_count).1
  | 3 => (encode_attribute_stream AttrType.u16vec2 [] Stream.zero data.uv 0
      (some chunk.attribute_remap) chunk.vertex_count).1
  | 2 => (encode_normal_tangent_chunk [] Stream.zero data.normal_tangent chunk 0).1
  | _ => []

/-- The words of chunk slot `c` of stream `s` of output meshlet `m`: those of
input chunk `m * NumChunks + c`. -/
def slot_words (meshlets : List Meshlet) (data : StreamData) (m s c : Nat) : List Nat :=
  chunk_words data s (meshlets.getD (m * NumChunks + c) Meshlet.zero)

/-- The words of stream `s` of output meshlet `m`: its chunk slots in order. -/
def stream_words (meshlets : List Meshlet) (data : StreamData) (m s : Nat) : List Nat :=
  (List.range (meshlet_chunks meshlets.length m)).flatMap (slot_words meshlets data m s)

/-- The words of output meshlet `m`: its streams in order. -/
def meshlet_words (meshlets : List Meshlet) (data : StreamData) (num_streams m : Nat) :
    List Nat :=
  (List.range num_streams).flatMap (stream_words meshlets data m)

/-- The words of all triples that come before `(m, s, c)` in the order
meshlet, stream, chunk. -/
def words_before (meshlets : List Meshlet) (data : StreamData) (num_streams m s c : Nat) :
    List Nat :=
  (List.range m).flatMap (meshlet_words meshlets data num_streams)
    ++ (List.range s).flatMap (stream_words meshlets data m)
    ++ (List.range c).flatMap (slot_words meshlets data m s)

/-- The word offset recorded for chunk slot `c` of stream `s` of output meshlet
`m`: `meshlets[m].streams[s].offsets_in_words[c]`. -/
def Encoded.offset (encoded : Encoded) (m s c : Nat) : Nat :=
  ((encoded.mesh.meshlets.getD m Metadata.zero).streams.getD s Stream.zero).offsets_in_words.getD
    c 0

/-- The state of the primitive-stream loop of output meshlet `m` after its
last chunk, when the loop starts with the payload `payload`. -/
def primitive_loop (meshlets : List Meshlet) (m : Nat) (payload : List Nat) : PrimState :=
  (List.range (meshlet_chunks meshlets.length m)).foldl (encode_primitive_chunk meshlets m)
    { payload := payload, index_stream := Stream.zero, num_attributes := 0,
      num_primitives := 0 }

/-- The primitive stream of output meshlet `m` as stored in its `Metadata`:
the stream of the chunk loop with the remaining offset pairs filled in. -/
def primitive_stream (meshlets : List Meshlet) (m : Nat) (payload : List Nat) : Stream :=
  (List.range' (meshlet_chunks meshlets.length m)
      (NumChunks + 1 - meshlet_chunks meshlets.length m)).foldl
    (fun s chunk_index => set_offsets s chunk_index
      (primitive_loop meshlets m payload).num_primitives
      (primitive_loop meshlets m payload).num_attributes)
    (primitive_loop meshlets m payload).index_stream

/-- The attribute stream `s` of output meshlet `m` as stored in its
`Metadata`: what the chunk loop leaves of a zeroed stream with
`aux = p_aux[s]`, when the loop starts with the payload `payload`. -/
def attribute_stream (meshlets : List Meshlet) (data : StreamData) (p_aux : List Int)
    (m s : Nat) (payload : List Nat) : Stream :=
  ((List.range (meshlet_chunks meshlets.length m)).foldl
    (encode_attribute_chunk meshlets data m s)
    (payload, { Stream.zero with aux := p_aux.getD s 0 })).2

/-- Sample chunks for the properties of `encode_mesh`: the two chunks that
`build_out_meshlets` makes of `sample_clusters`. -/
def sample_chunks : List Meshlet :=
  (build_out_meshlets sample_clusters sample_redirection sample_local_indices).1

/-- The sign flag of local vertex `i` of a chunk: `nt[attribute_remap[i]].t_sign`,
true for a negative tangent sign. -/
def tangent_sign (nt : List NormalTangent) (meshlet : Meshlet) (i : Nat) : Bool :=
  (nt.getD (meshlet.attribute_remap.getD i 0) ⟨[], [], false⟩).t_sign

/-- The octahedral bytes of local vertex `i` of a chunk: normal and tangent of
`nt[attribute_remap[i]]` as four unsigned bytes. -/
def oct_bytes (nt : List NormalTangent) (meshlet : Meshlet) (i : Nat) : List Nat :=
  [to_unsigned 8 ((nt.getD (meshlet.attribute_remap.getD i 0) ⟨[], [], false⟩).n.getD 0 0),
    to_unsigned 8 ((nt.getD (meshlet.attribute_remap.getD i 0) ⟨[], [], false⟩).n.getD 1 0),
    to_unsigned 8 ((nt.getD (meshlet.attribute_remap.getD i 0) ⟨[], [], false⟩).t.getD 0 0),
    to_unsigned 8 ((nt.getD (meshlet.attribute_remap.getD i 0) ⟨[], [], false⟩).t.getD 1 0)]

/-- The variable `sign_mask` of the `NormalTangentOct8` case after the
promotion of a full mask of fewer than 32 vertices to `UINT32_MAX`
(meshlet_export.cpp:563-564). -/
def nt_final_mask (nt : List NormalTangent) (meshlet : Meshlet) : Nat :=
  if meshlet.vertex_count < VerticesPerChunk ∧
      nt_sign_mask nt meshlet = ((1 <<< meshlet.vertex_count) % 2 ^ 32 + 2 ^ 32 - 1) % 2 ^ 32
  then 2 ^ 32 - 1 else nt_sign_mask nt meshlet

/-- The two-bit code that the `NormalTangentOct8` case ors into `aux` for a
chunk (meshlet_export.cpp:566-574). -/
def nt_aux_code (nt : List NormalTangent) (meshlet : Meshlet) : Nat :=
  if nt_final_mask nt meshlet = 0 then 1
  else if nt_final_mask nt meshlet = 2 ^ 32 - 1 then 2 else 3

/-- The array `nts` that the `NormalTangentOct8` case hands to
`encode_attribute_stream` (meshlet_export.cpp:566-585): the gathered bytes,
with the sign bits written into component `w` when the code is 3. -/
def nt_packed (nt : List NormalTangent) (meshlet : Meshlet) : List (List Nat) :=
  if nt_aux_code nt meshlet = 3 then
    (List.range VerticesPerChunk).map fun i =>
      if i < meshlet.vertex_count then
        ((nt_gather nt meshlet).getD i []).set 3
          ((((nt_gather nt meshlet).getD i []).getD 3 0 &&& 0xfe)
            ||| ((nt_final_mask nt meshlet >>> i) &&& 1))
      else (nt_gather nt meshlet).getD i []
  else nt_gather nt meshlet

/-- Decoder side: the two-bit field of chunk slot `c` in the `aux` word of the
normal/tangent stream, bits `2c` and `2c + 1`. -/
def Stream.sign_field (stream : Stream) (c : Nat) : Int :=
  (stream.aux / 2 ^ (2 * c)) % 4

/-- Sample normal/tangent data for fifteen vertices: the tangent sign is
negative from vertex 12 on. -/
def sample_normal_tangent : List NormalTangent :=
  (List.range 15).map fun i => ⟨[(i : Int), -(i : Int)], [1, 2 * (i : Int) + 1], decide (12 ≤ i)⟩

/-- Sample stream data with all three attribute streams, for fifteen
vertices. -/
def sample_textured_data : StreamData :=
  { position := sample_stream_data.position
    normal_tangent := sample_normal_tangent
    uv := (List.range 15).map fun i => [i, 2 * i] }

/-- The chunks that `export_mesh_to_meshlet` hands to `encode_mesh`: the
vector `out_meshlets` built from the clusterer's output. -/
def export_chunks (lib : MeshOptimizer) (mesh : Mesh) (s : ExportStreams) : List Meshlet :=
  (build_out_meshlets
    (lib.buildMeshlets ((List.range mesh.count).map fun i => read_u32 mesh.indices i)
      (s.positions.map fun p =>
        decode_snorm_exp p (s.aux.getD StreamType.Position 0))).meshlets
    (lib.buildMeshlets ((List.range mesh.count).map fun i => read_u32 mesh.indices i)
      (s.positions.map fun p =>
        decode_snorm_exp p (s.aux.getD StreamType.Position 0))).out_vertex_redirection_buffer
    (lib.buildMeshlets ((List.range mesh.count).map fun i => read_u32 mesh.indices i)
      (s.positions.map fun p =>
        decode_snorm_exp p (s.aux.getD StreamType.Position 0))).local_index_buffer).1

/-- The arrays behind `pp_data` in the exporter's call of `encode_mesh`: the
encoded positions and UVs as unsigned 16-bit vectors, and the normal/tangent
array. -/
def export_data (s : ExportStreams) : StreamData :=
  { position := s.positions.map fun p => p.map fun c => to_unsigned 16 c
    normal_tangent := s.normal_tangent
    uv := s.uv.map fun p => p.map fun c => to_unsigned 16 c }

/-- The signed 16-bit vectors as `encode_mesh` reads them: the array behind
`pp_data[stream_index]` cast to unsigned 16-bit vectors. -/
def as_u16 (values : List (List Int)) : List (List Nat) :=
  values.map fun p => p.map fun c => to_unsigned 16 c

/-- Two encoded positions whose first components, `-32768` and `32766`, are
neighbours when read as unsigned 16-bit values (`32768` and `32766`). -/
def wrap_quant : List (List Int) := [[-32768, 0, 0], [32766, 0, 0]]

/-- A sample mesh for the UV round trip: two vertices whose four attribute
bytes are a UV in the format `R16G16_UNORM`, `(0, 0xffff)` and
`(0x5555, 0xbfff)`. -/
def sample_uv_mesh : Mesh :=
  { positions := [], attributes := [0, 0, 0xff, 0xff, 0x55, 0x55, 0xff, 0xbf]
    position_stride := 12, attribute_stride := 4
    indices := [], index_type := IndexType.uint16, count := 0
    topology := VK_PRIMITIVE_TOPOLOGY_TRIANGLE_LIST, primitive_restart := false
    attribute_layout :=
      { position := ⟨VK_FORMAT_UNDEFINED, 0⟩, uv := ⟨VK_FORMAT_R16G16_UNORM, 0⟩
        normal := ⟨VK_FORMAT_UNDEFINED, 0⟩, tangent := ⟨VK_FORMAT_UNDEFINED, 0⟩ } }

/-- The UVs that `mesh_extract_uv_snorm_scale` decodes from `sample_uv_mesh`. -/
def sample_uvs : List (List ℚ) :=
  (List.range (sample_uv_mesh.attributes.length / sample_uv_mesh.attribute_stride)).map fun i =>
    (List.range 2).map fun k =>
      ((sample_uv_mesh.attributes.getD
          (i * sample_uv_mesh.attribute_stride + sample_uv_mesh.attribute_layout.uv.offset
            + 2 * k) 0
        + 2 ^ 8 * sample_uv_mesh.attributes.getD
          (i * sample_uv_mesh.attribute_stride + sample_uv_mesh.attribute_layout.uv.offset
            + 2 * k + 1) 0 : Nat) : ℚ) * (1 / 0xffff)

/-- The width that `encode_attribute_stream` computes for an input chunk in
stream `s` (the local `bits` of meshlet_export.cpp:438-446, on the arguments
`encode_mesh` passes for that stream type); 0 for a stream type that
`encode_mesh` does not encode. -/
def chunk_width (data : StreamData) (s : Nat) (chunk : Meshlet) : Nat :=
  match s with
  | 1 => (chunk_stats AttrType.u16vec3
      (gather_attributes data.position (some chunk.attribute_remap) chunk.vertex_count)).bits
  | 3 => (chunk_stats AttrType.u16vec2
      (gather_attributes data.uv (some chunk.attribute_remap) chunk.vertex_count)).bits
  | 2 => (chunk_stats AttrType.u8vec4
      (gather_attributes (nt_packed data.normal_tangent chunk) none chunk.vertex_count)).bits
  | _ => 0

/-- The number of vertices of the input chunks with index below `k`. -/
def vertices_before (meshlets : List Meshlet) (k : Nat) : Nat :=
  ((List.range k).map fun i => (meshlets.getD i Meshlet.zero).vertex_count).sum

/-- The number of vertices of the chunks of output meshlet `m`. -/
def meshlet_vertices (meshlets : List Meshlet) (m : Nat) : Nat :=
  ((List.range (meshlet_chunks meshlets.length m)).map fun c =>
    (meshlets.getD (m * NumChunks + c) Meshlet.zero).vertex_count).sum

/-- The field `prim_offset` of entry `c` of the offsets table that overlays
`base_value`: the low half of word `c`. -/
def Stream.prim_offset (stream : Stream) (c : Nat) : Nat :=
  stream.base_value.getD c 0 % 2 ^ 16

/-- The field `attr_offset` of entry `c` of the offsets table that overlays
`base_value`: the high half of word `c`. -/
def Stream.attr_offset (stream : Stream) (c : Nat) : Nat :=
  stream.base_value.getD c 0 / 2 ^ 16 % 2 ^ 16

/-- The sum of `count` over the first `c` chunks of output meshlet `m`. -/
def offsets_before (count : Meshlet → Nat) (meshlets : List Meshlet) (m c : Nat) : Nat :=
  ((List.range c).map fun i => count (meshlets.getD (m * NumChunks + i) Meshlet.zero)).sum

/-- Sample chunks at the caps: six chunks of 64 primitives and 32 vertices. -/
def full_chunks : List Meshlet :=
  List.replicate 6
    { global_indices_offset := 0, primitive_count := 64, vertex_count := 32,
      local_indices := [], attribute_remap := [] }

/-- The finite values of the IEEE 754 binary32 format, the type `float`:
`m * 2^e` with a significand of 24 bits and an exponent `-149 <= e <= 104`. -/
def is_binary32 (x : ℚ) : Prop :=
  ∃ m e : Int, abs m < 2 ^ 24 ∧ -149 ≤ e ∧ e ≤ 104 ∧ x = (m : ℚ) * (2 : ℚ) ^ e

/-- A sample float logarithm for the input `16777215`: there it has the value
`24`, the float nearest to `log2(16777215) = 23.99999991...`; elsewhere it is the
integer logarithm. -/
def sample_log2f (x : ℚ) : ℚ :=
  if x = 16777215 then 24 else (Int.log 2 x : ℚ)

/-- The encoded mesh of the sample triangle exported as a wireframe in the
sample environment: one meshlet of one chunk, with a primitive stream and a
position stream. -/
def sample_exported : Encoded :=
  cluster_and_encode sample_env.lib (mesh_deduplicate_vertices sample_env.hash sample_triangle)
    MeshStyle.Wireframe sample_wireframe_streams

/-! ## Facts about bit-addressed buffers -/

theorem length_or_word (words : List Nat) (idx x : Nat) :
    (or_word words idx x).length = words.length := by
  simp [or_word]

theorem getBit_or_word (words : List Nat) (idx x j : Nat) (h : idx < words.length) :
    getBit (or_word words idx x) j
      = (getBit words j || (decide (j / 32 = idx) && x.testBit (j % 32))) := by
  unfold getBit or_word
  by_cases hj : j / 32 = idx
  · subst hj
    have h1 : (j / 32) < (words.set (j / 32) (words.getD (j / 32) 0 ||| x)).length := by
      simpa using h
    rw [List.getD_eq_getElem _ _ h1, List.getElem_set]
    simp [Nat.testBit_or]
  · by_cases h2 : j / 32 < words.length
    · have h1 : (j / 32) < (words.set idx (words.getD idx 0 ||| x)).length := by
        simpa using h2
      rw [List.getD_eq_getElem _ _ h1, List.getElem_set, List.getD_eq_getElem _ _ h2]
      have hne : ¬ idx = j / 32 := fun e => hj e.symm
      simp [hne, hj]
    · have h1 : ¬ (j / 32) < (words.set idx (words.getD idx 0 ||| x)).length := by
        simpa using h2
      rw [List.getD_eq_default _ _ (Nat.le_of_not_lt h1),
        List.getD_eq_default _ _ (Nat.le_of_not_lt h2)]
      simp [hj]

theorem testBit_single (v i s m : Nat) :
    (((v >>> i) &&& 1) <<< s).testBit m = (decide (m = s) && v.testBit i) := by
  rw [Nat.testBit_shiftLeft, Nat.testBit_and, Nat.testBit_shiftRight]
  by_cases h : m = s
  · subst h
    simp
  · by_cases h2 : m ≥ s
    · have h3 : m - s ≠ 0 := by omega
      have h4 : (1 : Nat).testBit (m - s) = false := by
        apply Nat.testBit_lt_two_pow
        calc 1 < 2 ^ 1 := by norm_num
          _ ≤ 2 ^ (m - s) := Nat.pow_le_pow_right (by norm_num) (by omega)
      simp [h, h4]
    · simp [h, h2]

theorem write_bit_spec (v i : Nat) (w : List Nat) (p : Nat) (hp : p < 32 * w.length) :
    (write_bit v (w, p) i).1.length = w.length ∧
    (write_bit v (w, p) i).2 = (p + 1) % 2 ^ 32 ∧
    ∀ j, getBit (write_bit v (w, p) i).1 j = (getBit w j || (decide (j = p) && v.testBit i)) := by
  refine ⟨by simp [write_bit, length_or_word], rfl, ?_⟩
  intro j
  have hidx : p / 32 < w.length := by omega
  simp only [write_bit]
  rw [getBit_or_word _ _ _ _ hidx]
  have hand : p &&& 31 = p % 32 := Nat.and_pow_two_sub_one_eq_mod p 5
  rw [hand, testBit_single v i (p % 32) (j % 32)]
  by_cases hj : j = p
  · subst hj
    simp
  · have : ¬ (j / 32 = p / 32 ∧ j % 32 = p % 32) := by
      intro h
      apply hj
      omega
    by_cases h1 : j / 32 = p / 32
    · have h2 : ¬ j % 32 = p % 32 := fun e => this ⟨h1, e⟩
      simp [hj, h2]
    · simp [hj, h1]

theorem write_component_spec (v : Nat) :
    ∀ (n : Nat) (w : List Nat) (p : Nat), p + n ≤ 2 ^ 32 → p + n ≤ 32 * w.length →
      (write_component n (w, p % 2 ^ 32) v).1.length = w.length ∧
      (write_component n (w, p % 2 ^ 32) v).2 = (p + n) % 2 ^ 32 ∧
      ∀ j, getBit (write_component n (w, p % 2 ^ 32) v).1 j
        = (getBit w j || (decide (p ≤ j ∧ j < p + n) && v.testBit (j - p))) := by
  intro n
  induction n with
  | zero =>
    intro w p _ _
    refine ⟨rfl, rfl, ?_⟩
    intro j
    have : ¬ (p ≤ j ∧ j < p + 0) := by omega
    simp [write_component, this]
  | succ n ih =>
    intro w p h1 h2
    obtain ⟨hl, ho, hb⟩ := ih w p (by omega) (by omega)
    have hfold : write_component (n + 1) (w, p % 2 ^ 32) v
        = write_bit v (write_component n (w, p % 2 ^ 32) v) n := by
      simp [write_component, List.range_succ, List.foldl_append]
    have hst : write_component n (w, p % 2 ^ 32) v
        = ((write_component n (w, p % 2 ^ 32) v).1, p + n) := by
      rw [← Nat.mod_eq_of_lt (show p + n < 2 ^ 32 by omega), ← ho]
    rw [hfold, hst]
    obtain ⟨gl, go, gb⟩ := write_bit_spec v n (write_component n (w, p % 2 ^ 32) v).1 (p + n)
      (by rw [hl]; omega)
    refine ⟨by rw [gl, hl], by rw [go]; rfl, ?_⟩
    intro j
    rw [gb j, hb j]
    by_cases hj : j = p + n
    · subst hj
      have e1 : ¬ (p ≤ p + n ∧ p + n < p + n) := by omega
      have e2 : (p ≤ p + n ∧ p + n < p + (n + 1)) := by omega
      simp [e1, e2]
    · by_cases hr : p ≤ j ∧ j < p + n
      · have e2 : (p ≤ j ∧ j < p + (n + 1)) := by omega
        simp [hj, hr, e2]
      · have e2 : ¬ (p ≤ j ∧ j < p + (n + 1)) := by omega
        simp [hj, hr, e2]

/-- The state of `write_bits` after the first `c` components. -/
theorem write_bits_loop_spec (values : List Nat) (b : Nat) (w : List Nat) (o : Nat) :
    ∀ (c : Nat), o + c * b ≤ 2 ^ 32 → o + c * b ≤ 32 * w.length →
      let r := (List.range c).foldl
        (fun st k => write_component b st (values.getD k 0)) (w, o % 2 ^ 32)
      r.1.length = w.length ∧ r.2 = (o + c * b) % 2 ^ 32 ∧
      ∀ j, getBit r.1 j
        = (getBit w j || (decide (o ≤ j ∧ j < o + c * b)
            && (values.getD ((j - o) / b) 0).testBit ((j - o) % b))) := by
  intro c
  induction c with
  | zero =>
    intro _ _
    refine ⟨rfl, by simp, ?_⟩
    intro j
    have : ¬ (o ≤ j ∧ j < o + 0 * b) := by omega
    simp [this]
  | succ c ih =>
    intro h1 h2
    have hcb : (c + 1) * b = c * b + b := by ring
    obtain ⟨hl, ho, hb⟩ := ih (by rw [hcb] at h1; omega) (by rw [hcb] at h2; omega)
    simp only [List.range_succ, List.foldl_append, List.foldl_cons, List.foldl_nil]
    generalize (List.range c).foldl
        (fun st k => write_component b st (values.getD k 0)) (w, o % 2 ^ 32) = r at hl ho hb
    obtain ⟨rw', ro⟩ := r
    simp only at hl ho hb
    subst ho
    have hA : o + c * b + b ≤ 2 ^ 32 := by rw [hcb] at h1; omega
    have hB : o + c * b + b ≤ 32 * rw'.length := by rw [hl]; rw [hcb] at h2; omega
    obtain ⟨gl, go, gb⟩ := write_component_spec (values.getD c 0) b rw' (o + c * b) hA hB
    refine ⟨by rw [gl, hl], by rw [go, hcb]; congr 1; ring, ?_⟩
    intro j
    rw [gb j, hb j, hcb]
    clear gb hb go gl ih hA hB h1 h2 hl
    by_cases hlo : o ≤ j ∧ j < o + c * b
    · have e1 : ¬ (o + c * b ≤ j ∧ j < o + c * b + b) := by omega
      have e2 : o ≤ j ∧ j < o + (c * b + b) := by omega
      simp [hlo, e1, e2]
    · by_cases hhi : o + c * b ≤ j ∧ j < o + c * b + b
      · have e2 : o ≤ j ∧ j < o + (c * b + b) := by omega
        have hbpos : 0 < b := by omega
        have hq : (j - o) / b = c := by
          apply Nat.div_eq_of_lt_le
          · omega
          · rw [Nat.succ_mul]
            omega
        have hm : (j - o) % b = j - (o + c * b) := by
          have := Nat.div_add_mod (j - o) b
          rw [hq] at this
          have h3 : b * c = c * b := Nat.mul_comm _ _
          omega
        have e3 : ¬ j < o + c * b := by omega
        simp [hhi, e2, e3, hq, hm]
      · have e2 : ¬ (o ≤ j ∧ j < o + (c * b + b)) := by omega
        simp [hlo, hhi, e2]

/-- Bit-level description of `write_bits`: inside the buffer and below the
32-bit limit of the cursor, the call ORs bit `i` of component `c` into linear
bit `e*C*b + c*b + i` and touches nothing else. -/
theorem getBit_write_bits_of_nowrap (words values : List Nat) (C e b : Nat)
    (hfit : (e + 1) * C * b ≤ 32 * words.length) (hwrap : (e + 1) * C * b ≤ 2 ^ 32) (j : Nat) :
    getBit (write_bits words values C e b) j
      = (getBit words j || (decide (e * C * b ≤ j ∧ j < (e + 1) * C * b)
          && (values.getD ((j - e * C * b) / b) 0).testBit ((j - e * C * b) % b))) := by
  have hexp : (e + 1) * C * b = e * C * b + C * b := by ring
  have h := write_bits_loop_spec values b words (e * C * b) C (by omega) (by omega)
  simp only at h
  unfold write_bits
  rw [h.2.2 j, hexp]

theorem getBit_write_bits (words values : List Nat) (C e b : Nat)
    (hfit : (e + 1) * C * b ≤ 32 * words.length) (hlen : words.length ≤ 2 ^ 27) (j : Nat) :
    getBit (write_bits words values C e b) j
      = (getBit words j || (decide (e * C * b ≤ j ∧ j < (e + 1) * C * b)
          && (values.getD ((j - e * C * b) / b) 0).testBit ((j - e * C * b) % b))) :=
  getBit_write_bits_of_nowrap words values C e b hfit (by omega) j

theorem length_write_bits (words values : List Nat) (C e b : Nat)
    (hfit : (e + 1) * C * b ≤ 32 * words.length) (hlen : words.length ≤ 2 ^ 27) :
    (write_bits words values C e b).length = words.length := by
  have hexp : (e + 1) * C * b = e * C * b + C * b := by ring
  have h := write_bits_loop_spec values b words (e * C * b) C (by omega) (by omega)
  simp only at h
  unfold write_bits
  exact h.1

theorem field_index (b c i : Nat) (hi : i < b) :
    (c * b + i) / b = c ∧ (c * b + i) % b = i := by
  have hb : 0 < b := by omega
  constructor
  · rw [Nat.add_comm, Nat.add_mul_div_right _ _ hb, Nat.div_eq_of_lt hi, Nat.zero_add]
  · rw [Nat.add_comm, Nat.add_mul_mod_self_right, Nat.mod_eq_of_lt hi]

theorem field_in_range (C b c i : Nat) (hc : c < C) (hi : i < b) : c * b + i < C * b := by
  have h1 : (c + 1) * b ≤ C * b := Nat.mul_le_mul_right b hc
  rw [Nat.succ_mul] at h1
  omega

/-- C1. `write_bits` places data exactly where the spec says.  For a
zero-initialised word buffer that contains the bit range
`[e*C*b, (e+1)*C*b)`, with the range below the `2^32` limit of the `unsigned`
bit cursor, after `write_bits` the buffer bit at linear position
`e*C*b + c*b + i` (linear bit `j` lives in word `j/32` at bit `j mod 32`)
equals bit `i` of `v[c]` for every `c < C` and `i < b`, and every buffer bit
outside `[e*C*b, (e+1)*C*b)` is unchanged. -/
theorem write_bits_places_bits (words values : List Nat) (C e b : Nat)
    (hzero : ∀ w ∈ words, w = 0)
    (hfit : (e + 1) * C * b ≤ 32 * words.length) (hwrap : (e + 1) * C * b ≤ 2 ^ 32) :
    (∀ c i, c < C → i < b →
      getBit (write_bits words values C e b) (e * C * b + c * b + i)
        = (values.getD c 0).testBit i) ∧
    (∀ j, ¬ (e * C * b ≤ j ∧ j < (e + 1) * C * b) →
      getBit (write_bits words values C e b) j = getBit words j) := by
  have hz : ∀ j, getBit words j = false := by
    intro j
    unfold getBit
    by_cases h : j / 32 < words.length
    · rw [List.getD_eq_getElem _ _ h, hzero _ (List.getElem_mem h)]
      simp
    · rw [List.getD_eq_default _ _ (Nat.le_of_not_lt h)]
      simp
  constructor
  · intro c i hc hi
    rw [getBit_write_bits_of_nowrap words values C e b hfit hwrap, hz]
    have hr := field_in_range C b c i hc hi
    have hexp : (e + 1) * C * b = e * C * b + C * b := by ring
    have hin : e * C * b ≤ e * C * b + c * b + i ∧ e * C * b + c * b + i < (e + 1) * C * b := by
      rw [hexp]; omega
    have hsub : e * C * b + c * b + i - e * C * b = c * b + i := by omega
    obtain ⟨hq, hm⟩ := field_index b c i hi
    simp [hin, hsub, hq, hm]
  · intro j hj
    rw [getBit_write_bits_of_nowrap words values C e b hfit hwrap]
    simp [hj]

/-- Witness for C1: two 3-bit components written as element 1 of a two-word
buffer. -/
theorem write_bits_places_bits_witness :
    (∀ w ∈ [0, 0], w = 0) ∧ (1 + 1) * 2 * 3 ≤ 32 * [0, 0].length ∧ (1 + 1) * 2 * 3 ≤ 2 ^ 32 ∧
    getBit (write_bits [0, 0] [5, 3] 2 1 3) (1 * 2 * 3 + 1 * 3 + 0) = ([5, 3].getD 1 0).testBit 0 :=
  ⟨by decide, by decide, by decide,
    (write_bits_places_bits [0, 0] [5, 3] 2 1 3 (by decide) (by decide) (by decide)).1 1 0
      (by decide) (by decide)⟩

theorem read_bits_succ (words : List Nat) (off n : Nat) :
    read_bits words off (n + 1)
      = read_bits words off n + (if getBit words (off + n) then 2 ^ n else 0) := by
  simp [read_bits, List.range_succ, List.foldl_append]

/-- Reading back a field whose bits are those of `v` gives `v` modulo the
field width. -/
theorem read_bits_eq_mod (words : List Nat) (off v : Nat) :
    ∀ n, (∀ k, k < n → getBit words (off + k) = v.testBit k) →
      read_bits words off n = v % 2 ^ n := by
  intro n
  induction n with
  | zero =>
    intro _
    simp [read_bits, Nat.mod_one]
  | succ n ih =>
    intro h
    rw [read_bits_succ, ih (fun k hk => h k (by omega)), h n (by omega), Nat.mod_pow_succ]
    have hb := Nat.toNat_testBit v n
    cases hv : v.testBit n
    · rw [hv] at hb
      simp only [Bool.toNat_false] at hb
      simp [← hb]
    · rw [hv] at hb
      simp only [Bool.toNat_true] at hb
      simp [← hb]

theorem read_bits_congr (w1 w2 : List Nat) (o1 o2 n : Nat)
    (h : ∀ k, k < n → getBit w1 (o1 + k) = getBit w2 (o2 + k)) :
    read_bits w1 o1 n = read_bits w2 o2 n := by
  induction n with
  | zero => simp [read_bits]
  | succ n ih =>
    rw [read_bits_succ, read_bits_succ, ih (fun k hk => h k (by omega)), h n (by omega)]

theorem getBit_take (words : List Nat) (m j : Nat) (h : j < 32 * m) :
    getBit (words.take m) j = getBit words j := by
  unfold getBit
  have hj : j / 32 < m := by omega
  by_cases hl : j / 32 < words.length
  · have h1 : j / 32 < (words.take m).length := by
      rw [List.length_take]; omega
    rw [List.getD_eq_getElem _ _ h1, List.getD_eq_getElem _ _ hl, List.getElem_take]
  · have h1 : (words.take m).length ≤ j / 32 := by
      rw [List.length_take]; omega
    rw [List.getD_eq_default _ _ h1, List.getD_eq_default _ _ (Nat.le_of_not_lt hl)]

theorem getBit_replicate_zero (n j : Nat) : getBit (List.replicate n 0) j = false := by
  unfold getBit
  by_cases h : j / 32 < (List.replicate n 0).length
  · rw [List.getD_eq_getElem _ _ h]
    simp
  · rw [List.getD_eq_default _ _ (Nat.le_of_not_lt h)]
    simp

/-- The element loop shared by `encode_index_stream` and the bitplane
encoders: `for i < count: write_bits(p, values[i].data, C, i, b)` on a scratch
buffer `p0`.  Fields of the elements written so far hold the element's
component bits; everything from bit `count*C*b` on is still as in `p0`. -/
theorem element_loop_spec (vals : Nat → List Nat) (C b : Nat) (p0 : List Nat)
    (hlen : p0.length ≤ 2 ^ 27) (hz : ∀ j, getBit p0 j = false) :
    ∀ n, n * C * b ≤ 32 * p0.length →
      let r := (List.range n).foldl (fun p i => write_bits p (vals i) C i b) p0
      r.length = p0.length ∧
      (∀ j, n * C * b ≤ j → getBit r j = false) ∧
      (∀ i c k, i < n → c < C → k < b →
        getBit r (i * C * b + c * b + k) = ((vals i).getD c 0).testBit k) := by
  intro n
  induction n with
  | zero =>
    intro _
    refine ⟨rfl, fun j _ => hz j, ?_⟩
    intro i c k hi
    omega
  | succ n ih =>
    intro hfit
    have hexp : (n + 1) * C * b = n * C * b + C * b := by ring
    obtain ⟨hl, hhi, hlo⟩ := ih (by omega)
    simp only [List.range_succ, List.foldl_append, List.foldl_cons, List.foldl_nil]
    generalize (List.range n).foldl (fun p i => write_bits p (vals i) C i b) p0 = r
      at hl hhi hlo
    have hfit2 : (n + 1) * C * b ≤ 32 * r.length := by rw [hl]; exact hfit
    have hlen2 : r.length ≤ 2 ^ 27 := by rw [hl]; exact hlen
    refine ⟨by rw [length_write_bits r (vals n) C n b hfit2 hlen2, hl], ?_, ?_⟩
    · intro j hj
      rw [getBit_write_bits r (vals n) C n b hfit2 hlen2, hhi j (by omega)]
      have : ¬ (n * C * b ≤ j ∧ j < (n + 1) * C * b) := by omega
      simp [this]
    · intro i c k hi hc hk
      have hr := field_in_range C b c k hc hk
      rw [getBit_write_bits r (vals n) C n b hfit2 hlen2]
      by_cases hin : i = n
      · subst hin
        rw [hhi _ (by omega)]
        have hrange : i * C * b ≤ i * C * b + c * b + k ∧
            i * C * b + c * b + k < (i + 1) * C * b := by rw [hexp]; omega
        have hsub : i * C * b + c * b + k - i * C * b = c * b + k := by omega
        obtain ⟨hq, hm⟩ := field_index b c k hk
        simp [hrange, hsub, hq, hm]
      · have hi2 : i < n := by omega
        have hmono : (i + 1) * C * b ≤ n * C * b := by
          have : (i + 1) * (C * b) ≤ n * (C * b) := Nat.mul_le_mul_right _ hi2
          simpa [Nat.mul_assoc] using this
        have hexp2 : (i + 1) * C * b = i * C * b + C * b := by ring
        have hout : ¬ (n * C * b ≤ i * C * b + c * b + k ∧
            i * C * b + c * b + k < (n + 1) * C * b) := by omega
        rw [hlo i c k hi2 hc hk]
        simp [hout]

/-- What `encode_index_stream` appends, for any scratch contents `stream_buffer`
whose first `count <= 64` triples have components below 32. -/
theorem encode_index_stream_spec (payload : List Nat) (sb : List (List Nat)) (n : Nat)
    (hn : n ≤ 64) (hsmall : ∀ i k, i < n → k < 3 → (sb.getD i []).getD k 0 < 32) :
    ∃ appended : List Nat,
      encode_index_stream payload sb n = payload ++ appended ∧
      appended.length = (15 * n + 31) / 32 ∧
      (∀ i k, i < n → k < 3 →
        read_bits appended (15 * i + 5 * k) 5 = (sb.getD i []).getD k 0) := by
  have hspec := element_loop_spec (fun i => sb.getD i []) 3 5 (List.replicate 30 0)
    (by simp) (getBit_replicate_zero 30) n (by simp; omega)
  simp only at hspec
  obtain ⟨hl, _, hlo⟩ := hspec
  have hm : (5 * 3 * n + 31) % 2 ^ 32 / 32 = (15 * n + 31) / 32 := by
    rw [Nat.mod_eq_of_lt (by omega)]
  refine ⟨((List.range n).foldl (fun p i => write_bits p (sb.getD i []) 3 i 5)
      (List.replicate 30 0)).take ((15 * n + 31) / 32), ?_, ?_, ?_⟩
  · simp only [encode_index_stream, IBOBits, PrimitivesPerChunk]
    rw [hm]
  · rw [List.length_take, hl]
    simp only [List.length_replicate]
    omega
  · intro i k hi hk
    have hv := hsmall i k hi hk
    rw [read_bits_eq_mod _ _ ((sb.getD i []).getD k 0) 5]
    · exact Nat.mod_eq_of_lt hv
    · intro t ht
      rw [getBit_take _ _ _ (by omega)]
      have := hlo i k t hi hk ht
      have hpos : i * 3 * 5 + k * 5 + t = 15 * i + 5 * k + t := by omega
      rw [hpos] at this
      exact this

/-- C3. Primitive-stream decode undoes encode: for every list of `n <= 64`
index triples whose components are all below 32, `encode_index_stream` appends
exactly `ceil(15*n/32)` words, and the 5-bit field at bit offset `15*i + 5*k`
of those words equals component `k` of triple `i` (no base is subtracted); the
single triple `(0,1,2)` is appended as the one word `0x820`. -/
theorem encode_index_stream_roundtrip (payload : List Nat) (tris : List (List Nat))
    (hn : tris.length ≤ 64) (htri : ∀ t ∈ tris, t.length = 3 ∧ ∀ x ∈ t, x < 32) :
    (∃ appended : List Nat,
      encode_index_stream payload tris tris.length = payload ++ appended ∧
      appended.length = (15 * tris.length + 31) / 32 ∧
      15 * tris.length ≤ 32 * appended.length ∧
      32 * appended.length < 15 * tris.length + 32 ∧
      (∀ i k, i < tris.length → k < 3 →
        read_bits appended (15 * i + 5 * k) 5 = (tris.getD i []).getD k 0)) ∧
    encode_index_stream [] [[0, 1, 2]] 1 = [0x820] := by
  constructor
  · have hsmall : ∀ i k, i < tris.length → k < 3 → (tris.getD i []).getD k 0 < 32 := by
      intro i k hi hk
      rw [List.getD_eq_getElem _ _ hi]
      obtain ⟨h3, hx⟩ := htri _ (List.getElem_mem hi)
      have hk3 : k < (tris[i]).length := by omega
      rw [List.getD_eq_getElem _ _ hk3]
      exact hx _ (List.getElem_mem hk3)
    obtain ⟨app, h1, h2, h3⟩ := encode_index_stream_spec payload tris tris.length hn hsmall
    exact ⟨app, h1, h2, by omega, by omega, h3⟩
  · decide

/-- Witness for C3: two triangles. -/
theorem encode_index_stream_roundtrip_witness :
    [[0, 1, 2], [2, 1, 31]].length ≤ 64 ∧
    (∀ t ∈ [[0, 1, 2], [2, 1, 31]], t.length = 3 ∧ ∀ x ∈ t, x < 32) ∧
    (∃ appended : List Nat,
      encode_index_stream [7] [[0, 1, 2], [2, 1, 31]] [[0, 1, 2], [2, 1, 31]].length
        = [7] ++ appended ∧
      appended.length = (15 * [[0, 1, 2], [2, 1, 31]].length + 31) / 32 ∧
      15 * [[0, 1, 2], [2, 1, 31]].length ≤ 32 * appended.length ∧
      32 * appended.length < 15 * [[0, 1, 2], [2, 1, 31]].length + 32 ∧
      (∀ i k, i < [[0, 1, 2], [2, 1, 31]].length → k < 3 →
        read_bits appended (15 * i + 5 * k) 5 = ([[0, 1, 2], [2, 1, 31]].getD i []).getD k 0)) :=
  ⟨by decide, by decide,
    (encode_index_stream_roundtrip [7] [[0, 1, 2], [2, 1, 31]] (by decide) (by decide)).1⟩

/-! ## Running minima and maxima of `encode_attribute_stream` -/

/-- A left fold with a selecting operation (`min` or `max`) returns the start
value or one of the folded values, and is related to all of them. -/
theorem foldl_sel {β α : Type} (R : α → α → Prop) (op : α → α → α) (g : β → α)
    (hrefl : ∀ a, R a a) (htr : ∀ a b c, R a b → R b c → R a c)
    (hsel : ∀ a b, op a b = a ∨ op a b = b)
    (hl : ∀ a b, R (op a b) a) (hr : ∀ a b, R (op a b) b) :
    ∀ (l : List β) (a0 : α),
      R (l.foldl (fun a p => op a (g p)) a0) a0 ∧
      (∀ p ∈ l, R (l.foldl (fun a p => op a (g p)) a0) (g p)) ∧
      (l.foldl (fun a p => op a (g p)) a0 = a0 ∨
        ∃ p ∈ l, l.foldl (fun a p => op a (g p)) a0 = g p) := by
  intro l
  induction l with
  | nil =>
    intro a0
    exact ⟨hrefl a0, by simp, Or.inl rfl⟩
  | cons p l ih =>
    intro a0
    obtain ⟨h1, h2, h3⟩ := ih (op a0 (g p))
    simp only [List.foldl_cons]
    refine ⟨htr _ _ _ h1 (hl _ _), ?_, ?_⟩
    · intro q hq
      rcases List.mem_cons.1 hq with rfl | hq
      · exact htr _ _ _ h1 (hr _ _)
      · exact h2 q hq
    · rcases h3 with h3 | ⟨q, hq, h3⟩
      · rcases hsel a0 (g p) with h | h
        · left; rw [h3, h]
        · right; exact ⟨p, List.mem_cons_self _ _, by rw [h3, h]⟩
      · right; exact ⟨q, List.mem_cons_of_mem _ hq, h3⟩

/-- A fold of componentwise operations over vectors of one length is the fold
of the operation in every component. -/
theorem foldl_zipWith_getD {α : Type} (op : α → α → α) (d : α) (C : Nat) :
    ∀ (attrs : List (List α)) (acc : List α), acc.length = C →
      (∀ p ∈ attrs, p.length = C) →
      (attrs.foldl (fun acc p => List.zipWith op acc p) acc).length = C ∧
      ∀ k, k < C →
        (attrs.foldl (fun acc p => List.zipWith op acc p) acc).getD k d
          = attrs.foldl (fun a p => op a (p.getD k d)) (acc.getD k d) := by
  intro attrs
  induction attrs with
  | nil =>
    intro acc hacc _
    exact ⟨hacc, fun k _ => rfl⟩
  | cons p attrs ih =>
    intro acc hacc hlen
    have hp : p.length = C := hlen p (List.mem_cons_self _ _)
    have hz : (List.zipWith op acc p).length = C := by
      rw [List.length_zipWith, hacc, hp]; simp
    obtain ⟨h1, h2⟩ := ih (List.zipWith op acc p) hz
      (fun q hq => hlen q (List.mem_cons_of_mem _ hq))
    simp only [List.foldl_cons]
    refine ⟨h1, ?_⟩
    intro k hk
    rw [h2 k hk]
    congr 1
    rw [List.getD_eq_getElem _ _ (by rw [hz]; exact hk),
      List.getD_eq_getElem _ _ (by rw [hacc]; exact hk),
      List.getD_eq_getElem _ _ (by rw [hp]; exact hk), List.getElem_zipWith]

/-- Componentwise running minimum started from a top value: every component
of the result is attained by some vector and bounds all of them from below. -/
theorem col_min_spec {α : Type} [LinearOrder α] (attrs : List (List α)) (C : Nat) (top d : α)
    (hne : attrs ≠ []) (hlen : ∀ p ∈ attrs, p.length = C)
    (htop : ∀ p ∈ attrs, ∀ k, k < C → p.getD k d ≤ top) :
    (attrs.foldl (fun acc p => List.zipWith min acc p) (List.replicate C top)).length = C ∧
    ∀ k, k < C →
      (∃ p ∈ attrs, p.getD k d
        = (attrs.foldl (fun acc p => List.zipWith min acc p) (List.replicate C top)).getD k d) ∧
      (∀ q ∈ attrs,
        (attrs.foldl (fun acc p => List.zipWith min acc p) (List.replicate C top)).getD k d
          ≤ q.getD k d) := by
  obtain ⟨h1, h2⟩ := foldl_zipWith_getD (min : α → α → α) d C attrs (List.replicate C top)
    (by simp) hlen
  refine ⟨h1, ?_⟩
  intro k hk
  rw [h2 k hk]
  have hinit : (List.replicate C top).getD k d = top := by
    rw [List.getD_eq_getElem _ _ (by simpa using hk)]; simp
  rw [hinit]
  obtain ⟨_, g2, g3⟩ := foldl_sel (fun a b : α => a ≤ b) min (fun p : List α => p.getD k d)
    (fun a => le_refl a) (fun a b c => le_trans) (fun a b => min_choice a b)
    (fun a b => min_le_left a b) (fun a b => min_le_right a b) attrs top
  refine ⟨?_, g2⟩
  rcases g3 with g3 | ⟨p, hp, g3⟩
  · obtain ⟨p, hp⟩ := List.exists_mem_of_ne_nil attrs hne
    refine ⟨p, hp, ?_⟩
    apply le_antisymm
    · rw [g3]; exact htop p hp k hk
    · exact g2 p hp
  · exact ⟨p, hp, g3.symm⟩

/-- Componentwise running maximum started from a bottom value. -/
theorem col_max_spec {α : Type} [LinearOrder α] (attrs : List (List α)) (C : Nat) (bot d : α)
    (hne : attrs ≠ []) (hlen : ∀ p ∈ attrs, p.length = C)
    (hbot : ∀ p ∈ attrs, ∀ k, k < C → bot ≤ p.getD k d) :
    (attrs.foldl (fun acc p => List.zipWith max acc p) (List.replicate C bot)).length = C ∧
    ∀ k, k < C →
      (∃ p ∈ attrs, p.getD k d
        = (attrs.foldl (fun acc p => List.zipWith max acc p) (List.replicate C bot)).getD k d) ∧
      (∀ q ∈ attrs, q.getD k d
        ≤ (attrs.foldl (fun acc p => List.zipWith max acc p) (List.replicate C bot)).getD k d) := by
  obtain ⟨h1, h2⟩ := foldl_zipWith_getD (max : α → α → α) d C attrs (List.replicate C bot)
    (by simp) hlen
  refine ⟨h1, ?_⟩
  intro k hk
  rw [h2 k hk]
  have hinit : (List.replicate C bot).getD k d = bot := by
    rw [List.getD_eq_getElem _ _ (by simpa using hk)]; simp
  rw [hinit]
  obtain ⟨_, g2, g3⟩ := foldl_sel (fun a b : α => b ≤ a) max (fun p : List α => p.getD k d)
    (fun a => le_refl a) (fun a b c h1 h2 => le_trans h2 h1) (fun a b => max_choice a b)
    (fun a b => le_max_left a b) (fun a b => le_max_right a b) attrs bot
  refine ⟨?_, g2⟩
  rcases g3 with g3 | ⟨p, hp, g3⟩
  · obtain ⟨p, hp⟩ := List.exists_mem_of_ne_nil attrs hne
    refine ⟨p, hp, ?_⟩
    apply le_antisymm
    · exact g2 p hp
    · rw [g3]; exact hbot p hp k hk
  · exact ⟨p, hp, g3.symm⟩

/-! ## Scalar arithmetic of the encoder -/

theorem bit_length_spec : ∀ (fuel x : Nat), x < 2 ^ fuel →
    ∀ b, x < 2 ^ b ↔ bit_length fuel x ≤ b := by
  intro fuel
  induction fuel with
  | zero =>
    intro x hx b
    have h0 : x = 0 := by simpa using hx
    subst h0
    simp [bit_length]
  | succ fuel ih =>
    intro x hx b
    by_cases h0 : x = 0
    · subst h0
      simp [bit_length]
    · have hhalf : x / 2 < 2 ^ fuel := by
        rw [Nat.div_lt_iff_lt_mul (by norm_num)]
        rw [Nat.pow_succ] at hx
        exact hx
      simp only [bit_length, h0, if_false]
      cases b with
      | zero =>
        simp only [Nat.pow_zero]
        omega
      | succ b =>
        rw [Nat.pow_succ, ← Nat.div_lt_iff_lt_mul (by norm_num), ih (x / 2) hhalf b]
        omega

/-- The value `compute_required_bits_unsigned delta` is the least `b` with
`delta < 2^b`, i.e. `ceil(log2(delta + 1))`. -/
theorem compute_required_bits_unsigned_spec (d : Nat) (hd : d < 2 ^ 32) (b : Nat) :
    d < 2 ^ b ↔ compute_required_bits_unsigned d ≤ b := by
  have h := bit_length_spec 32 d hd
  have h32 : bit_length 32 d ≤ 32 := (h 32).1 hd
  have hmod : d % 2 ^ 32 = d := Nat.mod_eq_of_lt hd
  unfold compute_required_bits_unsigned leading_zeroes
  rw [hmod]
  by_cases h0 : d = 0
  · subst h0
    simp
  · simp only [h0, if_false]
    rw [h b]
    omega

theorem max_component_spec (l : List Nat) :
    (∀ x ∈ l, x ≤ max_component l) ∧ (max_component l = 0 ∨ max_component l ∈ l) := by
  obtain ⟨_, h2, h3⟩ := foldl_sel (fun a b : Nat => b ≤ a) max (fun p : Nat => p)
    (fun a => le_refl a) (fun a b c h1 h2 => le_trans h2 h1) (fun a b => max_choice a b)
    (fun a b => le_max_left a b) (fun a b => le_max_right a b) l 0
  refine ⟨h2, ?_⟩
  rcases h3 with h3 | ⟨p, hp, h3⟩
  · exact Or.inl h3
  · right
    unfold max_component
    rw [show l.foldl max 0 = l.foldl (fun a p => max a p) 0 from rfl, h3]
    exact hp

theorem to_signed_range (w x : Nat) (hw : w = 8 ∨ w = 16) :
    -(2 : Int) ^ (w - 1) ≤ to_signed w x ∧ to_signed w x ≤ (2 : Int) ^ (w - 1) - 1 := by
  rcases hw with rfl | rfl <;> simp only [to_signed] <;> norm_num <;> split_ifs <;> omega

theorem to_unsigned_to_signed (w x : Nat) (hw : w = 8 ∨ w = 16) (hx : x < 2 ^ w) :
    to_unsigned w (to_signed w x) = x := by
  rcases hw with rfl | rfl <;> simp only [to_signed, to_unsigned] <;> norm_num at hx ⊢ <;>
    split_ifs <;> omega

theorem sub_wrap_lt (w a b : Nat) : sub_wrap w a b < 2 ^ w :=
  Nat.mod_lt _ (Nat.pos_pow_of_pos _ (by norm_num))

theorem sub_wrap_unsigned (w a b : Nat) (hw : w = 8 ∨ w = 16) (ha : a < 2 ^ w) (hb : b ≤ a) :
    sub_wrap w a b = a - b := by
  rcases hw with rfl | rfl <;> simp only [sub_wrap] <;> norm_num at ha ⊢ <;> omega

theorem sub_wrap_signed (w x y : Nat) (hw : w = 8 ∨ w = 16) (hx : x < 2 ^ w) (hy : y < 2 ^ w)
    (hle : to_signed w y ≤ to_signed w x) :
    ((sub_wrap w x y : Nat) : Int) = to_signed w x - to_signed w y := by
  rcases hw with rfl | rfl <;> simp only [to_signed, sub_wrap] at hle ⊢ <;>
    norm_num at hx hy hle ⊢ <;> split_ifs at hle ⊢ <;> omega

theorem sub_wrap_add (w x y : Nat) (hw : w = 8 ∨ w = 16) (hx : x < 2 ^ w) (hy : y < 2 ^ w) :
    (sub_wrap w x y + y) % 2 ^ w = x := by
  rcases hw with rfl | rfl <;> simp only [sub_wrap] <;> norm_num at hx hy ⊢ <;> omega

/-! ## The statistics of a chunk -/

theorem components_pos (T : AttrType) : 0 < T.components := by
  cases T <;> decide

theorem bits_per_component_cases (T : AttrType) :
    T.bits_per_component = 8 ∨ T.bits_per_component = 16 := by
  cases T <;> simp [AttrType.bits_per_component]

theorem getD_zipWith_of_lt {α β γ : Type} (f : α → β → γ) (l1 : List α) (l2 : List β)
    (C k : Nat) (h1 : l1.length = C) (h2 : l2.length = C) (hk : k < C) (d1 : α) (d2 : β) (d : γ) :
    (List.zipWith f l1 l2).getD k d = f (l1.getD k d1) (l2.getD k d2) := by
  have hz : (List.zipWith f l1 l2).length = C := by
    rw [List.length_zipWith, h1, h2]; simp
  rw [List.getD_eq_getElem _ _ (by rw [hz]; exact hk),
    List.getD_eq_getElem _ _ (by rw [h1]; exact hk),
    List.getD_eq_getElem _ _ (by rw [h2]; exact hk), List.getElem_zipWith]

theorem exists_getD_of_mem {α : Type} (l : List α) (C : Nat) (hl : l.length = C) (d x : α)
    (hx : x ∈ l) : ∃ k, k < C ∧ l.getD k d = x := by
  obtain ⟨k, hk, hkx⟩ := List.getElem_of_mem hx
  exact ⟨k, by omega, by rw [List.getD_eq_getElem _ _ hk, hkx]⟩

/-- The unsigned running minimum and maximum and `diff_max_unsigned`. -/
theorem chunk_stats_unsigned (T : AttrType) (attrs : List (List Nat)) (hne : attrs ≠ [])
    (hwf : WellFormedAttrs T attrs) :
    (chunk_stats T attrs).ulo.length = T.components ∧
    (∀ k, k < T.components →
      IsColumnMin as_unsigned k attrs ((chunk_stats T attrs).ulo.getD k 0)) ∧
    IsMaxDelta as_unsigned T.components attrs (chunk_stats T attrs).diff_max_unsigned ∧
    (chunk_stats T attrs).diff_max_unsigned < 2 ^ T.bits_per_component := by
  have hw := bits_per_component_cases T
  have hC := components_pos T
  obtain ⟨hlo_len, hlo⟩ := col_min_spec attrs T.components (2 ^ T.bits_per_component - 1) 0 hne
    (fun p hp => (hwf p hp).1)
    (fun p hp k hk => by have := (hwf p hp).2 k hk; omega)
  obtain ⟨hhi_len, hhi⟩ := col_max_spec attrs T.components 0 0 hne
    (fun p hp => (hwf p hp).1) (fun p hp k hk => Nat.zero_le _)
  have hulo : (chunk_stats T attrs).ulo = attrs.foldl (fun acc p => List.zipWith min acc p)
      (List.replicate T.components (2 ^ T.bits_per_component - 1)) := rfl
  have hdm : (chunk_stats T attrs).diff_max_unsigned
      = max_component (List.zipWith (sub_wrap T.bits_per_component)
          (attrs.foldl (fun acc p => List.zipWith max acc p) (List.replicate T.components 0))
          (attrs.foldl (fun acc p => List.zipWith min acc p)
            (List.replicate T.components (2 ^ T.bits_per_component - 1)))) := rfl
  rw [hulo, hdm]
  generalize attrs.foldl (fun acc p => List.zipWith min acc p)
      (List.replicate T.components (2 ^ T.bits_per_component - 1)) = ulo at hlo_len hlo
  generalize attrs.foldl (fun acc p => List.zipWith max acc p)
      (List.replicate T.components 0) = uhi at hhi_len hhi
  have hdiff : ∀ k, k < T.components →
      (List.zipWith (sub_wrap T.bits_per_component) uhi ulo).getD k 0
        = uhi.getD k 0 - ulo.getD k 0 := by
    intro k hk
    rw [getD_zipWith_of_lt _ uhi ulo T.components k hhi_len hlo_len hk 0 0 0]
    obtain ⟨⟨p, hp, hpe⟩, _⟩ := hhi k hk
    apply sub_wrap_unsigned _ _ _ hw
    · rw [← hpe]; exact (hwf p hp).2 k hk
    · exact le_trans ((hlo k hk).2 p hp) ((hhi k hk).2 p hp)
  have hdl : (List.zipWith (sub_wrap T.bits_per_component) uhi ulo).length = T.components := by
    rw [List.length_zipWith, hhi_len, hlo_len]; simp
  obtain ⟨hm1, hm2⟩ := max_component_spec (List.zipWith (sub_wrap T.bits_per_component) uhi ulo)
  refine ⟨hlo_len, ?_, ⟨?_, ?_⟩, ?_⟩
  · intro k hk
    refine ⟨(hlo k hk).1, ?_⟩
    intro q hq
    simp only [as_unsigned]
    exact_mod_cast (hlo k hk).2 q hq
  · intro k hk p hp q hq
    have h1 := (hhi k hk).2 p hp
    have h2 := (hlo k hk).2 q hq
    have h3 : (List.zipWith (sub_wrap T.bits_per_component) uhi ulo).getD k 0
        ≤ max_component (List.zipWith (sub_wrap T.bits_per_component) uhi ulo) := by
      apply hm1
      rw [List.getD_eq_getElem _ _ (by rw [hdl]; exact hk)]
      exact List.getElem_mem _
    rw [hdiff k hk] at h3
    simp only [as_unsigned]
    omega
  · rcases hm2 with h0 | hmem
    · obtain ⟨p, hp⟩ := List.exists_mem_of_ne_nil attrs hne
      refine ⟨0, hC, p, hp, p, hp, ?_⟩
      rw [h0]; simp
    · obtain ⟨k, hk, hke⟩ := exists_getD_of_mem _ T.components hdl 0 _ hmem
      rw [hdiff k hk] at hke
      obtain ⟨⟨p, hp, hpe⟩, _⟩ := hhi k hk
      obtain ⟨⟨q, hq, hqe⟩, _⟩ := hlo k hk
      refine ⟨k, hk, p, hp, q, hq, ?_⟩
      have hle := le_trans ((hlo k hk).2 p hp) ((hhi k hk).2 p hp)
      simp only [as_unsigned]
      rw [hpe, hqe, ← hke]
      omega
  · rcases hm2 with h0 | hmem
    · rw [h0]; exact Nat.pos_pow_of_pos _ (by norm_num)
    · obtain ⟨k, hk, hke⟩ := exists_getD_of_mem _ T.components hdl 0 _ hmem
      rw [← hke, getD_zipWith_of_lt _ uhi ulo T.components k hhi_len hlo_len hk 0 0 0]
      exact sub_wrap_lt _ _ _

theorem getD_map_of_lt {α β : Type} (f : α → β) (l : List α) (k : Nat) (hk : k < l.length)
    (d1 : α) (d2 : β) : (l.map f).getD k d2 = f (l.getD k d1) := by
  rw [List.getD_eq_getElem _ _ (by simpa using hk), List.getD_eq_getElem _ _ hk,
    List.getElem_map]

/-- The signed running minimum and maximum and `diff_max_signed`. -/
theorem chunk_stats_signed (T : AttrType) (attrs : List (List Nat)) (hne : attrs ≠ [])
    (hwf : WellFormedAttrs T attrs) :
    (chunk_stats T attrs).slo.length = T.components ∧
    (∀ k, k < T.components →
      IsColumnMin (to_signed T.bits_per_component) k attrs
        (to_unsigned T.bits_per_component ((chunk_stats T attrs).slo.getD k 0))) ∧
    IsMaxDelta (to_signed T.bits_per_component) T.components attrs
      (chunk_stats T attrs).diff_max_signed ∧
    (chunk_stats T attrs).diff_max_signed < 2 ^ T.bits_per_component := by
  have hw := bits_per_component_cases T
  have hC := components_pos T
  have hne2 : attrs.map (List.map (to_signed T.bits_per_component)) ≠ [] := by
    simpa using hne
  have hlen2 : ∀ p ∈ attrs.map (List.map (to_signed T.bits_per_component)),
      p.length = T.components := by
    intro p hp
    obtain ⟨p0, hp0, rfl⟩ := List.mem_map.1 hp
    simpa using (hwf p0 hp0).1
  have hget : ∀ p ∈ attrs, ∀ k, k < T.components →
      (p.map (to_signed T.bits_per_component)).getD k 0
        = to_signed T.bits_per_component (p.getD k 0) := by
    intro p hp k hk
    exact getD_map_of_lt _ p k (by rw [(hwf p hp).1]; exact hk) 0 0
  obtain ⟨hlo_len, hlo⟩ := col_min_spec (attrs.map (List.map (to_signed T.bits_per_component)))
    T.components ((2 : Int) ^ (T.bits_per_component - 1) - 1) 0 hne2 hlen2
    (by
      intro p hp k hk
      obtain ⟨p0, hp0, rfl⟩ := List.mem_map.1 hp
      rw [hget p0 hp0 k hk]
      exact (to_signed_range _ _ hw).2)
  obtain ⟨hhi_len, hhi⟩ := col_max_spec (attrs.map (List.map (to_signed T.bits_per_component)))
    T.components (-(2 : Int) ^ (T.bits_per_component - 1)) 0 hne2 hlen2
    (by
      intro p hp k hk
      obtain ⟨p0, hp0, rfl⟩ := List.mem_map.1 hp
      rw [hget p0 hp0 k hk]
      exact (to_signed_range _ _ hw).1)
  rw [List.foldl_map] at hlo_len hlo hhi_len hhi
  have hslo : (chunk_stats T attrs).slo = attrs.foldl
      (fun acc p => List.zipWith min acc (p.map (to_signed T.bits_per_component)))
      (List.replicate T.components ((2 : Int) ^ (T.bits_per_component - 1) - 1)) := rfl
  have hdm : (chunk_stats T attrs).diff_max_signed
      = max_component (List.zipWith (sub_wrap T.bits_per_component)
          ((attrs.foldl
            (fun acc p => List.zipWith max acc (p.map (to_signed T.bits_per_component)))
            (List.replicate T.components (-(2 : Int) ^ (T.bits_per_component - 1)))).map
              (to_unsigned T.bits_per_component))
          ((attrs.foldl
            (fun acc p => List.zipWith min acc (p.map (to_signed T.bits_per_component)))
            (List.replicate T.components ((2 : Int) ^ (T.bits_per_component - 1) - 1))).map
              (to_unsigned T.bits_per_component))) := rfl
  rw [hslo, hdm]
  generalize attrs.foldl
      (fun acc p => List.zipWith min acc (p.map (to_signed T.bits_per_component)))
      (List.replicate T.components ((2 : Int) ^ (T.bits_per_component - 1) - 1)) = slo
    at hlo_len hlo
  generalize attrs.foldl
      (fun acc p => List.zipWith max acc (p.map (to_signed T.bits_per_component)))
      (List.replicate T.components (-(2 : Int) ^ (T.bits_per_component - 1))) = shi
    at hhi_len hhi
  -- attained values, phrased on the unsigned scalars
  have hlo2 : ∀ k, k < T.components →
      (∃ q ∈ attrs, to_signed T.bits_per_component (q.getD k 0) = slo.getD k 0) ∧
      ∀ q ∈ attrs, slo.getD k 0 ≤ to_signed T.bits_per_component (q.getD k 0) := by
    intro k hk
    obtain ⟨⟨p, hp, hpe⟩, hle⟩ := hlo k hk
    obtain ⟨p0, hp0, rfl⟩ := List.mem_map.1 hp
    refine ⟨⟨p0, hp0, by rw [← hget p0 hp0 k hk]; exact hpe⟩, ?_⟩
    intro q hq
    have := hle _ (List.mem_map_of_mem _ hq)
    rw [hget q hq k hk] at this
    exact this
  have hhi2 : ∀ k, k < T.components →
      (∃ q ∈ attrs, to_signed T.bits_per_component (q.getD k 0) = shi.getD k 0) ∧
      ∀ q ∈ attrs, to_signed T.bits_per_component (q.getD k 0) ≤ shi.getD k 0 := by
    intro k hk
    obtain ⟨⟨p, hp, hpe⟩, hle⟩ := hhi k hk
    obtain ⟨p0, hp0, rfl⟩ := List.mem_map.1 hp
    refine ⟨⟨p0, hp0, by rw [← hget p0 hp0 k hk]; exact hpe⟩, ?_⟩
    intro q hq
    have := hle _ (List.mem_map_of_mem _ hq)
    rw [hget q hq k hk] at this
    exact this
  have hdl : (List.zipWith (sub_wrap T.bits_per_component)
      (shi.map (to_unsigned T.bits_per_component))
      (slo.map (to_unsigned T.bits_per_component))).length = T.components := by
    rw [List.length_zipWith, List.length_map, List.length_map, hhi_len, hlo_len]; simp
  have hdiff : ∀ k, k < T.components →
      (((List.zipWith (sub_wrap T.bits_per_component)
        (shi.map (to_unsigned T.bits_per_component))
        (slo.map (to_unsigned T.bits_per_component))).getD k 0 : Nat) : Int)
        = shi.getD k 0 - slo.getD k 0 := by
    intro k hk
    rw [getD_zipWith_of_lt _ _ _ T.components k (by simpa using hhi_len)
      (by simpa using hlo_len) hk 0 0 0,
      getD_map_of_lt _ shi k (by rw [hhi_len]; exact hk) 0 0,
      getD_map_of_lt _ slo k (by rw [hlo_len]; exact hk) 0 0]
    obtain ⟨⟨p, hp, hpe⟩, _⟩ := hhi2 k hk
    obtain ⟨⟨q, hq, hqe⟩, hqle⟩ := hlo2 k hk
    rw [← hpe, ← hqe, to_unsigned_to_signed _ _ hw ((hwf p hp).2 k hk),
      to_unsigned_to_signed _ _ hw ((hwf q hq).2 k hk)]
    apply sub_wrap_signed _ _ _ hw ((hwf p hp).2 k hk) ((hwf q hq).2 k hk)
    rw [hqe]
    exact hqle p hp
  obtain ⟨hm1, hm2⟩ := max_component_spec (List.zipWith (sub_wrap T.bits_per_component)
      (shi.map (to_unsigned T.bits_per_component))
      (slo.map (to_unsigned T.bits_per_component)))
  refine ⟨hlo_len, ?_, ⟨?_, ?_⟩, ?_⟩
  · intro k hk
    obtain ⟨⟨q, hq, hqe⟩, hqle⟩ := hlo2 k hk
    have hval : to_unsigned T.bits_per_component (slo.getD k 0) = q.getD k 0 := by
      rw [← hqe, to_unsigned_to_signed _ _ hw ((hwf q hq).2 k hk)]
    rw [hval]
    refine ⟨⟨q, hq, rfl⟩, ?_⟩
    intro r hr
    rw [hqe]
    exact hqle r hr
  · intro k hk p hp q hq
    have h1 := (hhi2 k hk).2 p hp
    have h2 := (hlo2 k hk).2 q hq
    have h3 : (List.zipWith (sub_wrap T.bits_per_component)
        (shi.map (to_unsigned T.bits_per_component))
        (slo.map (to_unsigned T.bits_per_component))).getD k 0
        ≤ max_component (List.zipWith (sub_wrap T.bits_per_component)
          (shi.map (to_unsigned T.bits_per_component))
          (slo.map (to_unsigned T.bits_per_component))) := by
      apply hm1
      rw [List.getD_eq_getElem _ _ (by rw [hdl]; exact hk)]
      exact List.getElem_mem _
    have h4 := hdiff k hk
    omega
  · rcases hm2 with h0 | hmem
    · obtain ⟨p, hp⟩ := List.exists_mem_of_ne_nil attrs hne
      refine ⟨0, hC, p, hp, p, hp, ?_⟩
      rw [h0]; simp
    · obtain ⟨k, hk, hke⟩ := exists_getD_of_mem _ T.components hdl 0 _ hmem
      have h4 := hdiff k hk
      rw [hke] at h4
      obtain ⟨⟨p, hp, hpe⟩, _⟩ := hhi2 k hk
      obtain ⟨⟨q, hq, hqe⟩, _⟩ := hlo2 k hk
      exact ⟨k, hk, p, hp, q, hq, by rw [hpe, hqe, h4]⟩
  · rcases hm2 with h0 | hmem
    · rw [h0]; exact Nat.pos_pow_of_pos _ (by norm_num)
    · obtain ⟨k, hk, hke⟩ := exists_getD_of_mem _ T.components hdl 0 _ hmem
      rw [← hke, getD_zipWith_of_lt _ _ _ T.components k (by simpa using hhi_len)
        (by simpa using hlo_len) hk 0 0 0]
      exact sub_wrap_lt _ _ _

/-! ## The bitplane encoders -/

/-- The common shape of `encode_index_stream` and the `encode_bitplane`
overloads: a zeroed scratch array of `L` words, the element loop, and the
append of the first `ceil(bits*C*n/32)` words. -/
theorem bitplane_generic (C L : Nat) (values : List (List Nat)) (bits n : Nat)
    (hfit : n * C * bits ≤ 32 * L) (hL : L < 2 ^ 27)
    (hsmall : ∀ i k, i < n → k < C → (values.getD i []).getD k 0 < 2 ^ bits) :
    (((List.range n).foldl (fun p i => write_bits p (values.getD i []) C i bits)
        (List.replicate L 0)).take (((bits * C * n + 31) % 2 ^ 32) / 32)).length
      = (bits * C * n + 31) / 32 ∧
    (∀ i k, i < n → k < C →
      read_bits (((List.range n).foldl (fun p i => write_bits p (values.getD i []) C i bits)
        (List.replicate L 0)).take (((bits * C * n + 31) % 2 ^ 32) / 32))
        ((i * C + k) * bits) bits = (values.getD i []).getD k 0) ∧
    (∀ j, n * C * bits ≤ j →
      getBit (((List.range n).foldl (fun p i => write_bits p (values.getD i []) C i bits)
        (List.replicate L 0)).take (((bits * C * n + 31) % 2 ^ 32) / 32)) j = false) := by
  have hspec := element_loop_spec (fun i => values.getD i []) C bits (List.replicate L 0)
    (by simpa using Nat.le_of_lt hL) (getBit_replicate_zero L) n (by simpa using hfit)
  simp only at hspec
  obtain ⟨hl, hhi, hlo⟩ := hspec
  have hcomm : bits * C * n = n * C * bits := by ring
  have hm : (bits * C * n + 31) % 2 ^ 32 = bits * C * n + 31 := by
    apply Nat.mod_eq_of_lt
    rw [hcomm]
    have : (2 : Nat) ^ 27 = 134217728 := by norm_num
    have : (2 : Nat) ^ 32 = 4294967296 := by norm_num
    omega
  rw [hm]
  generalize (List.range n).foldl (fun p i => write_bits p (values.getD i []) C i bits)
      (List.replicate L 0) = r at hl hhi hlo
  simp only [List.length_replicate] at hl
  refine ⟨?_, ?_, ?_⟩
  · rw [List.length_take, hl, hcomm]
    omega
  · intro i k hi hk
    rw [read_bits_eq_mod _ _ ((values.getD i []).getD k 0) bits]
    · exact Nat.mod_eq_of_lt (hsmall i k hi hk)
    · intro t ht
      have hpos : (i * C + k) * bits + t = i * C * bits + k * bits + t := by ring
      have hr := field_in_range C bits k t hk ht
      have hmono : (i + 1) * C * bits ≤ n * C * bits := by
        have : (i + 1) * (C * bits) ≤ n * (C * bits) := Nat.mul_le_mul_right _ hi
        simpa [Nat.mul_assoc] using this
      have hexp2 : (i + 1) * C * bits = i * C * bits + C * bits := by ring
      rw [hpos, getBit_take _ _ _ (by rw [hcomm]; omega)]
      exact hlo i k t hi hk ht
  · intro j hj
    by_cases hjm : j < 32 * ((bits * C * n + 31) / 32)
    · rw [getBit_take _ _ _ hjm]
      exact hhi j hj
    · unfold getBit
      rw [List.getD_eq_default _ _ (by rw [List.length_take]; omega)]
      simp

/-- What `encode_bitplane` appends for a chunk of at most 32 vertices whose
values fit in `bits` bits. -/
theorem encode_bitplane_spec (T : AttrType) (payload : List Nat) (values : List (List Nat))
    (bits n : Nat) (hn : n ≤ 32) (hb : bits ≤ T.bits_per_component)
    (hsmall : ∀ i k, i < n → k < T.components → (values.getD i []).getD k 0 < 2 ^ bits) :
    ∃ appended : List Nat,
      encode_bitplane T payload values bits n = payload ++ appended ∧
      appended.length = (bits * T.components * n + 31) / 32 ∧
      (∀ i k, i < n → k < T.components →
        read_bits appended ((i * T.components + k) * bits) bits = (values.getD i []).getD k 0) ∧
      (∀ j, n * T.components * bits ≤ j → getBit appended j = false) := by
  have hnb : n * bits ≤ 32 * T.bits_per_component := Nat.mul_le_mul hn hb
  cases T with
  | u16vec3 =>
    simp only [AttrType.bits_per_component, AttrType.components] at hnb hsmall ⊢
    have hfit : n * 3 * bits ≤ 32 * 48 := by
      have : n * 3 * bits = 3 * (n * bits) := by ring
      omega
    obtain ⟨h1, h2, h3⟩ := bitplane_generic 3 48 values bits n hfit (by norm_num) hsmall
    exact ⟨_, rfl, h1, h2, h3⟩
  | u16vec2 =>
    simp only [AttrType.bits_per_component, AttrType.components] at hnb hsmall ⊢
    have hfit : n * 2 * bits ≤ 32 * 32 := by
      have : n * 2 * bits = 2 * (n * bits) := by ring
      omega
    obtain ⟨h1, h2, h3⟩ := bitplane_generic 2 32 values bits n hfit (by norm_num) hsmall
    exact ⟨_, rfl, h1, h2, h3⟩
  | u8vec4 =>
    simp only [AttrType.bits_per_component, AttrType.components] at hnb hsmall ⊢
    have hfit : n * 4 * bits ≤ 32 * 32 := by
      have : n * 4 * bits = 4 * (n * bits) := by ring
      omega
    obtain ⟨h1, h2, h3⟩ := bitplane_generic 4 32 values bits n hfit (by norm_num) hsmall
    exact ⟨_, rfl, h1, h2, h3⟩

/-! ## Gathering and padding -/

theorem gather_attributes_mem (raw : List (List Nat)) (remap : Option (List Nat)) (n : Nat)
    (hn1 : 1 ≤ n) (p : List Nat) :
    p ∈ gather_attributes raw remap n ↔
      ∃ i, i < n ∧ p = raw.getD (remap_index remap i) [] := by
  unfold gather_attributes
  simp only [List.mem_append, List.mem_map, List.mem_range, List.mem_replicate]
  have h0 : ((List.range n).map fun i => raw.getD (remap_index remap i) []).getD 0 []
      = raw.getD (remap_index remap 0) [] := by
    rw [List.getD_eq_getElem _ _ (by simpa using hn1)]
    simp
  constructor
  · rintro (⟨i, hi, rfl⟩ | ⟨_, rfl⟩)
    · exact ⟨i, hi, rfl⟩
    · exact ⟨0, hn1, h0⟩
  · rintro ⟨i, hi, rfl⟩
    exact Or.inl ⟨i, hi, rfl⟩

theorem gather_attributes_getD (raw : List (List Nat)) (remap : Option (List Nat)) (n i : Nat)
    (hi : i < n) :
    (gather_attributes raw remap n).getD i [] = raw.getD (remap_index remap i) [] := by
  unfold gather_attributes
  simp only
  rw [List.getD_append _ _ _ _ (by simpa using hi),
    List.getD_eq_getElem _ _ (by simpa using hi)]
  simp

theorem gather_attributes_length (raw : List (List Nat)) (remap : Option (List Nat)) (n : Nat)
    (hn : n ≤ 32) : (gather_attributes raw remap n).length = 32 := by
  unfold gather_attributes VerticesPerChunk IBOBits
  simp
  omega

theorem gather_attributes_wf (T : AttrType) (raw : List (List Nat)) (remap : Option (List Nat))
    (n : Nat) (hn1 : 1 ≤ n) (hwf : WellFormedAttrs T raw)
    (hidx : ∀ i, i < n → remap_index remap i < raw.length) :
    gather_attributes raw remap n ≠ [] ∧ WellFormedAttrs T (gather_attributes raw remap n) := by
  constructor
  · intro h
    have hm := (gather_attributes_mem raw remap n hn1 (raw.getD (remap_index remap 0) [])).2
      ⟨0, hn1, rfl⟩
    rw [h] at hm
    simp at hm
  · intro p hp
    obtain ⟨i, hi, rfl⟩ := (gather_attributes_mem raw remap n hn1 p).1 hp
    apply hwf
    rw [List.getD_eq_getElem _ _ (hidx i hi)]
    exact List.getElem_mem _

/-! ## The chosen base and width -/

theorem chunk_stats_base_eq (T : AttrType) (attrs : List (List Nat)) :
    (chunk_stats T attrs).base
      = if (chunk_stats T attrs).diff_max_signed < (chunk_stats T attrs).diff_max_unsigned
        then (chunk_stats T attrs).slo.map (to_unsigned T.bits_per_component)
        else (chunk_stats T attrs).ulo := rfl

theorem chunk_stats_bits_eq (T : AttrType) (attrs : List (List Nat)) :
    (chunk_stats T attrs).bits
      = if T = AttrType.u16vec3 ∧
            12 < compute_required_bits_unsigned
              (min (chunk_stats T attrs).diff_max_signed (chunk_stats T attrs).diff_max_unsigned) ∧
            compute_required_bits_unsigned
              (min (chunk_stats T attrs).diff_max_signed (chunk_stats T attrs).diff_max_unsigned) < 16
        then 16
        else compute_required_bits_unsigned
          (min (chunk_stats T attrs).diff_max_signed (chunk_stats T attrs).diff_max_unsigned) := by
  have hmin : ∀ a b : Nat, (if a < b then a else b) = min a b := by
    intro a b
    split_ifs with h
    · exact (min_eq_left (le_of_lt h)).symm
    · exact (min_eq_right (not_lt.1 h)).symm
  have hbits : (chunk_stats T attrs).bits
      = (if T.bits_per_component = 16 ∧ T.components = 3 then
          (if compute_required_bits_unsigned
                (if (chunk_stats T attrs).diff_max_signed < (chunk_stats T attrs).diff_max_unsigned
                  then (chunk_stats T attrs).diff_max_signed
                  else (chunk_stats T attrs).diff_max_unsigned) < 16 ∧
              compute_required_bits_unsigned
                (if (chunk_stats T attrs).diff_max_signed < (chunk_stats T attrs).diff_max_unsigned
                  then (chunk_stats T attrs).diff_max_signed
                  else (chunk_stats T attrs).diff_max_unsigned) > 12
            then 16
            else compute_required_bits_unsigned
                (if (chunk_stats T attrs).diff_max_signed < (chunk_stats T attrs).diff_max_unsigned
                  then (chunk_stats T attrs).diff_max_signed
                  else (chunk_stats T attrs).diff_max_unsigned))
        else compute_required_bits_unsigned
                (if (chunk_stats T attrs).diff_max_signed < (chunk_stats T attrs).diff_max_unsigned
                  then (chunk_stats T attrs).diff_max_signed
                  else (chunk_stats T attrs).diff_max_unsigned)) := rfl
  rw [hbits, hmin]
  generalize compute_required_bits_unsigned
    (min (chunk_stats T attrs).diff_max_signed (chunk_stats T attrs).diff_max_unsigned) = m
  cases T with
  | u16vec3 =>
    simp only [AttrType.bits_per_component, AttrType.components, and_self, if_true, true_and]
    split_ifs <;> first | rfl | omega
  | u16vec2 => simp [AttrType.bits_per_component, AttrType.components]
  | u8vec4 => simp [AttrType.bits_per_component, AttrType.components]

/-- The base chosen for a chunk is a vector of `T` scalars, the width is at
most the scalar width, and every value minus the base fits in the width. -/
theorem chunk_stats_fits (T : AttrType) (attrs : List (List Nat)) (hne : attrs ≠ [])
    (hwf : WellFormedAttrs T attrs) :
    (chunk_stats T attrs).base.length = T.components ∧
    (chunk_stats T attrs).bits ≤ T.bits_per_component ∧
    ∀ k, k < T.components →
      (chunk_stats T attrs).base.getD k 0 < 2 ^ T.bits_per_component ∧
      ∀ p ∈ attrs, sub_wrap T.bits_per_component (p.getD k 0)
        ((chunk_stats T attrs).base.getD k 0) < 2 ^ (chunk_stats T attrs).bits := by
  have hw := bits_per_component_cases T
  obtain ⟨ul, umin, ⟨udel, _⟩, ult⟩ := chunk_stats_unsigned T attrs hne hwf
  obtain ⟨sl, smin, ⟨sdel, _⟩, slt⟩ := chunk_stats_signed T attrs hne hwf
  have h32 : (2 : Nat) ^ T.bits_per_component ≤ 2 ^ 32 :=
    Nat.pow_le_pow_right (by norm_num) (by rcases hw with h | h <;> omega)
  have hdmin : min (chunk_stats T attrs).diff_max_signed (chunk_stats T attrs).diff_max_unsigned
      < 2 ^ T.bits_per_component := lt_of_le_of_lt (min_le_left _ _) slt
  -- the width before promotion, and the promoted width
  have hb0 := compute_required_bits_unsigned_spec
    (min (chunk_stats T attrs).diff_max_signed (chunk_stats T attrs).diff_max_unsigned)
    (lt_of_lt_of_le hdmin h32)
  have hb0w := (hb0 T.bits_per_component).1 hdmin
  have hbits := chunk_stats_bits_eq T attrs
  have hge : compute_required_bits_unsigned
      (min (chunk_stats T attrs).diff_max_signed (chunk_stats T attrs).diff_max_unsigned)
      ≤ (chunk_stats T attrs).bits := by
    rw [hbits]; split_ifs with h <;> omega
  have hle : (chunk_stats T attrs).bits ≤ T.bits_per_component := by
    rw [hbits]
    split_ifs with h
    · rw [h.1]; simp [AttrType.bits_per_component]
    · exact hb0w
  have hlt : min (chunk_stats T attrs).diff_max_signed (chunk_stats T attrs).diff_max_unsigned
      < 2 ^ (chunk_stats T attrs).bits := (hb0 _).2 hge
  rw [chunk_stats_base_eq]
  by_cases hs : (chunk_stats T attrs).diff_max_signed < (chunk_stats T attrs).diff_max_unsigned
  · simp only [hs, if_true]
    rw [min_eq_left (le_of_lt hs)] at hlt
    refine ⟨by simpa using sl, hle, ?_⟩
    intro k hk
    rw [getD_map_of_lt _ _ k (by rw [sl]; exact hk) 0 0]
    obtain ⟨⟨q, hq, hqe⟩, hqle⟩ := smin k hk
    refine ⟨by rw [← hqe]; exact (hwf q hq).2 k hk, ?_⟩
    intro p hp
    have h1 := sub_wrap_signed T.bits_per_component (p.getD k 0) (q.getD k 0) hw
      ((hwf p hp).2 k hk) ((hwf q hq).2 k hk) (by rw [hqe]; exact hqle p hp)
    have h2 := sdel k hk p hp q hq
    rw [← hqe]
    have h3 : ((sub_wrap T.bits_per_component (p.getD k 0) (q.getD k 0) : Nat) : Int)
        ≤ ((chunk_stats T attrs).diff_max_signed : Nat) := by rw [h1]; exact h2
    exact lt_of_le_of_lt (by exact_mod_cast h3) hlt
  · simp only [hs, if_false]
    rw [min_eq_right (not_lt.1 hs)] at hlt
    refine ⟨ul, hle, ?_⟩
    intro k hk
    obtain ⟨⟨q, hq, hqe⟩, hqle⟩ := umin k hk
    refine ⟨by rw [← hqe]; exact (hwf q hq).2 k hk, ?_⟩
    intro p hp
    have hqp : q.getD k 0 ≤ p.getD k 0 := by
      have := hqle p hp
      simp only [as_unsigned] at this
      rw [hqe]
      exact_mod_cast this
    have h2 := udel k hk p hp q hq
    simp only [as_unsigned] at h2
    rw [← hqe, sub_wrap_unsigned _ _ _ hw ((hwf p hp).2 k hk) hqp]
    have h3 : p.getD k 0 - q.getD k 0 ≤ (chunk_stats T attrs).diff_max_unsigned := by omega
    exact lt_of_le_of_lt h3 hlt

/-! ## What `encode_attribute_stream` leaves in the `Stream` -/

/-- A field written by `write_bits` into zeroed bits reads back as the
component, reduced to the field width. -/
theorem read_bits_write_bits (words values : List Nat) (C e b k : Nat)
    (hzero : ∀ j, getBit words j = false)
    (hfit : (e + 1) * C * b ≤ 32 * words.length) (hlen : words.length ≤ 2 ^ 27) (hk : k < C) :
    read_bits (write_bits words values C e b) ((e * C + k) * b) b = values.getD k 0 % 2 ^ b := by
  apply read_bits_eq_mod
  intro t ht
  rw [getBit_write_bits words values C e b hfit hlen, hzero]
  have hr := field_in_range C b k t hk ht
  have hexp : (e + 1) * C * b = e * C * b + C * b := by ring
  have hpos : (e * C + k) * b + t = e * C * b + (k * b + t) := by ring
  have hin : e * C * b ≤ (e * C + k) * b + t ∧ (e * C + k) * b + t < (e + 1) * C * b := by
    rw [hexp, hpos]; omega
  have hsub : (e * C + k) * b + t - e * C * b = k * b + t := by rw [hpos]; omega
  obtain ⟨hq, hm⟩ := field_index b k t ht
  simp [hin, hsub, hq, hm]

theorem chunk_bits_zero_stream (bits c : Nat) (hb : bits ≤ 16) (hc : c < 4) :
    ((0 ||| ((bits <<< (8 * c)) % 2 ^ 32)) / 2 ^ (8 * c)) % 256 = bits := by
  rw [Nat.zero_or, Nat.shiftLeft_eq]
  have h32 : (2 : Nat) ^ 32 = 4294967296 := by norm_num
  rw [h32]
  interval_cases c <;> simp <;> omega

theorem base_fits_stream (T : AttrType) (c : Nat) (hc : c < 4) :
    (c + 1) * T.components * T.bits_per_component ≤ 32 * (List.replicate 6 0).length := by
  cases T <;> simp [AttrType.components, AttrType.bits_per_component] <;> omega

theorem encode_attribute_stream_fst (T : AttrType) (payload : List Nat) (stream : Stream)
    (raw : List (List Nat)) (c : Nat) (remap : Option (List Nat)) (n : Nat) :
    (encode_attribute_stream T payload stream raw c remap n).1
      = encode_bitplane T payload
          ((gather_attributes raw remap n).map fun p =>
            List.zipWith (sub_wrap T.bits_per_component) p
              (chunk_stats T (gather_attributes raw remap n)).base)
          (chunk_stats T (gather_attributes raw remap n)).bits n := rfl

theorem encode_attribute_stream_bits (T : AttrType) (payload : List Nat) (stream : Stream)
    (raw : List (List Nat)) (c : Nat) (remap : Option (List Nat)) (n : Nat) :
    (encode_attribute_stream T payload stream raw c remap n).2.bits_per_chunk
      = stream.bits_per_chunk
          ||| (((chunk_stats T (gather_attributes raw remap n)).bits <<< (8 * c)) % 2 ^ 32) := rfl

theorem encode_attribute_stream_base (T : AttrType) (payload : List Nat) (stream : Stream)
    (raw : List (List Nat)) (c : Nat) (remap : Option (List Nat)) (n : Nat) :
    (encode_attribute_stream T payload stream raw c remap n).2.base_value
      = write_bits stream.base_value (chunk_stats T (gather_attributes raw remap n)).base
          T.components c T.bits_per_component := rfl

/-- On a zeroed `Stream`, the decoder's width of slot `c` is the width the
encoder computed and the decoder's base of slot `c` is the base it chose. -/
theorem encode_attribute_stream_stored (T : AttrType) (payload : List Nat)
    (raw : List (List Nat)) (c : Nat) (remap : Option (List Nat)) (n : Nat)
    (hn1 : 1 ≤ n) (hc : c < 4) (hwf : WellFormedAttrs T raw)
    (hidx : ∀ i, i < n → remap_index remap i < raw.length) :
    (encode_attribute_stream T payload Stream.zero raw c remap n).2.chunk_bits c
      = (chunk_stats T (gather_attributes raw remap n)).bits ∧
    ∀ k, k < T.components →
      Stream.chunk_base T (encode_attribute_stream T payload Stream.zero raw c remap n).2 c k
        = (chunk_stats T (gather_attributes raw remap n)).base.getD k 0 := by
  obtain ⟨hne, hwf2⟩ := gather_attributes_wf T raw remap n hn1 hwf hidx
  obtain ⟨_, hbw, hbase⟩ := chunk_stats_fits T _ hne hwf2
  have hw := bits_per_component_cases T
  constructor
  · unfold Stream.chunk_bits
    rw [encode_attribute_stream_bits]
    exact chunk_bits_zero_stream _ c (by rcases hw with h | h <;> omega) hc
  · intro k hk
    unfold Stream.chunk_base
    rw [encode_attribute_stream_base]
    have hz : Stream.zero.base_value = List.replicate 6 0 := rfl
    rw [hz, read_bits_write_bits _ _ _ _ _ _ (getBit_replicate_zero 6)
      (base_fits_stream T c hc) (by simp) hk]
    exact Nat.mod_eq_of_lt (hbase k hk).1

/-- C2. Attribute decode undoes encode: for every chunk with `1 <= n <= 32`
vertices, every chunk slot `c < 4` and every stream kind, after
`encode_attribute_stream` on a zeroed `Stream`, reading for vertex `i < n` and
component `k` the `bits` bits at bit offset `(i*C + k)*bits` of the appended
words and adding component `k` of the base stored for slot `c` modulo
`2^(scalar width)` yields component `k` of `raw_attributes[remap[i]]`. -/
theorem attribute_decode_undoes_encode (T : AttrType) (payload : List Nat)
    (raw : List (List Nat)) (c : Nat) (remap : Option (List Nat)) (n : Nat)
    (hn1 : 1 ≤ n) (hn : n ≤ 32) (hc : c < 4) (hwf : WellFormedAttrs T raw)
    (hidx : ∀ i, i < n → remap_index remap i < raw.length) :
    ∃ appended : List Nat,
      (encode_attribute_stream T payload Stream.zero raw c remap n).1 = payload ++ appended ∧
      ∀ i k, i < n → k < T.components →
        (read_bits appended
            ((i * T.components + k) *
              (encode_attribute_stream T payload Stream.zero raw c remap n).2.chunk_bits c)
            ((encode_attribute_stream T payload Stream.zero raw c remap n).2.chunk_bits c)
          + Stream.chunk_base T (encode_attribute_stream T payload Stream.zero raw c remap n).2 c k)
          % 2 ^ T.bits_per_component
        = (raw.getD (remap_index remap i) []).getD k 0 := by
  obtain ⟨hne, hwf2⟩ := gather_attributes_wf T raw remap n hn1 hwf hidx
  obtain ⟨hbl, hbw, hbase⟩ := chunk_stats_fits T _ hne hwf2
  obtain ⟨hsb, hsbase⟩ := encode_attribute_stream_stored T payload raw c remap n hn1 hc hwf hidx
  have hw := bits_per_component_cases T
  have hglen := gather_attributes_length raw remap n hn
  -- the values handed to the bitplane encoder
  have hval : ∀ i k, i < n → k < T.components →
      (((gather_attributes raw remap n).map fun p =>
          List.zipWith (sub_wrap T.bits_per_component) p
            (chunk_stats T (gather_attributes raw remap n)).base).getD i []).getD k 0
        = sub_wrap T.bits_per_component ((raw.getD (remap_index remap i) []).getD k 0)
            ((chunk_stats T (gather_attributes raw remap n)).base.getD k 0) := by
    intro i k hi hk
    rw [getD_map_of_lt _ _ i (by rw [hglen]; omega) [] [], gather_attributes_getD _ _ _ _ hi]
    have hmem : raw.getD (remap_index remap i) [] ∈ raw := by
      rw [List.getD_eq_getElem _ _ (hidx i hi)]
      exact List.getElem_mem _
    exact getD_zipWith_of_lt _ _ _ T.components k (hwf _ hmem).1 hbl hk 0 0 0
  have hsmall : ∀ i k, i < n → k < T.components →
      (((gather_attributes raw remap n).map fun p =>
          List.zipWith (sub_wrap T.bits_per_component) p
            (chunk_stats T (gather_attributes raw remap n)).base).getD i []).getD k 0
        < 2 ^ (chunk_stats T (gather_attributes raw remap n)).bits := by
    intro i k hi hk
    rw [hval i k hi hk]
    exact (hbase k hk).2 _ ((gather_attributes_mem raw remap n hn1 _).2 ⟨i, hi, rfl⟩)
  obtain ⟨app, happ, _, hread, _⟩ := encode_bitplane_spec T payload _ _ n hn hbw hsmall
  refine ⟨app, by rw [encode_attribute_stream_fst]; exact happ, ?_⟩
  intro i k hi hk
  rw [hsb, hsbase k hk, hread i k hi hk, hval i k hi hk]
  have hmem : raw.getD (remap_index remap i) [] ∈ raw := by
    rw [List.getD_eq_getElem _ _ (hidx i hi)]
    exact List.getElem_mem _
  exact sub_wrap_add _ _ _ hw ((hwf _ hmem).2 k hk) (hbase k hk).1

/-- Witness for C2: a three-vertex chunk of `u16vec3` values in slot 1. -/
theorem attribute_decode_undoes_encode_witness :
    WellFormedAttrs AttrType.u16vec3 sample_u16vec3 ∧
    (∀ i, i < 3 → remap_index (some [2, 0, 1]) i < sample_u16vec3.length) ∧
    ∃ appended : List Nat,
      (encode_attribute_stream AttrType.u16vec3 [9] Stream.zero sample_u16vec3 1
        (some [2, 0, 1]) 3).1 = [9] ++ appended ∧
      ∀ i k, i < 3 → k < AttrType.u16vec3.components →
        (read_bits appended
            ((i * AttrType.u16vec3.components + k) *
              (encode_attribute_stream AttrType.u16vec3 [9] Stream.zero sample_u16vec3 1
                (some [2, 0, 1]) 3).2.chunk_bits 1)
            ((encode_attribute_stream AttrType.u16vec3 [9] Stream.zero sample_u16vec3 1
                (some [2, 0, 1]) 3).2.chunk_bits 1)
          + Stream.chunk_base AttrType.u16vec3
              (encode_attribute_stream AttrType.u16vec3 [9] Stream.zero sample_u16vec3 1
                (some [2, 0, 1]) 3).2 1 k)
          % 2 ^ AttrType.u16vec3.bits_per_component
        = (sample_u16vec3.getD (remap_index (some [2, 0, 1]) i) []).getD k 0 :=
  ⟨by unfold WellFormedAttrs; decide, by decide,
    attribute_decode_undoes_encode AttrType.u16vec3 [9] sample_u16vec3 1 (some [2, 0, 1]) 3
      (by decide) (by decide) (by decide) (by unfold WellFormedAttrs; decide) (by decide)⟩

/-! ## Interpretation choice and width minimality -/

theorem chunk_values_mem (raw : List (List Nat)) (remap : Option (List Nat)) (n : Nat)
    (hn1 : 1 ≤ n) (p : List Nat) :
    p ∈ gather_attributes raw remap n ↔ p ∈ chunk_values raw remap n := by
  rw [gather_attributes_mem raw remap n hn1]
  unfold chunk_values
  simp only [List.mem_map, List.mem_range]
  constructor
  · rintro ⟨i, hi, rfl⟩
    exact ⟨i, hi, rfl⟩
  · rintro ⟨i, hi, rfl⟩
    exact ⟨i, hi, rfl⟩

theorem IsMaxDelta_congr (I : Nat → Int) (C : Nat) (l1 l2 : List (List Nat)) (d : Int)
    (h : ∀ p, p ∈ l1 ↔ p ∈ l2) : IsMaxDelta I C l1 d → IsMaxDelta I C l2 d := by
  rintro ⟨h1, k, hk, p, hp, q, hq, h2⟩
  exact ⟨fun k hk p hp q hq => h1 k hk p ((h p).2 hp) q ((h q).2 hq),
    k, hk, p, (h p).1 hp, q, (h q).1 hq, h2⟩

theorem IsColumnMin_congr (I : Nat → Int) (k : Nat) (l1 l2 : List (List Nat)) (m : Nat)
    (h : ∀ p, p ∈ l1 ↔ p ∈ l2) : IsColumnMin I k l1 m → IsColumnMin I k l2 m := by
  rintro ⟨⟨p, hp, h1⟩, h2⟩
  exact ⟨⟨p, (h p).1 hp, h1⟩, fun q hq => h2 q ((h q).2 hq)⟩

/-- C5. Interpretation choice: `encode_attribute_stream` computes the largest
per-component range of the chunk's values read as unsigned (`du`) and read as
signed (`ds`); it stores the per-component signed minimum (as its unsigned bit
pattern) as base exactly when `ds < du`, and otherwise (ties included) the
per-component unsigned minimum; the width is derived from the smaller of the
two ranges (with the 13..15 to 16 promotion of the `u16vec3` stream). -/
theorem interpretation_choice (T : AttrType) (payload : List Nat)
    (raw : List (List Nat)) (c : Nat) (remap : Option (List Nat)) (n : Nat)
    (hn1 : 1 ≤ n) (hc : c < 4) (hwf : WellFormedAttrs T raw)
    (hidx : ∀ i, i < n → remap_index remap i < raw.length) :
    ∃ du ds : Nat,
      IsMaxDelta as_unsigned T.components (chunk_values raw remap n) du ∧
      IsMaxDelta (to_signed T.bits_per_component) T.components (chunk_values raw remap n) ds ∧
      (ds < du → ∀ k, k < T.components →
        IsColumnMin (to_signed T.bits_per_component) k (chunk_values raw remap n)
          (Stream.chunk_base T
            (encode_attribute_stream T payload Stream.zero raw c remap n).2 c k)) ∧
      (¬ ds < du → ∀ k, k < T.components →
        IsColumnMin as_unsigned k (chunk_values raw remap n)
          (Stream.chunk_base T
            (encode_attribute_stream T payload Stream.zero raw c remap n).2 c k)) ∧
      (encode_attribute_stream T payload Stream.zero raw c remap n).2.chunk_bits c
        = (if T = AttrType.u16vec3 ∧ 12 < compute_required_bits_unsigned (min ds du) ∧
              compute_required_bits_unsigned (min ds du) < 16
            then 16 else compute_required_bits_unsigned (min ds du)) := by
  obtain ⟨hne, hwf2⟩ := gather_attributes_wf T raw remap n hn1 hwf hidx
  obtain ⟨ul, umin, udel, _⟩ := chunk_stats_unsigned T _ hne hwf2
  obtain ⟨sl, smin, sdel, _⟩ := chunk_stats_signed T _ hne hwf2
  obtain ⟨hsb, hsbase⟩ := encode_attribute_stream_stored T payload raw c remap n hn1 hc hwf hidx
  have hmem := chunk_values_mem raw remap n hn1
  refine ⟨(chunk_stats T (gather_attributes raw remap n)).diff_max_unsigned,
    (chunk_stats T (gather_attributes raw remap n)).diff_max_signed,
    IsMaxDelta_congr _ _ _ _ _ hmem udel, IsMaxDelta_congr _ _ _ _ _ hmem sdel, ?_, ?_, ?_⟩
  · intro hs k hk
    rw [hsbase k hk, chunk_stats_base_eq]
    simp only [hs, if_true]
    rw [getD_map_of_lt _ _ k (by rw [sl]; exact hk) 0 0]
    exact IsColumnMin_congr _ _ _ _ _ hmem (smin k hk)
  · intro hs k hk
    rw [hsbase k hk, chunk_stats_base_eq]
    simp only [hs, if_false]
    exact IsColumnMin_congr _ _ _ _ _ hmem (umin k hk)
  · rw [hsb]
    exact chunk_stats_bits_eq T _

/-- Witness for C5: a chunk whose values straddle zero, so that the signed
reading is chosen. -/
theorem interpretation_choice_witness :
    WellFormedAttrs AttrType.u16vec3 sample_u16vec3 ∧
    (∀ i, i < 3 → remap_index (some [2, 0, 1]) i < sample_u16vec3.length) ∧
    ∃ du ds : Nat,
      IsMaxDelta as_unsigned AttrType.u16vec3.components
        (chunk_values sample_u16vec3 (some [2, 0, 1]) 3) du ∧
      IsMaxDelta (to_signed AttrType.u16vec3.bits_per_component) AttrType.u16vec3.components
        (chunk_values sample_u16vec3 (some [2, 0, 1]) 3) ds ∧
      (ds < du → ∀ k, k < AttrType.u16vec3.components →
        IsColumnMin (to_signed AttrType.u16vec3.bits_per_component) k
          (chunk_values sample_u16vec3 (some [2, 0, 1]) 3)
          (Stream.chunk_base AttrType.u16vec3
            (encode_attribute_stream AttrType.u16vec3 [] Stream.zero sample_u16vec3 0
              (some [2, 0, 1]) 3).2 0 k)) ∧
      (¬ ds < du → ∀ k, k < AttrType.u16vec3.components →
        IsColumnMin as_unsigned k (chunk_values sample_u16vec3 (some [2, 0, 1]) 3)
          (Stream.chunk_base AttrType.u16vec3
            (encode_attribute_stream AttrType.u16vec3 [] Stream.zero sample_u16vec3 0
              (some [2, 0, 1]) 3).2 0 k)) ∧
      (encode_attribute_stream AttrType.u16vec3 [] Stream.zero sample_u16vec3 0
          (some [2, 0, 1]) 3).2.chunk_bits 0
        = (if AttrType.u16vec3 = AttrType.u16vec3 ∧
              12 < compute_required_bits_unsigned (min ds du) ∧
              compute_required_bits_unsigned (min ds du) < 16
            then 16 else compute_required_bits_unsigned (min ds du)) :=
  ⟨by unfold WellFormedAttrs; decide, by decide,
    interpretation_choice AttrType.u16vec3 [] sample_u16vec3 0 (some [2, 0, 1]) 3
      (by decide) (by decide) (by unfold WellFormedAttrs; decide) (by decide)⟩

/-- C4. Bit-width minimality: the width `encode_attribute_stream` stores for a
chunk is `m`, the smallest `b` such that `max - min` of every component, under
the chosen interpretation (signed exactly when the signed maximum range `ds` is
below the unsigned one `du`), is below `2^b`; equivalently the smallest `b`
with `max_delta < 2^b`, which is `ceil(log2(max_delta + 1))` and `0` when all
values are equal.  The one exception: for the 3-component 16-bit stream a
minimal width of 13, 14 or 15 is stored as 16; the 2-component 16-bit and the
4-component 8-bit streams are never promoted. -/
theorem stored_width_minimal (T : AttrType) (payload : List Nat)
    (raw : List (List Nat)) (c : Nat) (remap : Option (List Nat)) (n : Nat)
    (hn1 : 1 ≤ n) (hc : c < 4) (hwf : WellFormedAttrs T raw)
    (hidx : ∀ i, i < n → remap_index remap i < raw.length) :
    ∃ du ds m : Nat,
      IsMaxDelta as_unsigned T.components (chunk_values raw remap n) du ∧
      IsMaxDelta (to_signed T.bits_per_component) T.components (chunk_values raw remap n) ds ∧
      (∀ b, (∀ k, k < T.components → ∀ p ∈ chunk_values raw remap n,
              ∀ q ∈ chunk_values raw remap n,
                (if ds < du then to_signed T.bits_per_component else as_unsigned) (p.getD k 0)
                  - (if ds < du then to_signed T.bits_per_component else as_unsigned) (q.getD k 0)
                  < 2 ^ b) ↔ m ≤ b) ∧
      (∀ b, min ds du < 2 ^ b ↔ m ≤ b) ∧
      (m = 0 ↔ min ds du = 0) ∧
      (encode_attribute_stream T payload Stream.zero raw c remap n).2.chunk_bits c
        = (if T = AttrType.u16vec3 ∧ 12 < m ∧ m < 16 then 16 else m) := by
  obtain ⟨hne, hwf2⟩ := gather_attributes_wf T raw remap n hn1 hwf hidx
  obtain ⟨_, _, udel, ult⟩ := chunk_stats_unsigned T _ hne hwf2
  obtain ⟨_, _, sdel, slt⟩ := chunk_stats_signed T _ hne hwf2
  obtain ⟨hsb, _⟩ := encode_attribute_stream_stored T payload raw c remap n hn1 hc hwf hidx
  have hmem := chunk_values_mem raw remap n hn1
  have hw := bits_per_component_cases T
  have h32 : (2 : Nat) ^ T.bits_per_component ≤ 2 ^ 32 :=
    Nat.pow_le_pow_right (by norm_num) (by rcases hw with h | h <;> omega)
  have udel2 := IsMaxDelta_congr _ _ _ _ _ hmem udel
  have sdel2 := IsMaxDelta_congr _ _ _ _ _ hmem sdel
  have hbits := chunk_stats_bits_eq T (gather_attributes raw remap n)
  generalize (chunk_stats T (gather_attributes raw remap n)).diff_max_unsigned = du
    at udel2 ult udel hbits
  generalize (chunk_stats T (gather_attributes raw remap n)).diff_max_signed = ds
    at sdel2 slt sdel hbits
  have hdmin : min ds du < 2 ^ 32 :=
    lt_of_lt_of_le (lt_of_le_of_lt (min_le_left _ _) slt) h32
  have hspec := compute_required_bits_unsigned_spec (min ds du) hdmin
  refine ⟨du, ds, compute_required_bits_unsigned (min ds du), udel2, sdel2, ?_, hspec, ?_, ?_⟩
  · intro b
    rw [← hspec b]
    by_cases hs : ds < du
    · simp only [hs, if_true]
      rw [min_eq_left (le_of_lt hs)]
      obtain ⟨hb, k, hk, p, hp, q, hq, he⟩ := sdel2
      constructor
      · intro h
        have := h k hk p hp q hq
        rw [he] at this
        exact_mod_cast this
      · intro h k hk p hp q hq
        have h1 := hb k hk p hp q hq
        have h2 : ((ds : Nat) : Int) < 2 ^ b := by exact_mod_cast h
        exact lt_of_le_of_lt h1 h2
    · simp only [hs, if_false]
      rw [min_eq_right (not_lt.1 hs)]
      obtain ⟨hb, k, hk, p, hp, q, hq, he⟩ := udel2
      constructor
      · intro h
        have := h k hk p hp q hq
        rw [he] at this
        exact_mod_cast this
      · intro h k hk p hp q hq
        have h1 := hb k hk p hp q hq
        have h2 : ((du : Nat) : Int) < 2 ^ b := by exact_mod_cast h
        exact lt_of_le_of_lt h1 h2
  · constructor
    · intro h
      have := (hspec 0).2 (by omega)
      simpa using this
    · intro h
      have := (hspec 0).1 (by rw [h]; norm_num)
      omega
  · rw [hsb]
    exact hbits

/-- Witness for C4: a `u16vec3` chunk, slot 2. -/
theorem stored_width_minimal_witness :
    WellFormedAttrs AttrType.u16vec3 sample_u16vec3 ∧
    (∀ i, i < 2 → remap_index none i < sample_u16vec3.length) ∧
    ∃ du ds m : Nat,
      IsMaxDelta as_unsigned AttrType.u16vec3.components
        (chunk_values sample_u16vec3 none 2) du ∧
      IsMaxDelta (to_signed AttrType.u16vec3.bits_per_component) AttrType.u16vec3.components
        (chunk_values sample_u16vec3 none 2) ds ∧
      (∀ b, (∀ k, k < AttrType.u16vec3.components → ∀ p ∈ chunk_values sample_u16vec3 none 2,
              ∀ q ∈ chunk_values sample_u16vec3 none 2,
                (if ds < du then to_signed AttrType.u16vec3.bits_per_component
                    else as_unsigned) (p.getD k 0)
                  - (if ds < du then to_signed AttrType.u16vec3.bits_per_component
                    else as_unsigned) (q.getD k 0)
                  < 2 ^ b) ↔ m ≤ b) ∧
      (∀ b, min ds du < 2 ^ b ↔ m ≤ b) ∧
      (m = 0 ↔ min ds du = 0) ∧
      (encode_attribute_stream AttrType.u16vec3 [] Stream.zero sample_u16vec3 2 none 2).2.chunk_bits 2
        = (if AttrType.u16vec3 = AttrType.u16vec3 ∧ 12 < m ∧ m < 16 then 16 else m) :=
  ⟨by unfold WellFormedAttrs; decide, by decide,
    stored_width_minimal AttrType.u16vec3 [] sample_u16vec3 2 none 2
      (by decide) (by decide) (by unfold WellFormedAttrs; decide) (by decide)⟩

/-! ## The common-factor trim (`adjust_quant`) -/

theorem two_pow_dvd_iff_testBit (k n : Nat) :
    2 ^ k ∣ n ↔ ∀ t, t < k → n.testBit t = false := by
  rw [Nat.dvd_iff_mod_eq_zero]
  constructor
  · intro h t ht
    have := Nat.testBit_mod_two_pow n k t
    rw [h] at this
    simpa [ht] using this.symm
  · intro h
    apply Nat.eq_of_testBit_eq
    intro t
    rw [Nat.testBit_mod_two_pow]
    by_cases ht : t < k
    · simp [ht, h t ht]
    · simp [ht]

theorem two_pow_dvd_or (k a b : Nat) : 2 ^ k ∣ (a ||| b) ↔ 2 ^ k ∣ a ∧ 2 ^ k ∣ b := by
  simp only [two_pow_dvd_iff_testBit, Nat.testBit_or, Bool.or_eq_false_iff]
  constructor
  · intro h
    exact ⟨fun t ht => (h t ht).1, fun t ht => (h t ht).2⟩
  · intro h t ht
    exact ⟨h.1 t ht, h.2 t ht⟩

theorem two_pow_dvd_inner (k : Nat) (value : List Int) :
    ∀ acc : Nat, 2 ^ k ∣ value.foldl (fun a c => a ||| to_unsigned 32 c) acc ↔
      2 ^ k ∣ acc ∧ ∀ c ∈ value, 2 ^ k ∣ to_unsigned 32 c := by
  induction value with
  | nil => intro acc; simp
  | cons c value ih =>
    intro acc
    simp only [List.foldl_cons, ih, two_pow_dvd_or, List.mem_cons, forall_eq_or_imp]
    tauto

theorem two_pow_dvd_active_aux (k : Nat) (values : List (List Int)) :
    ∀ acc : Nat,
      2 ^ k ∣ values.foldl (fun acc value => value.foldl (fun a c => a ||| to_unsigned 32 c) acc)
        acc ↔ 2 ^ k ∣ acc ∧ ∀ v ∈ values, ∀ c ∈ v, 2 ^ k ∣ to_unsigned 32 c := by
  induction values with
  | nil => intro acc; simp
  | cons v values ih =>
    intro acc
    simp only [List.foldl_cons, ih, two_pow_dvd_inner, List.mem_cons, forall_eq_or_imp]
    tauto

/-- A power of two divides the OR of all components exactly when it divides
every component. -/
theorem two_pow_dvd_active_bits (k : Nat) (values : List (List Int)) :
    2 ^ k ∣ active_bits values ↔ ∀ v ∈ values, ∀ c ∈ v, 2 ^ k ∣ to_unsigned 32 c := by
  unfold active_bits
  rw [two_pow_dvd_active_aux]
  simp

theorem count_trailing_spec : ∀ (fuel x : Nat), x ≠ 0 → x < 2 ^ fuel →
    2 ^ count_trailing fuel x ∣ x ∧ ¬ 2 ^ (count_trailing fuel x + 1) ∣ x := by
  intro fuel
  induction fuel with
  | zero =>
    intro x h0 hx
    simp at hx
    omega
  | succ fuel ih =>
    intro x h0 hx
    by_cases hodd : x % 2 = 1
    · simp only [count_trailing, hodd, if_true]
      refine ⟨by simp, ?_⟩
      rw [Nat.dvd_iff_mod_eq_zero]
      simp
      omega
    · simp only [count_trailing, hodd, if_false]
      have hx2 : x / 2 < 2 ^ fuel := by
        rw [Nat.div_lt_iff_lt_mul (by norm_num)]
        rw [Nat.pow_succ] at hx
        exact hx
      obtain ⟨h1, h2⟩ := ih (x / 2) (by omega) hx2
      have hx : x = 2 * (x / 2) := by omega
      generalize count_trailing fuel (x / 2) = k at h1 h2
      constructor
      · rw [hx, Nat.pow_succ, Nat.mul_comm]
        exact Nat.mul_dvd_mul (dvd_refl 2) h1
      · intro h
        apply h2
        rw [hx] at h
        have h3 : (2 : Nat) ^ (k + 1 + 1) = 2 * 2 ^ (k + 1) := by
          rw [Nat.pow_succ, Nat.mul_comm]
        rw [h3] at h
        exact (Nat.mul_dvd_mul_iff_left (by norm_num : 0 < 2)).1 h

theorem active_bits_lt (values : List (List Int)) : active_bits values < 2 ^ 32 := by
  unfold active_bits
  have inner : ∀ (value : List Int) (acc : Nat), acc < 2 ^ 32 →
      value.foldl (fun a c => a ||| to_unsigned 32 c) acc < 2 ^ 32 := by
    intro value
    induction value with
    | nil => intro acc h; exact h
    | cons c value ih =>
      intro acc h
      simp only [List.foldl_cons]
      apply ih
      apply Nat.or_lt_two_pow h
      unfold to_unsigned
      have h1 : (0 : Int) ≤ c % 2 ^ 32 := Int.emod_nonneg _ (by norm_num)
      have h2 : c % 2 ^ 32 < 2 ^ 32 := Int.emod_lt_of_pos _ (by norm_num)
      omega
  have outer : ∀ (values : List (List Int)) (acc : Nat), acc < 2 ^ 32 →
      values.foldl (fun acc value => value.foldl (fun a c => a ||| to_unsigned 32 c) acc) acc
        < 2 ^ 32 := by
    intro values
    induction values with
    | nil => intro acc h; exact h
    | cons v values ih =>
      intro acc h
      simp only [List.foldl_cons]
      exact ih _ (inner v acc h)
  exact outer values 0 (by norm_num)

theorem to_unsigned_dvd (k : Nat) (hk : k ≤ 32) (c : Int) :
    2 ^ k ∣ to_unsigned 32 c ↔ (2 : Int) ^ k ∣ c := by
  unfold to_unsigned
  have h1 : (0 : Int) ≤ c % 2 ^ 32 := Int.emod_nonneg _ (by norm_num)
  rw [← Int.natCast_dvd_natCast, Int.toNat_of_nonneg h1]
  have hd : ((2 ^ k : Nat) : Int) ∣ (2 : Int) ^ 32 := by
    push_cast
    exact pow_dvd_pow 2 hk
  push_cast at hd ⊢
  rw [Int.dvd_iff_emod_eq_zero, Int.dvd_iff_emod_eq_zero, Int.emod_emod_of_dvd _ hd]

theorem active_bits_eq_zero_iff (values : List (List Int))
    (h16 : ∀ v ∈ values, ∀ c ∈ v, -32768 ≤ c ∧ c ≤ 32767) :
    active_bits values = 0 ↔ ∀ v ∈ values, ∀ c ∈ v, c = 0 := by
  have hlt := active_bits_lt values
  have h1 : active_bits values = 0 ↔ 2 ^ 32 ∣ active_bits values := by
    constructor
    · intro h; rw [h]; exact dvd_zero _
    · intro h; exact Nat.eq_zero_of_dvd_of_lt h hlt
  rw [h1, two_pow_dvd_active_bits]
  constructor
  · intro h v hv c hc
    have hd := (to_unsigned_dvd 32 (le_refl _) c).1 (h v hv c hc)
    obtain ⟨m, hm⟩ := hd
    have := h16 v hv c hc
    norm_num at hm
    omega
  · intro h v hv c hc
    rw [h v hv c hc]
    exact (to_unsigned_dvd 32 (le_refl _) 0).2 (dvd_zero _)

theorem shiftRight_mul_cancel (c : Int) (k : Nat) (h : (2 : Int) ^ k ∣ c) :
    Int.shiftRight c k * 2 ^ k = c := by
  have h1 : Int.shiftRight c k = c / ((2 ^ k : Nat) : Int) := Int.shiftRight_eq_div_pow c k
  rw [h1]
  push_cast
  exact Int.ediv_mul_cancel h

/-- The non-trivial branch of `adjust_quant`: the shift `k` is at most 15, is
the largest power of two dividing every component, and the result is the
componentwise arithmetic shift with the exponent raised by `k`. -/
theorem adjust_quant_nonzero (values : List (List Int)) (exp : Int)
    (h16 : ∀ v ∈ values, ∀ c ∈ v, -32768 ≤ c ∧ c ≤ 32767)
    (hA : active_bits values ≠ 0) :
    ∃ k : Nat, k = trailing_zeroes (active_bits values) ∧ k ≤ 15 ∧
      (∀ v ∈ values, ∀ c ∈ v, (2 : Int) ^ k ∣ c) ∧
      (∃ v ∈ values, ∃ c ∈ v, ¬ (2 : Int) ^ (k + 1) ∣ c) ∧
      (adjust_quant values exp).1
        = (values.map fun value => value.map fun c => Int.shiftRight c k) ∧
      (adjust_quant values exp).2 = exp + k := by
  have hlt := active_bits_lt values
  have hmod : active_bits values % 2 ^ 32 = active_bits values := Nat.mod_eq_of_lt hlt
  have htz : trailing_zeroes (active_bits values) = count_trailing 32 (active_bits values) := by
    unfold trailing_zeroes
    rw [hmod]
    simp [hA]
  obtain ⟨hd1, hd2⟩ := count_trailing_spec 32 (active_bits values) hA hlt
  rw [← htz] at hd1 hd2
  generalize hk : trailing_zeroes (active_bits values) = k at hd1 hd2
  have hk32 : k < 32 := by
    by_contra hge
    have hle : 2 ^ k ≤ active_bits values := Nat.le_of_dvd (Nat.pos_of_ne_zero hA) hd1
    have : 2 ^ 32 ≤ 2 ^ k := Nat.pow_le_pow_right (by norm_num) (by omega)
    omega
  have hall : ∀ v ∈ values, ∀ c ∈ v, (2 : Int) ^ k ∣ c := by
    intro v hv c hc
    exact (to_unsigned_dvd k (by omega) c).1
      ((two_pow_dvd_active_bits k values).1 hd1 v hv c hc)
  have hsome : ∃ v ∈ values, ∃ c ∈ v, ¬ (2 : Int) ^ (k + 1) ∣ c := by
    by_contra hno
    apply hd2
    rw [two_pow_dvd_active_bits]
    intro v hv c hc
    rw [to_unsigned_dvd (k + 1) (by omega) c]
    by_contra hnd
    exact hno ⟨v, hv, c, hc, hnd⟩
  have hk15 : k ≤ 15 := by
    by_contra hge
    obtain ⟨v, hv, c, hc, hnd⟩ := hsome
    have h2 : (2 : Int) ^ 16 ∣ c :=
      dvd_trans (pow_dvd_pow 2 (by omega)) (hall v hv c hc)
    obtain ⟨m, hm⟩ := h2
    have hb := h16 v hv c hc
    norm_num at hm
    have hc0 : c = 0 := by omega
    exact hnd (by rw [hc0]; exact dvd_zero _)
  refine ⟨k, rfl, hk15, hall, hsome, ?_, ?_⟩
  · simp [adjust_quant, hA, hk]
  · simp [adjust_quant, hA, hk]

theorem shiftRight_zero_left (k : Nat) : Int.shiftRight 0 k = 0 := by
  rw [show Int.shiftRight 0 k = (0 : Int) / ((2 ^ k : Nat) : Int) from
    Int.shiftRight_eq_div_pow 0 k]
  simp

theorem getD_getD_map_shift (values : List (List Int)) (k i j : Nat) :
    ((values.map fun value => value.map fun c => Int.shiftRight c k).getD i []).getD j 0
      = Int.shiftRight ((values.getD i []).getD j 0) k := by
  have e1 : (values.map fun value => value.map fun c => Int.shiftRight c k).getD i
      ((fun value : List Int => value.map fun c => Int.shiftRight c k) [])
      = (values.getD i []).map fun c => Int.shiftRight c k := List.getD_map _ _ _
  have e0 : (fun value : List Int => value.map fun c => Int.shiftRight c k) [] = [] := rfl
  rw [e0] at e1
  rw [e1]
  have e2 : ((values.getD i []).map fun c => Int.shiftRight c k).getD j
      ((fun c : Int => Int.shiftRight c k) 0)
      = Int.shiftRight ((values.getD i []).getD j 0) k := List.getD_map _ _ _
  have e3 : (fun c : Int => Int.shiftRight c k) 0 = 0 := shiftRight_zero_left k
  rw [e3] at e2
  exact e2

theorem dvd_getD_getD (values : List (List Int)) (d : Int)
    (hall : ∀ v ∈ values, ∀ c ∈ v, d ∣ c) (i j : Nat) : d ∣ (values.getD i []).getD j 0 := by
  by_cases hi : i < values.length
  · rw [List.getD_eq_getElem _ _ hi]
    by_cases hj : j < (values[i]).length
    · rw [List.getD_eq_getElem _ _ hj]
      exact hall _ (List.getElem_mem hi) _ (List.getElem_mem hj)
    · rw [List.getD_eq_default _ _ (Nat.le_of_not_lt hj)]
      exact dvd_zero _
  · rw [List.getD_eq_default _ _ (Nat.le_of_not_lt hi)]
    simp

/-- Both branches of `adjust_quant` at once: some shift `k` (0 when all
components are zero) divides every component, the values are shifted by it and
the exponent is raised by it. -/
theorem adjust_quant_shift (values : List (List Int)) (exp : Int)
    (h16 : ∀ v ∈ values, ∀ c ∈ v, -32768 ≤ c ∧ c ≤ 32767) :
    ∃ k : Nat, (∀ v ∈ values, ∀ c ∈ v, (2 : Int) ^ k ∣ c) ∧
      (adjust_quant values exp).1
        = (values.map fun value => value.map fun c => Int.shiftRight c k) ∧
      (adjust_quant values exp).2 = exp + k := by
  by_cases hA : active_bits values = 0
  · refine ⟨0, fun v _ c _ => by simp, ?_, by simp [adjust_quant, hA]⟩
    have hid : (fun value : List Int => value.map fun c => Int.shiftRight c 0) = id := by
      funext value
      have : (fun c : Int => Int.shiftRight c 0) = id := by
        funext c
        rw [show Int.shiftRight c 0 = c / ((2 ^ 0 : Nat) : Int) from
          Int.shiftRight_eq_div_pow c 0]
        simp
      rw [this]
      simp
    rw [hid]
    simp [adjust_quant, hA]
  · obtain ⟨k, _, _, hall, _, hval, hexp⟩ := adjust_quant_nonzero values exp h16 hA
    exact ⟨k, hall, hval, hexp⟩

/-- C6. The trim loses nothing: for every list of signed 16-bit vectors and
every exponent `e`, `adjust_quant` returns values `v'` and exponent
`e' = e + k`, where `k` is the number of trailing zero bits of the OR of all
components (the largest power of two dividing every component), such that
`v' * 2^k = v` for every component and hence `v' * 2^e' = v * 2^e`; when every
component is zero, values and exponent are returned unchanged. -/
theorem adjust_quant_lossless (values : List (List Int)) (exp : Int)
    (h16 : ∀ v ∈ values, ∀ c ∈ v, -32768 ≤ c ∧ c ≤ 32767) :
    ((∀ v ∈ values, ∀ c ∈ v, c = 0) → adjust_quant values exp = (values, exp)) ∧
    ((∃ v ∈ values, ∃ c ∈ v, c ≠ 0) →
      ∃ k : Nat, k = trailing_zeroes (active_bits values) ∧ k ≤ 15 ∧
        (∀ v ∈ values, ∀ c ∈ v, (2 : Int) ^ k ∣ c) ∧
        (∃ v ∈ values, ∃ c ∈ v, ¬ (2 : Int) ^ (k + 1) ∣ c) ∧
        (adjust_quant values exp).2 = exp + k ∧
        (adjust_quant values exp).1.map (List.map fun c => c * 2 ^ k) = values ∧
        ∀ i j,
          ((((adjust_quant values exp).1.getD i []).getD j 0 : Int) : ℚ)
              * (2 : ℚ) ^ (adjust_quant values exp).2
            = (((values.getD i []).getD j 0 : Int) : ℚ) * (2 : ℚ) ^ exp) := by
  have hz := active_bits_eq_zero_iff values h16
  constructor
  · intro h
    simp [adjust_quant, hz.2 h]
  · intro hex
    have hA : active_bits values ≠ 0 := by
      intro h
      obtain ⟨v, hv, c, hc, hne⟩ := hex
      exact hne (hz.1 h v hv c hc)
    obtain ⟨k, hk, hk15, hall, hsome, hval, hexp⟩ := adjust_quant_nonzero values exp h16 hA
    refine ⟨k, hk, hk15, hall, hsome, hexp, ?_, ?_⟩
    · rw [hval, List.map_map]
      conv_rhs => rw [← List.map_id values]
      apply List.map_congr_left
      intro v hv
      simp only [Function.comp, List.map_map, id]
      conv_rhs => rw [← List.map_id v]
      apply List.map_congr_left
      intro c hc
      simp only [Function.comp, id]
      exact shiftRight_mul_cancel c k (hall v hv c hc)
    · intro i j
      rw [hval, hexp, getD_getD_map_shift]
      have hc := shiftRight_mul_cancel _ k (dvd_getD_getD values _ hall i j)
      generalize (values.getD i []).getD j 0 = c at hc
      generalize Int.shiftRight c k = d at hc
      rw [← hc, zpow_add₀ (by norm_num : (2 : ℚ) ≠ 0), zpow_natCast]
      push_cast
      ring

/-- Witness for C6: two `i16vec3` values whose components share the factor 4. -/
theorem adjust_quant_lossless_witness :
    (∀ v ∈ sample_quant, ∀ c ∈ v, -32768 ≤ c ∧ c ≤ (32767 : Int)) ∧
    (∃ v ∈ sample_quant, ∃ c ∈ v, c ≠ 0) ∧
    ∃ k : Nat, k = trailing_zeroes (active_bits sample_quant) ∧ k ≤ 15 ∧
      (adjust_quant sample_quant (-12)).2 = -12 + k ∧
      (adjust_quant sample_quant (-12)).1.map (List.map fun c => c * 2 ^ k) = sample_quant :=
  ⟨by decide, by decide,
    match (adjust_quant_lossless sample_quant (-12) (by decide)).2 (by decide) with
    | ⟨k, h1, h2, _, _, h5, h6, _⟩ => ⟨k, h1, h2, h5, h6⟩⟩

/-! ## Round trip of positions -/

/-- The clamp after rounding moves a value of magnitude below `2^15` by at
most one. -/
theorem clamp_round_error (rnd : ℚ → Int) (hr : ∀ x, abs (((rnd x : Int) : ℚ) - x) ≤ 1 / 2)
    (x : ℚ) (hx : abs x < 32768) :
    abs (((min (max (rnd x) (-0x8000)) 0x7fff : Int) : ℚ) - x) ≤ 1 := by
  have h := hr x
  rw [abs_le] at h
  rw [abs_lt] at hx
  obtain ⟨h1, h2⟩ := h
  obtain ⟨hx1, hx2⟩ := hx
  rw [abs_le]
  by_cases hhi : 32768 ≤ rnd x
  · have hq : min (max (rnd x) (-0x8000)) 0x7fff = 32767 := by omega
    have hc : (32768 : ℚ) ≤ ((rnd x : Int) : ℚ) := by exact_mod_cast hhi
    rw [hq]
    push_cast
    constructor <;> linarith
  · by_cases hlo : rnd x ≤ -32769
    · have hc : ((rnd x : Int) : ℚ) ≤ -32769 := by exact_mod_cast hlo
      exfalso
      linarith
    · have hq : min (max (rnd x) (-0x8000)) 0x7fff = rnd x := by omega
      rw [hq]
      constructor <;> linarith

theorem clamp_range (r : Int) :
    -32768 ≤ min (max r (-0x8000)) 0x7fff ∧ min (max r (-0x8000)) 0x7fff ≤ 32767 := by
  omega

/-- Every component is bounded in magnitude by `max_value`. -/
theorem max_extent_bound (positions : List (List ℚ)) (hlen : ∀ p ∈ positions, p.length = 3) :
    ∀ p ∈ positions, ∀ k, k < 3 →
      abs (p.getD k 0) ≤
        max (max ((positions.foldl (fun m p => List.zipWith max m (p.map fun x => abs x))
              [0, 0, 0]).getD 0 0)
            ((positions.foldl (fun m p => List.zipWith max m (p.map fun x => abs x))
              [0, 0, 0]).getD 1 0))
          ((positions.foldl (fun m p => List.zipWith max m (p.map fun x => abs x))
              [0, 0, 0]).getD 2 0) := by
  intro p hp k hk
  have hfold : positions.foldl (fun m p => List.zipWith max m (p.map fun x => abs x)) [0, 0, 0]
      = (positions.map (List.map fun x => abs x)).foldl (fun m p => List.zipWith max m p)
          (List.replicate 3 0) := by
    rw [List.foldl_map]
    rfl
  rw [hfold]
  have hne : positions.map (List.map fun x : ℚ => abs x) ≠ [] := by
    intro h
    rw [List.map_eq_nil_iff] at h
    rw [h] at hp
    simp at hp
  obtain ⟨_, hmax⟩ := col_max_spec (positions.map (List.map fun x : ℚ => abs x)) 3 0 0 hne
    (by
      intro q hq
      obtain ⟨q0, hq0, rfl⟩ := List.mem_map.1 hq
      simpa using hlen q0 hq0)
    (by
      intro q hq j hj
      obtain ⟨q0, hq0, rfl⟩ := List.mem_map.1 hq
      rw [getD_map_of_lt _ q0 j (by rw [hlen q0 hq0]; exact hj) 0 0]
      exact abs_nonneg _)
  have hk' := (hmax k hk).2 _ (List.mem_map_of_mem _ hp)
  rw [getD_map_of_lt _ p k (by rw [hlen p hp]; exact hk) 0 0] at hk'
  generalize (positions.map (List.map fun x : ℚ => abs x)).foldl
    (fun m p => List.zipWith max m p) (List.replicate 3 0) = r at hk'
  interval_cases k
  · exact le_trans hk' (le_trans (le_max_left _ _) (le_max_left _ _))
  · exact le_trans hk' (le_trans (le_max_right _ _) (le_max_left _ _))
  · exact le_trans hk' (le_max_right _ _)

/-- With the scale `min(14 - floor(log2 M), 12)`, a component of magnitude at
most `M` stays below `2^15` after scaling. -/
theorem scaled_lt (M v : ℚ) (hM : 0 < M) (hv : abs v ≤ M) :
    abs (ldexp v (min (compute_log2_scale M) 12)) < 32768 := by
  unfold ldexp compute_log2_scale floor_log2
  have h2 : (1 : ℚ) ≤ 2 := by norm_num
  have hpos : ∀ e : Int, (0 : ℚ) < 2 ^ e := fun e => zpow_pos (by norm_num) e
  have hlog : M < (2 : ℚ) ^ (Int.log 2 M + 1) := by
    have := Int.lt_zpow_succ_log_self (R := ℚ) (b := 2) (by norm_num) M
    simpa using this
  have hmono : (2 : ℚ) ^ (min (14 - Int.log 2 M) 12) ≤ 2 ^ (14 - Int.log 2 M) :=
    zpow_le_zpow_right₀ h2 (min_le_left _ _)
  rw [abs_mul, abs_of_pos (hpos _)]
  calc abs v * 2 ^ (min (14 - Int.log 2 M) 12)
      ≤ M * 2 ^ (14 - Int.log 2 M) :=
        mul_le_mul hv hmono (le_of_lt (hpos _)) (le_of_lt hM)
    _ < 2 ^ (Int.log 2 M + 1) * 2 ^ (14 - Int.log 2 M) :=
        mul_lt_mul_of_pos_right hlog (hpos _)
    _ = 32768 := by
        rw [← zpow_add₀ (by norm_num : (2 : ℚ) ≠ 0)]
        have : Int.log 2 M + 1 + (14 - Int.log 2 M) = 15 := by ring
        rw [this]
        norm_num

theorem decode_snorm_exp_getD (l : List Int) (e : Int) (k : Nat) :
    (decode_snorm_exp l e).getD k 0 = ldexp ((l.getD k 0 : Int) : ℚ) e := by
  have h := List.getD_map l (0 : Int) (n := k) (fun c : Int => ldexp (c : ℚ) e)
  have h0 : ldexp (((0 : Int) : ℚ)) e = 0 := by simp [ldexp]
  rw [h0] at h
  unfold decode_snorm_exp
  exact h

/-- C7. Round-trip bound for positions, in exact arithmetic: for every list of
positions whose largest absolute component is non-zero, with `q` and `exp` the
values and exponent returned by `mesh_extract_position_snorm_exp` (scale,
round to nearest, clamp to `[-32768, 32767]`, trim), every component `v` of
every vertex satisfies `|q * 2^exp - v| <= 2^exp`. -/
theorem position_roundtrip_bound (rnd : ℚ → Int)
    (hr : ∀ x, abs (((rnd x : Int) : ℚ) - x) ≤ 1 / 2)
    (positions : List (List ℚ)) (hlen : ∀ p ∈ positions, p.length = 3)
    (hnz : ∃ p ∈ positions, ∃ k, k < 3 ∧ p.getD k 0 ≠ 0) :
    ∀ i k, i < positions.length → k < 3 →
      abs ((decode_snorm_exp ((mesh_extract_position_snorm_exp rnd positions).1.getD i [])
              (mesh_extract_position_snorm_exp rnd positions).2).getD k 0
            - (positions.getD i []).getD k 0)
        ≤ (2 : ℚ) ^ (mesh_extract_position_snorm_exp rnd positions).2 := by
  intro i k hi hk
  have hbound := max_extent_bound positions hlen
  unfold mesh_extract_position_snorm_exp
  simp only
  generalize max (max ((positions.foldl (fun m p => List.zipWith max m (p.map fun x => abs x))
              [0, 0, 0]).getD 0 0)
            ((positions.foldl (fun m p => List.zipWith max m (p.map fun x => abs x))
              [0, 0, 0]).getD 1 0))
          ((positions.foldl (fun m p => List.zipWith max m (p.map fun x => abs x))
              [0, 0, 0]).getD 2 0) = M at hbound
  have hM : 0 < M := by
    obtain ⟨p, hp, j, hj, hne⟩ := hnz
    exact lt_of_lt_of_le (abs_pos.2 hne) (hbound p hp j hj)
  generalize hs : min (compute_log2_scale M) 12 = s
  have hpos : ∀ e : Int, (0 : ℚ) < 2 ^ e := fun e => zpow_pos (by norm_num) e
  -- the encoded values are 16-bit
  have h16 : ∀ v ∈ positions.map (fun pos => encode_vec3_to_snorm_exp rnd pos s),
      ∀ c ∈ v, -32768 ≤ c ∧ c ≤ 32767 := by
    intro v hv c hc
    obtain ⟨p, _, rfl⟩ := List.mem_map.1 hv
    unfold encode_vec3_to_snorm_exp at hc
    obtain ⟨x, _, rfl⟩ := List.mem_map.1 hc
    exact clamp_range _
  obtain ⟨kk, hall, hval, hexp⟩ := adjust_quant_shift _ (-s) h16
  rw [hval, hexp, decode_snorm_exp_getD, getD_getD_map_shift]
  have hdvd := dvd_getD_getD _ _ hall i k
  have hcancel := shiftRight_mul_cancel _ kk hdvd
  -- the encoded component before the trim
  have hpi : positions.getD i [] ∈ positions := by
    rw [List.getD_eq_getElem _ _ hi]
    exact List.getElem_mem _
  have henc : ((positions.map fun pos => encode_vec3_to_snorm_exp rnd pos s).getD i []).getD k 0
      = min (max (rnd (ldexp ((positions.getD i []).getD k 0) s)) (-0x8000)) 0x7fff := by
    rw [getD_map_of_lt _ positions i hi [] []]
    unfold encode_vec3_to_snorm_exp
    rw [getD_map_of_lt _ _ k (by rw [hlen _ hpi]; exact hk) 0 0]
  rw [henc] at hcancel ⊢
  have hv := hbound _ hpi k hk
  generalize (positions.getD i []).getD k 0 = v at hcancel hv ⊢
  have hx : abs (ldexp v s) < 32768 := by
    rw [← hs]
    exact scaled_lt M v hM hv
  have herr := clamp_round_error rnd hr (ldexp v s) hx
  generalize min (max (rnd (ldexp v s)) (-0x8000)) 0x7fff = q0 at hcancel herr ⊢
  generalize Int.shiftRight q0 kk = q at hcancel
  -- arithmetic on powers of two
  have hq : ldexp ((q : Int) : ℚ) (-s + kk) = ((q0 : Int) : ℚ) * 2 ^ (-s) := by
    unfold ldexp
    rw [← hcancel, zpow_add₀ (by norm_num : (2 : ℚ) ≠ 0), zpow_natCast]
    push_cast
    ring
  have hvx : v = ldexp v s * 2 ^ (-s) := by
    unfold ldexp
    rw [mul_assoc, ← zpow_add₀ (by norm_num : (2 : ℚ) ≠ 0)]
    simp
  rw [hq]
  have hdiff : ((q0 : Int) : ℚ) * 2 ^ (-s) - v = (((q0 : Int) : ℚ) - ldexp v s) * 2 ^ (-s) := by
    conv_lhs => rw [hvx]
    ring
  rw [hdiff, abs_mul, abs_of_pos (hpos _)]
  have hmono : (2 : ℚ) ^ (-s) ≤ 2 ^ (-s + (kk : Int)) :=
    zpow_le_zpow_right₀ (by norm_num) (by omega)
  calc abs (((q0 : Int) : ℚ) - ldexp v s) * 2 ^ (-s)
      ≤ 1 * 2 ^ (-s) := mul_le_mul_of_nonneg_right herr (le_of_lt (hpos _))
    _ = 2 ^ (-s) := one_mul _
    _ ≤ 2 ^ (-s + (kk : Int)) := hmono

/-- Witness for C7: two positions, rounded with round-half-up. -/
theorem position_roundtrip_bound_witness :
    (∀ x : ℚ, abs (((round x : Int) : ℚ) - x) ≤ 1 / 2) ∧
    (∀ p ∈ sample_positions, p.length = 3) ∧
    (∃ p ∈ sample_positions, ∃ k, k < 3 ∧ p.getD k 0 ≠ 0) ∧
    abs ((decode_snorm_exp ((mesh_extract_position_snorm_exp round sample_positions).1.getD 1 [])
            (mesh_extract_position_snorm_exp round sample_positions).2).getD 0 0
          - (sample_positions.getD 1 []).getD 0 0)
      ≤ (2 : ℚ) ^ (mesh_extract_position_snorm_exp round sample_positions).2 :=
  have hround : ∀ x : ℚ, abs (((round x : Int) : ℚ) - x) ≤ 1 / 2 := fun x => by
    rw [abs_sub_comm]; exact abs_sub_round x
  have hl : ∀ p ∈ sample_positions, p.length = 3 := by
    intro p hp
    simp only [sample_positions, List.mem_cons, List.mem_singleton, List.not_mem_nil,
      or_false] at hp
    rcases hp with rfl | rfl <;> rfl
  have hz : ∃ p ∈ sample_positions, ∃ k, k < 3 ∧ p.getD k 0 ≠ 0 :=
    ⟨[1, 0, 0], by simp [sample_positions], 0, by norm_num, by norm_num⟩
  ⟨hround, hl, hz,
    position_roundtrip_bound round hround sample_positions hl hz 1 0
      (by simp [sample_positions]) (by norm_num)⟩

/-! ## Payload segments -/

theorem HasSegment.mono {p q : List Nat} {off : Nat} {app : List Nat} (hpq : p <+: q)
    (h : HasSegment p off app) : HasSegment q off app := by
  obtain ⟨t, rfl⟩ := hpq
  obtain ⟨pre, post, rfl, hlen⟩ := h
  exact ⟨pre, post ++ t, by simp [List.append_assoc], hlen⟩

theorem HasSegment.append_self (p app : List Nat) : HasSegment (p ++ app) p.length app :=
  ⟨p, [], by simp, rfl⟩

theorem HasSegment.bound {p : List Nat} {off : Nat} {app : List Nat}
    (h : HasSegment p off app) : off + app.length ≤ p.length := by
  obtain ⟨pre, post, rfl, hlen⟩ := h
  simp only [List.length_append]
  omega

theorem getD_set {α : Type} (l : List α) (i j : Nat) (a d : α) :
    (l.set i a).getD j d = if i = j ∧ i < l.length then a else l.getD j d := by
  simp only [List.getD_eq_getElem?_getD, List.getElem?_set]
  by_cases hij : i = j
  · subst hij
    by_cases hi : i < l.length
    · simp [hi]
    · simp [hi, List.getElem?_eq_none (Nat.le_of_not_lt hi)]
  · simp [hij]

/-! ## The payload only grows -/

theorem encode_index_stream_eq (p : List Nat) (sb : List (List Nat)) (n : Nat) :
    encode_index_stream p sb n = p ++ encode_index_stream [] sb n := by
  simp [encode_index_stream]

theorem encode_bitplane_prefix (T : AttrType) (p : List Nat) (values : List (List Nat))
    (bits n : Nat) : p <+: encode_bitplane T p values bits n := by
  cases T <;>
    simp only [encode_bitplane, encode_bitplane_16_inner, encode_bitplane_u8vec4] <;>
    exact List.prefix_append _ _

theorem encode_attribute_stream_prefix (T : AttrType) (p : List Nat) (stream : Stream)
    (raw : List (List Nat)) (c : Nat) (remap : Option (List Nat)) (n : Nat) :
    p <+: (encode_attribute_stream T p stream raw c remap n).1 := by
  rw [encode_attribute_stream_fst]
  exact encode_bitplane_prefix _ _ _ _ _

theorem encode_normal_tangent_chunk_prefix (p : List Nat) (stream : Stream)
    (nt : List NormalTangent) (meshlet : Meshlet) (c : Nat) :
    p <+: (encode_normal_tangent_chunk p stream nt meshlet c).1 := by
  unfold encode_normal_tangent_chunk
  simp only
  split_ifs <;> exact encode_attribute_stream_prefix _ _ _ _ _ _ _

theorem encode_attribute_chunk_prefix (meshlets : List Meshlet) (data : StreamData)
    (m si : Nat) (st : List Nat × Stream) (c : Nat) :
    st.1 <+: (encode_attribute_chunk meshlets data m si st c).1 := by
  unfold encode_attribute_chunk
  simp only
  split
  · exact encode_attribute_stream_prefix _ _ _ _ _ _ _
  · exact encode_attribute_stream_prefix _ _ _ _ _ _ _
  · exact encode_normal_tangent_chunk_prefix _ _ _ _ _
  · exact List.prefix_refl _

theorem foldl_prefix {σ ι : Type} (proj : σ → List Nat) (f : σ → ι → σ)
    (h : ∀ s i, proj s <+: proj (f s i)) :
    ∀ (l : List ι) (s : σ), proj s <+: proj (l.foldl f s) := by
  intro l
  induction l with
  | nil => intro s; exact List.prefix_refl _
  | cons i l ih =>
    intro s
    exact List.IsPrefix.trans (h s i) (ih (f s i))

theorem encode_attribute_streams_step_spec (meshlets : List Meshlet) (data : StreamData)
    (p_aux : List Int) (m num_chunks : Nat) (acc : List Nat × List Stream) (si : Nat) :
    acc.1 <+: (encode_attribute_streams_step meshlets data p_aux m num_chunks acc si).1 ∧
    (1 ≤ si →
      (encode_attribute_streams_step meshlets data p_aux m num_chunks acc si).2.getD 0 Stream.zero
        = acc.2.getD 0 Stream.zero) := by
  unfold encode_attribute_streams_step
  simp only
  constructor
  · exact foldl_prefix (fun st : List Nat × Stream => st.1) _
      (fun st c => encode_attribute_chunk_prefix meshlets data m si st c)
      (List.range num_chunks)
      (acc.1, { acc.2.getD si Stream.zero with aux := p_aux.getD si 0 })
  · intro hsi
    rw [getD_set]
    have : ¬ (si = 0 ∧ si < acc.2.length) := by omega
    simp [this]

theorem encode_attribute_streams_fold_spec (meshlets : List Meshlet) (data : StreamData)
    (p_aux : List Int) (m num_chunks : Nat) :
    ∀ (l : List Nat), (∀ si ∈ l, 1 ≤ si) → ∀ (acc : List Nat × List Stream),
      acc.1 <+: (l.foldl (encode_attribute_streams_step meshlets data p_aux m num_chunks) acc).1 ∧
      (l.foldl (encode_attribute_streams_step meshlets data p_aux m num_chunks) acc).2.getD 0
          Stream.zero = acc.2.getD 0 Stream.zero := by
  intro l
  induction l with
  | nil => intro _ acc; exact ⟨List.prefix_refl _, rfl⟩
  | cons si l ih =>
    intro hl acc
    obtain ⟨h1, h2⟩ := encode_attribute_streams_step_spec meshlets data p_aux m num_chunks acc si
    obtain ⟨g1, g2⟩ := ih (fun x hx => hl x (List.mem_cons_of_mem _ hx))
      (encode_attribute_streams_step meshlets data p_aux m num_chunks acc si)
    simp only [List.foldl_cons]
    exact ⟨List.IsPrefix.trans h1 g1, by rw [g2, h2 (hl si (List.mem_cons_self _ _))]⟩

/-! ## The loops of `encode_mesh` -/

theorem set_offsets_fold_offsets (a b : Nat) :
    ∀ (l : List Nat) (s : Stream),
      (l.foldl (fun s c => set_offsets s c a b) s).offsets_in_words = s.offsets_in_words := by
  intro l
  induction l with
  | nil => intro s; rfl
  | cons c l ih =>
    intro s
    simp only [List.foldl_cons]
    rw [ih]
    rfl

/-- The primitive-stream loop: the payload grows, and the offset recorded for
each chunk processed so far points at that chunk's index words. -/
theorem primitive_loop_spec (meshlets : List Meshlet) (m : Nat) :
    ∀ k, k ≤ 4 → ∀ st0 : PrimState, st0.index_stream.offsets_in_words.length = 4 →
      st0.payload <+: ((List.range k).foldl (encode_primitive_chunk meshlets m) st0).payload ∧
      ((List.range k).foldl (encode_primitive_chunk meshlets m)
        st0).index_stream.offsets_in_words.length = 4 ∧
      ∀ c, c < k → ∃ off,
        ((List.range k).foldl (encode_primitive_chunk meshlets m)
          st0).index_stream.offsets_in_words.getD c 0 = off % 2 ^ 32 ∧
        HasSegment ((List.range k).foldl (encode_primitive_chunk meshlets m) st0).payload off
          (index_words (meshlets.getD (m * NumChunks + c) Meshlet.zero)) := by
  intro k
  induction k with
  | zero =>
    intro _ st0 h4
    exact ⟨List.prefix_refl _, h4, fun c hc => by omega⟩
  | succ k ih =>
    intro hk st0 h4
    obtain ⟨h1, h2, h3⟩ := ih (by omega) st0 h4
    simp only [List.range_succ, List.foldl_append, List.foldl_cons, List.foldl_nil]
    generalize (List.range k).foldl (encode_primitive_chunk meshlets m) st0 = r at h1 h2 h3
    have hpay : (encode_primitive_chunk meshlets m r k).payload
        = r.payload ++ index_words (meshlets.getD (m * NumChunks + k) Meshlet.zero) := by
      simp only [encode_primitive_chunk, index_words]
      exact encode_index_stream_eq _ _ _
    have hoff : (encode_primitive_chunk meshlets m r k).index_stream.offsets_in_words
        = r.index_stream.offsets_in_words.set k (r.payload.length % 2 ^ 32) := rfl
    have hpre : r.payload <+: (encode_primitive_chunk meshlets m r k).payload := by
      rw [hpay]; exact List.prefix_append _ _
    refine ⟨List.IsPrefix.trans h1 hpre, by rw [hoff, List.length_set]; exact h2, ?_⟩
    intro c hc
    rw [hoff, getD_set]
    by_cases hck : c = k
    · subst hck
      refine ⟨r.payload.length, ?_, ?_⟩
      · have : c = c ∧ c < r.index_stream.offsets_in_words.length := ⟨rfl, by omega⟩
        simp [this]
      · rw [hpay]
        exact HasSegment.append_self _ _
    · obtain ⟨off, ho, hs⟩ := h3 c (by omega)
      refine ⟨off, ?_, hs.mono hpre⟩
      have : ¬ (k = c ∧ k < r.index_stream.offsets_in_words.length) := by
        intro h; exact hck h.1.symm
      simp only [this, if_false]
      exact ho

/-- One output meshlet: the payload grows, one `Metadata` is appended, its
`num_chunks` is as computed, and the offsets of its primitive stream point at
the index words of its chunks. -/
theorem encode_meshlet_spec (meshlets : List Meshlet) (data : StreamData) (p_aux : List Int)
    (num_streams : Nat) (st : Encoded × Nat) (m : Nat) :
    st.1.payload <+: (encode_meshlet meshlets data p_aux num_streams st m).1.payload ∧
    ∃ md : Metadata,
      (encode_meshlet meshlets data p_aux num_streams st m).1.mesh.meshlets
        = st.1.mesh.meshlets ++ [md] ∧
      md.num_chunks = min ((meshlets.length - m * NumChunks) % 2 ^ 32) NumChunks ∧
      ∀ c, c < md.num_chunks → ∃ off,
        (md.streams.getD 0 Stream.zero).offsets_in_words.getD c 0 = off % 2 ^ 32 ∧
        HasSegment (encode_meshlet meshlets data p_aux num_streams st m).1.payload off
          (index_words (meshlets.getD (m * NumChunks + c) Meshlet.zero)) := by
  have hk4 : min ((meshlets.length - m * NumChunks) % 2 ^ 32) NumChunks ≤ 4 := by
    simp only [NumChunks]; omega
  obtain ⟨h1, h2, h3⟩ := primitive_loop_spec meshlets m _ hk4
    { payload := st.1.payload, index_stream := Stream.zero, num_attributes := 0,
      num_primitives := 0 } (by simp [Stream.zero])
  unfold encode_meshlet
  simp only
  generalize (List.range (min ((meshlets.length - m * NumChunks) % 2 ^ 32) NumChunks)).foldl
    (encode_primitive_chunk meshlets m)
    { payload := st.1.payload, index_stream := Stream.zero, num_attributes := 0,
      num_primitives := 0 } = prim at h1 h2 h3
  obtain ⟨g1, g2⟩ := encode_attribute_streams_fold_spec meshlets data p_aux m
    (min ((meshlets.length - m * NumChunks) % 2 ^ 32) NumChunks)
    (List.range' 1 (num_streams - 1))
    (by
      intro si hsi
      rw [List.mem_range'] at hsi
      obtain ⟨i, _, rfl⟩ := hsi
      omega)
    (prim.payload, (List.replicate MaxStreams Stream.zero).set 0
      ((List.range' (min ((meshlets.length - m * NumChunks) % 2 ^ 32) NumChunks)
        (NumChunks + 1 - min ((meshlets.length - m * NumChunks) % 2 ^ 32) NumChunks)).foldl
        (fun s chunk_index => set_offsets s chunk_index prim.num_primitives prim.num_attributes)
        prim.index_stream))
  refine ⟨List.IsPrefix.trans h1 g1, _, rfl, rfl, ?_⟩
  intro c hc
  simp only at hc
  obtain ⟨off, ho, hs⟩ := h3 c hc
  refine ⟨off, ?_, hs.mono g1⟩
  simp only
  rw [g2, getD_set]
  have : (0 = 0 ∧ 0 < (List.replicate MaxStreams Stream.zero).length) := by
    simp [MaxStreams]
  simp only [this, and_self, if_true]
  rw [set_offsets_fold_offsets]
  exact ho

/-- The loop over output meshlets, after `M` iterations. -/
theorem encode_mesh_loop_spec (meshlets : List Meshlet) (data : StreamData) (p_aux : List Int)
    (num_streams : Nat) (st0 : Encoded × Nat) (h0 : st0.1.mesh.meshlets = []) :
    ∀ M,
      ((List.range M).foldl (encode_meshlet meshlets data p_aux num_streams)
        st0).1.mesh.meshlets.length = M ∧
      ∀ m, m < M →
        (((List.range M).foldl (encode_meshlet meshlets data p_aux num_streams)
          st0).1.mesh.meshlets.getD m Metadata.zero).num_chunks
          = min ((meshlets.length - m * NumChunks) % 2 ^ 32) NumChunks ∧
        ∀ c, c < (((List.range M).foldl (encode_meshlet meshlets data p_aux num_streams)
            st0).1.mesh.meshlets.getD m Metadata.zero).num_chunks → ∃ off,
          ((((List.range M).foldl (encode_meshlet meshlets data p_aux num_streams)
            st0).1.mesh.meshlets.getD m Metadata.zero).streams.getD 0
              Stream.zero).offsets_in_words.getD c 0 = off % 2 ^ 32 ∧
          HasSegment ((List.range M).foldl (encode_meshlet meshlets data p_aux num_streams)
            st0).1.payload off
            (index_words (meshlets.getD (m * NumChunks + c) Meshlet.zero)) := by
  intro M
  induction M with
  | zero =>
    refine ⟨by simp [h0], fun m hm => by omega⟩
  | succ M ih =>
    obtain ⟨hlen, hspec⟩ := ih
    simp only [List.range_succ, List.foldl_append, List.foldl_cons, List.foldl_nil]
    generalize (List.range M).foldl (encode_meshlet meshlets data p_aux num_streams) st0 = r
      at hlen hspec
    obtain ⟨hpre, md, hmd, hnc, hoffs⟩ :=
      encode_meshlet_spec meshlets data p_aux num_streams r M
    rw [hmd]
    refine ⟨by rw [List.length_append, hlen]; rfl, ?_⟩
    intro m hm
    by_cases hmM : m = M
    · subst hmM
      have hget : (r.1.mesh.meshlets ++ [md]).getD m Metadata.zero = md := by
        rw [List.getD_append_right _ _ _ _ (by omega), hlen]
        simp
      rw [hget]
      exact ⟨hnc, hoffs⟩
    · have hget : (r.1.mesh.meshlets ++ [md]).getD m Metadata.zero
          = r.1.mesh.meshlets.getD m Metadata.zero := by
        rw [List.getD_append _ _ _ _ (by omega)]
      rw [hget]
      obtain ⟨h1, h2⟩ := hspec m (by omega)
      refine ⟨h1, ?_⟩
      intro c hc
      obtain ⟨off, ho, hs⟩ := h2 c hc
      exact ⟨off, ho, hs.mono hpre⟩

/-! ## Decoding the primitive stream -/

theorem flatMap_eq_range {α β : Type} (l : List α) (d : α) (f : α → List β) :
    l.flatMap f = (List.range l.length).flatMap fun j => f (l.getD j d) := by
  have h : l = (List.range l.length).map fun j => l.getD j d := by
    apply List.ext_getElem
    · simp
    · intro n h1 h2
      rw [List.getElem_map, List.getElem_range, List.getD_eq_getElem _ _ h1]
  conv_lhs => rw [h]
  rw [List.flatMap_map]

theorem getD_drop {α : Type} (l : List α) (n i : Nat) (d : α) :
    (l.drop n).getD i d = l.getD (n + i) d := by
  simp only [List.getD_eq_getElem?_getD, List.getElem?_drop]

/-- The global triangle list `out_index_buffer` built by
`export_mesh_to_meshlet` is the list of the chunks' triangles. -/
theorem build_out_meshlets_triangles (redir loc : List Nat) :
    ∀ (cl : List meshopt_Meshlet) (acc : List Meshlet × List (List Nat)),
      acc.2 = acc.1.flatMap chunk_triangles →
      (cl.foldl (build_out_meshlet redir loc) acc).2
        = (cl.foldl (build_out_meshlet redir loc) acc).1.flatMap chunk_triangles := by
  intro cl
  induction cl with
  | nil => intro acc h; exact h
  | cons ml cl ih =>
    intro acc h
    simp only [List.foldl_cons]
    apply ih
    simp only [build_out_meshlet, List.flatMap_append, List.flatMap_singleton, h]
    congr 1
    unfold chunk_triangles
    simp only
    apply List.map_congr_left
    intro i _
    simp only [getD_drop, Nat.add_zero]
    rw [Nat.add_comm (loc.getD (ml.triangle_offset + 3 * i) 0) ml.vertex_offset,
      Nat.add_comm (loc.getD (ml.triangle_offset + (3 * i + 1)) 0) ml.vertex_offset,
      Nat.add_comm (loc.getD (ml.triangle_offset + (3 * i + 2)) 0) ml.vertex_offset]

theorem build_index_remap_loop_succ (hash : List Nat → Nat) (mesh : Mesh) (n : Nat) :
    build_index_remap_loop hash mesh (n + 1)
      = build_index_remap_step hash mesh (build_index_remap_loop hash mesh n) n := by
  simp [build_index_remap_loop, List.range_succ, List.foldl_append]

/-- Invariant of the loop of `build_index_remap_list` after `n` vertices: the
map holds exactly the hashes of the unique vertices found so far, and every
processed vertex is mapped to the unique vertex with its hash. -/
theorem build_index_remap_loop_inv (hash : List Nat → Nat) (mesh : Mesh) :
    ∀ n, n < 2 ^ 32 →
      (build_index_remap_loop hash mesh n).unique_count
        = (build_index_remap_loop hash mesh n).unique_attrib_to_source_index.length ∧
      (build_index_remap_loop hash mesh n).index_remap.length = n ∧
      (build_index_remap_loop hash mesh n).unique_attrib_to_source_index.length ≤ n ∧
      (∀ h u, (build_index_remap_loop hash mesh n).attribute_remapper.lookup h = some u ↔
        (u < (build_index_remap_loop hash mesh n).unique_attrib_to_source_index.length ∧
          hash (vertex_key mesh
            ((build_index_remap_loop hash mesh n).unique_attrib_to_source_index.getD u 0)) = h)) ∧
      (∀ u, u < (build_index_remap_loop hash mesh n).unique_attrib_to_source_index.length →
        (build_index_remap_loop hash mesh n).unique_attrib_to_source_index.getD u 0 < n) ∧
      (∀ j, j < n →
        (build_index_remap_loop hash mesh n).index_remap.getD j 0
          < (build_index_remap_loop hash mesh n).unique_attrib_to_source_index.length ∧
        hash (vertex_key mesh
          ((build_index_remap_loop hash mesh n).unique_attrib_to_source_index.getD
            ((build_index_remap_loop hash mesh n).index_remap.getD j 0) 0))
          = hash (vertex_key mesh j)) := by
  intro n
  induction n with
  | zero =>
    intro _
    refine ⟨rfl, rfl, le_refl _, ?_, ?_, ?_⟩
    · intro h u
      simp [build_index_remap_loop]
    · intro u hu
      simp [build_index_remap_loop] at hu
    · intro j hj
      omega
  | succ n ih =>
    intro hn
    obtain ⟨i1, i2, i3, i4, i5, i6⟩ := ih (by omega)
    rw [build_index_remap_loop_succ]
    generalize build_index_remap_loop hash mesh n = st at i1 i2 i3 i4 i5 i6
    unfold build_index_remap_step
    cases hl : st.attribute_remapper.lookup (hash (vertex_key mesh n)) with
    | some idx =>
      simp only
      obtain ⟨hidx, hkey⟩ := (i4 _ idx).1 hl
      refine ⟨i1, by simp [i2], by omega, i4, fun u hu => by have := i5 u hu; omega, ?_⟩
      intro j hj
      by_cases hjn : j = n
      · subst hjn
        rw [List.getD_append_right _ _ _ _ (by omega), i2]
        simp only [Nat.sub_self, List.getD_cons_zero]
        exact ⟨hidx, hkey⟩
      · rw [List.getD_append _ _ _ _ (by omega)]
        exact i6 j (by omega)
    | none =>
      simp only
      have hfresh : ∀ u, u < st.unique_attrib_to_source_index.length →
          hash (vertex_key mesh (st.unique_attrib_to_source_index.getD u 0))
            ≠ hash (vertex_key mesh n) := by
        intro u hu he
        have := (i4 _ u).2 ⟨hu, he⟩
        rw [hl] at this
        exact Option.noConfusion this
      refine ⟨?_, by simp [i2], by simp; omega, ?_, ?_, ?_⟩
      · rw [i1, List.length_append]
        simp only [List.length_singleton]
        exact Nat.mod_eq_of_lt (by omega)
      · intro h u
        rw [List.lookup_cons, List.length_append]
        simp only [List.length_singleton]
        by_cases hh : h = hash (vertex_key mesh n)
        · subst hh
          simp only [beq_self_eq_true, Option.some.injEq]
          constructor
          · intro hu
            subst hu
            rw [i1, List.getD_append_right _ _ _ _ (le_refl _)]
            simp
          · rintro ⟨hu, he⟩
            by_cases hul : u < st.unique_attrib_to_source_index.length
            · rw [List.getD_append _ _ _ _ hul] at he
              exact absurd he (hfresh u hul)
            · omega
        · have hb : (h == hash (vertex_key mesh n)) = false := by simpa using hh
          rw [hb]
          simp only
          rw [i4 h u]
          constructor
          · rintro ⟨hu, he⟩
            exact ⟨by omega, by rw [List.getD_append _ _ _ _ hu]; exact he⟩
          · rintro ⟨hu, he⟩
            by_cases hul : u < st.unique_attrib_to_source_index.length
            · rw [List.getD_append _ _ _ _ hul] at he
              exact ⟨hul, he⟩
            · have hue : u = st.unique_attrib_to_source_index.length := by omega
              rw [hue, List.getD_append_right _ _ _ _ (le_refl _)] at he
              simp at he
              exact absurd he.symm hh
      · intro u hu
        rw [List.length_append] at hu
        simp only [List.length_singleton] at hu
        by_cases hul : u < st.unique_attrib_to_source_index.length
        · rw [List.getD_append _ _ _ _ hul]
          have := i5 u hul
          omega
        · have hue : u = st.unique_attrib_to_source_index.length := by omega
          rw [hue, List.getD_append_right _ _ _ _ (le_refl _)]
          simp
      · intro j hj
        rw [List.length_append]
        simp only [List.length_singleton]
        by_cases hjn : j = n
        · subst hjn
          rw [List.getD_append_right _ _ _ _ (by omega), i2]
          simp only [Nat.sub_self, List.getD_cons_zero]
          rw [i1, List.getD_append_right _ _ _ _ (le_refl _)]
          simp
        · rw [List.getD_append _ _ _ _ (by omega)]
          obtain ⟨h1, h2⟩ := i6 j (by omega)
          rw [List.getD_append _ _ _ _ h1]
          exact ⟨by omega, h2⟩

theorem read_bytes_length (buf : List Nat) (start len : Nat) :
    (read_bytes buf start len).length = len := by
  simp [read_bytes]

/-- In a concatenation of blocks of one length, block `u` starts at
`u * stride`. -/
theorem flatMap_block_getD {α : Type} (f : α → List Nat) (stride : Nat)
    (hlen : ∀ y, (f y).length = stride) (d0 : α) :
    ∀ (L : List α) (u b : Nat), u < L.length → b < stride →
      (L.flatMap f).getD (u * stride + b) 0 = (f (L.getD u d0)).getD b 0 := by
  intro L
  induction L with
  | nil => intro u b hu; simp at hu
  | cons x L ih =>
    intro u b hu hb
    rw [List.flatMap_cons]
    cases u with
    | zero =>
      simp only [Nat.zero_mul, Nat.zero_add, List.getD_cons_zero]
      rw [List.getD_append _ _ _ _ (by rw [hlen]; exact hb)]
    | succ u =>
      have hge : (f x).length ≤ (u + 1) * stride + b := by
        rw [hlen, Nat.succ_mul]; omega
      rw [List.getD_append_right _ _ _ _ hge, hlen, List.getD_cons_succ]
      have : (u + 1) * stride + b - stride = u * stride + b := by
        rw [Nat.succ_mul]; omega
      rw [this]
      exact ih u b (by simpa using hu) hb

theorem flatMap_block_length {α : Type} (f : α → List Nat) (stride : Nat)
    (hlen : ∀ x, (f x).length = stride) :
    ∀ (L : List α), (L.flatMap f).length = L.length * stride := by
  intro L
  induction L with
  | nil => simp
  | cons x L ih =>
    rw [List.flatMap_cons, List.length_append, ih, hlen, List.length_cons, Nat.succ_mul]
    omega

/-- Reading vertex `u` of a rebuilt buffer gives the bytes copied for it. -/
theorem read_bytes_rebuild_buffer (source : List Nat) (stride : Nat) (unique : List Nat)
    (u : Nat) (hu : u < unique.length) :
    read_bytes (rebuild_buffer source stride unique) (u * stride) stride
      = read_bytes source ((unique.getD u 0 * stride) % 2 ^ 32) stride := by
  apply List.ext_getElem
  · simp [read_bytes_length]
  · intro b h1 h2
    rw [read_bytes_length] at h1
    have e1 : (read_bytes (rebuild_buffer source stride unique) (u * stride) stride)[b]
        = (rebuild_buffer source stride unique).getD (u * stride + b) 0 := by
      simp [read_bytes]
    rw [e1]
    unfold rebuild_buffer
    rw [flatMap_block_getD _ stride (fun _ => read_bytes_length _ _ _) 0 unique u b hu h1,
      List.getD_eq_getElem _ _ (by rw [read_bytes_length]; exact h1)]

theorem rebuild_buffer_length (source : List Nat) (stride : Nat) (unique : List Nat) :
    (rebuild_buffer source stride unique).length = unique.length * stride :=
  flatMap_block_length _ stride (fun _ => read_bytes_length _ _ _) unique

/-- The vertex count of the deduplicated mesh is the number of unique
vertices. -/
theorem attribute_count_dedup (hash : List Nat → Nat) (mesh : Mesh)
    (hs : 0 < mesh.position_stride) :
    attribute_count (mesh_deduplicate_vertices hash mesh)
      = (build_index_remap_loop hash mesh
          (attribute_count mesh)).unique_attrib_to_source_index.length := by
  have hn : attribute_count mesh < 2 ^ 32 := Nat.mod_lt _ (by norm_num)
  obtain ⟨_, _, hle, _⟩ := build_index_remap_loop_inv hash mesh _ hn
  have hpos : (mesh_deduplicate_vertices hash mesh).positions
      = rebuild_buffer mesh.positions mesh.position_stride
          (build_index_remap_loop hash mesh
            (attribute_count mesh)).unique_attrib_to_source_index := rfl
  have hstride : (mesh_deduplicate_vertices hash mesh).position_stride
      = mesh.position_stride := rfl
  have hdef : attribute_count (mesh_deduplicate_vertices hash mesh)
      = ((mesh_deduplicate_vertices hash mesh).positions.length /
          (mesh_deduplicate_vertices hash mesh).position_stride) % 2 ^ 32 := rfl
  rw [hdef, hpos, hstride, rebuild_buffer_length, Nat.mul_div_cancel _ hs]
  exact Nat.mod_eq_of_lt (by omega)

/-- Distinct unique vertices have distinct hashes. -/
theorem unique_hash_injective (hash : List Nat → Nat) (mesh : Mesh) (n : Nat) (hn : n < 2 ^ 32)
    (u v : Nat)
    (hu : u < (build_index_remap_loop hash mesh n).unique_attrib_to_source_index.length)
    (hv : v < (build_index_remap_loop hash mesh n).unique_attrib_to_source_index.length)
    (he : hash (vertex_key mesh
            ((build_index_remap_loop hash mesh n).unique_attrib_to_source_index.getD u 0))
        = hash (vertex_key mesh
            ((build_index_remap_loop hash mesh n).unique_attrib_to_source_index.getD v 0))) :
    u = v := by
  obtain ⟨_, _, _, i4, _, _⟩ := build_index_remap_loop_inv hash mesh n hn
  have h1 := (i4 _ u).2 ⟨hu, rfl⟩
  have h2 := (i4 _ v).2 ⟨hv, he.symm⟩
  rw [h1] at h2
  exact Option.some.inj h2

/-- C10. Dedup leaves no duplicates: after `mesh_deduplicate_vertices` no two
distinct output vertices have byte-identical content (`position_stride`
position bytes together with `attribute_stride` attribute bytes). -/
theorem dedup_no_duplicates (hash : List Nat → Nat) (mesh : Mesh) (u v : Nat)
    (hu : u < attribute_count (mesh_deduplicate_vertices hash mesh))
    (hv : v < attribute_count (mesh_deduplicate_vertices hash mesh)) (huv : u ≠ v) :
    vertex_content (mesh_deduplicate_vertices hash mesh) u
      ≠ vertex_content (mesh_deduplicate_vertices hash mesh) v := by
  by_cases hs : mesh.position_stride = 0
  · exfalso
    have h0 : attribute_count (mesh_deduplicate_vertices hash mesh) = 0 := by
      have hstride : (mesh_deduplicate_vertices hash mesh).position_stride = 0 := hs
      unfold attribute_count
      rw [hstride]
      simp
    omega
  · have hspos : 0 < mesh.position_stride := Nat.pos_of_ne_zero hs
    have hn : attribute_count mesh < 2 ^ 32 := Nat.mod_lt _ (by norm_num)
    rw [attribute_count_dedup hash mesh hspos] at hu hv
    intro hc
    apply huv
    apply unique_hash_injective hash mesh _ hn u v hu hv
    congr 1
    have hpos : (mesh_deduplicate_vertices hash mesh).positions
        = rebuild_buffer mesh.positions mesh.position_stride
            (build_index_remap_loop hash mesh
              (attribute_count mesh)).unique_attrib_to_source_index := rfl
    have hatt : (mesh_deduplicate_vertices hash mesh).attributes
        = if mesh.attribute_stride ≠ 0 then
            rebuild_buffer mesh.attributes mesh.attribute_stride
              (build_index_remap_loop hash mesh
                (attribute_count mesh)).unique_attrib_to_source_index
          else [] := rfl
    have hst1 : (mesh_deduplicate_vertices hash mesh).position_stride
        = mesh.position_stride := rfl
    have hst2 : (mesh_deduplicate_vertices hash mesh).attribute_stride
        = mesh.attribute_stride := rfl
    unfold vertex_content at hc
    rw [hpos, hatt, hst1, hst2] at hc
    obtain ⟨hc1, hc2⟩ := Prod.mk.inj hc
    rw [read_bytes_rebuild_buffer _ _ _ u hu, read_bytes_rebuild_buffer _ _ _ v hv] at hc1
    unfold vertex_key
    rw [hc1]
    congr 1
    by_cases hempty : mesh.attributes = []
    · simp [hempty]
    · simp only [hempty, if_false]
      by_cases ha : mesh.attribute_stride = 0
      · rw [ha]
        simp [read_bytes]
      · simp only [ha, ne_eq, not_false_eq_true, if_true] at hc2
        rw [read_bytes_rebuild_buffer _ _ _ u hu, read_bytes_rebuild_buffer _ _ _ v hv] at hc2
        exact hc2

/-- Witness for C10: the first two vertices of the deduplicated sample mesh. -/
theorem dedup_no_duplicates_witness :
    0 < attribute_count (mesh_deduplicate_vertices sample_hash sample_mesh) ∧
    1 < attribute_count (mesh_deduplicate_vertices sample_hash sample_mesh) ∧
    vertex_content (mesh_deduplicate_vertices sample_hash sample_mesh) 0
      ≠ vertex_content (mesh_deduplicate_vertices sample_hash sample_mesh) 1 :=
  ⟨by decide, by decide,
    dedup_no_duplicates sample_hash sample_mesh 0 1 (by decide) (by decide) (by decide)⟩

/-! ## Deduplicating twice -/

theorem unique_offsets_small (hash : List Nat → Nat) (mesh : Mesh) (hwf : WellFormedMesh mesh)
    (u : Nat)
    (hu : u < (build_index_remap_loop hash mesh
      (attribute_count mesh)).unique_attrib_to_source_index.length) :
    u * mesh.position_stride < 2 ^ 32 ∧ u * mesh.attribute_stride < 2 ^ 32 ∧
    (mesh.attribute_stride ≠ 0 → mesh.attributes ≠ []) := by
  obtain ⟨hs, hp, ha, hattr, _⟩ := hwf
  have hn : attribute_count mesh < 2 ^ 32 := Nat.mod_lt _ (by norm_num)
  obtain ⟨_, _, hle, _⟩ := build_index_remap_loop_inv hash mesh _ hn
  have hun : u < attribute_count mesh := by omega
  have hnle : attribute_count mesh ≤ mesh.positions.length / mesh.position_stride := by
    unfold attribute_count
    exact Nat.mod_le _ _
  have h1 : attribute_count mesh * mesh.position_stride ≤ mesh.positions.length :=
    le_trans (Nat.mul_le_mul_right _ hnle) (Nat.div_mul_le_self _ _)
  have h2 : u * mesh.position_stride ≤ attribute_count mesh * mesh.position_stride :=
    Nat.mul_le_mul_right _ (le_of_lt hun)
  have h3 : u * mesh.attribute_stride ≤ attribute_count mesh * mesh.attribute_stride :=
    Nat.mul_le_mul_right _ (le_of_lt hun)
  have h4 : attribute_count mesh * mesh.attribute_stride
      = mesh.attribute_stride * attribute_count mesh := Nat.mul_comm _ _
  refine ⟨by omega, by omega, ?_⟩
  intro hne hempty
  rw [hempty] at hattr
  simp only [List.length_nil, Nat.le_zero, Nat.mul_eq_zero] at hattr
  rcases hattr with h | h
  · exact hne h
  · omega

/-- Vertex `u` of the deduplicated mesh feeds the hasher the same bytes as the
source vertex it was copied from. -/
theorem vertex_key_dedup (hash : List Nat → Nat) (mesh : Mesh) (hwf : WellFormedMesh mesh)
    (u : Nat)
    (hu : u < (build_index_remap_loop hash mesh
      (attribute_count mesh)).unique_attrib_to_source_index.length) :
    vertex_key (mesh_deduplicate_vertices hash mesh) u
      = vertex_key mesh ((build_index_remap_loop hash mesh
          (attribute_count mesh)).unique_attrib_to_source_index.getD u 0) := by
  obtain ⟨h1, h2, h3⟩ := unique_offsets_small hash mesh hwf u hu
  have hpos : (mesh_deduplicate_vertices hash mesh).positions
      = rebuild_buffer mesh.positions mesh.position_stride
          (build_index_remap_loop hash mesh
            (attribute_count mesh)).unique_attrib_to_source_index := rfl
  have hatt : (mesh_deduplicate_vertices hash mesh).attributes
      = if mesh.attribute_stride ≠ 0 then
          rebuild_buffer mesh.attributes mesh.attribute_stride
            (build_index_remap_loop hash mesh
              (attribute_count mesh)).unique_attrib_to_source_index
        else [] := rfl
  have hst1 : (mesh_deduplicate_vertices hash mesh).position_stride
      = mesh.position_stride := rfl
  have hst2 : (mesh_deduplicate_vertices hash mesh).attribute_stride
      = mesh.attribute_stride := rfl
  unfold vertex_key
  rw [hpos, hatt, hst1, hst2, Nat.mod_eq_of_lt h1, Nat.mod_eq_of_lt h2,
    read_bytes_rebuild_buffer _ _ _ u hu]
  congr 1
  by_cases ha : mesh.attribute_stride = 0
  · rw [ha]
    simp [read_bytes]
  · have hne := h3 ha
    have hne2 : rebuild_buffer mesh.attributes mesh.attribute_stride
        (build_index_remap_loop hash mesh
          (attribute_count mesh)).unique_attrib_to_source_index ≠ [] := by
      intro he
      have hl := rebuild_buffer_length mesh.attributes mesh.attribute_stride
        (build_index_remap_loop hash mesh
          (attribute_count mesh)).unique_attrib_to_source_index
      rw [he] at hl
      simp only [List.length_nil] at hl
      have hpos2 : 0 < (build_index_remap_loop hash mesh
          (attribute_count mesh)).unique_attrib_to_source_index.length * mesh.attribute_stride :=
        Nat.mul_pos (by omega) (Nat.pos_of_ne_zero ha)
      omega
    simp only [ha, ne_eq, not_false_eq_true, if_true, hne, hne2, if_false]
    exact read_bytes_rebuild_buffer _ _ _ u hu

/-- On the deduplicated mesh the loop of `build_index_remap_list` finds every
vertex new: both output vectors are the identity. -/
theorem second_pass_identity (hash : List Nat → Nat) (mesh : Mesh) (hwf : WellFormedMesh mesh) :
    ∀ k, k ≤ (build_index_remap_loop hash mesh
        (attribute_count mesh)).unique_attrib_to_source_index.length →
      (build_index_remap_loop hash (mesh_deduplicate_vertices hash mesh) k).index_remap
        = List.range k ∧
      (build_index_remap_loop hash (mesh_deduplicate_vertices hash mesh)
        k).unique_attrib_to_source_index = List.range k := by
  have hn : attribute_count mesh < 2 ^ 32 := Nat.mod_lt _ (by norm_num)
  obtain ⟨_, _, hUle, _⟩ := build_index_remap_loop_inv hash mesh _ hn
  intro k
  induction k with
  | zero => intro _; exact ⟨rfl, rfl⟩
  | succ k ih =>
    intro hk
    obtain ⟨ih1, ih2⟩ := ih (by omega)
    obtain ⟨i1, _, _, i4, _, _⟩ :=
      build_index_remap_loop_inv hash (mesh_deduplicate_vertices hash mesh) k (by omega)
    rw [build_index_remap_loop_succ]
    generalize build_index_remap_loop hash (mesh_deduplicate_vertices hash mesh) k = st
      at ih1 ih2 i1 i4
    unfold build_index_remap_step
    cases hl : st.attribute_remapper.lookup
        (hash (vertex_key (mesh_deduplicate_vertices hash mesh) k)) with
    | some idx =>
      exfalso
      obtain ⟨hidx, hkey⟩ := (i4 _ idx).1 hl
      rw [ih2] at hidx hkey
      simp only [List.length_range] at hidx
      rw [List.getD_eq_getElem _ _ (by simpa using hidx), List.getElem_range] at hkey
      rw [vertex_key_dedup hash mesh hwf idx (by omega),
        vertex_key_dedup hash mesh hwf k (by omega)] at hkey
      have := unique_hash_injective hash mesh _ hn idx k (by omega) (by omega) hkey
      omega
    | none =>
      simp only
      rw [ih1, ih2, i1, ih2]
      simp [List.range_succ]

theorem rebuild_buffer_identity (source : List Nat) (stride : Nat) (unique : List Nat)
    (hsmall : unique.length * stride < 2 ^ 32) :
    rebuild_buffer (rebuild_buffer source stride unique) stride (List.range unique.length)
      = rebuild_buffer source stride unique := by
  have h1 : rebuild_buffer (rebuild_buffer source stride unique) stride
      (List.range unique.length)
      = (List.range unique.length).flatMap fun u =>
          read_bytes source ((unique.getD u 0 * stride) % 2 ^ 32) stride := by
    unfold rebuild_buffer
    apply List.flatMap_congr
    intro u hu
    rw [List.mem_range] at hu
    have hlt : u * stride < 2 ^ 32 :=
      lt_of_le_of_lt (Nat.mul_le_mul_right _ (le_of_lt hu)) hsmall
    rw [Nat.mod_eq_of_lt hlt]
    exact read_bytes_rebuild_buffer source stride unique u hu
  rw [h1]
  unfold rebuild_buffer
  exact (flatMap_eq_range unique 0
    (fun src => read_bytes source ((src * stride) % 2 ^ 32) stride)).symm

theorem u32_bytes_length (x : Nat) : (u32_bytes x).length = 4 := rfl

/-- Reading back a 32-bit index from its little-endian bytes. -/
theorem read_u32_flatMap (ib : List Nat) (i : Nat) (hi : i < ib.length)
    (hx : ib.getD i 0 < 2 ^ 32) : read_u32 (ib.flatMap u32_bytes) i = ib.getD i 0 := by
  have h := flatMap_block_getD u32_bytes 4 u32_bytes_length 0 ib i
  have h0 := h 0 hi (by norm_num)
  have h1 := h 1 hi (by norm_num)
  have h2 := h 2 hi (by norm_num)
  have h3 := h 3 hi (by norm_num)
  unfold read_u32
  have e0 : 4 * i = i * 4 := by omega
  rw [e0]
  rw [Nat.add_zero] at h0
  rw [h0, h1, h2, h3]
  simp only [u32_bytes, List.getD_cons_zero, List.getD_cons_succ]
  generalize ib.getD i 0 = x at hx
  norm_num at hx ⊢
  omega

/-- Every entry of the first remap table is the index of a unique vertex, or 0
where the table is read past its end. -/
theorem index_remap_entry (hash : List Nat → Nat) (mesh : Mesh) (x : Nat) :
    (build_index_remap_list hash mesh).index_remap.getD x 0 < 2 ^ 32 ∧
    (List.range (build_index_remap_loop hash mesh
        (attribute_count mesh)).unique_attrib_to_source_index.length).getD
      ((build_index_remap_list hash mesh).index_remap.getD x 0) 0
      = (build_index_remap_list hash mesh).index_remap.getD x 0 := by
  have hn : attribute_count mesh < 2 ^ 32 := Nat.mod_lt _ (by norm_num)
  obtain ⟨_, i2, i3, _, _, i6⟩ := build_index_remap_loop_inv hash mesh _ hn
  have hdef : (build_index_remap_list hash mesh).index_remap
      = (build_index_remap_loop hash mesh (attribute_count mesh)).index_remap := rfl
  rw [hdef]
  by_cases hx : x < attribute_count mesh
  · obtain ⟨h1, _⟩ := i6 x hx
    refine ⟨by omega, ?_⟩
    rw [List.getD_eq_getElem _ _ (by simpa using h1), List.getElem_range]
  · rw [List.getD_eq_default _ _ (by rw [i2]; omega)]
    refine ⟨by norm_num, ?_⟩
    by_cases hU : 0 < (build_index_remap_loop hash mesh
        (attribute_count mesh)).unique_attrib_to_source_index.length
    · rw [List.getD_eq_getElem _ _ (by simpa using hU), List.getElem_range]
    · have hU0 : (List.range (build_index_remap_loop hash mesh
          (attribute_count mesh)).unique_attrib_to_source_index.length).length ≤ 0 := by
        simp only [List.length_range]; omega
      exact List.getD_eq_default _ _ hU0

theorem canonical_entries (mesh : Mesh) (index_remap : List Nat) (P : Nat → Prop)
    (hP : ∀ x, P (index_remap.getD x 0)) :
    (∀ i, i < (build_canonical_index_buffer mesh index_remap).length →
      P ((build_canonical_index_buffer mesh index_remap).getD i 0)) ∧
    (build_canonical_index_buffer mesh index_remap).length ≤ mesh.count := by
  unfold build_canonical_index_buffer
  split_ifs with h
  · refine ⟨?_, by simp⟩
    intro i hi
    rw [List.getD_eq_getElem _ _ hi, List.getElem_map]
    exact hP _
  · cases mesh.index_type with
    | uint16 =>
      refine ⟨?_, by simp⟩
      intro i hi
      simp only at hi ⊢
      rw [List.getD_eq_getElem _ _ hi, List.getElem_map]
      exact hP _
    | uint32 =>
      refine ⟨?_, by simp⟩
      intro i hi
      simp only at hi ⊢
      rw [List.getD_eq_getElem _ _ hi, List.getElem_map]
      exact hP _
    | other =>
      refine ⟨?_, by simp⟩
      intro i hi
      simp at hi

/-- Rebuilding the canonical index buffer of the deduplicated mesh through the
identity remap table gives the same index buffer. -/
theorem canonical_second_pass (ib : List Nat) (U : Nat) (mesh1 : Mesh)
    (hind : mesh1.indices = ib.flatMap u32_bytes) (htype : mesh1.index_type = IndexType.uint32)
    (hcount : mesh1.count = ib.length)
    (hent : ∀ i, i < ib.length →
      ib.getD i 0 < 2 ^ 32 ∧ (List.range U).getD (ib.getD i 0) 0 = ib.getD i 0) :
    build_canonical_index_buffer mesh1 (List.range U) = ib := by
  unfold build_canonical_index_buffer
  rw [hcount, htype]
  split_ifs with h
  · rw [hind] at h
    have hl := flatMap_block_length u32_bytes 4 u32_bytes_length ib
    rw [h] at hl
    simp only [List.length_nil] at hl
    have hz : ib.length = 0 := by omega
    rw [hz]
    simp only [List.range_zero, List.map_nil]
    exact (List.length_eq_zero.1 hz).symm
  · simp only
    apply List.ext_getElem
    · simp
    · intro i h1 h2
      rw [List.getElem_map, List.getElem_range, hind, read_u32_flatMap ib i h2 (hent i h2).1,
        (hent i h2).2, List.getD_eq_getElem _ _ h2]

/-- C9. Dedup idempotence: for every well-formed mesh, applying
`mesh_deduplicate_vertices` twice yields the same position bytes, attribute
bytes, index buffer, index type and count as applying it once.  (In-range
indices are what makes the C++ reads defined; the model reads 0 past a buffer
and the equalities hold either way.) -/
theorem dedup_idempotent (hash : List Nat → Nat) (mesh : Mesh) (hwf : WellFormedMesh mesh) :
    (mesh_deduplicate_vertices hash (mesh_deduplicate_vertices hash mesh)).positions
      = (mesh_deduplicate_vertices hash mesh).positions ∧
    (mesh_deduplicate_vertices hash (mesh_deduplicate_vertices hash mesh)).attributes
      = (mesh_deduplicate_vertices hash mesh).attributes ∧
    (mesh_deduplicate_vertices hash (mesh_deduplicate_vertices hash mesh)).indices
      = (mesh_deduplicate_vertices hash mesh).indices ∧
    (mesh_deduplicate_vertices hash (mesh_deduplicate_vertices hash mesh)).index_type
      = (mesh_deduplicate_vertices hash mesh).index_type ∧
    (mesh_deduplicate_vertices hash (mesh_deduplicate_vertices hash mesh)).count
      = (mesh_deduplicate_vertices hash mesh).count := by
  have hwf' := hwf
  obtain ⟨hs, hp, ha, hattr, hcount⟩ := hwf'
  have hn : attribute_count mesh < 2 ^ 32 := Nat.mod_lt _ (by norm_num)
  obtain ⟨_, _, hUle, _⟩ := build_index_remap_loop_inv hash mesh _ hn
  have hU := attribute_count_dedup hash mesh hs
  obtain ⟨hid1, hid2⟩ := second_pass_identity hash mesh hwf _ (le_refl _)
  rw [← hU] at hid1 hid2
  -- sizes
  have hnle : attribute_count mesh ≤ mesh.positions.length / mesh.position_stride := by
    unfold attribute_count
    exact Nat.mod_le _ _
  have hnp : attribute_count mesh * mesh.position_stride ≤ mesh.positions.length :=
    le_trans (Nat.mul_le_mul_right _ hnle) (Nat.div_mul_le_self _ _)
  have hUp : (build_index_remap_loop hash mesh
      (attribute_count mesh)).unique_attrib_to_source_index.length * mesh.position_stride
      < 2 ^ 32 :=
    lt_of_le_of_lt (le_trans (Nat.mul_le_mul_right _ hUle) hnp) hp
  have hUa : (build_index_remap_loop hash mesh
      (attribute_count mesh)).unique_attrib_to_source_index.length * mesh.attribute_stride
      < 2 ^ 32 := by
    have h1 := Nat.mul_le_mul_right mesh.attribute_stride hUle
    have h2 : attribute_count mesh * mesh.attribute_stride
        = mesh.attribute_stride * attribute_count mesh := Nat.mul_comm _ _
    omega
  -- the buffers of the first pass
  have hpos1 : (mesh_deduplicate_vertices hash mesh).positions
      = rebuild_buffer mesh.positions mesh.position_stride
          (build_index_remap_loop hash mesh
            (attribute_count mesh)).unique_attrib_to_source_index := rfl
  have hatt1 : (mesh_deduplicate_vertices hash mesh).attributes
      = if mesh.attribute_stride ≠ 0 then
          rebuild_buffer mesh.attributes mesh.attribute_stride
            (build_index_remap_loop hash mesh
              (attribute_count mesh)).unique_attrib_to_source_index
        else [] := rfl
  have hind1 : (mesh_deduplicate_vertices hash mesh).indices
      = (build_canonical_index_buffer mesh
          (build_index_remap_list hash mesh).index_remap).flatMap u32_bytes := rfl
  have hcnt1 : (mesh_deduplicate_vertices hash mesh).count
      = (build_canonical_index_buffer mesh
          (build_index_remap_list hash mesh).index_remap).length % 2 ^ 32 := rfl
  -- the second pass
  have hpos2 : (mesh_deduplicate_vertices hash (mesh_deduplicate_vertices hash mesh)).positions
      = rebuild_buffer (mesh_deduplicate_vertices hash mesh).positions mesh.position_stride
          (build_index_remap_loop hash (mesh_deduplicate_vertices hash mesh)
            (attribute_count (mesh_deduplicate_vertices hash mesh))).unique_attrib_to_source_index :=
    rfl
  have hatt2 : (mesh_deduplicate_vertices hash (mesh_deduplicate_vertices hash mesh)).attributes
      = if mesh.attribute_stride ≠ 0 then
          rebuild_buffer (mesh_deduplicate_vertices hash mesh).attributes mesh.attribute_stride
            (build_index_remap_loop hash (mesh_deduplicate_vertices hash mesh)
              (attribute_count (mesh_deduplicate_vertices hash mesh))).unique_attrib_to_source_index
        else [] := rfl
  have hib2 : build_canonical_index_buffer (mesh_deduplicate_vertices hash mesh)
      (build_index_remap_list hash (mesh_deduplicate_vertices hash mesh)).index_remap
      = build_canonical_index_buffer mesh (build_index_remap_list hash mesh).index_remap := by
    have hrem : (build_index_remap_list hash (mesh_deduplicate_vertices hash mesh)).index_remap
        = List.range (attribute_count (mesh_deduplicate_vertices hash mesh)) := hid1
    rw [hrem]
    obtain ⟨hent, hlen⟩ := canonical_entries mesh (build_index_remap_list hash mesh).index_remap
      (fun e => e < 2 ^ 32 ∧
        (List.range (attribute_count (mesh_deduplicate_vertices hash mesh))).getD e 0 = e)
      (by
        intro x
        rw [hU]
        exact index_remap_entry hash mesh x)
    apply canonical_second_pass _ _ _ hind1 rfl
    · rw [hcnt1]
      exact Nat.mod_eq_of_lt (by omega)
    · exact hent
  have hind2 : (mesh_deduplicate_vertices hash (mesh_deduplicate_vertices hash mesh)).indices
      = (build_canonical_index_buffer (mesh_deduplicate_vertices hash mesh)
          (build_index_remap_list hash
            (mesh_deduplicate_vertices hash mesh)).index_remap).flatMap u32_bytes := rfl
  have hcnt2 : (mesh_deduplicate_vertices hash (mesh_deduplicate_vertices hash mesh)).count
      = (build_canonical_index_buffer (mesh_deduplicate_vertices hash mesh)
          (build_index_remap_list hash
            (mesh_deduplicate_vertices hash mesh)).index_remap).length % 2 ^ 32 := rfl
  refine ⟨?_, ?_, ?_, rfl, ?_⟩
  · rw [hpos2, hid2, hU, hpos1]
    exact rebuild_buffer_identity _ _ _ hUp
  · rw [hatt2, hid2, hU, hatt1]
    by_cases hz : mesh.attribute_stride = 0
    · simp [hz]
    · simp only [hz, ne_eq, not_false_eq_true, if_true]
      exact rebuild_buffer_identity _ _ _ hUa
  · rw [hind2, hib2, hind1]
  · rw [hcnt2, hib2, hcnt1]

/-- Witness for C9: the sample mesh, which has two duplicated vertices. -/
theorem dedup_idempotent_witness :
    WellFormedMesh sample_mesh ∧
    (mesh_deduplicate_vertices sample_hash
        (mesh_deduplicate_vertices sample_hash sample_mesh)).positions
      = (mesh_deduplicate_vertices sample_hash sample_mesh).positions ∧
    (mesh_deduplicate_vertices sample_hash
        (mesh_deduplicate_vertices sample_hash sample_mesh)).indices
      = (mesh_deduplicate_vertices sample_hash sample_mesh).indices :=
  have hwf : WellFormedMesh sample_mesh := by unfold WellFormedMesh; decide
  ⟨hwf, (dedup_idempotent sample_hash sample_mesh hwf).1,
    (dedup_idempotent sample_hash sample_mesh hwf).2.2.1⟩

/-! ## Which vertices deduplication merges -/

/-- The unique vertex an input vertex is mapped to has the same hash. -/
theorem remap_hash_of_entry (hash : List Nat → Nat) (mesh : Mesh) (i : Nat)
    (hi : i < attribute_count mesh) :
    (build_index_remap_list hash mesh).index_remap.getD i 0
      < (build_index_remap_loop hash mesh (attribute_count mesh)).unique_attrib_to_source_index.length ∧
    hash (vertex_key mesh
      ((build_index_remap_loop hash mesh (attribute_count mesh)).unique_attrib_to_source_index.getD
        ((build_index_remap_list hash mesh).index_remap.getD i 0) 0))
      = hash (vertex_key mesh i) := by
  have hn : attribute_count mesh < 2 ^ 32 := Nat.mod_lt _ (by norm_num)
  obtain ⟨_, _, _, _, _, i6⟩ := build_index_remap_loop_inv hash mesh _ hn
  exact i6 i hi

/-- C11 (amended). `build_index_remap_list` maps input vertices `i` and `j` to
the same output index if and only if the hashes of the bytes fed to the hasher
(position bytes, then attribute bytes) are equal; the bytes themselves are
never compared.  Hence merged vertices have identical bytes whenever the hash
is injective on the vertices of the mesh. -/
theorem remap_merges_iff_hash_equal (hash : List Nat → Nat) (mesh : Mesh) (i j : Nat)
    (hi : i < attribute_count mesh) (hj : j < attribute_count mesh) :
    ((build_index_remap_list hash mesh).index_remap.getD i 0
        = (build_index_remap_list hash mesh).index_remap.getD j 0
      ↔ hash (vertex_key mesh i) = hash (vertex_key mesh j)) ∧
    ((∀ a b, a < attribute_count mesh → b < attribute_count mesh →
        hash (vertex_key mesh a) = hash (vertex_key mesh b) →
        vertex_key mesh a = vertex_key mesh b) →
      (build_index_remap_list hash mesh).index_remap.getD i 0
        = (build_index_remap_list hash mesh).index_remap.getD j 0 →
      vertex_key mesh i = vertex_key mesh j) := by
  have hn : attribute_count mesh < 2 ^ 32 := Nat.mod_lt _ (by norm_num)
  obtain ⟨hri, hhi⟩ := remap_hash_of_entry hash mesh i hi
  obtain ⟨hrj, hhj⟩ := remap_hash_of_entry hash mesh j hj
  have hiff : (build_index_remap_list hash mesh).index_remap.getD i 0
        = (build_index_remap_list hash mesh).index_remap.getD j 0
      ↔ hash (vertex_key mesh i) = hash (vertex_key mesh j) := by
    constructor
    · intro he
      rw [← hhi, ← hhj, he]
    · intro he
      apply unique_hash_injective hash mesh _ hn _ _ hri hrj
      rw [hhi, hhj, he]
  exact ⟨hiff, fun hinj he => hinj i j hi hj (hiff.1 he)⟩

/-- C11, counterexample.  With a hash that sums the bytes, the two vertices of
`collision_mesh` have different position bytes (`[1, 2]` and `[2, 1]`) and the
same hash, and `build_index_remap_list` maps both to output index 0. -/
theorem remap_merges_on_collision :
    0 < attribute_count collision_mesh ∧ 1 < attribute_count collision_mesh ∧
    (build_index_remap_list sample_hash collision_mesh).index_remap.getD 0 0
      = (build_index_remap_list sample_hash collision_mesh).index_remap.getD 1 0 ∧
    vertex_content collision_mesh 0 ≠ vertex_content collision_mesh 1 := by
  decide

/-- Witness for C11 (amended): vertices 0 and 2 of the sample mesh. -/
theorem remap_merges_iff_hash_equal_witness :
    0 < attribute_count sample_mesh ∧ 2 < attribute_count sample_mesh ∧
    ((build_index_remap_list sample_hash sample_mesh).index_remap.getD 0 0
        = (build_index_remap_list sample_hash sample_mesh).index_remap.getD 2 0
      ↔ sample_hash (vertex_key sample_mesh 0) = sample_hash (vertex_key sample_mesh 2)) :=
  ⟨by decide, by decide,
    (remap_merges_iff_hash_equal sample_hash sample_mesh 0 2 (by decide) (by decide)).1⟩

theorem nine_bytes_injective (n m : Nat) (hn : n < 2 ^ 72) (hm : m < 2 ^ 72)
    (h : nine_bytes n = nine_bytes m) : n = m := by
  unfold nine_bytes at h
  simp only [List.cons.injEq, and_true] at h
  obtain ⟨h0, h1, h2, h3, h4, h5, h6, h7, h8⟩ := h
  norm_num at hn hm h0 h1 h2 h3 h4 h5 h6 h7 h8
  omega

theorem vertex_key_two_vertex_mesh (n m : Nat) :
    vertex_key (two_vertex_mesh n m) 0 = nine_bytes n ∧
    vertex_key (two_vertex_mesh n m) 1 = nine_bytes m := by
  constructor <;> simp [vertex_key, two_vertex_mesh, read_bytes, nine_bytes, List.range_succ]

theorem two_vertex_mesh_merged (hash : List Nat → Nat) (n m : Nat)
    (h : hash (nine_bytes n) = hash (nine_bytes m)) :
    attribute_count (two_vertex_mesh n m) = 2 ∧
    (build_index_remap_list hash (two_vertex_mesh n m)).index_remap = [0, 0] := by
  have hc : attribute_count (two_vertex_mesh n m) = 2 := by
    simp [attribute_count, two_vertex_mesh, nine_bytes]
  refine ⟨hc, ?_⟩
  obtain ⟨k0, k1⟩ := vertex_key_two_vertex_mesh n m
  unfold build_index_remap_list
  simp only [hc]
  unfold build_index_remap_loop
  simp only [List.range_succ, List.range_zero, List.nil_append, List.foldl_append,
    List.foldl_cons, List.foldl_nil]
  simp [build_index_remap_step, k0, k1, h, List.lookup]

/-- Whatever 64-bit hash function is used, some mesh has two vertices with
different bytes that `build_index_remap_list` maps to the same output index. -/
theorem collision_for_every_hash (hash : List Nat → Nat) (h64 : ∀ k, hash k < 2 ^ 64) :
    ∃ mesh : Mesh, (∀ b ∈ mesh.positions, b < 256) ∧
      0 < attribute_count mesh ∧ 1 < attribute_count mesh ∧
      (build_index_remap_list hash mesh).index_remap.getD 0 0
        = (build_index_remap_list hash mesh).index_remap.getD 1 0 ∧
      vertex_key mesh 0 ≠ vertex_key mesh 1 := by
  have hcard : (Finset.range (2 ^ 64)).card < (Finset.range (2 ^ 64 + 1)).card := by
    simp
  obtain ⟨n, hn, m, hm, hne, he⟩ :=
    Finset.exists_ne_map_eq_of_card_lt_of_maps_to hcard
      (fun a _ => Finset.mem_range.2 (h64 (nine_bytes a)))
  rw [Finset.mem_range] at hn hm
  obtain ⟨hc, hr⟩ := two_vertex_mesh_merged hash n m he
  obtain ⟨k0, k1⟩ := vertex_key_two_vertex_mesh n m
  refine ⟨two_vertex_mesh n m, ?_, by omega, by omega, by rw [hr]; rfl, ?_⟩
  · intro b hb
    simp only [two_vertex_mesh, nine_bytes, List.cons_append, List.nil_append, List.mem_cons,
      List.mem_singleton, List.not_mem_nil, or_false] at hb
    rcases hb with h | h | h | h | h | h | h | h | h | h | h | h | h | h | h | h | h | h <;>
      (rw [h]; exact Nat.mod_lt _ (by norm_num))
  · rw [k0, k1]
    intro hk
    apply hne
    exact nine_bytes_injective n m (by omega) (by omega) hk

/-! ## Index width selection and strip conversion -/

theorem max_index_fold_le (l : List Nat) (B : Nat) :
    ∀ m, l.foldl (fun m i => if i ≠ 0xffffffff then max m i else m) m ≤ B
      ↔ m ≤ B ∧ ∀ x ∈ l, x ≠ 0xffffffff → x ≤ B := by
  induction l with
  | nil => intro m; simp
  | cons a l ih =>
    intro m
    rw [List.foldl_cons, ih]
    by_cases ha : a = 0xffffffff
    · simp [ha]
    · simp only [ne_eq, ha, not_false_eq_true, if_true, List.mem_cons, forall_eq_or_imp,
        forall_const]
      constructor
      · rintro ⟨h1, h2⟩
        exact ⟨le_trans (le_max_left _ _) h1, le_trans (le_max_right _ _) h1, h2⟩
      · rintro ⟨h1, h2, h3⟩
        exact ⟨max_le h1 h2, h3⟩

/-- The value `max_index` bounds exactly the indices other than the restart
marker. -/
theorem max_index_le_iff (l : List Nat) (B : Nat) :
    max_index l ≤ B ↔ ∀ x ∈ l, x ≠ 0xffffffff → x ≤ B := by
  unfold max_index
  rw [max_index_fold_le]
  simp

theorem u16_bytes_length (x : Nat) : (u16_bytes x).length = 2 := rfl

/-- Reading back a 16-bit index from its little-endian bytes. -/
theorem read_u16_flatMap (g : Nat → Nat) (ib : List Nat) (i : Nat) (hi : i < ib.length)
    (hx : g (ib.getD i 0) < 2 ^ 16) :
    read_u16 (ib.flatMap fun x => u16_bytes (g x)) i = g (ib.getD i 0) := by
  have h := flatMap_block_getD (fun x => u16_bytes (g x)) 2 (fun _ => rfl) 0 ib i
  have h0 := h 0 hi (by norm_num)
  have h1 := h 1 hi (by norm_num)
  unfold read_u16
  have e0 : 2 * i = i * 2 := by omega
  rw [e0]
  rw [Nat.add_zero] at h0
  rw [h0, h1]
  simp only [u16_bytes, List.getD_cons_zero, List.getD_cons_succ]
  generalize g (ib.getD i 0) = x at hx
  norm_num at hx ⊢
  omega

/-- What lines 246-269 store for an index buffer of 32-bit words. -/
theorem store_index_buffer_spec (ib : List Nat) (h32 : ∀ x ∈ ib, x < 2 ^ 32) :
    ((store_index_buffer ib).1 = IndexType.uint16 ↔ ∀ x ∈ ib, x ≠ 0xffffffff → x ≤ 0xffff) ∧
    ((store_index_buffer ib).1 ≠ IndexType.uint16 → (store_index_buffer ib).1 = IndexType.uint32) ∧
    ((store_index_buffer ib).1 = IndexType.uint16 →
      (store_index_buffer ib).2.length = 2 * ib.length ∧
      ∀ i, i < ib.length →
        (ib.getD i 0 ≠ 0xffffffff → read_u16 (store_index_buffer ib).2 i = ib.getD i 0) ∧
        (ib.getD i 0 = 0xffffffff → read_u16 (store_index_buffer ib).2 i = 0xffff)) ∧
    ((store_index_buffer ib).1 = IndexType.uint32 →
      (store_index_buffer ib).2.length = 4 * ib.length ∧
      ∀ i, i < ib.length → read_u32 (store_index_buffer ib).2 i = ib.getD i 0) := by
  have hmax := max_index_le_iff ib 0xffff
  by_cases hm : max_index ib ≤ 0xffff
  · have hs : store_index_buffer ib = (IndexType.uint16,
        ib.flatMap fun i => u16_bytes (if i = 0xffffffff then 0xffff else i % 2 ^ 16)) := by
      unfold store_index_buffer
      rw [if_pos hm]
    rw [hs]
    refine ⟨⟨fun _ => hmax.1 hm, fun _ => rfl⟩, fun h => absurd rfl h, fun _ => ⟨?_, ?_⟩,
      fun h => by cases h⟩
    · show (ib.flatMap fun i => u16_bytes (if i = 0xffffffff then 0xffff else i % 2 ^ 16)).length
        = 2 * ib.length
      rw [flatMap_block_length _ 2 (fun _ => u16_bytes_length _)]
      omega
    · intro i hi
      show (ib.getD i 0 ≠ 0xffffffff →
          read_u16 (ib.flatMap fun i => u16_bytes (if i = 0xffffffff then 0xffff else i % 2 ^ 16)) i
            = ib.getD i 0) ∧
        (ib.getD i 0 = 0xffffffff →
          read_u16 (ib.flatMap fun i => u16_bytes (if i = 0xffffffff then 0xffff else i % 2 ^ 16)) i
            = 0xffff)
      have hmem : ib.getD i 0 ∈ ib := by
        rw [List.getD_eq_getElem _ _ hi]
        exact List.getElem_mem hi
      constructor
      · intro hne
        have hle := hmax.1 hm _ hmem hne
        rw [read_u16_flatMap (fun x => if x = 0xffffffff then 0xffff else x % 2 ^ 16) ib i hi]
        · rw [if_neg hne]
          exact Nat.mod_eq_of_lt (by omega)
        · show (if ib.getD i 0 = 0xffffffff then 0xffff else ib.getD i 0 % 2 ^ 16) < 2 ^ 16
          rw [if_neg hne]
          exact Nat.mod_lt _ (by norm_num)
      · intro he
        rw [read_u16_flatMap (fun x => if x = 0xffffffff then 0xffff else x % 2 ^ 16) ib i hi]
        · rw [if_pos he]
        · show (if ib.getD i 0 = 0xffffffff then 0xffff else ib.getD i 0 % 2 ^ 16) < 2 ^ 16
          rw [if_pos he]
          norm_num
  · have hs : store_index_buffer ib = (IndexType.uint32, ib.flatMap u32_bytes) := by
      unfold store_index_buffer
      rw [if_neg hm]
    rw [hs]
    refine ⟨⟨fun h => (by cases h), fun h => absurd (hmax.2 h) hm⟩, fun _ => rfl,
      fun h => (by cases h), fun _ => ⟨?_, ?_⟩⟩
    · show (ib.flatMap u32_bytes).length = 4 * ib.length
      rw [flatMap_block_length _ 4 u32_bytes_length]
      omega
    · intro i hi
      apply read_u32_flatMap ib i hi
      apply h32
      rw [List.getD_eq_getElem _ _ hi]
      exact List.getElem_mem hi

theorem u32_buffer_length (old out : List Nat) : (u32_buffer old out).length = old.length := by
  simp [u32_buffer]

theorem u32_buffer_lt (old out : List Nat) : ∀ x ∈ u32_buffer old out, x < 2 ^ 32 := by
  intro x hx
  simp only [u32_buffer, List.mem_map, List.mem_range] at hx
  obtain ⟨i, _, rfl⟩ := hx
  exact Nat.mod_lt _ (by norm_num)

theorem getD_lt_of_forall (l : List Nat) (B : Nat) (hB : 0 < B) (h : ∀ x ∈ l, x < B) (i : Nat) :
    l.getD i 0 < B := by
  by_cases hi : i < l.length
  · rw [List.getD_eq_getElem _ _ hi]
    exact h _ (List.getElem_mem hi)
  · rw [List.getD_eq_default _ _ (Nat.le_of_not_lt hi)]
    exact hB

theorem remap_indices_length (indices remap_table : List Nat) :
    (remap_indices indices remap_table).length = indices.length := by
  simp [remap_indices]

theorem stripped_index_buffer_lt (lib : MeshOptimizer) (ib : List Nat) (n : Nat) :
    ∀ x ∈ stripped_index_buffer lib ib n, x < 2 ^ 32 := by
  intro x hx
  simp only [stripped_index_buffer, resize, List.mem_map, List.mem_range] at hx
  obtain ⟨i, _, rfl⟩ := hx
  exact getD_lt_of_forall _ _ (by norm_num) (u32_buffer_lt _ _) i

/-- The triangle-list index buffer has as many entries as the canonical index
buffer, at most `mesh.count`, and holds 32-bit words. -/
theorem optimize_reorder_index_buffer (hash : List Nat → Nat) (lib : MeshOptimizer)
    (mesh : Mesh) :
    (optimize_reorder hash lib mesh).index_buffer.length ≤ mesh.count ∧
    ∀ x ∈ (optimize_reorder hash lib mesh).index_buffer, x < 2 ^ 32 := by
  have hlen := (canonical_entries mesh (build_index_remap_list hash mesh).index_remap
    (fun _ => True) (fun _ => trivial)).2
  constructor
  · unfold optimize_reorder
    simp only [remap_indices_length, u32_buffer_length]
    exact hlen
  · intro x hx
    unfold optimize_reorder at hx
    simp only [remap_indices, List.mem_map] at hx
    obtain ⟨i, _, rfl⟩ := hx
    exact getD_lt_of_forall _ _ (by norm_num) (u32_buffer_lt _ _) i

/-- The index buffer that is stored holds 32-bit words and has at most
`mesh.count` entries. -/
theorem final_index_buffer_bounds (hash : List Nat → Nat) (lib : MeshOptimizer) (mesh : Mesh)
    (stripify : Bool) :
    (final_index_buffer hash lib mesh stripify).length ≤ mesh.count ∧
    ∀ x ∈ final_index_buffer hash lib mesh stripify, x < 2 ^ 32 := by
  obtain ⟨hlen, hlt⟩ := optimize_reorder_index_buffer hash lib mesh
  unfold final_index_buffer
  by_cases hk : strip_kept hash lib mesh stripify = true
  · simp only [hk, if_true]
    refine ⟨?_, stripped_index_buffer_lt _ _ _⟩
    unfold strip_kept at hk
    simp only [Bool.and_eq_true, decide_eq_true_eq] at hk
    omega
  · simp only [hk]
    exact ⟨hlen, hlt⟩

/-- The output of `mesh_optimize_index_buffer` on a triangle list, member by
member. -/
theorem mesh_optimize_index_buffer_list (hash : List Nat → Nat) (lib : MeshOptimizer)
    (mesh : Mesh) (stripify : Bool)
    (hlist : mesh.topology = VK_PRIMITIVE_TOPOLOGY_TRIANGLE_LIST) :
    (mesh_optimize_index_buffer hash lib mesh stripify).indices
      = (store_index_buffer (final_index_buffer hash lib mesh stripify)).2 ∧
    (mesh_optimize_index_buffer hash lib mesh stripify).index_type
      = (store_index_buffer (final_index_buffer hash lib mesh stripify)).1 ∧
    (mesh_optimize_index_buffer hash lib mesh stripify).count
      = (final_index_buffer hash lib mesh stripify).length % 2 ^ 32 ∧
    (mesh_optimize_index_buffer hash lib mesh stripify).topology
      = (if strip_kept hash lib mesh stripify then VK_PRIMITIVE_TOPOLOGY_TRIANGLE_STRIP
        else VK_PRIMITIVE_TOPOLOGY_TRIANGLE_LIST) ∧
    (mesh_optimize_index_buffer hash lib mesh stripify).primitive_restart
      = strip_kept hash lib mesh stripify := by
  unfold mesh_optimize_index_buffer
  simp [hlist]

/-- C12. Index width selection: on a triangle-list mesh, with `ib` the index
buffer that `mesh_optimize_index_buffer` stores, the output has 16-bit indices
if and only if every index of `ib` other than the restart marker `0xFFFFFFFF`
is at most `0xFFFF`, and 32-bit indices otherwise; every stored non-restart
index reads back as the 32-bit index it came from, and `count` is the number
of indices. -/
theorem index_width_selection (hash : List Nat → Nat) (lib : MeshOptimizer) (mesh : Mesh)
    (stripify : Bool) (hlist : mesh.topology = VK_PRIMITIVE_TOPOLOGY_TRIANGLE_LIST)
    (hcount : mesh.count < 2 ^ 32) :
    ((mesh_optimize_index_buffer hash lib mesh stripify).index_type = IndexType.uint16
      ↔ ∀ x ∈ final_index_buffer hash lib mesh stripify, x ≠ 0xffffffff → x ≤ 0xffff) ∧
    ((mesh_optimize_index_buffer hash lib mesh stripify).index_type ≠ IndexType.uint16 →
      (mesh_optimize_index_buffer hash lib mesh stripify).index_type = IndexType.uint32) ∧
    ((mesh_optimize_index_buffer hash lib mesh stripify).index_type = IndexType.uint16 →
      (mesh_optimize_index_buffer hash lib mesh stripify).indices.length
        = 2 * (final_index_buffer hash lib mesh stripify).length ∧
      ∀ i, i < (final_index_buffer hash lib mesh stripify).length →
        (final_index_buffer hash lib mesh stripify).getD i 0 ≠ 0xffffffff →
        read_u16 (mesh_optimize_index_buffer hash lib mesh stripify).indices i
          = (final_index_buffer hash lib mesh stripify).getD i 0) ∧
    ((mesh_optimize_index_buffer hash lib mesh stripify).index_type = IndexType.uint32 →
      (mesh_optimize_index_buffer hash lib mesh stripify).indices.length
        = 4 * (final_index_buffer hash lib mesh stripify).length ∧
      ∀ i, i < (final_index_buffer hash lib mesh stripify).length →
        read_u32 (mesh_optimize_index_buffer hash lib mesh stripify).indices i
          = (final_index_buffer hash lib mesh stripify).getD i 0) ∧
    (mesh_optimize_index_buffer hash lib mesh stripify).count
      = (final_index_buffer hash lib mesh stripify).length := by
  obtain ⟨hind, hty, hcnt, _, _⟩ := mesh_optimize_index_buffer_list hash lib mesh stripify hlist
  obtain ⟨hlen, h32⟩ := final_index_buffer_bounds hash lib mesh stripify
  obtain ⟨s1, s2, s3, s4⟩ := store_index_buffer_spec _ h32
  rw [hind, hty, hcnt]
  refine ⟨s1, s2, ?_, s4, Nat.mod_eq_of_lt (by omega)⟩
  intro h16
  obtain ⟨hl, hr⟩ := s3 h16
  exact ⟨hl, fun i hi hne => (hr i hi).1 hne⟩

/-- Witness for C12: the sample quad, with and without the strip. -/
theorem index_width_selection_witness :
    sample_quad.topology = VK_PRIMITIVE_TOPOLOGY_TRIANGLE_LIST ∧ sample_quad.count < 2 ^ 32 ∧
    (mesh_optimize_index_buffer sample_hash sample_optimizer sample_quad true).count
      = (final_index_buffer sample_hash sample_optimizer sample_quad true).length :=
  ⟨by decide, by decide,
    (index_width_selection sample_hash sample_optimizer sample_quad true (by decide)
      (by decide)).2.2.2.2⟩

/-- C14. Strip conversion is kept only when it wins: on a triangle-list mesh,
the output is a triangle strip with `primitive_restart = true` if and only if
stripification was requested and the strip has strictly fewer indices than the
triangle list, and then the strip is what is stored; in every other case the
output is a triangle list with `primitive_restart = false` and the stored
indices are those of the triangle list. -/
theorem strip_kept_only_when_smaller (hash : List Nat → Nat) (lib : MeshOptimizer)
    (mesh : Mesh) (stripify : Bool)
    (hlist : mesh.topology = VK_PRIMITIVE_TOPOLOGY_TRIANGLE_LIST) :
    (((mesh_optimize_index_buffer hash lib mesh stripify).topology
          = VK_PRIMITIVE_TOPOLOGY_TRIANGLE_STRIP ∧
        (mesh_optimize_index_buffer hash lib mesh stripify).primitive_restart = true)
      ↔ (stripify = true ∧
        (stripped_index_buffer lib (optimize_reorder hash lib mesh).index_buffer
            (optimize_reorder hash lib mesh).vertex_count).length
          < (optimize_reorder hash lib mesh).index_buffer.length)) ∧
    ((stripify = true ∧
        (stripped_index_buffer lib (optimize_reorder hash lib mesh).index_buffer
            (optimize_reorder hash lib mesh).vertex_count).length
          < (optimize_reorder hash lib mesh).index_buffer.length) →
      (mesh_optimize_index_buffer hash lib mesh stripify).indices
        = (store_index_buffer
            (stripped_index_buffer lib (optimize_reorder hash lib mesh).index_buffer
              (optimize_reorder hash lib mesh).vertex_count)).2) ∧
    (¬ (stripify = true ∧
        (stripped_index_buffer lib (optimize_reorder hash lib mesh).index_buffer
            (optimize_reorder hash lib mesh).vertex_count).length
          < (optimize_reorder hash lib mesh).index_buffer.length) →
      (mesh_optimize_index_buffer hash lib mesh stripify).topology
        = VK_PRIMITIVE_TOPOLOGY_TRIANGLE_LIST ∧
      (mesh_optimize_index_buffer hash lib mesh stripify).primitive_restart = false ∧
      (mesh_optimize_index_buffer hash lib mesh stripify).indices
        = (store_index_buffer (optimize_reorder hash lib mesh).index_buffer).2 ∧
      (mesh_optimize_index_buffer hash lib mesh stripify).count
        = (optimize_reorder hash lib mesh).index_buffer.length % 2 ^ 32) := by
  obtain ⟨hind, _, hcnt, htop, hpr⟩ :=
    mesh_optimize_index_buffer_list hash lib mesh stripify hlist
  have hk : strip_kept hash lib mesh stripify = true ↔ (stripify = true ∧
      (stripped_index_buffer lib (optimize_reorder hash lib mesh).index_buffer
          (optimize_reorder hash lib mesh).vertex_count).length
        < (optimize_reorder hash lib mesh).index_buffer.length) := by
    unfold strip_kept
    simp only [Bool.and_eq_true, decide_eq_true_eq]
  rw [hind, hcnt, htop, hpr, ← hk]
  unfold final_index_buffer
  by_cases hkept : strip_kept hash lib mesh stripify = true
  · rw [if_pos hkept, if_pos hkept]
    exact ⟨⟨fun _ => hkept, fun _ => ⟨rfl, hkept⟩⟩, fun _ => rfl, fun h => absurd hkept h⟩
  · rw [if_neg hkept, if_neg hkept]
    refine ⟨⟨fun h => absurd h.2 hkept, fun h => absurd h hkept⟩, fun h => absurd h hkept,
      fun _ => ⟨rfl, ?_, rfl, rfl⟩⟩
    simpa using hkept

/-- Witness for C14: the strip of the sample quad has four indices against six
and is kept. -/
theorem strip_kept_only_when_smaller_witness :
    sample_quad.topology = VK_PRIMITIVE_TOPOLOGY_TRIANGLE_LIST ∧
    (mesh_optimize_index_buffer sample_hash sample_optimizer sample_quad true).topology
      = VK_PRIMITIVE_TOPOLOGY_TRIANGLE_STRIP ∧
    (mesh_optimize_index_buffer sample_hash sample_optimizer sample_quad true).primitive_restart
      = true :=
  ⟨by decide,
    (strip_kept_only_when_smaller sample_hash sample_optimizer sample_quad true
      (by decide)).1.2 (by decide)⟩

/-- C15, counterexample.  The sample strip mesh is not a triangle list, and
`mesh_optimize_index_buffer` returns a mesh for it: the input mesh itself. -/
theorem non_list_mesh_is_returned :
    sample_strip_mesh.topology ≠ VK_PRIMITIVE_TOPOLOGY_TRIANGLE_LIST ∧
    mesh_optimize_index_buffer sample_hash sample_optimizer sample_strip_mesh false
      = sample_strip_mesh := by
  constructor
  · decide
  · unfold mesh_optimize_index_buffer
    rw [if_pos (by decide)]

/-- C15 (amended). For every input mesh whose topology is not a triangle list,
`mesh_optimize_index_buffer` does no work and reports no error: the mesh it
returns is the input mesh, unchanged. -/
theorem non_list_topology_passes_through (hash : List Nat → Nat) (lib : MeshOptimizer)
    (mesh : Mesh) (stripify : Bool)
    (htop : mesh.topology ≠ VK_PRIMITIVE_TOPOLOGY_TRIANGLE_LIST) :
    mesh_optimize_index_buffer hash lib mesh stripify = mesh := by
  unfold mesh_optimize_index_buffer
  rw [if_pos htop]

/-- Witness for C15 (amended): the sample strip mesh with stripification
requested. -/
theorem non_list_topology_passes_through_witness :
    sample_strip_mesh.topology ≠ VK_PRIMITIVE_TOPOLOGY_TRIANGLE_LIST ∧
    mesh_optimize_index_buffer sample_hash sample_optimizer sample_strip_mesh true
      = sample_strip_mesh :=
  ⟨by decide,
    non_list_topology_passes_through sample_hash sample_optimizer sample_strip_mesh true
      (by decide)⟩

/-! ## The container writer -/

theorem write_bytes_fold (buf bytes : List Nat) (s : Nat) :
    ∀ n, ((List.range n).foldl (fun b k => b.set (s + k) (bytes.getD k 0)) buf).length
        = buf.length ∧
      ∀ j d, ((List.range n).foldl (fun b k => b.set (s + k) (bytes.getD k 0)) buf).getD j d
        = if s ≤ j ∧ j < s + n ∧ j < buf.length then bytes.getD (j - s) 0 else buf.getD j d := by
  intro n
  induction n with
  | zero =>
    refine ⟨rfl, fun j d => ?_⟩
    rw [if_neg (by omega)]
    rfl
  | succ n ih =>
    obtain ⟨hl, hg⟩ := ih
    rw [List.range_succ, List.foldl_append]
    simp only [List.foldl_cons, List.foldl_nil]
    refine ⟨by rw [List.length_set, hl], fun j d => ?_⟩
    rw [getD_set, hl, hg]
    by_cases h1 : s + n = j ∧ s + n < buf.length
    · rw [if_pos h1, if_pos (by omega)]
      congr 1
      omega
    · rw [if_neg h1]
      by_cases h2 : s ≤ j ∧ j < s + n ∧ j < buf.length
      · rw [if_pos h2, if_pos (by omega)]
      · rw [if_neg h2, if_neg (by omega)]

theorem write_bytes_length (buf : List Nat) (s : Nat) (bytes : List Nat) :
    (write_bytes buf s bytes).length = buf.length :=
  (write_bytes_fold buf bytes s bytes.length).1

theorem getD_write_bytes (buf : List Nat) (s : Nat) (bytes : List Nat) (j d : Nat) :
    (write_bytes buf s bytes).getD j d
      = if s ≤ j ∧ j < s + bytes.length ∧ j < buf.length then bytes.getD (j - s) 0
        else buf.getD j d :=
  (write_bytes_fold buf bytes s bytes.length).2 j d

/-- Writing `bytes` right after a prefix `pre` of the buffer extends the
prefix by `bytes`. -/
theorem take_write_bytes (buf pre bytes : List Nat) (hpre : buf.take pre.length = pre)
    (hfit : pre.length + bytes.length ≤ buf.length) :
    (write_bytes buf pre.length bytes).take (pre ++ bytes).length = pre ++ bytes := by
  apply List.ext_getElem
  · rw [List.length_take, write_bytes_length, List.length_append]
    omega
  · intro i h1 h2
    rw [List.getElem_take]
    have hi : i < pre.length + bytes.length := by
      rw [List.length_append] at h2
      exact h2
    have hlt : i < (write_bytes buf pre.length bytes).length := by
      rw [write_bytes_length]; omega
    have e := getD_write_bytes buf pre.length bytes i 0
    rw [List.getD_eq_getElem _ _ hlt] at e
    rw [e]
    by_cases hp : i < pre.length
    · rw [if_neg (by omega), List.getElem_append_left hp]
      have e2 : pre.getD i 0 = buf.getD i 0 := by
        conv_lhs => rw [← hpre]
        simp only [List.getD_eq_getElem?_getD, List.getElem?_take, hp, if_true]
      rw [← List.getD_eq_getElem _ 0 hp, e2]
    · rw [if_pos (by omega), List.getElem_append_right (by omega),
        List.getD_eq_getElem _ _ (by omega)]

theorem read_bytes_self (src : List Nat) : read_bytes src 0 src.length = src := by
  apply List.ext_getElem
  · rw [read_bytes_length]
  · intro i h1 h2
    unfold read_bytes
    rw [List.getElem_map, List.getElem_range, Nat.zero_add, List.getD_eq_getElem _ _ h2]

theorem Contiguous.snoc (ws : List (Nat × Nat)) (n : Nat) :
    ∀ s e, Contiguous s ws e → Contiguous s (ws ++ [(e, n)]) (e + n) := by
  induction ws with
  | nil =>
    intro s e h
    have hs : s = e := h
    subst hs
    exact ⟨rfl, rfl⟩
  | cons w ws ih =>
    intro s e h
    exact ⟨h.1, ih _ _ h.2⟩

/-- One `memcpy` of a whole object followed by `ptr += sizeof(object)`. -/
theorem Mapping.Holds.copy (m : Mapping) (pre sizes src : List Nat) (R n : Nat)
    (h : m.Holds pre sizes R) (hn : src.length = n) (hfit : pre.length + n ≤ R) :
    ((m.memcpy src n).advance n).Holds (pre ++ src) (sizes ++ [n]) R := by
  obtain ⟨hptr, hlen, hpre, hc, hs⟩ := h
  subst hn
  have hd : ((m.memcpy src src.length).advance src.length).data
      = write_bytes m.data pre.length src := by
    show write_bytes m.data m.ptr (read_bytes src 0 src.length) = _
    rw [read_bytes_self, hptr]
  have hp : ((m.memcpy src src.length).advance src.length).ptr = m.ptr + src.length := rfl
  have hw : ((m.memcpy src src.length).advance src.length).writes
      = m.writes ++ [(m.ptr, src.length)] := rfl
  refine ⟨?_, ?_, ?_, ?_, ?_⟩
  · rw [hp, hptr, List.length_append]
  · rw [hd, write_bytes_length, hlen]
  · rw [hd]
    exact take_write_bytes m.data pre src hpre (by omega)
  · rw [hp, hw]
    exact Contiguous.snoc _ _ _ _ hc
  · rw [hw, List.map_append, hs]
    rfl

/-- A loop whose iteration `i` writes the block `C i` of `L` bytes by writes of
the sizes `z`. -/
theorem Mapping.Holds.loop (step : Mapping → Nat → Mapping) (C : Nat → List Nat) (L : Nat)
    (z : List Nat) (R : Nat)
    (hstep : ∀ m pre sizes i, m.Holds pre sizes R → pre.length + L ≤ R →
      (step m i).Holds (pre ++ C i) (sizes ++ z) R)
    (hC : ∀ i, (C i).length = L) (m : Mapping) (pre sizes : List Nat)
    (h : m.Holds pre sizes R) :
    ∀ N, pre.length + N * L ≤ R →
      ((List.range N).foldl step m).Holds (pre ++ (List.range N).flatMap C)
        (sizes ++ (List.range N).flatMap fun _ => z) R := by
  intro N
  induction N with
  | zero =>
    intro _
    simpa using h
  | succ N ih =>
    intro hfit
    have hN : pre.length + N * L ≤ R := by
      rw [Nat.succ_mul] at hfit
      omega
    have hlen : (pre ++ (List.range N).flatMap C).length = pre.length + N * L := by
      rw [List.length_append, flatMap_block_length C L hC, List.length_range]
    have h1 := hstep _ _ _ N (ih hN) (by rw [hlen, Nat.succ_mul] at *; omega)
    rw [List.range_succ, List.foldl_append, List.flatMap_append, List.flatMap_append]
    simp only [List.foldl_cons, List.foldl_nil, List.flatMap_cons, List.flatMap_nil,
      List.append_nil]
    rw [← List.append_assoc, ← List.append_assoc]
    exact h1

theorem flatMap_const_singleton (N a : Nat) :
    ((List.range N).flatMap fun _ => [a]) = List.replicate N a := by
  induction N with
  | zero => rfl
  | succ N ih =>
    rw [List.range_succ, List.flatMap_append, ih, List.replicate_succ']
    rfl

theorem flatMap_const_replicate (N S a : Nat) :
    ((List.range N).flatMap fun _ => List.replicate S a) = List.replicate (N * S) a := by
  induction N with
  | zero => simp
  | succ N ih =>
    rw [List.range_succ, List.flatMap_append, ih, Nat.succ_mul, List.replicate_add]
    simp

/-- The closing `memset` of the pad bytes, which ends at the end of the
mapping. -/
theorem Mapping.Holds.memset_last (m : Mapping) (pre sizes : List Nat) (R n : Nat)
    (h : m.Holds pre sizes R) (hfit : pre.length + n = R) :
    (m.memset_zero n).data = pre ++ List.replicate n 0 ∧
    Contiguous 0 (m.memset_zero n).writes R ∧
    (m.memset_zero n).writes.map Prod.snd = sizes ++ [n] := by
  obtain ⟨hptr, hlen, hpre, hc, hs⟩ := h
  have hd : (m.memset_zero n).data = write_bytes m.data pre.length (List.replicate n 0) := by
    show write_bytes m.data m.ptr (List.replicate n 0) = _
    rw [hptr]
  have hw : (m.memset_zero n).writes = m.writes ++ [(m.ptr, n)] := rfl
  refine ⟨?_, ?_, ?_⟩
  · have ht := take_write_bytes m.data pre (List.replicate n 0) hpre
      (by rw [List.length_replicate]; omega)
    rw [hd]
    rw [List.take_of_length_le] at ht
    · exact ht
    · rw [write_bytes_length, List.length_append, List.length_replicate]
      omega
  · rw [hw]
    have := Contiguous.snoc _ n _ _ hc
    rw [hptr, hfit] at this
    rw [hptr]
    exact this
  · rw [hw, List.map_append, hs]
    rfl

theorem words_bytes_length (n : Nat) (words : List Nat) : (words_bytes n words).length = 4 * n := by
  unfold words_bytes
  rw [flatMap_block_length _ 4 (fun _ => u32_bytes_length _), List.length_range]
  omega

theorem format_header_bytes_length (h : FormatHeader) : h.bytes.length = sizeof_FormatHeader := rfl

theorem metadata_header_bytes_length (m : Metadata) : m.header_bytes.length = sizeof_Header := rfl

theorem metadata_bound_bytes_length (m : Metadata) : m.bound_bytes.length = sizeof_Bound :=
  words_bytes_length 8 m.bound

theorem stream_bytes_length (s : Stream) : s.bytes.length = sizeof_Stream := by
  unfold Stream.bytes
  simp only [List.length_append, words_bytes_length, u32_bytes_length]
  rfl

/-- The copy phase of `export_encoded_mesh` on a fresh mapping of exactly the
size of the container. -/
theorem write_container_spec (encoded : Encoded) (m : Mapping) (R : Nat)
    (hfresh : m.Holds [] [] R) (hN : encoded.mesh.meshlets.length < 2 ^ 32)
    (hR : R = payload_offset encoded.mesh.meshlets.length encoded.mesh.stream_count
      + (encoded.payload.length + 1) * sizeof_PayloadWord) :
    (write_container encoded m).data = container_bytes encoded ∧
    Contiguous 0 (write_container encoded m).writes R ∧
    (write_container encoded m).writes.map Prod.snd = container_writes encoded := by
  have hcount : (format_header encoded).meshlet_count = encoded.mesh.meshlets.length :=
    Nat.mod_eq_of_lt hN
  have hS : (format_header encoded).stream_count = encoded.mesh.stream_count := rfl
  unfold payload_offset at hR
  generalize hNdef : encoded.mesh.meshlets.length = N at *
  generalize hSdef : encoded.mesh.stream_count = S at *
  generalize hPdef : encoded.payload.length = P at *
  have hSN : S * N * sizeof_Stream = N * (S * sizeof_Stream) := by ring
  -- magic and header
  have h1 := Mapping.Holds.copy m [] [] magic R sizeof_magic hfresh rfl
    (by simp only [List.length_nil, sizeof_magic] at *; omega)
  have h2 := Mapping.Holds.copy _ _ _ (format_header encoded).bytes R sizeof_FormatHeader h1
    (format_header_bytes_length _)
    (by simp only [List.nil_append, magic, List.length_cons, List.length_nil, sizeof_magic,
          sizeof_FormatHeader] at *; omega)
  -- the meshlet headers
  have h3 := Mapping.Holds.loop
    (fun m i =>
      (m.memcpy (encoded.mesh.meshlets.getD i Metadata.zero).header_bytes sizeof_Header).advance
        sizeof_Header)
    (fun i => (encoded.mesh.meshlets.getD i Metadata.zero).header_bytes) sizeof_Header
    [sizeof_Header] R
    (fun m pre sizes i h hfit => Mapping.Holds.copy m pre sizes _ R _ h
      (metadata_header_bytes_length _) hfit)
    (fun i => metadata_header_bytes_length _) _ _ _ h2 N
    (by simp only [List.nil_append, List.length_append, magic, List.length_cons, List.length_nil,
          format_header_bytes_length, sizeof_magic, sizeof_FormatHeader, sizeof_Header] at *
        omega)
  -- the bounds
  have h4 := Mapping.Holds.loop
    (fun m i =>
      (m.memcpy (encoded.mesh.meshlets.getD i Metadata.zero).bound_bytes sizeof_Bound).advance
        sizeof_Bound)
    (fun i => (encoded.mesh.meshlets.getD i Metadata.zero).bound_bytes) sizeof_Bound
    [sizeof_Bound] R
    (fun m pre sizes i h hfit => Mapping.Holds.copy m pre sizes _ R _ h
      (metadata_bound_bytes_length _) hfit)
    (fun i => metadata_bound_bytes_length _) _ _ _ h3 N
    (by simp only [List.nil_append, List.length_append, magic, List.length_cons, List.length_nil,
          format_header_bytes_length, flatMap_block_length _ _ metadata_header_bytes_length,
          flatMap_block_length _ sizeof_Header
            (fun i => metadata_header_bytes_length (encoded.mesh.meshlets.getD i Metadata.zero)),
          List.length_range, sizeof_magic, sizeof_FormatHeader, sizeof_Header,
          sizeof_Bound] at *
        omega)
  -- the stream records
  have hinner : ∀ (m : Mapping) (pre sizes : List Nat) (i : Nat), m.Holds pre sizes R →
      pre.length + S * sizeof_Stream ≤ R →
      ((List.range S).foldl
        (fun m j =>
          (m.memcpy
            (((encoded.mesh.meshlets.getD i Metadata.zero).streams.getD j Stream.zero).bytes)
            sizeof_Stream).advance sizeof_Stream) m).Holds
        (pre ++ (List.range S).flatMap fun j =>
          ((encoded.mesh.meshlets.getD i Metadata.zero).streams.getD j Stream.zero).bytes)
        (sizes ++ List.replicate S sizeof_Stream) R := by
    intro m pre sizes i h hfit
    have := Mapping.Holds.loop
      (fun m j =>
        (m.memcpy
          (((encoded.mesh.meshlets.getD i Metadata.zero).streams.getD j Stream.zero).bytes)
          sizeof_Stream).advance sizeof_Stream)
      (fun j => ((encoded.mesh.meshlets.getD i Metadata.zero).streams.getD j Stream.zero).bytes)
      sizeof_Stream [sizeof_Stream] R
      (fun m pre sizes j h hfit => Mapping.Holds.copy m pre sizes _ R _ h
        (stream_bytes_length _) hfit)
      (fun j => stream_bytes_length _) m pre sizes h S hfit
    rw [flatMap_const_singleton] at this
    exact this
  have h5 := Mapping.Holds.loop
    (fun m i =>
      (List.range S).foldl
        (fun m j =>
          (m.memcpy
            (((encoded.mesh.meshlets.getD i Metadata.zero).streams.getD j Stream.zero).bytes)
            sizeof_Stream).advance sizeof_Stream) m)
    (fun i => (List.range S).flatMap fun j =>
      ((encoded.mesh.meshlets.getD i Metadata.zero).streams.getD j Stream.zero).bytes)
    (S * sizeof_Stream) (List.replicate S sizeof_Stream) R hinner
    (fun i => by
      rw [flatMap_block_length _ sizeof_Stream (fun j => stream_bytes_length _),
        List.length_range])
    _ _ _ h4 N
    (by simp only [List.nil_append, List.length_append, magic, List.length_cons, List.length_nil,
          format_header_bytes_length,
          flatMap_block_length _ sizeof_Header
            (fun i => metadata_header_bytes_length (encoded.mesh.meshlets.getD i Metadata.zero)),
          flatMap_block_length _ sizeof_Bound
            (fun i => metadata_bound_bytes_length (encoded.mesh.meshlets.getD i Metadata.zero)),
          List.length_range, sizeof_magic, sizeof_FormatHeader, sizeof_Header, sizeof_Bound,
          sizeof_Stream, sizeof_PayloadWord] at *
        rw [hSN] at hR
        omega)
  -- the payload and the pad word
  have hpl : (encoded.payload.flatMap u32_bytes).length = P * sizeof_PayloadWord := by
    rw [flatMap_block_length _ 4 u32_bytes_length, hPdef]
    rfl
  have hstreams : ((List.range N).flatMap fun i => (List.range S).flatMap fun j =>
        ((encoded.mesh.meshlets.getD i Metadata.zero).streams.getD j Stream.zero).bytes).length
      = N * (S * 48) := by
    rw [flatMap_block_length
      (fun i => (List.range S).flatMap fun j =>
        ((encoded.mesh.meshlets.getD i Metadata.zero).streams.getD j Stream.zero).bytes)
      (S * sizeof_Stream)
      (fun i => by
        rw [flatMap_block_length _ sizeof_Stream (fun j => stream_bytes_length _),
          List.length_range]),
      List.length_range]
    rfl
  have hlen5 : (([] ++ magic ++ (format_header encoded).bytes ++
        (List.range N).flatMap fun i => (encoded.mesh.meshlets.getD i Metadata.zero).header_bytes) ++
      ((List.range N).flatMap fun i => (encoded.mesh.meshlets.getD i Metadata.zero).bound_bytes) ++
      (List.range N).flatMap fun i => (List.range S).flatMap fun j =>
        ((encoded.mesh.meshlets.getD i Metadata.zero).streams.getD j Stream.zero).bytes).length
      = 24 + N * 8 + N * 32 + N * (S * 48) := by
    simp only [List.nil_append, List.length_append, magic, List.length_cons, List.length_nil,
      format_header_bytes_length,
      flatMap_block_length _ sizeof_Header
        (fun i => metadata_header_bytes_length (encoded.mesh.meshlets.getD i Metadata.zero)),
      flatMap_block_length _ sizeof_Bound
        (fun i => metadata_bound_bytes_length (encoded.mesh.meshlets.getD i Metadata.zero)),
      hstreams, List.length_range, sizeof_FormatHeader, sizeof_Header, sizeof_Bound]
  have hR2 : R = 24 + N * 8 + N * 32 + N * (S * 48) + (P + 1) * 4 := by
    rw [hR, hSN]
    rfl
  have h6 := Mapping.Holds.copy _ _ _ (encoded.payload.flatMap u32_bytes) R
    (P * sizeof_PayloadWord) h5 hpl
    (by rw [hlen5, hR2]; simp only [sizeof_PayloadWord]; omega)
  obtain ⟨r1, r2, r3⟩ := Mapping.Holds.memset_last _ _ _ R sizeof_PayloadWord h6
    (by rw [List.length_append, hlen5, hpl, hR2]; simp only [sizeof_PayloadWord]; omega)
  have e : write_container encoded m = Mapping.memset_zero
      ((Mapping.memcpy (List.foldl
        (fun m i =>
          (List.range S).foldl
            (fun m j =>
              (m.memcpy
                (((encoded.mesh.meshlets.getD i Metadata.zero).streams.getD j Stream.zero).bytes)
                sizeof_Stream).advance sizeof_Stream) m)
        (List.foldl
          (fun m i =>
            (m.memcpy (encoded.mesh.meshlets.getD i Metadata.zero).bound_bytes sizeof_Bound).advance
              sizeof_Bound)
          (List.foldl
            (fun m i =>
              (m.memcpy (encoded.mesh.meshlets.getD i Metadata.zero).header_bytes
                sizeof_Header).advance sizeof_Header)
            ((((m.memcpy magic sizeof_magic).advance sizeof_magic).memcpy
              (format_header encoded).bytes sizeof_FormatHeader).advance sizeof_FormatHeader)
            (List.range N))
          (List.range N))
        (List.range N)) (encoded.payload.flatMap u32_bytes) (P * sizeof_PayloadWord)).advance
          (P * sizeof_PayloadWord)) sizeof_PayloadWord := by
    unfold write_container
    simp only [hcount, hS, hPdef]
  rw [e]
  refine ⟨?_, r2, ?_⟩
  · rw [r1]
    unfold container_bytes
    rw [hNdef, hSdef]
    simp only [List.nil_append, List.append_assoc]
  · rw [r3]
    unfold container_writes
    rw [hNdef, hSdef, hPdef, flatMap_const_singleton, flatMap_const_singleton,
      flatMap_const_replicate]
    simp only [List.nil_append, List.append_assoc, List.cons_append, List.singleton_append]

theorem fresh_mapping_holds (fs : FileSystem) (R : Nat) :
    Mapping.Holds { data := (List.range R).map fs.initial, ptr := 0, writes := [] } [] [] R := by
  refine ⟨rfl, ?_, rfl, rfl, rfl⟩
  simp

/-- Without overflow, `required_size` is the byte count of the parts of the
container. -/
theorem required_size_eq (encoded : Encoded)
    (hsize : payload_offset encoded.mesh.meshlets.length encoded.mesh.stream_count
      + (encoded.payload.length + 1) * sizeof_PayloadWord < 2 ^ 64) :
    required_size encoded
      = payload_offset encoded.mesh.meshlets.length encoded.mesh.stream_count
        + (encoded.payload.length + 1) * sizeof_PayloadWord := by
  unfold required_size
  exact Nat.mod_eq_of_lt hsize

/-- What `export_encoded_mesh` does when the file can be opened and mapped. -/
theorem export_encoded_mesh_written (fs : FileSystem) (path : String) (encoded : Encoded)
    (hopen : fs.can_open path = true) (hmap : fs.can_map path (required_size encoded) = true)
    (hN : encoded.mesh.meshlets.length < 2 ^ 32)
    (hsize : payload_offset encoded.mesh.meshlets.length encoded.mesh.stream_count
      + (encoded.payload.length + 1) * sizeof_PayloadWord < 2 ^ 64) :
    ∃ m, export_encoded_mesh fs path encoded = WriteOutcome.written (required_size encoded) m ∧
      m.data = container_bytes encoded ∧
      Contiguous 0 m.writes (required_size encoded) ∧
      m.writes.map Prod.snd = container_writes encoded := by
  refine ⟨write_container encoded
    { data := (List.range (required_size encoded)).map fs.initial, ptr := 0, writes := [] },
    ?_, ?_⟩
  · unfold export_encoded_mesh
    rw [hopen, hmap]
    simp
  · exact write_container_spec encoded _ _ (fresh_mapping_holds fs _) hN
      (required_size_eq encoded hsize)

/-- The container is the part in front of the payload, of `payload_offset`
bytes, followed by the payload words and the pad word. -/
theorem container_bytes_split (encoded : Encoded) :
    ∃ front, front.length
        = payload_offset encoded.mesh.meshlets.length encoded.mesh.stream_count ∧
      container_bytes encoded
        = front ++ (encoded.payload.flatMap u32_bytes ++ List.replicate sizeof_PayloadWord 0) := by
  refine ⟨magic ++ (format_header encoded).bytes
    ++ ((List.range encoded.mesh.meshlets.length).flatMap fun i =>
        (encoded.mesh.meshlets.getD i Metadata.zero).header_bytes)
    ++ ((List.range encoded.mesh.meshlets.length).flatMap fun i =>
        (encoded.mesh.meshlets.getD i Metadata.zero).bound_bytes)
    ++ ((List.range encoded.mesh.meshlets.length).flatMap fun i =>
        (List.range encoded.mesh.stream_count).flatMap fun j =>
          ((encoded.mesh.meshlets.getD i Metadata.zero).streams.getD j Stream.zero).bytes),
    ?_, ?_⟩
  · have hstreams : ((List.range encoded.mesh.meshlets.length).flatMap fun i =>
          (List.range encoded.mesh.stream_count).flatMap fun j =>
            ((encoded.mesh.meshlets.getD i Metadata.zero).streams.getD j Stream.zero).bytes).length
        = encoded.mesh.meshlets.length * (encoded.mesh.stream_count * sizeof_Stream) := by
      rw [flatMap_block_length
        (fun i => (List.range encoded.mesh.stream_count).flatMap fun j =>
          ((encoded.mesh.meshlets.getD i Metadata.zero).streams.getD j Stream.zero).bytes)
        (encoded.mesh.stream_count * sizeof_Stream)
        (fun i => by
          rw [flatMap_block_length _ sizeof_Stream (fun j => stream_bytes_length _),
            List.length_range]),
        List.length_range]
    simp only [List.length_append, format_header_bytes_length,
      flatMap_block_length _ sizeof_Header
        (fun i => metadata_header_bytes_length (encoded.mesh.meshlets.getD i Metadata.zero)),
      flatMap_block_length _ sizeof_Bound
        (fun i => metadata_bound_bytes_length (encoded.mesh.meshlets.getD i Metadata.zero)),
      hstreams, List.length_range]
    unfold payload_offset
    have e : magic.length = sizeof_magic := rfl
    rw [e]
    ring
  · unfold container_bytes
    simp only [List.append_assoc]

/-- C19. Container size: with `N` meshlets, `S` streams and `P` payload words,
`export_encoded_mesh` requests `8 + 16 + 8N + 32N + 48SN + 4(P + 1)` bytes, and
when the file is opened and mapped its writes are, in order, the magic, the
header, `N` meshlet headers, `N` bounds, `N * S` stream records meshlet by
meshlet, the payload and the pad word; they are contiguous from offset 0 and
end at the requested size. -/
theorem container_size_and_writes (fs : FileSystem) (path : String) (encoded : Encoded)
    (hopen : fs.can_open path = true) (hmap : fs.can_map path (required_size encoded) = true)
    (hN : encoded.mesh.meshlets.length < 2 ^ 32)
    (hsize : payload_offset encoded.mesh.meshlets.length encoded.mesh.stream_count
      + (encoded.payload.length + 1) * sizeof_PayloadWord < 2 ^ 64) :
    required_size encoded
      = 8 + 16 + 8 * encoded.mesh.meshlets.length + 32 * encoded.mesh.meshlets.length
        + 48 * encoded.mesh.stream_count * encoded.mesh.meshlets.length
        + 4 * (encoded.payload.length + 1) ∧
    ∃ m, export_encoded_mesh fs path encoded = WriteOutcome.written (required_size encoded) m ∧
      m.writes.map Prod.snd
        = [8, 16] ++ List.replicate encoded.mesh.meshlets.length 8
          ++ List.replicate encoded.mesh.meshlets.length 32
          ++ List.replicate (encoded.mesh.meshlets.length * encoded.mesh.stream_count) 48
          ++ [4 * encoded.payload.length, 4] ∧
      Contiguous 0 m.writes (required_size encoded) ∧
      m.data = container_bytes encoded ∧
      m.data.length = required_size encoded := by
  obtain ⟨m, hm, hdata, hcont, hsizes⟩ :=
    export_encoded_mesh_written fs path encoded hopen hmap hN hsize
  have hreq := required_size_eq encoded hsize
  obtain ⟨front, hfront, hsplit⟩ := container_bytes_split encoded
  refine ⟨?_, m, hm, ?_, hcont, hdata, ?_⟩
  · rw [hreq]
    unfold payload_offset sizeof_magic sizeof_FormatHeader sizeof_Header sizeof_Bound
      sizeof_Stream sizeof_PayloadWord
    ring
  · rw [hsizes]
    unfold container_writes sizeof_magic sizeof_FormatHeader sizeof_Header sizeof_Bound
      sizeof_Stream sizeof_PayloadWord
    rw [Nat.mul_comm encoded.payload.length 4]
  · rw [hdata, hsplit, hreq, List.length_append, List.length_append, hfront,
      flatMap_block_length _ 4 u32_bytes_length, List.length_replicate]
    unfold sizeof_PayloadWord
    ring

/-- C20. Trailing pad word: in the container written by `export_encoded_mesh`
the `payload_size_words` payload words start at `payload_offset` and are
followed immediately by four zero bytes, which are the last four bytes of the
container; so every word index up to and including `payload_size_words`, one
past the end of the payload, addresses four bytes inside the container. -/
theorem payload_is_followed_by_pad_word (fs : FileSystem) (path : String) (encoded : Encoded)
    (hopen : fs.can_open path = true) (hmap : fs.can_map path (required_size encoded) = true)
    (hN : encoded.mesh.meshlets.length < 2 ^ 32) (hP : encoded.payload.length < 2 ^ 32)
    (hsize : payload_offset encoded.mesh.meshlets.length encoded.mesh.stream_count
      + (encoded.payload.length + 1) * sizeof_PayloadWord < 2 ^ 64) :
    ∃ m, export_encoded_mesh fs path encoded = WriteOutcome.written (required_size encoded) m ∧
      m.data.length = required_size encoded ∧
      (format_header encoded).payload_size_words = encoded.payload.length ∧
      m.data.drop (payload_offset encoded.mesh.meshlets.length encoded.mesh.stream_count)
        = encoded.payload.flatMap u32_bytes ++ [0, 0, 0, 0] ∧
      m.data.drop (m.data.length - 4) = [0, 0, 0, 0] ∧
      payload_offset encoded.mesh.meshlets.length encoded.mesh.stream_count
        + 4 * encoded.payload.length + 4 = m.data.length ∧
      ∀ k, k ≤ (format_header encoded).payload_size_words →
        payload_offset encoded.mesh.meshlets.length encoded.mesh.stream_count + 4 * k + 4
          ≤ m.data.length := by
  obtain ⟨m, hm, hdata, _, _⟩ :=
    export_encoded_mesh_written fs path encoded hopen hmap hN hsize
  obtain ⟨front, hfront, hsplit⟩ := container_bytes_split encoded
  have hpsw : (format_header encoded).payload_size_words = encoded.payload.length :=
    Nat.mod_eq_of_lt hP
  have hlen : m.data.length
      = payload_offset encoded.mesh.meshlets.length encoded.mesh.stream_count
        + 4 * encoded.payload.length + 4 := by
    rw [hdata, hsplit, List.length_append, List.length_append, hfront,
      flatMap_block_length _ 4 u32_bytes_length, List.length_replicate]
    unfold sizeof_PayloadWord
    ring
  refine ⟨m, hm, ?_, hpsw, ?_, ?_, hlen.symm, ?_⟩
  · rw [hlen, required_size_eq encoded hsize]
    unfold sizeof_PayloadWord
    ring
  · rw [hdata, hsplit, ← hfront, List.drop_left]
    rfl
  · rw [hlen, hdata, hsplit, ← List.append_assoc]
    have hl : (front ++ encoded.payload.flatMap u32_bytes).length
        = payload_offset encoded.mesh.meshlets.length encoded.mesh.stream_count
          + 4 * encoded.payload.length + 4 - 4 := by
      rw [List.length_append, hfront, flatMap_block_length _ 4 u32_bytes_length]
      omega
    rw [← hl, List.drop_left]
    rfl
  · intro k hk
    rw [hpsw] at hk
    rw [hlen]
    omega

/-- Witness for C19: the sample encoded mesh takes 172 bytes. -/
theorem container_size_and_writes_witness :
    sample_fs.can_open "mesh.msh" = true ∧
    sample_encoded.mesh.meshlets.length < 2 ^ 32 ∧
    required_size sample_encoded = 8 + 16 + 8 * 1 + 32 * 1 + 48 * 2 * 1 + 4 * (2 + 1) :=
  ⟨rfl, by decide,
    (container_size_and_writes sample_fs "mesh.msh" sample_encoded rfl rfl (by decide)
      (by decide)).1⟩

/-- Witness for C20: the sample encoded mesh. -/
theorem payload_is_followed_by_pad_word_witness :
    sample_fs.can_open "mesh.msh" = true ∧
    sample_encoded.payload.length < 2 ^ 32 ∧
    ∃ m, export_encoded_mesh sample_fs "mesh.msh" sample_encoded
        = WriteOutcome.written (required_size sample_encoded) m ∧
      m.data.drop (m.data.length - 4) = [0, 0, 0, 0] := by
  obtain ⟨m, h1, _, _, _, h5, _⟩ :=
    payload_is_followed_by_pad_word sample_fs "mesh.msh" sample_encoded rfl rfl (by decide)
      (by decide) (by decide)
  exact ⟨rfl, by decide, m, h1, h5⟩

/-! ## The checks of the exporter -/

theorem adjust_quant_length (values : List (List Int)) (exp : Int) :
    (adjust_quant values exp).1.length = values.length := by
  unfold adjust_quant
  split_ifs
  · rfl
  · simp

/-- With a supported or undefined UV format, `mesh_extract_uv_snorm_scale`
returns one encoded UV for each attribute element. -/
theorem mesh_extract_uv_length (float_of_bytes : List Nat → ℚ) (rnd : ℚ → Int) (mesh : Mesh)
    (exp : Int)
    (hfmt : mesh.attribute_layout.uv.format = VK_FORMAT_R32G32_SFLOAT ∨
      mesh.attribute_layout.uv.format = VK_FORMAT_R16G16_UNORM ∨
      mesh.attribute_layout.uv.format = VK_FORMAT_UNDEFINED) :
    (mesh_extract_uv_snorm_scale float_of_bytes rnd mesh exp).1.length = num_attrs mesh := by
  have hsome : ∃ uvs, read_uvs float_of_bytes mesh = some uvs ∧ uvs.length = num_attrs mesh := by
    unfold read_uvs num_attrs
    rcases hfmt with h | h | h
    · exact ⟨_, by simp only [h]; rfl, by simp⟩
    · exact ⟨_, by simp only [h]; rfl, by simp⟩
    · exact ⟨_, by simp only [h]; rfl, by simp⟩
  obtain ⟨uvs, h1, h2⟩ := hsome
  unfold mesh_extract_uv_snorm_scale
  rw [h1]
  show (encode_uvs_snorm_scale rnd uvs).1.length = _
  unfold encode_uvs_snorm_scale
  rw [adjust_quant_length]
  simp [h2]

/-- With an unexpected UV format, `mesh_extract_uv_snorm_scale` returns an
empty vector. -/
theorem mesh_extract_uv_unexpected (float_of_bytes : List Nat → ℚ) (rnd : ℚ → Int) (mesh : Mesh)
    (exp : Int)
    (h1 : mesh.attribute_layout.uv.format ≠ VK_FORMAT_R32G32_SFLOAT)
    (h2 : mesh.attribute_layout.uv.format ≠ VK_FORMAT_R16G16_UNORM)
    (h3 : mesh.attribute_layout.uv.format ≠ VK_FORMAT_UNDEFINED) :
    (mesh_extract_uv_snorm_scale float_of_bytes rnd mesh exp).1 = [] := by
  have hnone : read_uvs float_of_bytes mesh = none := by
    unfold read_uvs
    simp only [h1, h2, h3, if_false]
  unfold mesh_extract_uv_snorm_scale
  rw [hnone]

/-- With supported or undefined normal and tangent formats,
`mesh_extract_normal_tangent_oct8` returns one entry for each attribute
element. -/
theorem mesh_extract_normal_tangent_length (float_of_bytes : List Nat → ℚ)
    (lib : MeshOptimizer) (mesh : Mesh)
    (hn : mesh.attribute_layout.normal.format = VK_FORMAT_R32G32B32_SFLOAT ∨
      mesh.attribute_layout.normal.format = VK_FORMAT_R32G32B32A32_SFLOAT ∨
      mesh.attribute_layout.normal.format = VK_FORMAT_UNDEFINED)
    (ht : mesh.attribute_layout.tangent.format = VK_FORMAT_R32G32B32_SFLOAT ∨
      mesh.attribute_layout.tangent.format = VK_FORMAT_R32G32B32A32_SFLOAT ∨
      mesh.attribute_layout.tangent.format = VK_FORMAT_UNDEFINED) :
    (mesh_extract_normal_tangent_oct8 float_of_bytes lib mesh).length = num_attrs mesh := by
  have hnorm : ∃ ns, read_normals float_of_bytes mesh = some ns ∧ ns.length = num_attrs mesh := by
    unfold read_normals num_attrs
    rcases hn with h | h | h
    · exact ⟨_, by simp only [h]; rfl, by simp⟩
    · exact ⟨_, by simp only [h]; rfl, by simp⟩
    · exact ⟨_, by simp only [h]; rfl, by simp⟩
  have htan : ∃ ts, read_tangents float_of_bytes mesh = some ts := by
    unfold read_tangents
    rcases ht with h | h | h
    · exact ⟨_, by simp only [h]; rfl⟩
    · exact ⟨_, by simp only [h]; rfl⟩
    · exact ⟨_, by simp only [h]; rfl⟩
  obtain ⟨ns, h1, h2⟩ := hnorm
  obtain ⟨ts, h3⟩ := htan
  unfold mesh_extract_normal_tangent_oct8
  rw [h1, h3]
  simp [h2]

/-- With an unexpected normal or tangent format,
`mesh_extract_normal_tangent_oct8` returns an empty vector. -/
theorem mesh_extract_normal_tangent_unexpected (float_of_bytes : List Nat → ℚ)
    (lib : MeshOptimizer) (mesh : Mesh)
    (h : (mesh.attribute_layout.normal.format ≠ VK_FORMAT_R32G32B32_SFLOAT ∧
        mesh.attribute_layout.normal.format ≠ VK_FORMAT_R32G32B32A32_SFLOAT ∧
        mesh.attribute_layout.normal.format ≠ VK_FORMAT_UNDEFINED) ∨
      (mesh.attribute_layout.tangent.format ≠ VK_FORMAT_R32G32B32_SFLOAT ∧
        mesh.attribute_layout.tangent.format ≠ VK_FORMAT_R32G32B32A32_SFLOAT ∧
        mesh.attribute_layout.tangent.format ≠ VK_FORMAT_UNDEFINED)) :
    mesh_extract_normal_tangent_oct8 float_of_bytes lib mesh = [] := by
  unfold mesh_extract_normal_tangent_oct8
  rcases h with ⟨h1, h2, h3⟩ | ⟨h1, h2, h3⟩
  · have hnone : read_normals float_of_bytes mesh = none := by
      unfold read_normals
      simp only [h1, h2, h3, or_self, if_false]
    rw [hnone]
  · have hnone : read_tangents float_of_bytes mesh = none := by
      unfold read_tangents
      simp only [h1, h2, h3, if_false]
    rw [hnone]
    cases read_normals float_of_bytes mesh <;> rfl

/-- With `float3` or `float4` positions, `mesh_extract_position_snorm_exp`
returns one encoded position for each position of the mesh. -/
theorem mesh_extract_position_length (float_of_bytes : List Nat → ℚ) (rnd : ℚ → Int)
    (mesh : Mesh) (exp : Int)
    (hfmt : mesh.attribute_layout.position.format = VK_FORMAT_R32G32B32_SFLOAT ∨
      mesh.attribute_layout.position.format = VK_FORMAT_R32G32B32A32_SFLOAT) :
    (mesh_extract_position_snorm_exp_of_mesh float_of_bytes rnd mesh exp).1.length
      = num_positions mesh := by
  have hsome : ∃ ps, read_positions float_of_bytes mesh = some ps ∧
      ps.length = num_positions mesh := by
    unfold read_positions num_positions
    rcases hfmt with h | h
    · exact ⟨_, by simp only [h]; rfl, by simp⟩
    · exact ⟨_, by simp only [h]; rfl, by simp⟩
  obtain ⟨ps, h1, h2⟩ := hsome
  unfold mesh_extract_position_snorm_exp_of_mesh
  rw [h1]
  show (mesh_extract_position_snorm_exp rnd ps).1.length = _
  unfold mesh_extract_position_snorm_exp
  rw [adjust_quant_length]
  simp [h2]

/-- With any other position format, `mesh_extract_position_snorm_exp` returns
an empty vector. -/
theorem mesh_extract_position_unexpected (float_of_bytes : List Nat → ℚ) (rnd : ℚ → Int)
    (mesh : Mesh) (exp : Int)
    (h1 : mesh.attribute_layout.position.format ≠ VK_FORMAT_R32G32B32_SFLOAT)
    (h2 : mesh.attribute_layout.position.format ≠ VK_FORMAT_R32G32B32A32_SFLOAT) :
    (mesh_extract_position_snorm_exp_of_mesh float_of_bytes rnd mesh exp).1 = [] := by
  have hnone : read_positions float_of_bytes mesh = none := by
    unfold read_positions
    simp only [h1, h2, or_self, if_false]
  unfold mesh_extract_position_snorm_exp_of_mesh
  rw [hnone]

/-- An outcome before the clustering is a failure without a container. -/
theorem before_clustering_fails (o : ExportOutcome) (h : o.before_clustering = true) :
    o.result = false ∧ o.container = none := by
  cases o with
  | exported encoded file => cases h
  | _ => exact ⟨rfl, rfl⟩

/-- The body of `extract_positions`, without local definitions. -/
theorem extract_positions_eq (env : Environment) (mesh : Mesh) (uv : List (List Int))
    (normal_tangent : List NormalTangent) (aux : List Int) (num_attribute_streams : Nat) :
    extract_positions env mesh uv normal_tangent aux num_attribute_streams
      = if (mesh_extract_position_snorm_exp_of_mesh env.float_of_bytes env.rnd mesh
            (aux.getD StreamType.Position 0)).1 = []
        then Except.error ExportOutcome.no_positions
        else Except.ok
          { positions := (mesh_extract_position_snorm_exp_of_mesh env.float_of_bytes env.rnd mesh
              (aux.getD StreamType.Position 0)).1
            uv := uv, normal_tangent := normal_tangent
            aux := aux.set StreamType.Position
              (mesh_extract_position_snorm_exp_of_mesh env.float_of_bytes env.rnd mesh
                (aux.getD StreamType.Position 0)).2
            num_attribute_streams := num_attribute_streams + 1 } := rfl

/-- The body of `extract_streams`, without local definitions. -/
theorem extract_streams_eq (env : Environment) (mesh : Mesh) (style : Nat) :
    extract_streams env mesh style
      = if style = MeshStyle.Skinned then Except.error ExportOutcome.unimplemented
        else if style = MeshStyle.Textured then
          if (mesh_extract_uv_snorm_scale env.float_of_bytes env.rnd mesh
              ((List.replicate MaxStreams (0 : Int)).getD StreamType.UV 0)).1 = []
          then Except.error ExportOutcome.no_uvs
          else if mesh_extract_normal_tangent_oct8 env.float_of_bytes env.lib mesh = []
          then Except.error ExportOutcome.no_normal_tangent
          else extract_positions env mesh
            (mesh_extract_uv_snorm_scale env.float_of_bytes env.rnd mesh
              ((List.replicate MaxStreams (0 : Int)).getD StreamType.UV 0)).1
            (mesh_extract_normal_tangent_oct8 env.float_of_bytes env.lib mesh)
            ((List.replicate MaxStreams (0 : Int)).set StreamType.UV
              (mesh_extract_uv_snorm_scale env.float_of_bytes env.rnd mesh
                ((List.replicate MaxStreams (0 : Int)).getD StreamType.UV 0)).2) 2
        else if style = MeshStyle.Wireframe then
          extract_positions env mesh [] [] (List.replicate MaxStreams 0) 0
        else Except.error ExportOutcome.unknown_style := rfl

theorem extract_positions_error (env : Environment) (mesh : Mesh) (uv : List (List Int))
    (normal_tangent : List NormalTangent) (aux : List Int) (num_attribute_streams : Nat)
    (e : ExportOutcome)
    (h : extract_positions env mesh uv normal_tangent aux num_attribute_streams
      = Except.error e) :
    e = ExportOutcome.no_positions := by
  rw [extract_positions_eq] at h
  split_ifs at h
  cases h
  rfl

/-- Every failure of the `switch` on the style is a return before the
clustering. -/
theorem extract_streams_error_before (env : Environment) (mesh : Mesh) (style : Nat)
    (e : ExportOutcome) (h : extract_streams env mesh style = Except.error e) :
    e.before_clustering = true := by
  rw [extract_streams_eq] at h
  split_ifs at h
  · cases h; rfl
  · cases h; rfl
  · cases h; rfl
  · rw [extract_positions_error _ _ _ _ _ _ _ h]; rfl
  · rw [extract_positions_error _ _ _ _ _ _ _ h]; rfl
  · cases h; rfl

/-- Deduplication leaves the attribute layout of the mesh as it is. -/
theorem attribute_layout_dedup (hash : List Nat → Nat) (mesh : Mesh) :
    (mesh_deduplicate_vertices hash mesh).attribute_layout = mesh.attribute_layout := rfl

/-- The outcome of `export_mesh_to_meshlet` when the `switch` fails. -/
theorem export_of_error (env : Environment) (path : String) (mesh : Mesh) (style : Nat)
    (e : ExportOutcome)
    (h : extract_streams env (mesh_deduplicate_vertices env.hash mesh) style = Except.error e) :
    (export_mesh_to_meshlet env path mesh style).before_clustering = true := by
  unfold export_mesh_to_meshlet
  simp only [h]
  split_ifs
  · rfl
  · exact extract_streams_error_before env _ style e h

/-- The outcome of `export_mesh_to_meshlet` when the test of line 683 and the
`switch` pass. -/
theorem export_of_ok (env : Environment) (path : String) (mesh : Mesh) (style : Nat)
    (s : ExportStreams)
    (hok : env.mesh_ok (mesh_optimize_index_buffer env.hash env.lib
      (mesh_deduplicate_vertices env.hash mesh) false) = true)
    (h : extract_streams env (mesh_deduplicate_vertices env.hash mesh) style = Except.ok s) :
    export_mesh_to_meshlet env path mesh style
      = ExportOutcome.exported
          (cluster_and_encode env.lib (mesh_deduplicate_vertices env.hash mesh) style s)
          (export_encoded_mesh env.fs path
            (cluster_and_encode env.lib (mesh_deduplicate_vertices env.hash mesh) style s)) := by
  unfold export_mesh_to_meshlet
  simp only [h, hok]
  rfl

/-- The `switch` fails on an unsupported source format. -/
theorem extract_streams_unsupported (env : Environment) (mesh : Mesh) (style : Nat)
    (h : (mesh.attribute_layout.position.format ≠ VK_FORMAT_R32G32B32_SFLOAT ∧
        mesh.attribute_layout.position.format ≠ VK_FORMAT_R32G32B32A32_SFLOAT) ∨
      (style = MeshStyle.Textured ∧
        ((mesh.attribute_layout.uv.format ≠ VK_FORMAT_R32G32_SFLOAT ∧
            mesh.attribute_layout.uv.format ≠ VK_FORMAT_R16G16_UNORM ∧
            mesh.attribute_layout.uv.format ≠ VK_FORMAT_UNDEFINED) ∨
          (mesh.attribute_layout.normal.format ≠ VK_FORMAT_R32G32B32_SFLOAT ∧
            mesh.attribute_layout.normal.format ≠ VK_FORMAT_R32G32B32A32_SFLOAT ∧
            mesh.attribute_layout.normal.format ≠ VK_FORMAT_UNDEFINED) ∨
          (mesh.attribute_layout.tangent.format ≠ VK_FORMAT_R32G32B32_SFLOAT ∧
            mesh.attribute_layout.tangent.format ≠ VK_FORMAT_R32G32B32A32_SFLOAT ∧
            mesh.attribute_layout.tangent.format ≠ VK_FORMAT_UNDEFINED)))) :
    ∃ e, extract_streams env mesh style = Except.error e := by
  have hpos : ∀ uv nt aux n,
      mesh.attribute_layout.position.format ≠ VK_FORMAT_R32G32B32_SFLOAT →
      mesh.attribute_layout.position.format ≠ VK_FORMAT_R32G32B32A32_SFLOAT →
      extract_positions env mesh uv nt aux n = Except.error ExportOutcome.no_positions := by
    intro uv nt aux n h1 h2
    rw [extract_positions_eq,
      if_pos (mesh_extract_position_unexpected env.float_of_bytes env.rnd mesh _ h1 h2)]
  rw [extract_streams_eq]
  rcases h with ⟨h1, h2⟩ | ⟨hstyle, h⟩
  · split_ifs
    · exact ⟨_, rfl⟩
    · exact ⟨_, rfl⟩
    · exact ⟨_, rfl⟩
    · exact ⟨_, hpos _ _ _ _ h1 h2⟩
    · exact ⟨_, hpos _ _ _ _ h1 h2⟩
    · exact ⟨_, rfl⟩
  · subst hstyle
    rw [if_neg (by decide), if_pos rfl]
    rcases h with ⟨h1, h2, h3⟩ | h
    · rw [if_pos (mesh_extract_uv_unexpected env.float_of_bytes env.rnd mesh _ h1 h2 h3)]
      exact ⟨_, rfl⟩
    · have hnt := mesh_extract_normal_tangent_unexpected env.float_of_bytes env.lib mesh h
      split_ifs
      · exact ⟨_, rfl⟩
      · exact ⟨_, rfl⟩

/-- C18. Unsupported source formats are an error: for every mesh whose
position format is neither `float3` nor `float4`, and for style `Textured`
every mesh whose UV format is none of `float2`, `unorm16x2`, undefined or whose
normal or tangent format is none of `float3`, `float4`, undefined,
`export_mesh_to_meshlet` returns `false` at a `return` statement that precedes
the clustering, the encoding and every file operation, and writes no
container.  The strides that the call divides by before it tests a format are
non-zero: the position stride (scene_formats.cpp:53, meshlet_export.cpp:117)
and, for style `Textured`, the attribute stride (meshlet_export.cpp:246, 174). -/
theorem unsupported_formats_fail (env : Environment) (path : String) (mesh : Mesh) (style : Nat)
    (_hps : 0 < mesh.position_stride)
    (_has : style = MeshStyle.Textured → 0 < mesh.attribute_stride)
    (h : (mesh.attribute_layout.position.format ≠ VK_FORMAT_R32G32B32_SFLOAT ∧
        mesh.attribute_layout.position.format ≠ VK_FORMAT_R32G32B32A32_SFLOAT) ∨
      (style = MeshStyle.Textured ∧
        ((mesh.attribute_layout.uv.format ≠ VK_FORMAT_R32G32_SFLOAT ∧
            mesh.attribute_layout.uv.format ≠ VK_FORMAT_R16G16_UNORM ∧
            mesh.attribute_layout.uv.format ≠ VK_FORMAT_UNDEFINED) ∨
          (mesh.attribute_layout.normal.format ≠ VK_FORMAT_R32G32B32_SFLOAT ∧
            mesh.attribute_layout.normal.format ≠ VK_FORMAT_R32G32B32A32_SFLOAT ∧
            mesh.attribute_layout.normal.format ≠ VK_FORMAT_UNDEFINED) ∨
          (mesh.attribute_layout.tangent.format ≠ VK_FORMAT_R32G32B32_SFLOAT ∧
            mesh.attribute_layout.tangent.format ≠ VK_FORMAT_R32G32B32A32_SFLOAT ∧
            mesh.attribute_layout.tangent.format ≠ VK_FORMAT_UNDEFINED)))) :
    (export_mesh_to_meshlet env path mesh style).result = false ∧
    (export_mesh_to_meshlet env path mesh style).before_clustering = true ∧
    (export_mesh_to_meshlet env path mesh style).container = none := by
  have h2 := h
  rw [← attribute_layout_dedup env.hash mesh] at h2
  obtain ⟨e, he⟩ := extract_streams_unsupported env _ style h2
  have hb := export_of_error env path mesh style e he
  obtain ⟨hr, hc⟩ := before_clustering_fails _ hb
  exact ⟨hr, hb, hc⟩

/-- Witness for C18: the sample triangle with positions in an unsupported
format, exported with style `Textured`; its strides are 12 bytes. -/
theorem unsupported_formats_fail_witness :
    (0 < sample_bad_positions.position_stride ∧
      (MeshStyle.Textured = MeshStyle.Textured → 0 < sample_bad_positions.attribute_stride) ∧
      sample_bad_positions.attribute_layout.position.format ≠ VK_FORMAT_R32G32B32_SFLOAT ∧
      sample_bad_positions.attribute_layout.position.format ≠ VK_FORMAT_R32G32B32A32_SFLOAT) ∧
    (export_mesh_to_meshlet sample_env "mesh.msh" sample_bad_positions
      MeshStyle.Textured).result = false :=
  ⟨⟨by decide, fun _ => by decide, by decide⟩,
    (unsupported_formats_fail sample_env "mesh.msh" sample_bad_positions MeshStyle.Textured
      (by decide) (fun _ => by decide) (Or.inl (by decide))).1⟩

/-- The outcome of `export_mesh_to_meshlet` when the test of line 683 passes
and the `switch` fails. -/
theorem export_eq_of_error (env : Environment) (path : String) (mesh : Mesh) (style : Nat)
    (e : ExportOutcome)
    (hok : env.mesh_ok (mesh_optimize_index_buffer env.hash env.lib
      (mesh_deduplicate_vertices env.hash mesh) false) = true)
    (h : extract_streams env (mesh_deduplicate_vertices env.hash mesh) style = Except.error e) :
    export_mesh_to_meshlet env path mesh style = e := by
  unfold export_mesh_to_meshlet
  simp only [h, hok]
  rfl

/-- The `switch` passes for style `Wireframe` when there are `float3` or
`float4` positions. -/
theorem extract_streams_wireframe (env : Environment) (mesh : Mesh)
    (hp : mesh.attribute_layout.position.format = VK_FORMAT_R32G32B32_SFLOAT ∨
      mesh.attribute_layout.position.format = VK_FORMAT_R32G32B32A32_SFLOAT)
    (hpos : 0 < num_positions mesh) :
    ∃ s, extract_streams env mesh MeshStyle.Wireframe = Except.ok s ∧
      s.num_attribute_streams = 1 := by
  have hne : (mesh_extract_position_snorm_exp_of_mesh env.float_of_bytes env.rnd mesh
      ((List.replicate MaxStreams (0 : Int)).getD StreamType.Position 0)).1 ≠ [] := by
    intro hnil
    have := mesh_extract_position_length env.float_of_bytes env.rnd mesh
      ((List.replicate MaxStreams (0 : Int)).getD StreamType.Position 0) hp
    rw [hnil] at this
    simp only [List.length_nil] at this
    omega
  rw [extract_streams_eq, if_neg (by decide), if_neg (by decide), if_pos rfl,
    extract_positions_eq, if_neg hne]
  exact ⟨_, rfl, rfl⟩

/-- The `switch` passes for style `Textured` when every format is supported or
undefined, the positions are `float3` or `float4`, and there are attribute
elements and positions. -/
theorem extract_streams_textured (env : Environment) (mesh : Mesh)
    (huv : mesh.attribute_layout.uv.format = VK_FORMAT_R32G32_SFLOAT ∨
      mesh.attribute_layout.uv.format = VK_FORMAT_R16G16_UNORM ∨
      mesh.attribute_layout.uv.format = VK_FORMAT_UNDEFINED)
    (hn : mesh.attribute_layout.normal.format = VK_FORMAT_R32G32B32_SFLOAT ∨
      mesh.attribute_layout.normal.format = VK_FORMAT_R32G32B32A32_SFLOAT ∨
      mesh.attribute_layout.normal.format = VK_FORMAT_UNDEFINED)
    (ht : mesh.attribute_layout.tangent.format = VK_FORMAT_R32G32B32_SFLOAT ∨
      mesh.attribute_layout.tangent.format = VK_FORMAT_R32G32B32A32_SFLOAT ∨
      mesh.attribute_layout.tangent.format = VK_FORMAT_UNDEFINED)
    (hp : mesh.attribute_layout.position.format = VK_FORMAT_R32G32B32_SFLOAT ∨
      mesh.attribute_layout.position.format = VK_FORMAT_R32G32B32A32_SFLOAT)
    (hattr : 0 < num_attrs mesh) (hpos : 0 < num_positions mesh) :
    ∃ s, extract_streams env mesh MeshStyle.Textured = Except.ok s ∧
      s.num_attribute_streams = 3 := by
  have huvne : (mesh_extract_uv_snorm_scale env.float_of_bytes env.rnd mesh
      ((List.replicate MaxStreams (0 : Int)).getD StreamType.UV 0)).1 ≠ [] := by
    intro hnil
    have := mesh_extract_uv_length env.float_of_bytes env.rnd mesh
      ((List.replicate MaxStreams (0 : Int)).getD StreamType.UV 0) huv
    rw [hnil] at this
    simp only [List.length_nil] at this
    omega
  have hntne : mesh_extract_normal_tangent_oct8 env.float_of_bytes env.lib mesh ≠ [] := by
    intro hnil
    have := mesh_extract_normal_tangent_length env.float_of_bytes env.lib mesh hn ht
    rw [hnil] at this
    simp only [List.length_nil] at this
    omega
  have hne : ∀ e, (mesh_extract_position_snorm_exp_of_mesh env.float_of_bytes env.rnd mesh
      e).1 ≠ [] := by
    intro e hnil
    have := mesh_extract_position_length env.float_of_bytes env.rnd mesh e hp
    rw [hnil] at this
    simp only [List.length_nil] at this
    omega
  rw [extract_streams_eq, if_neg (by decide), if_pos rfl, if_neg huvne, if_neg hntne,
    extract_positions_eq, if_neg (hne _)]
  exact ⟨_, rfl, rfl⟩

/-- When the file can be opened and mapped, `export_encoded_mesh` returns
`true` and leaves a container. -/
theorem export_encoded_mesh_result (fs : FileSystem) (path : String) (encoded : Encoded)
    (hopen : fs.can_open path = true) (hmap : fs.can_map path (required_size encoded) = true) :
    ∃ m, export_encoded_mesh fs path encoded
      = WriteOutcome.written (required_size encoded) m := by
  unfold export_encoded_mesh
  rw [hopen, hmap]
  simp

/-- With a non-zero attribute stride the deduplicated mesh has one attribute
element for each unique vertex, and it has one exactly when the mesh has a
vertex. -/
theorem num_attrs_dedup (hash : List Nat → Nat) (mesh : Mesh) (hs : 0 < mesh.attribute_stride) :
    num_attrs (mesh_deduplicate_vertices hash mesh)
      = (build_index_remap_list hash mesh).unique_attrib_to_source_index.length ∧
    (0 < num_attrs (mesh_deduplicate_vertices hash mesh) ↔ 0 < attribute_count mesh) := by
  have hn : attribute_count mesh < 2 ^ 32 := Nat.mod_lt _ (by norm_num)
  obtain ⟨_, _, i3, _, _, i6⟩ := build_index_remap_loop_inv hash mesh _ hn
  have hU : (build_index_remap_list hash mesh).unique_attrib_to_source_index
      = (build_index_remap_loop hash mesh (attribute_count mesh)).unique_attrib_to_source_index :=
    rfl
  have hatt : (mesh_deduplicate_vertices hash mesh).attributes
      = if mesh.attribute_stride ≠ 0 then
          rebuild_buffer mesh.attributes mesh.attribute_stride
            (build_index_remap_list hash mesh).unique_attrib_to_source_index
        else [] := rfl
  have hst : (mesh_deduplicate_vertices hash mesh).attribute_stride = mesh.attribute_stride := rfl
  have h1 : num_attrs (mesh_deduplicate_vertices hash mesh)
      = (build_index_remap_list hash mesh).unique_attrib_to_source_index.length := by
    unfold num_attrs
    rw [hatt, hst, if_pos (by omega), rebuild_buffer_length, Nat.mul_div_cancel _ hs]
  refine ⟨h1, ?_⟩
  rw [h1, hU]
  constructor
  · intro h
    omega
  · intro h
    have := (i6 0 h).1
    omega

/-- C17 (amended). For every mesh with non-zero position and attribute strides
(the strides the call divides by, scene_formats.cpp:53 and
meshlet_export.cpp:246) and without a UV channel (UV format undefined),
`export_mesh_to_meshlet` with style `Textured` fails for lack of UVs, before
the clustering and without writing a file, when the deduplicated mesh has no
attribute element (`attributes.size() / attribute_stride` is 0), which means
that the mesh has no vertex; when it has attribute elements, the missing UVs
are taken as zeros, one UV is encoded for each attribute element, and the
export does not fail for lack of UVs. -/
theorem missing_uvs_fail_only_without_attributes (env : Environment) (path : String)
    (mesh : Mesh) (_hps : 0 < mesh.position_stride) (has : 0 < mesh.attribute_stride)
    (hfmt : mesh.attribute_layout.uv.format = VK_FORMAT_UNDEFINED) :
    (num_attrs (mesh_deduplicate_vertices env.hash mesh) = 0 →
      (export_mesh_to_meshlet env path mesh MeshStyle.Textured).result = false ∧
      (export_mesh_to_meshlet env path mesh MeshStyle.Textured).before_clustering = true ∧
      (export_mesh_to_meshlet env path mesh MeshStyle.Textured).container = none ∧
      (env.mesh_ok (mesh_optimize_index_buffer env.hash env.lib
          (mesh_deduplicate_vertices env.hash mesh) false) = true →
        export_mesh_to_meshlet env path mesh MeshStyle.Textured = ExportOutcome.no_uvs)) ∧
    (0 < num_attrs (mesh_deduplicate_vertices env.hash mesh) →
      (mesh_extract_uv_snorm_scale env.float_of_bytes env.rnd
          (mesh_deduplicate_vertices env.hash mesh) 0).1.length
        = num_attrs (mesh_deduplicate_vertices env.hash mesh) ∧
      export_mesh_to_meshlet env path mesh MeshStyle.Textured ≠ ExportOutcome.no_uvs) ∧
    (0 < num_attrs (mesh_deduplicate_vertices env.hash mesh) ↔ 0 < attribute_count mesh) := by
  have hlen : ∀ e, (mesh_extract_uv_snorm_scale env.float_of_bytes env.rnd
      (mesh_deduplicate_vertices env.hash mesh) e).1.length
      = num_attrs (mesh_deduplicate_vertices env.hash mesh) :=
    fun e => mesh_extract_uv_length env.float_of_bytes env.rnd _ e
      (Or.inr (Or.inr (by rw [attribute_layout_dedup]; exact hfmt)))
  refine ⟨?_, ?_, (num_attrs_dedup env.hash mesh has).2⟩
  · intro h0
    have hnil : (mesh_extract_uv_snorm_scale env.float_of_bytes env.rnd
        (mesh_deduplicate_vertices env.hash mesh)
        ((List.replicate MaxStreams (0 : Int)).getD StreamType.UV 0)).1 = [] :=
      List.length_eq_zero.1 (by rw [hlen, h0])
    have herr : extract_streams env (mesh_deduplicate_vertices env.hash mesh) MeshStyle.Textured
        = Except.error ExportOutcome.no_uvs := by
      rw [extract_streams_eq, if_neg (by decide), if_pos rfl, if_pos hnil]
    have hb := export_of_error env path mesh MeshStyle.Textured _ herr
    obtain ⟨hr, hc⟩ := before_clustering_fails _ hb
    exact ⟨hr, hb, hc, fun hok => export_eq_of_error env path mesh _ _ hok herr⟩
  · intro hpos
    refine ⟨hlen 0, ?_⟩
    have hne : (mesh_extract_uv_snorm_scale env.float_of_bytes env.rnd
        (mesh_deduplicate_vertices env.hash mesh)
        ((List.replicate MaxStreams (0 : Int)).getD StreamType.UV 0)).1 ≠ [] := by
      intro hnil
      have := hlen ((List.replicate MaxStreams (0 : Int)).getD StreamType.UV 0)
      rw [hnil] at this
      simp only [List.length_nil] at this
      omega
    unfold export_mesh_to_meshlet
    simp only
    split_ifs
    · intro h; cases h
    · rw [extract_streams_eq, if_neg (by decide), if_pos rfl, if_neg hne]
      split_ifs
      · intro h; cases h
      · rw [extract_positions_eq]
        split_ifs
        · intro h; cases h
        · intro h; cases h

/-- Witness for C17 (amended): the sample triangle has strides of 12 bytes, no
UV channel and three attribute elements. -/
theorem missing_uvs_fail_only_without_attributes_witness :
    (0 < sample_triangle.position_stride ∧ 0 < sample_triangle.attribute_stride ∧
      sample_triangle.attribute_layout.uv.format = VK_FORMAT_UNDEFINED) ∧
    0 < num_attrs (mesh_deduplicate_vertices sample_env.hash sample_triangle) ∧
    export_mesh_to_meshlet sample_env "mesh.msh" sample_triangle MeshStyle.Textured
      ≠ ExportOutcome.no_uvs :=
  ⟨⟨by decide, by decide, rfl⟩, by decide,
    ((missing_uvs_fail_only_without_attributes sample_env "mesh.msh" sample_triangle
      (by decide) (by decide) rfl).2.1 (by decide)).2⟩

/-- C17, counterexample.  The sample triangle has no UV channel (its UV format
is undefined), and `export_mesh_to_meshlet` with style `Textured` returns
`true` for it and writes a container. -/
theorem textured_export_without_uvs :
    sample_triangle.attribute_layout.uv.format = VK_FORMAT_UNDEFINED ∧
    (export_mesh_to_meshlet sample_env "mesh.msh" sample_triangle MeshStyle.Textured).result
      = true ∧
    (export_mesh_to_meshlet sample_env "mesh.msh" sample_triangle MeshStyle.Textured).container
      ≠ none := by
  obtain ⟨s, hs, _⟩ := extract_streams_textured sample_env
    (mesh_deduplicate_vertices sample_env.hash sample_triangle)
    (Or.inr (Or.inr rfl)) (Or.inl rfl) (Or.inr (Or.inr rfl)) (Or.inl rfl)
    (by decide) (by decide)
  have he := export_of_ok sample_env "mesh.msh" sample_triangle MeshStyle.Textured s rfl hs
  obtain ⟨m, hm⟩ := export_encoded_mesh_result sample_env.fs "mesh.msh"
    (cluster_and_encode sample_env.lib (mesh_deduplicate_vertices sample_env.hash sample_triangle)
      MeshStyle.Textured s) rfl rfl
  rw [he, hm]
  exact ⟨rfl, rfl, by intro h; cases h⟩

/-- With a clusterer that returns no chunk, `encode_mesh` encodes nothing: no
payload word and no meshlet record. -/
theorem cluster_and_encode_zero_chunks (lib : MeshOptimizer) (mesh : Mesh) (style : Nat)
    (s : ExportStreams)
    (hzero : (lib.buildMeshlets ((List.range mesh.count).map fun i => read_u32 mesh.indices i)
      (s.positions.map fun p => decode_snorm_exp p (s.aux.getD StreamType.Position 0))).meshlets
        = []) :
    cluster_and_encode lib mesh style s = empty_encoded (s.num_attribute_streams + 1) style := by
  have h1 : ∀ a b : List Nat, build_out_meshlets [] a b = ([], []) := fun _ _ => rfl
  have h2 : ∀ data aux n, encode_mesh [] data aux n
      = { payload := [], mesh := { stream_count := n, mesh_style := 0, meshlets := [] } } := by
    intro data aux n
    simp [encode_mesh, NumChunks]
  have h3 : ∀ b, assign_bounds [] b = [] := fun _ => rfl
  unfold cluster_and_encode
  simp only [hzero, h1, h2, h3]
  rfl

/-- The container of the encoded mesh without meshlets: magic, header and pad
word, 28 bytes. -/
theorem container_bytes_empty (stream_count style : Nat) :
    container_bytes (empty_encoded stream_count style)
      = magic ++ (FormatHeader.bytes ⟨style, stream_count, 0, 0⟩) ++ [0, 0, 0, 0] ∧
    required_size (empty_encoded stream_count style) = 28 := by
  constructor
  · unfold container_bytes empty_encoded format_header
    simp
    rfl
  · unfold required_size empty_encoded
    simp [sizeof_magic, sizeof_FormatHeader, sizeof_PayloadWord]

/-- C16 (amended). A clusterer that returns zero chunks does not make
`export_mesh_to_meshlet` fail: when the checks of lines 683-730 have passed and
the clusterer returns no chunk, the call encodes zero meshlets and hands them
to `export_encoded_mesh`, which requests 28 bytes and, if the file can be
opened and mapped, writes a container of magic, header (`meshlet_count` and
`payload_size_words` both 0) and pad word and returns `true`. -/
theorem zero_chunks_are_exported (env : Environment) (path : String) (mesh : Mesh) (style : Nat)
    (s : ExportStreams)
    (hok : env.mesh_ok (mesh_optimize_index_buffer env.hash env.lib
      (mesh_deduplicate_vertices env.hash mesh) false) = true)
    (hs : extract_streams env (mesh_deduplicate_vertices env.hash mesh) style = Except.ok s)
    (hzero : (env.lib.buildMeshlets
      ((List.range (mesh_deduplicate_vertices env.hash mesh).count).map fun i =>
        read_u32 (mesh_deduplicate_vertices env.hash mesh).indices i)
      (s.positions.map fun p => decode_snorm_exp p (s.aux.getD StreamType.Position 0))).meshlets
        = []) :
    export_mesh_to_meshlet env path mesh style
      = ExportOutcome.exported (empty_encoded (s.num_attribute_streams + 1) style)
          (export_encoded_mesh env.fs path
            (empty_encoded (s.num_attribute_streams + 1) style)) ∧
    required_size (empty_encoded (s.num_attribute_streams + 1) style) = 28 ∧
    (env.fs.can_open path = true → env.fs.can_map path 28 = true →
      (export_mesh_to_meshlet env path mesh style).result = true ∧
      (export_mesh_to_meshlet env path mesh style).container
        = some (magic ++ (FormatHeader.bytes ⟨style, s.num_attribute_streams + 1, 0, 0⟩)
            ++ [0, 0, 0, 0])) := by
  have he := export_of_ok env path mesh style s hok hs
  rw [cluster_and_encode_zero_chunks env.lib _ style s hzero] at he
  obtain ⟨hbytes, hreq⟩ := container_bytes_empty (s.num_attribute_streams + 1) style
  refine ⟨he, hreq, ?_⟩
  intro hopen hmap
  obtain ⟨m, hm, hdata, _, _⟩ := export_encoded_mesh_written env.fs path
    (empty_encoded (s.num_attribute_streams + 1) style) hopen (by rw [hreq]; exact hmap)
    (by unfold empty_encoded; simp)
    (by unfold empty_encoded payload_offset; simp [sizeof_magic, sizeof_FormatHeader,
          sizeof_PayloadWord])
  rw [he, hm]
  refine ⟨rfl, ?_⟩
  show some m.data = _
  rw [hdata, hbytes]

/-- C16, counterexample.  The sample triangle is a non-empty mesh, the
clusterer of `zero_chunk_env` returns no chunk for it, and
`export_mesh_to_meshlet` with style `Wireframe` returns `true` and writes a
container of 28 bytes with `meshlet_count = 0`. -/
theorem zero_chunk_export_succeeds :
    0 < sample_triangle.count ∧
    (export_mesh_to_meshlet zero_chunk_env "mesh.msh" sample_triangle
      MeshStyle.Wireframe).result = true ∧
    (export_mesh_to_meshlet zero_chunk_env "mesh.msh" sample_triangle
      MeshStyle.Wireframe).container
      = some [77, 69, 83, 72, 76, 69, 84, 51, 0, 0, 0, 0, 2, 0, 0, 0, 0, 0, 0, 0, 0, 0, 0, 0,
          0, 0, 0, 0] := by
  obtain ⟨s, hs, hn⟩ := extract_streams_wireframe zero_chunk_env
    (mesh_deduplicate_vertices zero_chunk_env.hash sample_triangle) (Or.inl rfl) (by decide)
  have he := export_of_ok zero_chunk_env "mesh.msh" sample_triangle MeshStyle.Wireframe s rfl hs
  rw [cluster_and_encode_zero_chunks zero_chunk_env.lib _ MeshStyle.Wireframe s rfl, hn] at he
  obtain ⟨hbytes, hreq⟩ := container_bytes_empty 2 MeshStyle.Wireframe
  obtain ⟨m, hm, hdata, _, _⟩ := export_encoded_mesh_written zero_chunk_env.fs "mesh.msh"
    (empty_encoded 2 MeshStyle.Wireframe) rfl rfl (by decide) (by decide)
  rw [he, hm]
  refine ⟨by decide, rfl, ?_⟩
  show some m.data = _
  rw [hdata, hbytes]
  rfl

/-- Witness for C16 (amended): the sample triangle exported as a wireframe with
a clusterer that returns no chunk. -/
theorem zero_chunks_are_exported_witness :
    extract_streams zero_chunk_env
        (mesh_deduplicate_vertices zero_chunk_env.hash sample_triangle) MeshStyle.Wireframe
      = Except.ok sample_wireframe_streams ∧
    (export_mesh_to_meshlet zero_chunk_env "mesh.msh" sample_triangle
      MeshStyle.Wireframe).result = true := by
  have hne : (mesh_extract_position_snorm_exp_of_mesh zero_chunk_env.float_of_bytes
      zero_chunk_env.rnd (mesh_deduplicate_vertices zero_chunk_env.hash sample_triangle)
      ((List.replicate MaxStreams (0 : Int)).getD StreamType.Position 0)).1 ≠ [] := by
    intro hnil
    have := mesh_extract_position_length zero_chunk_env.float_of_bytes zero_chunk_env.rnd
      (mesh_deduplicate_vertices zero_chunk_env.hash sample_triangle)
      ((List.replicate MaxStreams (0 : Int)).getD StreamType.Position 0) (Or.inl rfl)
    rw [hnil] at this
    exact absurd this (by decide)
  have hs : extract_streams zero_chunk_env
      (mesh_deduplicate_vertices zero_chunk_env.hash sample_triangle) MeshStyle.Wireframe
      = Except.ok sample_wireframe_streams := by
    rw [extract_streams_eq, if_neg (by decide), if_neg (by decide), if_pos rfl,
      extract_positions_eq, if_neg hne]
    rfl
  exact ⟨hs,
    ((zero_chunks_are_exported zero_chunk_env "mesh.msh" sample_triangle MeshStyle.Wireframe
      sample_wireframe_streams rfl hs rfl).2.2 rfl rfl).1⟩

/-! ## The restart marker -/

/-- Reading one block back from a concatenation of blocks of one length. -/
theorem read_bytes_flatMap_block {α : Type} (f : α → List Nat) (stride : Nat)
    (hlen : ∀ y, (f y).length = stride) (d0 : α) (L : List α) (u : Nat) (hu : u < L.length) :
    read_bytes (L.flatMap f) (u * stride) stride = f (L.getD u d0) := by
  apply List.ext_getElem
  · rw [read_bytes_length, hlen]
  · intro b h1 h2
    rw [read_bytes_length] at h1
    unfold read_bytes
    rw [List.getElem_map, List.getElem_range, flatMap_block_getD f stride hlen d0 L u b hu h1,
      List.getD_eq_getElem _ _ h2]

/-- When no two of the first `N` vertices share a hash, the loop of
`build_index_remap_list` finds every vertex new. -/
theorem build_index_remap_loop_of_injective (hash : List Nat → Nat) (mesh : Mesh) (N : Nat)
    (hN : N < 2 ^ 32)
    (hinj : ∀ a b, a < N → b < N → hash (vertex_key mesh a) = hash (vertex_key mesh b) → a = b) :
    ∀ k, k ≤ N →
      (build_index_remap_loop hash mesh k).index_remap = List.range k ∧
      (build_index_remap_loop hash mesh k).unique_attrib_to_source_index = List.range k := by
  intro k
  induction k with
  | zero => intro _; exact ⟨rfl, rfl⟩
  | succ k ih =>
    intro hk
    obtain ⟨ih1, ih2⟩ := ih (by omega)
    obtain ⟨i1, _, _, i4, _, _⟩ := build_index_remap_loop_inv hash mesh k (by omega)
    rw [build_index_remap_loop_succ]
    generalize build_index_remap_loop hash mesh k = st at ih1 ih2 i1 i4
    unfold build_index_remap_step
    cases hl : st.attribute_remapper.lookup (hash (vertex_key mesh k)) with
    | some idx =>
      exfalso
      obtain ⟨hidx, hkey⟩ := (i4 _ idx).1 hl
      rw [ih2] at hidx hkey
      simp only [List.length_range] at hidx
      rw [List.getD_eq_getElem _ _ (by simpa using hidx), List.getElem_range] at hkey
      have := hinj idx k (by omega) (by omega) hkey
      omega
    | none =>
      simp only
      rw [ih1, ih2, i1, ih2]
      simp [List.range_succ]

theorem strip_triangles_length (n : Nat) : (strip_triangles n).length = 3 * n := by
  unfold strip_triangles
  rw [flatMap_block_length _ 3 (fun i => by split_ifs <;> rfl), List.length_range]
  omega

theorem strip_triangles_lt (n : Nat) : ∀ x ∈ strip_triangles n, x < n + 2 := by
  intro x hx
  unfold strip_triangles at hx
  rw [List.mem_flatMap] at hx
  obtain ⟨i, hi, hxi⟩ := hx
  rw [List.mem_range] at hi
  split_ifs at hxi <;>
    · simp only [List.mem_cons, List.mem_singleton, List.not_mem_nil, or_false] at hxi
      omega

theorem getD_range (n i d : Nat) (h : i < n) : (List.range n).getD i d = i := by
  rw [List.getD_eq_getElem _ _ (by simpa using h), List.getElem_range]

/-- A library call that rewrites a buffer of 32-bit words with its own contents
leaves it as it is. -/
theorem u32_buffer_self (l : List Nat) (h : ∀ x ∈ l, x < 2 ^ 32) : u32_buffer l l = l := by
  apply List.ext_getElem
  · rw [u32_buffer_length]
  · intro i h1 h2
    unfold u32_buffer
    rw [List.getElem_map, List.getElem_range, List.getD_eq_getElem _ _ h2]
    exact Nat.mod_eq_of_lt (h _ (List.getElem_mem h2))

theorem u32_buffer_range (n : Nat) (hn : n ≤ 2 ^ 32) :
    u32_buffer (List.replicate n 0) (List.range n) = List.range n := by
  apply List.ext_getElem
  · rw [u32_buffer_length, List.length_replicate, List.length_range]
  · intro i h1 h2
    rw [List.length_range] at h2
    unfold u32_buffer
    rw [List.getElem_map, List.getElem_range, List.getElem_range, getD_range n i _ h2]
    exact Nat.mod_eq_of_lt (by omega)

theorem remap_indices_range (l : List Nat) (n : Nat) (h : ∀ x ∈ l, x < n) :
    remap_indices l (List.range n) = l := by
  unfold remap_indices
  conv_rhs => rw [← List.map_id l]
  apply List.map_congr_left
  intro x hx
  exact getD_range n x 0 (h x hx)

theorem resize_u32_buffer (cap : Nat) (out : List Nat) (hcap : out.length ≤ cap)
    (h : ∀ x ∈ out, x < 2 ^ 32) :
    resize (u32_buffer (List.replicate cap 0) out) out.length = out := by
  apply List.ext_getElem
  · simp [resize]
  · intro i h1 h2
    have hlt : i < (u32_buffer (List.replicate cap 0) out).length := by
      rw [u32_buffer_length, List.length_replicate]
      omega
    unfold resize
    rw [List.getElem_map, List.getElem_range, List.getD_eq_getElem _ _ hlt]
    unfold u32_buffer
    rw [List.getElem_map, List.getElem_range, List.getD_eq_getElem _ _ h2]
    exact Nat.mod_eq_of_lt (h _ (List.getElem_mem h2))

/-- The members `index_buffer` and `vertex_count` of `optimize_reorder`,
without local definitions. -/
theorem optimize_reorder_eq (hash : List Nat → Nat) (lib : MeshOptimizer) (mesh : Mesh) :
    (optimize_reorder hash lib mesh).vertex_count
      = (rebuild_buffer mesh.positions mesh.position_stride
          (build_index_remap_list hash mesh).unique_attrib_to_source_index).length
        / mesh.position_stride ∧
    (optimize_reorder hash lib mesh).index_buffer
      = remap_indices
          (u32_buffer
            (build_canonical_index_buffer mesh (build_index_remap_list hash mesh).index_remap)
            (lib.optimizeVertexCache
              (build_canonical_index_buffer mesh (build_index_remap_list hash mesh).index_remap)
              (optimize_reorder hash lib mesh).vertex_count))
          (u32_buffer (List.replicate (optimize_reorder hash lib mesh).vertex_count 0)
            (lib.optimizeVertexFetchRemap
              (u32_buffer
                (build_canonical_index_buffer mesh
                  (build_index_remap_list hash mesh).index_remap)
                (lib.optimizeVertexCache
                  (build_canonical_index_buffer mesh
                    (build_index_remap_list hash mesh).index_remap)
                  (optimize_reorder hash lib mesh).vertex_count))
              (optimize_reorder hash lib mesh).vertex_count)) :=
  ⟨rfl, rfl⟩

theorem strip_list_mesh_keys (n v : Nat) (hn : n + 2 ≤ 65536) (hv : v < n + 2) :
    vertex_key (strip_list_mesh n) v = [v % 256, v / 256] := by
  have hpos : (strip_list_mesh n).positions
      = (List.range (n + 2)).flatMap fun v => [v % 256, v / 256] := rfl
  have hstride : (strip_list_mesh n).position_stride = 2 := rfl
  have hattr : (strip_list_mesh n).attributes = [] := rfl
  unfold vertex_key
  rw [hpos, hstride, hattr, if_pos rfl, List.append_nil, Nat.mod_eq_of_lt (by omega),
    read_bytes_flatMap_block (fun v => [v % 256, v / 256]) 2 (fun _ => rfl) 0 _ v
      (by simpa using hv),
    getD_range _ _ _ hv]

theorem strip_list_mesh_count (n : Nat) (hn : n + 2 ≤ 65536) :
    attribute_count (strip_list_mesh n) = n + 2 := by
  have hpos : (strip_list_mesh n).positions
      = (List.range (n + 2)).flatMap fun v => [v % 256, v / 256] := rfl
  have hstride : (strip_list_mesh n).position_stride = 2 := rfl
  unfold attribute_count
  rw [hpos, hstride, flatMap_block_length (fun v => [v % 256, v / 256]) 2 (fun _ => rfl),
    List.length_range, Nat.mul_div_cancel _ (by norm_num)]
  exact Nat.mod_eq_of_lt (by omega)

/-- Deduplication finds the vertices of `strip_list_mesh` all distinct. -/
theorem strip_list_mesh_remap (n : Nat) (hn : n + 2 ≤ 65536) :
    (build_index_remap_list two_byte_hash (strip_list_mesh n)).index_remap = List.range (n + 2) ∧
    (build_index_remap_list two_byte_hash (strip_list_mesh n)).unique_attrib_to_source_index
      = List.range (n + 2) := by
  have hinj : ∀ a b, a < n + 2 → b < n + 2 →
      two_byte_hash (vertex_key (strip_list_mesh n) a)
        = two_byte_hash (vertex_key (strip_list_mesh n) b) → a = b := by
    intro a b ha hb h
    rw [strip_list_mesh_keys n a hn ha, strip_list_mesh_keys n b hn hb] at h
    simp only [two_byte_hash, List.getD_cons_zero, List.getD_cons_succ] at h
    omega
  have := build_index_remap_loop_of_injective two_byte_hash (strip_list_mesh n) (n + 2)
    (by omega) hinj (n + 2) (le_refl _)
  unfold build_index_remap_list
  rw [strip_list_mesh_count n hn]
  exact this

theorem strip_list_mesh_canonical (n : Nat) (hn : n + 2 ≤ 65536) (h1 : 0 < n) :
    build_canonical_index_buffer (strip_list_mesh n) (List.range (n + 2)) = strip_triangles n := by
  have hind : (strip_list_mesh n).indices = (strip_triangles n).flatMap u32_bytes := rfl
  have hty : (strip_list_mesh n).index_type = IndexType.uint32 := rfl
  have hcnt : (strip_list_mesh n).count = 3 * n := rfl
  have hne : (strip_list_mesh n).indices ≠ [] := by
    intro h
    have hl : (strip_list_mesh n).indices.length = (3 * n) * 4 := by
      rw [hind, flatMap_block_length _ 4 u32_bytes_length, strip_triangles_length]
    rw [h] at hl
    simp only [List.length_nil] at hl
    omega
  unfold build_canonical_index_buffer
  rw [if_neg hne, hty]
  simp only
  rw [hcnt, hind]
  apply List.ext_getElem
  · rw [List.length_map, List.length_range, strip_triangles_length]
  · intro i hi1 hi2
    have hlt := strip_triangles_lt n _ (List.getElem_mem hi2)
    rw [List.getElem_map, List.getElem_range,
      read_u32_flatMap _ i hi2 (by rw [List.getD_eq_getElem _ _ hi2]; omega),
      List.getD_eq_getElem _ _ hi2, getD_range _ _ _ hlt]

/-- For `strip_list_mesh` the triangle list survives the reordering unchanged,
the strip `0, ..., n + 1` is shorter and is kept. -/
theorem strip_list_mesh_final (n : Nat) (hn : n + 2 ≤ 65536) (h1 : 1 < n) :
    strip_kept two_byte_hash strip_optimizer (strip_list_mesh n) true = true ∧
    final_index_buffer two_byte_hash strip_optimizer (strip_list_mesh n) true
      = List.range (n + 2) := by
  obtain ⟨hr1, hr2⟩ := strip_list_mesh_remap n hn
  obtain ⟨hvc, hib⟩ := optimize_reorder_eq two_byte_hash strip_optimizer (strip_list_mesh n)
  have hstride : (strip_list_mesh n).position_stride = 2 := rfl
  have hvc2 : (optimize_reorder two_byte_hash strip_optimizer (strip_list_mesh n)).vertex_count
      = n + 2 := by
    rw [hvc, hr2, rebuild_buffer_length, List.length_range, hstride,
      Nat.mul_div_cancel _ (by norm_num)]
  have hc1 : ∀ l : List Nat, ∀ k, strip_optimizer.optimizeVertexCache l k = l := fun _ _ => rfl
  have hc2 : ∀ l : List Nat, ∀ k, strip_optimizer.optimizeVertexFetchRemap l k = List.range k :=
    fun _ _ => rfl
  have hc3 : ∀ l : List Nat, ∀ k, strip_optimizer.stripify l k = List.range k := fun _ _ => rfl
  have h32 : ∀ x ∈ strip_triangles n, x < 2 ^ 32 := by
    intro x hx
    have := strip_triangles_lt n x hx
    omega
  have hib2 : (optimize_reorder two_byte_hash strip_optimizer (strip_list_mesh n)).index_buffer
      = strip_triangles n := by
    rw [hib, hvc2, hr1, strip_list_mesh_canonical n hn (by omega), hc1, hc2,
      u32_buffer_self _ h32, u32_buffer_range _ (by omega),
      remap_indices_range _ _ (strip_triangles_lt n)]
  have hstrip : stripped_index_buffer strip_optimizer (strip_triangles n) (n + 2)
      = List.range (n + 2) := by
    unfold stripped_index_buffer
    rw [hc3]
    apply resize_u32_buffer
    · rw [List.length_range, strip_triangles_length]
      omega
    · intro x hx
      rw [List.mem_range] at hx
      omega
  have hk : strip_kept two_byte_hash strip_optimizer (strip_list_mesh n) true = true := by
    unfold strip_kept
    rw [hib2, hvc2, hstrip, List.length_range, strip_triangles_length]
    simp only [Bool.true_and, decide_eq_true_eq]
    omega
  refine ⟨hk, ?_⟩
  unfold final_index_buffer
  rw [if_pos hk, hib2, hvc2, hstrip]

/-- C13, the failing input.  For the triangle list of one strip over 65536
distinct vertices, with stripification requested, `mesh_optimize_index_buffer`
keeps the strip (`primitive_restart = true`) and chooses 16-bit indices; the
stored index buffer is the strip `0, 1, ..., 65535`, so its last entry, the
real vertex index 65535, is stored as `0xFFFF`, the value of the restart
marker. -/
theorem restart_marker_collides_with_vertex :
    (mesh_optimize_index_buffer two_byte_hash strip_optimizer (strip_list_mesh 65534)
      true).primitive_restart = true ∧
    (mesh_optimize_index_buffer two_byte_hash strip_optimizer (strip_list_mesh 65534)
      true).index_type = IndexType.uint16 ∧
    final_index_buffer two_byte_hash strip_optimizer (strip_list_mesh 65534) true
      = List.range 65536 ∧
    read_u16 (mesh_optimize_index_buffer two_byte_hash strip_optimizer (strip_list_mesh 65534)
      true).indices 65535 = 0xffff := by
  obtain ⟨hk, hfinal⟩ := strip_list_mesh_final 65534 (by norm_num) (by norm_num)
  obtain ⟨hind, hty, _, _, hpr⟩ :=
    mesh_optimize_index_buffer_list two_byte_hash strip_optimizer (strip_list_mesh 65534) true rfl
  have h32 : ∀ x ∈ List.range (65534 + 2), x < 2 ^ 32 := by
    intro x hx
    rw [List.mem_range] at hx
    omega
  obtain ⟨s1, _, s3, _⟩ := store_index_buffer_spec (List.range (65534 + 2)) h32
  have h16 : (store_index_buffer (List.range (65534 + 2))).1 = IndexType.uint16 := by
    apply s1.2
    intro x hx _
    rw [List.mem_range] at hx
    omega
  have hget : (List.range (65534 + 2)).getD 65535 0 = 65535 := getD_range _ _ _ (by norm_num)
  have hrd := ((s3 h16).2 65535 (by rw [List.length_range]; norm_num)).1
    (by rw [hget]; norm_num)
  rw [hget] at hrd
  rw [hpr, hty, hind, hfinal]
  exact ⟨hk, h16, rfl, hrd⟩

/-! ## Padding of a chunk -/

/-- A fold whose step is idempotent and right-commutative absorbs an element
that the list already holds. -/
theorem foldl_absorb {σ ι : Type} (op : σ → ι → σ)
    (hidem : ∀ s a, op (op s a) a = op s a)
    (hcomm : ∀ s a b, op (op s a) b = op (op s b) a) :
    ∀ (l : List ι) (s : σ) (a : ι), a ∈ l → op (l.foldl op s) a = l.foldl op s := by
  have hmove : ∀ (l : List ι) (s : σ) (a : ι), l.foldl op (op s a) = op (l.foldl op s) a := by
    intro l
    induction l with
    | nil => intro s a; rfl
    | cons x l ih =>
      intro s a
      simp only [List.foldl_cons]
      rw [hcomm s a x, ih]
  intro l
  induction l with
  | nil => intro s a ha; cases ha
  | cons x l ih =>
    intro s a ha
    simp only [List.foldl_cons]
    rcases List.mem_cons.mp ha with rfl | hmem
    · rw [hmove, hidem]
    · exact ih (op s x) a hmem

/-- Padding a list with copies of one of its elements does not change such a
fold. -/
theorem foldl_append_replicate {σ ι : Type} (op : σ → ι → σ)
    (hidem : ∀ s a, op (op s a) a = op s a)
    (hcomm : ∀ s a b, op (op s a) b = op (op s b) a)
    (l : List ι) (s : σ) (a : ι) (ha : a ∈ l) :
    ∀ k, (l ++ List.replicate k a).foldl op s = l.foldl op s := by
  intro k
  induction k with
  | zero => simp
  | succ k ih =>
    rw [List.replicate_succ', ← List.append_assoc, List.foldl_append, ih]
    simp only [List.foldl_cons, List.foldl_nil]
    exact foldl_absorb op hidem hcomm l s a ha

theorem zipWith_idem {α : Type} (m : α → α → α) (hm : ∀ x y, m (m x y) y = m x y) :
    ∀ (s a : List α), List.zipWith m (List.zipWith m s a) a = List.zipWith m s a := by
  intro s
  induction s with
  | nil => intro a; simp
  | cons x s ih =>
    intro a
    cases a with
    | nil => simp
    | cons y a => simp [hm, ih]

theorem zipWith_right_comm {α : Type} (m : α → α → α)
    (hm : ∀ x y z, m (m x y) z = m (m x z) y) :
    ∀ (s a b : List α),
      List.zipWith m (List.zipWith m s a) b = List.zipWith m (List.zipWith m s b) a := by
  intro s
  induction s with
  | nil => intro a b; simp
  | cons x s ih =>
    intro a b
    cases a with
    | nil => cases b <;> simp
    | cons y a =>
      cases b with
      | nil => simp
      | cons z b => simp [hm x y z, ih a b]

/-- The statistics of a list padded with copies of one of its elements are the
statistics of the list. -/
theorem chunk_stats_padding (T : AttrType) (l : List (List Nat)) (a : List Nat) (ha : a ∈ l)
    (k : Nat) : chunk_stats T (l ++ List.replicate k a) = chunk_stats T l := by
  have hmin : ∀ x y : Nat, min (min x y) y = min x y := fun x y => by omega
  have hmax : ∀ x y : Nat, max (max x y) y = max x y := fun x y => by omega
  have hminc : ∀ x y z : Nat, min (min x y) z = min (min x z) y := fun x y z => by omega
  have hmaxc : ∀ x y z : Nat, max (max x y) z = max (max x z) y := fun x y z => by omega
  have imin : ∀ x y : Int, min (min x y) y = min x y := fun x y => by omega
  have imax : ∀ x y : Int, max (max x y) y = max x y := fun x y => by omega
  have iminc : ∀ x y z : Int, min (min x y) z = min (min x z) y := fun x y z => by omega
  have imaxc : ∀ x y z : Int, max (max x y) z = max (max x z) y := fun x y z => by omega
  have h1 := foldl_append_replicate (fun (acc p : List Nat) => List.zipWith min acc p)
    (fun s a => zipWith_idem min hmin s a) (fun s a b => zipWith_right_comm min hminc s a b)
    l (List.replicate T.components (2 ^ T.bits_per_component - 1)) a ha k
  have h2 := foldl_append_replicate (fun (acc p : List Nat) => List.zipWith max acc p)
    (fun s a => zipWith_idem max hmax s a) (fun s a b => zipWith_right_comm max hmaxc s a b)
    l (List.replicate T.components 0) a ha k
  have h3 := foldl_append_replicate
    (fun (acc : List Int) (p : List Nat) =>
      List.zipWith min acc (p.map (to_signed T.bits_per_component)))
    (fun s a => zipWith_idem min imin s _) (fun s a b => zipWith_right_comm min iminc s _ _)
    l (List.replicate T.components ((2 : Int) ^ (T.bits_per_component - 1) - 1)) a ha k
  have h4 := foldl_append_replicate
    (fun (acc : List Int) (p : List Nat) =>
      List.zipWith max acc (p.map (to_signed T.bits_per_component)))
    (fun s a => zipWith_idem max imax s _) (fun s a b => zipWith_right_comm max imaxc s _ _)
    l (List.replicate T.components (-(2 : Int) ^ (T.bits_per_component - 1))) a ha k
  unfold chunk_stats
  simp only [h1, h2, h3, h4]

/-- C29 (padding is invisible): for a chunk of at least one vertex, the
statistics that `encode_attribute_stream` computes over the padded slots, and
with them the base it stores and the bit width it stores and packs with, are
those computed over the gathered values alone. -/
theorem padding_is_invisible (T : AttrType) (raw : List (List Nat))
    (remap : Option (List Nat)) (n : Nat) (hn : 1 ≤ n) :
    chunk_stats T (gather_attributes raw remap n) = chunk_stats T (chunk_values raw remap n) ∧
    (∀ (payload : List Nat) (stream : Stream) (c : Nat),
      (encode_attribute_stream T payload stream raw c remap n).2.base_value
        = write_bits stream.base_value (chunk_stats T (chunk_values raw remap n)).base
            T.components c T.bits_per_component ∧
      (encode_attribute_stream T payload stream raw c remap n).2.bits_per_chunk
        = stream.bits_per_chunk |||
            (((chunk_stats T (chunk_values raw remap n)).bits <<< (8 * c)) % 2 ^ 32)) := by
  have hmem : (chunk_values raw remap n).getD 0 [] ∈ chunk_values raw remap n := by
    have hlen : 0 < (chunk_values raw remap n).length := by
      simp only [chunk_values, List.length_map, List.length_range]
      omega
    rw [List.getD_eq_getElem _ _ hlen]
    exact List.getElem_mem _
  have hstats : chunk_stats T (gather_attributes raw remap n)
      = chunk_stats T (chunk_values raw remap n) :=
    chunk_stats_padding T (chunk_values raw remap n) _ hmem (VerticesPerChunk - n)
  refine ⟨hstats, fun payload stream c => ?_⟩
  rw [← hstats]
  exact ⟨rfl, rfl⟩

theorem padding_is_invisible_witness :
    1 ≤ 3 ∧
    chunk_stats AttrType.u16vec3 (gather_attributes sample_u16vec3 none 3)
      = chunk_stats AttrType.u16vec3 (chunk_values sample_u16vec3 none 3) :=
  ⟨by decide, (padding_is_invisible AttrType.u16vec3 sample_u16vec3 none 3 (by decide)).1⟩

/-! ## Words appended for an attribute chunk -/

/-- C30 (payload words per attribute chunk): for a chunk of `n <= 32` vertices
of well-formed `T` values, with `C` components and the width `b` that
`encode_attribute_stream` computes and stores for it, the call appends exactly
`ceil(b*C*n/32)` words to the payload, none when `b = 0`; the appended words
hold the `b`-bit deltas of the `n` gathered vertices back to back, and every
bit from `b*C*n` on is zero, so no padded slot is written. -/
theorem attribute_chunk_payload_words (T : AttrType) (payload : List Nat) (stream : Stream)
    (raw : List (List Nat)) (c : Nat) (remap : Option (List Nat)) (n : Nat)
    (hn : n ≤ 32) (hwf : WellFormedAttrs T raw)
    (hidx : ∀ i, i < n → remap_index remap i < raw.length) :
    ∃ appended : List Nat,
      (encode_attribute_stream T payload stream raw c remap n).1 = payload ++ appended ∧
      appended.length
        = ((chunk_stats T (gather_attributes raw remap n)).bits * T.components * n + 31) / 32 ∧
      ((chunk_stats T (gather_attributes raw remap n)).bits = 0 → appended = []) ∧
      (∀ i k, i < n → k < T.components →
        read_bits appended
            ((i * T.components + k) * (chunk_stats T (gather_attributes raw remap n)).bits)
            (chunk_stats T (gather_attributes raw remap n)).bits
          = sub_wrap T.bits_per_component ((raw.getD (remap_index remap i) []).getD k 0)
              ((chunk_stats T (gather_attributes raw remap n)).base.getD k 0)) ∧
      (∀ j, (chunk_stats T (gather_attributes raw remap n)).bits * T.components * n ≤ j →
        getBit appended j = false) := by
  rcases Nat.eq_zero_or_pos n with h0 | hpos
  · subst h0
    refine ⟨[], ?_, by simp, fun _ => rfl, fun i k hi => by omega, fun j _ => ?_⟩
    · rw [encode_attribute_stream_fst]
      cases T <;> simp [encode_bitplane, encode_bitplane_16_inner, encode_bitplane_u8vec4]
    · simp [getBit]
  · have hn1 : 1 ≤ n := hpos
    obtain ⟨hne, hwf2⟩ := gather_attributes_wf T raw remap n hn1 hwf hidx
    obtain ⟨hbl, hbw, hbase⟩ := chunk_stats_fits T _ hne hwf2
    have hglen := gather_attributes_length raw remap n hn
    have hval : ∀ i k, i < n → k < T.components →
        (((gather_attributes raw remap n).map fun p =>
            List.zipWith (sub_wrap T.bits_per_component) p
              (chunk_stats T (gather_attributes raw remap n)).base).getD i []).getD k 0
          = sub_wrap T.bits_per_component ((raw.getD (remap_index remap i) []).getD k 0)
              ((chunk_stats T (gather_attributes raw remap n)).base.getD k 0) := by
      intro i k hi hk
      rw [getD_map_of_lt _ _ i (by rw [hglen]; omega) [] [], gather_attributes_getD _ _ _ _ hi]
      have hmem : raw.getD (remap_index remap i) [] ∈ raw := by
        rw [List.getD_eq_getElem _ _ (hidx i hi)]
        exact List.getElem_mem _
      exact getD_zipWith_of_lt _ _ _ T.components k (hwf _ hmem).1 hbl hk 0 0 0
    have hsmall : ∀ i k, i < n → k < T.components →
        (((gather_attributes raw remap n).map fun p =>
            List.zipWith (sub_wrap T.bits_per_component) p
              (chunk_stats T (gather_attributes raw remap n)).base).getD i []).getD k 0
          < 2 ^ (chunk_stats T (gather_attributes raw remap n)).bits := by
      intro i k hi hk
      rw [hval i k hi hk]
      exact (hbase k hk).2 _ ((gather_attributes_mem raw remap n hn1 _).2 ⟨i, hi, rfl⟩)
    obtain ⟨app, happ, hlen, hread, hzero⟩ := encode_bitplane_spec T payload _ _ n hn hbw hsmall
    refine ⟨app, by rw [encode_attribute_stream_fst]; exact happ, hlen, ?_, ?_, ?_⟩
    · intro hb
      apply List.eq_nil_of_length_eq_zero
      rw [hlen, hb]
      simp
    · intro i k hi hk
      rw [hread i k hi hk, hval i k hi hk]
    · intro j hj
      apply hzero
      calc n * T.components * (chunk_stats T (gather_attributes raw remap n)).bits
          = (chunk_stats T (gather_attributes raw remap n)).bits * T.components * n := by ring
        _ ≤ j := hj

/-- Witness for C30: the three sample `u16vec3` values as one chunk. -/
theorem attribute_chunk_payload_words_witness :
    (3 ≤ 32 ∧ WellFormedAttrs AttrType.u16vec3 sample_u16vec3 ∧
      ∀ i, i < 3 → remap_index (some [2, 0, 1]) i < sample_u16vec3.length) ∧
    ∃ appended : List Nat,
      (encode_attribute_stream AttrType.u16vec3 [9] Stream.zero sample_u16vec3 1
        (some [2, 0, 1]) 3).1 = [9] ++ appended ∧
      appended.length
        = ((chunk_stats AttrType.u16vec3
            (gather_attributes sample_u16vec3 (some [2, 0, 1]) 3)).bits
            * AttrType.u16vec3.components * 3 + 31) / 32 :=
  ⟨⟨by decide, by unfold WellFormedAttrs; decide, by decide⟩,
    (attribute_chunk_payload_words AttrType.u16vec3 [9] Stream.zero sample_u16vec3 1
      (some [2, 0, 1]) 3 (by decide) (by unfold WellFormedAttrs; decide) (by decide)).imp
      fun _ h => ⟨h.1, h.2.1⟩⟩

/-! ## The payload of `encode_mesh`, exactly -/

theorem encode_bitplane_append (T : AttrType) (p : List Nat) (values : List (List Nat))
    (bits n : Nat) : encode_bitplane T p values bits n = p ++ encode_bitplane T [] values bits n := by
  cases T <;> simp [encode_bitplane, encode_bitplane_16_inner, encode_bitplane_u8vec4]

theorem encode_attribute_stream_append (T : AttrType) (p : List Nat) (stream : Stream)
    (raw : List (List Nat)) (c : Nat) (remap : Option (List Nat)) (n : Nat) :
    (encode_attribute_stream T p stream raw c remap n).1
      = p ++ (encode_attribute_stream T [] Stream.zero raw 0 remap n).1 := by
  rw [encode_attribute_stream_fst, encode_attribute_stream_fst]
  exact encode_bitplane_append _ _ _ _ _

theorem encode_attribute_stream_offsets (T : AttrType) (p : List Nat) (stream : Stream)
    (raw : List (List Nat)) (c : Nat) (remap : Option (List Nat)) (n : Nat) :
    (encode_attribute_stream T p stream raw c remap n).2.offsets_in_words
      = stream.offsets_in_words := rfl

theorem encode_normal_tangent_chunk_append (p : List Nat) (stream : Stream)
    (nt : List NormalTangent) (meshlet : Meshlet) (c : Nat) :
    (encode_normal_tangent_chunk p stream nt meshlet c).1
      = p ++ (encode_normal_tangent_chunk [] Stream.zero nt meshlet 0).1 := by
  unfold encode_normal_tangent_chunk
  simp only
  split_ifs <;> exact encode_attribute_stream_append _ _ _ _ _ _ _

theorem encode_normal_tangent_chunk_offsets (p : List Nat) (stream : Stream)
    (nt : List NormalTangent) (meshlet : Meshlet) (c : Nat) :
    (encode_normal_tangent_chunk p stream nt meshlet c).2.offsets_in_words
      = stream.offsets_in_words := by
  unfold encode_normal_tangent_chunk
  simp only
  split_ifs <;> rw [encode_attribute_stream_offsets]

theorem encode_attribute_chunk_fst (meshlets : List Meshlet) (data : StreamData)
    (m s : Nat) (hs : 1 ≤ s) (st : List Nat × Stream) (c : Nat) :
    (encode_attribute_chunk meshlets data m s st c).1 = st.1 ++ slot_words meshlets data m s c := by
  obtain _ | _ | _ | _ | s := s
  · omega
  · exact encode_attribute_stream_append _ _ _ _ _ _ _
  · exact encode_normal_tangent_chunk_append _ _ _ _ _
  · exact encode_attribute_stream_append _ _ _ _ _ _ _
  · simp [encode_attribute_chunk, slot_words, chunk_words]

theorem encode_attribute_chunk_offsets (meshlets : List Meshlet) (data : StreamData)
    (m s : Nat) (st : List Nat × Stream) (c : Nat) :
    (encode_attribute_chunk meshlets data m s st c).2.offsets_in_words
      = st.2.offsets_in_words.set c (st.1.length % 2 ^ 32) := by
  obtain _ | _ | _ | _ | s := s
  · rfl
  · rfl
  · exact encode_normal_tangent_chunk_offsets _ _ _ _ _
  · rfl
  · rfl

/-- The chunk loop of an attribute stream: the payload grows by the words of
the slots in order, and the offset recorded for a slot is the payload length
when its words are appended. -/
theorem attribute_chunk_loop (meshlets : List Meshlet) (data : StreamData) (m s : Nat)
    (hs : 1 ≤ s) (st0 : List Nat × Stream) :
    ∀ k,
      ((List.range k).foldl (encode_attribute_chunk meshlets data m s) st0).1
        = st0.1 ++ (List.range k).flatMap (slot_words meshlets data m s) ∧
      ((List.range k).foldl (encode_attribute_chunk meshlets data m s)
        st0).2.offsets_in_words.length = st0.2.offsets_in_words.length ∧
      ∀ c, c < st0.2.offsets_in_words.length →
        ((List.range k).foldl (encode_attribute_chunk meshlets data m s)
          st0).2.offsets_in_words.getD c 0
          = if c < k then
              (st0.1 ++ (List.range c).flatMap (slot_words meshlets data m s)).length % 2 ^ 32
            else st0.2.offsets_in_words.getD c 0 := by
  intro k
  induction k with
  | zero => exact ⟨by simp, rfl, fun c _ => by simp⟩
  | succ k ih =>
    obtain ⟨h1, h2, h3⟩ := ih
    simp only [List.range_succ, List.foldl_append, List.foldl_cons, List.foldl_nil,
      List.flatMap_append, List.flatMap_singleton]
    generalize (List.range k).foldl (encode_attribute_chunk meshlets data m s) st0 = r
      at h1 h2 h3
    rw [encode_attribute_chunk_fst _ _ _ _ hs, encode_attribute_chunk_offsets, h1]
    refine ⟨by simp, by rw [List.length_set]; exact h2, ?_⟩
    intro c hc
    rw [getD_set, h3 c hc, h2]
    by_cases hck : k = c
    · subst hck
      simp [hc]
    · have h' : ¬ (k = c ∧ k < st0.2.offsets_in_words.length) := fun h => hck h.1
      simp only [h', if_false]
      by_cases hlt : c < k
      · simp [hlt, Nat.lt_succ_of_lt hlt]
      · have : ¬ c < k + 1 := by omega
        simp [hlt, this]

/-- The primitive-stream loop, exactly: the payload grows by the index words of
the slots in order, and the offset recorded for a slot is the payload length
when its words are appended. -/
theorem primitive_chunk_loop (meshlets : List Meshlet) (data : StreamData) (m : Nat)
    (st0 : PrimState) :
    ∀ k,
      ((List.range k).foldl (encode_primitive_chunk meshlets m) st0).payload
        = st0.payload ++ (List.range k).flatMap (slot_words meshlets data m 0) ∧
      ((List.range k).foldl (encode_primitive_chunk meshlets m)
        st0).index_stream.offsets_in_words.length = st0.index_stream.offsets_in_words.length ∧
      ∀ c, c < st0.index_stream.offsets_in_words.length →
        ((List.range k).foldl (encode_primitive_chunk meshlets m)
          st0).index_stream.offsets_in_words.getD c 0
          = if c < k then
              (st0.payload ++ (List.range c).flatMap (slot_words meshlets data m 0)).length
                % 2 ^ 32
            else st0.index_stream.offsets_in_words.getD c 0 := by
  intro k
  induction k with
  | zero => exact ⟨by simp, rfl, fun c _ => by simp⟩
  | succ k ih =>
    obtain ⟨h1, h2, h3⟩ := ih
    simp only [List.range_succ, List.foldl_append, List.foldl_cons, List.foldl_nil,
      List.flatMap_append, List.flatMap_singleton]
    generalize (List.range k).foldl (encode_primitive_chunk meshlets m) st0 = r at h1 h2 h3
    have hpay : (encode_primitive_chunk meshlets m r k).payload
        = r.payload ++ slot_words meshlets data m 0 k := by
      simp only [encode_primitive_chunk, slot_words, chunk_words, index_words]
      exact encode_index_stream_eq _ _ _
    have hoff : (encode_primitive_chunk meshlets m r k).index_stream.offsets_in_words
        = r.index_stream.offsets_in_words.set k (r.payload.length % 2 ^ 32) := rfl
    rw [hpay, hoff, h1]
    refine ⟨by simp, by rw [List.length_set]; exact h2, ?_⟩
    intro c hc
    rw [getD_set, h3 c hc, h2]
    by_cases hck : k = c
    · subst hck
      simp [hc]
    · have h' : ¬ (k = c ∧ k < st0.index_stream.offsets_in_words.length) := fun h => hck h.1
      simp only [h', if_false]
      by_cases hlt : c < k
      · simp [hlt, Nat.lt_succ_of_lt hlt]
      · have : ¬ c < k + 1 := by omega
        simp [hlt, this]

/-- The stream loop of an output meshlet, exactly: the payload grows by the
words of the streams in order, and `streams[s]` is what the chunk loop of
stream `s` leaves, started at the payload reached then. -/
theorem attribute_streams_loop (meshlets : List Meshlet) (data : StreamData)
    (p_aux : List Int) (m : Nat) (p0 : List Nat) (streams0 : List Stream) :
    ∀ k, k + 1 ≤ streams0.length →
      ((List.range' 1 k).foldl
        (encode_attribute_streams_step meshlets data p_aux m
          (meshlet_chunks meshlets.length m)) (p0, streams0)).1
        = p0 ++ (List.range' 1 k).flatMap (stream_words meshlets data m) ∧
      ((List.range' 1 k).foldl
        (encode_attribute_streams_step meshlets data p_aux m
          (meshlet_chunks meshlets.length m)) (p0, streams0)).2.length = streams0.length ∧
      ∀ s,
        ((List.range' 1 k).foldl
          (encode_attribute_streams_step meshlets data p_aux m
            (meshlet_chunks meshlets.length m)) (p0, streams0)).2.getD s Stream.zero
          = if 1 ≤ s ∧ s ≤ k then
              ((List.range (meshlet_chunks meshlets.length m)).foldl
                (encode_attribute_chunk meshlets data m s)
                (p0 ++ (List.range' 1 (s - 1)).flatMap (stream_words meshlets data m),
                  { streams0.getD s Stream.zero with aux := p_aux.getD s 0 })).2
            else streams0.getD s Stream.zero := by
  intro k
  induction k with
  | zero =>
    intro _
    refine ⟨by simp, rfl, fun s => ?_⟩
    have : ¬ (1 ≤ s ∧ s ≤ 0) := by omega
    simp only [List.range'_zero, List.foldl_nil]
    rw [if_neg this]
  | succ k ih =>
    intro hk
    obtain ⟨h1, h2, h3⟩ := ih (by omega)
    simp only [List.range'_1_concat, List.foldl_append, List.foldl_cons, List.foldl_nil,
      List.flatMap_append, List.flatMap_singleton]
    generalize (List.range' 1 k).foldl
      (encode_attribute_streams_step meshlets data p_aux m
        (meshlet_chunks meshlets.length m)) (p0, streams0) = r at h1 h2 h3
    have hstep : encode_attribute_streams_step meshlets data p_aux m
        (meshlet_chunks meshlets.length m) r (1 + k)
        = (((List.range (meshlet_chunks meshlets.length m)).foldl
              (encode_attribute_chunk meshlets data m (1 + k))
              (r.1, { r.2.getD (1 + k) Stream.zero with aux := p_aux.getD (1 + k) 0 })).1,
            r.2.set (1 + k)
              ((List.range (meshlet_chunks meshlets.length m)).foldl
                (encode_attribute_chunk meshlets data m (1 + k))
                (r.1, { r.2.getD (1 + k) Stream.zero with aux := p_aux.getD (1 + k) 0 })).2) :=
      rfl
    rw [hstep]
    have hold : r.2.getD (1 + k) Stream.zero = streams0.getD (1 + k) Stream.zero := by
      rw [h3]
      have : ¬ (1 ≤ 1 + k ∧ 1 + k ≤ k) := by omega
      simp [this]
    rw [hold]
    refine ⟨?_, by rw [List.length_set]; exact h2, ?_⟩
    · rw [(attribute_chunk_loop meshlets data m (1 + k) (by omega) _ _).1, h1]
      simp [stream_words]
    · intro s
      simp only
      rw [getD_set]
      by_cases hsk : 1 + k = s
      · subst hsk
        have h' : (1 + k = 1 + k ∧ 1 + k < r.2.length) := ⟨rfl, by omega⟩
        have h'' : (1 ≤ 1 + k ∧ 1 + k ≤ k + 1) := by omega
        simp only [h', h'', and_self, if_true]
        rw [h1]
        simp
      · have h' : ¬ (1 + k = s ∧ 1 + k < r.2.length) := fun h => hsk h.1
        simp only [h', if_false]
        rw [h3]
        by_cases hs : 1 ≤ s ∧ s ≤ k
        · have : 1 ≤ s ∧ s ≤ k + 1 := by omega
          simp [hs, this]
        · have : ¬ (1 ≤ s ∧ s ≤ k + 1) := by omega
          simp [hs, this]

theorem flatMap_range_succ_head (f : Nat → List Nat) (k : Nat) :
    (List.range (k + 1)).flatMap f = f 0 ++ (List.range' 1 k).flatMap f := by
  rw [List.range_eq_range', List.range'_succ, List.flatMap_cons]

theorem meshlet_chunks_le (n m : Nat) : meshlet_chunks n m ≤ 4 := by
  simp only [meshlet_chunks, NumChunks]
  omega

/-- One output meshlet, exactly: the payload grows by the words of the
meshlet, and the appended `Metadata` holds the primitive stream, the encoded
attribute streams and zeroed streams beyond them. -/
theorem encode_meshlet_exact (meshlets : List Meshlet) (data : StreamData) (p_aux : List Int)
    (num_streams : Nat) (hns : 1 ≤ num_streams) (hns8 : num_streams ≤ MaxStreams)
    (st : Encoded × Nat) (m : Nat) :
    (encode_meshlet meshlets data p_aux num_streams st m).1.payload
      = st.1.payload ++ meshlet_words meshlets data num_streams m ∧
    (encode_meshlet meshlets data p_aux num_streams st m).1.mesh.stream_count
      = st.1.mesh.stream_count ∧
    (encode_meshlet meshlets data p_aux num_streams st m).2
      = (st.2 + (primitive_loop meshlets m st.1.payload).num_attributes) % 2 ^ 32 ∧
    ∃ md : Metadata,
      (encode_meshlet meshlets data p_aux num_streams st m).1.mesh.meshlets
        = st.1.mesh.meshlets ++ [md] ∧
      md.num_chunks = meshlet_chunks meshlets.length m ∧
      md.base_vertex_offset = st.2 ∧
      md.streams.length = MaxStreams ∧
      md.streams.getD 0 Stream.zero = primitive_stream meshlets m st.1.payload ∧
      (∀ s, 1 ≤ s → s < num_streams →
        md.streams.getD s Stream.zero
          = attribute_stream meshlets data p_aux m s
              (st.1.payload ++ (List.range s).flatMap (stream_words meshlets data m))) ∧
      (∀ s, num_streams ≤ s → md.streams.getD s Stream.zero = Stream.zero) := by
  obtain ⟨hp, _, _⟩ := primitive_chunk_loop meshlets data m
    { payload := st.1.payload, index_stream := Stream.zero, num_attributes := 0,
      num_primitives := 0 } (meshlet_chunks meshlets.length m)
  have hp' : (primitive_loop meshlets m st.1.payload).payload
      = st.1.payload ++ stream_words meshlets data m 0 := hp
  obtain ⟨h1, h2, h3⟩ := attribute_streams_loop meshlets data p_aux m
    (primitive_loop meshlets m st.1.payload).payload
    ((List.replicate MaxStreams Stream.zero).set 0 (primitive_stream meshlets m st.1.payload))
    (num_streams - 1) (by simp only [List.length_set, List.length_replicate]; omega)
  have hunfold : encode_meshlet meshlets data p_aux num_streams st m
      = ({ payload := ((List.range' 1 (num_streams - 1)).foldl
              (encode_attribute_streams_step meshlets data p_aux m
                (meshlet_chunks meshlets.length m))
              ((primitive_loop meshlets m st.1.payload).payload,
                (List.replicate MaxStreams Stream.zero).set 0
                  (primitive_stream meshlets m st.1.payload))).1
           mesh := { st.1.mesh with
             meshlets := st.1.mesh.meshlets ++ [
               { base_vertex_offset := st.2
                 num_chunks := meshlet_chunks meshlets.length m
                 streams := ((List.range' 1 (num_streams - 1)).foldl
                   (encode_attribute_streams_step meshlets data p_aux m
                     (meshlet_chunks meshlets.length m))
                   ((primitive_loop meshlets m st.1.payload).payload,
                     (List.replicate MaxStreams Stream.zero).set 0
                       (primitive_stream meshlets m st.1.payload))).2 }] } },
          (st.2 + (primitive_loop meshlets m st.1.payload).num_attributes) % 2 ^ 32) := rfl
  rw [hunfold]
  generalize (List.range' 1 (num_streams - 1)).foldl
    (encode_attribute_streams_step meshlets data p_aux m (meshlet_chunks meshlets.length m))
    ((primitive_loop meshlets m st.1.payload).payload,
      (List.replicate MaxStreams Stream.zero).set 0
        (primitive_stream meshlets m st.1.payload)) = r at h1 h2 h3
  have hzero : ∀ s, 1 ≤ s →
      ((List.replicate MaxStreams Stream.zero).set 0
        (primitive_stream meshlets m st.1.payload)).getD s Stream.zero = Stream.zero := by
    intro s hs
    rw [getD_set]
    have h' : ¬ (0 = s ∧ 0 < (List.replicate MaxStreams Stream.zero).length) := by omega
    rw [if_neg h']
    simp only [List.getD_eq_getElem?_getD, List.getElem?_replicate]
    split_ifs <;> rfl
  have hwords : ∀ s, 1 ≤ s →
      (primitive_loop meshlets m st.1.payload).payload
          ++ (List.range' 1 (s - 1)).flatMap (stream_words meshlets data m)
        = st.1.payload ++ (List.range s).flatMap (stream_words meshlets data m) := by
    intro s hs
    obtain ⟨k, rfl⟩ : ∃ k, s = k + 1 := ⟨s - 1, by omega⟩
    rw [flatMap_range_succ_head, hp']
    simp
  refine ⟨?_, rfl, rfl, _, rfl, rfl, rfl, ?_, ?_, ?_, ?_⟩
  · show r.1 = _
    rw [h1, hwords num_streams hns]
    rfl
  · show r.2.length = _
    rw [h2]
    simp
  · show r.2.getD 0 Stream.zero = _
    rw [h3 0]
    have h' : ¬ (1 ≤ 0 ∧ 0 ≤ num_streams - 1) := by omega
    rw [if_neg h', getD_set]
    have h'' : (0 = 0 ∧ 0 < (List.replicate MaxStreams Stream.zero).length) := by
      simp [MaxStreams]
    rw [if_pos h'']
  · intro s hs1 hs2
    show r.2.getD s Stream.zero = _
    rw [h3 s]
    have h' : (1 ≤ s ∧ s ≤ num_streams - 1) := by omega
    rw [if_pos h', hzero s hs1, hwords s hs1]
    rfl
  · intro s hs
    show r.2.getD s Stream.zero = _
    rw [h3 s]
    have h' : ¬ (1 ≤ s ∧ s ≤ num_streams - 1) := by omega
    rw [if_neg h', hzero s (by omega)]

/-- The initial state of the meshlet loop of `encode_mesh`. -/
theorem encode_mesh_eq (meshlets : List Meshlet) (data : StreamData) (p_aux : List Int)
    (num_streams : Nat) :
    encode_mesh meshlets data p_aux num_streams
      = ((List.range ((meshlets.length + NumChunks - 1) / NumChunks)).foldl
          (encode_meshlet meshlets data p_aux num_streams)
          ({ payload := [],
             mesh := { stream_count := num_streams, mesh_style := 0, meshlets := [] } },
            0)).1 := rfl

/-- The loop over output meshlets, exactly, after `M` iterations. -/
theorem encode_mesh_loop_exact (meshlets : List Meshlet) (data : StreamData) (p_aux : List Int)
    (num_streams : Nat) (hns : 1 ≤ num_streams) (hns8 : num_streams ≤ MaxStreams)
    (st0 : Encoded × Nat) (hp0 : st0.1.payload = []) (h0 : st0.1.mesh.meshlets = []) :
    ∀ M,
      ((List.range M).foldl (encode_meshlet meshlets data p_aux num_streams) st0).1.payload
        = (List.range M).flatMap (meshlet_words meshlets data num_streams) ∧
      ((List.range M).foldl (encode_meshlet meshlets data p_aux num_streams)
        st0).1.mesh.stream_count = st0.1.mesh.stream_count ∧
      ((List.range M).foldl (encode_meshlet meshlets data p_aux num_streams)
        st0).1.mesh.meshlets.length = M ∧
      ∀ m, m < M →
        (((List.range M).foldl (encode_meshlet meshlets data p_aux num_streams)
          st0).1.mesh.meshlets.getD m Metadata.zero).num_chunks
          = meshlet_chunks meshlets.length m ∧
        (((List.range M).foldl (encode_meshlet meshlets data p_aux num_streams)
          st0).1.mesh.meshlets.getD m Metadata.zero).streams.length = MaxStreams ∧
        (((List.range M).foldl (encode_meshlet meshlets data p_aux num_streams)
          st0).1.mesh.meshlets.getD m Metadata.zero).streams.getD 0 Stream.zero
          = primitive_stream meshlets m (words_before meshlets data num_streams m 0 0) ∧
        (∀ s, 1 ≤ s → s < num_streams →
          (((List.range M).foldl (encode_meshlet meshlets data p_aux num_streams)
            st0).1.mesh.meshlets.getD m Metadata.zero).streams.getD s Stream.zero
            = attribute_stream meshlets data p_aux m s
                (words_before meshlets data num_streams m s 0)) ∧
        (∀ s, num_streams ≤ s →
          (((List.range M).foldl (encode_meshlet meshlets data p_aux num_streams)
            st0).1.mesh.meshlets.getD m Metadata.zero).streams.getD s Stream.zero
            = Stream.zero) := by
  intro M
  induction M with
  | zero => exact ⟨by simp [hp0], rfl, by simp [h0], fun m hm => by omega⟩
  | succ M ih =>
    obtain ⟨hpay, hsc, hlen, hspec⟩ := ih
    simp only [List.range_succ, List.foldl_append, List.foldl_cons, List.foldl_nil,
      List.flatMap_append, List.flatMap_singleton]
    generalize (List.range M).foldl (encode_meshlet meshlets data p_aux num_streams) st0 = r
      at hpay hsc hlen hspec
    obtain ⟨g1, g2, _, md, hmd, hnc, _, hsl, hs0, hss, hsz⟩ :=
      encode_meshlet_exact meshlets data p_aux num_streams hns hns8 r M
    rw [hmd, g1, g2, hpay]
    refine ⟨rfl, hsc, by rw [List.length_append, hlen]; rfl, ?_⟩
    intro m hm
    by_cases hmM : m = M
    · subst hmM
      have hget : (r.1.mesh.meshlets ++ [md]).getD m Metadata.zero = md := by
        rw [List.getD_append_right _ _ _ _ (by omega), hlen]
        simp
      rw [hget]
      refine ⟨hnc, hsl, ?_, ?_, hsz⟩
      · rw [hs0, hpay]
        simp [words_before]
      · intro s hs1 hs2
        rw [hss s hs1 hs2, hpay]
        simp [words_before]
    · have hget : (r.1.mesh.meshlets ++ [md]).getD m Metadata.zero
          = r.1.mesh.meshlets.getD m Metadata.zero := by
        rw [List.getD_append _ _ _ _ (by omega)]
      rw [hget]
      exact hspec m (by omega)

/-! ## Order and extent of the payload regions -/

theorem flatMap_range_prefix_le (f : Nat → List Nat) (i n : Nat) (h : i ≤ n) :
    (List.range i).flatMap f <+: (List.range n).flatMap f := by
  obtain ⟨j, rfl⟩ : ∃ j, n = i + j := ⟨n - i, by omega⟩
  induction j with
  | zero => exact List.prefix_refl _
  | succ j ih =>
    rw [← Nat.add_assoc, List.range_succ, List.flatMap_append]
    exact List.IsPrefix.trans (ih (by omega)) (List.prefix_append _ _)

theorem flatMap_range_prefix_lt (f : Nat → List Nat) (i n : Nat) (h : i < n) :
    (List.range i).flatMap f ++ f i <+: (List.range n).flatMap f := by
  have h1 := flatMap_range_prefix_le f (i + 1) n h
  rw [List.range_succ, List.flatMap_append, List.flatMap_singleton] at h1
  exact h1

theorem append_left_prefix_mono {a b : List Nat} (p : List Nat) (h : a <+: b) :
    p ++ a <+: p ++ b :=
  (List.prefix_append_right_inj p).2 h

theorem prefix_append_right {a b : List Nat} (c : List Nat) (h : a <+: b) : a <+: b ++ c :=
  List.IsPrefix.trans h (List.prefix_append _ _)

theorem words_before_zero (meshlets : List Meshlet) (data : StreamData)
    (num_streams m s c : Nat) :
    words_before meshlets data num_streams m s c
      = words_before meshlets data num_streams m s 0
          ++ (List.range c).flatMap (slot_words meshlets data m s) := by
  simp [words_before]

/-- The words of a chunk slot end before the end of its stream. -/
theorem slot_end_prefix_stream (meshlets : List Meshlet) (data : StreamData)
    (num_streams m s c : Nat) (hc : c < meshlet_chunks meshlets.length m) :
    words_before meshlets data num_streams m s c ++ slot_words meshlets data m s c
      <+: words_before meshlets data num_streams m (s + 1) 0 := by
  have h := flatMap_range_prefix_lt (slot_words meshlets data m s) c _ hc
  simp only [words_before, List.range_zero, List.flatMap_nil, List.append_nil, List.range_succ,
    List.flatMap_append, List.flatMap_singleton, List.append_assoc]
  exact append_left_prefix_mono _ (append_left_prefix_mono _ h)

/-- The words of a stream end before the end of its meshlet. -/
theorem stream_end_prefix_meshlet (meshlets : List Meshlet) (data : StreamData)
    (num_streams m s : Nat) (hs : s ≤ num_streams) :
    words_before meshlets data num_streams m s 0
      <+: words_before meshlets data num_streams (m + 1) 0 0 := by
  have h := flatMap_range_prefix_le (stream_words meshlets data m) s num_streams hs
  simp only [words_before, List.range_zero, List.flatMap_nil, List.append_nil, List.range_succ,
    List.flatMap_append, List.flatMap_singleton]
  exact append_left_prefix_mono _ h

theorem meshlet_end_in_payload (meshlets : List Meshlet) (data : StreamData)
    (num_streams m M : Nat) (hm : m ≤ M) :
    words_before meshlets data num_streams m 0 0
      <+: (List.range M).flatMap (meshlet_words meshlets data num_streams) := by
  have h := flatMap_range_prefix_le (meshlet_words meshlets data num_streams) m M hm
  simpa [words_before] using h

theorem words_before_prefix_same_stream (meshlets : List Meshlet) (data : StreamData)
    (num_streams m s c c2 : Nat) (h : c ≤ c2) :
    words_before meshlets data num_streams m s c
      <+: words_before meshlets data num_streams m s c2 := by
  rw [words_before_zero _ _ _ m s c, words_before_zero _ _ _ m s c2]
  exact append_left_prefix_mono _ (flatMap_range_prefix_le _ c c2 h)

theorem words_before_prefix_same_meshlet (meshlets : List Meshlet) (data : StreamData)
    (num_streams m s s2 c2 : Nat) (h : s ≤ s2) :
    words_before meshlets data num_streams m s 0
      <+: words_before meshlets data num_streams m s2 c2 := by
  have h1 := flatMap_range_prefix_le (stream_words meshlets data m) s s2 h
  simp only [words_before, List.range_zero, List.flatMap_nil, List.append_nil]
  exact prefix_append_right _ (append_left_prefix_mono _ h1)

theorem words_before_prefix_meshlet (meshlets : List Meshlet) (data : StreamData)
    (num_streams m m2 s2 c2 : Nat) (h : m ≤ m2) :
    words_before meshlets data num_streams m 0 0
      <+: words_before meshlets data num_streams m2 s2 c2 := by
  have h1 := flatMap_range_prefix_le (meshlet_words meshlets data num_streams) m m2 h
  simp only [words_before, List.range_zero, List.flatMap_nil, List.append_nil]
  exact prefix_append_right _ (prefix_append_right _ h1)

/-- The words of a chunk slot end before the words of every later triple
begin. -/
theorem slot_end_prefix_later (meshlets : List Meshlet) (data : StreamData)
    (num_streams m s c m2 s2 c2 : Nat)
    (hs : s < num_streams) (hc : c < meshlet_chunks meshlets.length m)
    (hlt : m < m2 ∨ (m = m2 ∧ (s < s2 ∨ (s = s2 ∧ c < c2)))) :
    words_before meshlets data num_streams m s c ++ slot_words meshlets data m s c
      <+: words_before meshlets data num_streams m2 s2 c2 := by
  rcases hlt with hm | ⟨rfl, hs2 | ⟨rfl, hc2⟩⟩
  · exact ((slot_end_prefix_stream meshlets data num_streams m s c hc).trans
      (stream_end_prefix_meshlet meshlets data num_streams m (s + 1) hs)).trans
      (words_before_prefix_meshlet meshlets data num_streams (m + 1) m2 s2 c2 hm)
  · exact (slot_end_prefix_stream meshlets data num_streams m s c hc).trans
      (words_before_prefix_same_meshlet meshlets data num_streams m (s + 1) s2 c2 hs2)
  · have h := flatMap_range_prefix_lt (slot_words meshlets data m s) c c2 hc2
    rw [words_before_zero _ _ _ m s c, words_before_zero _ _ _ m s c2, List.append_assoc]
    exact append_left_prefix_mono _ h

/-- The words of a chunk slot lie inside the payload of `M` meshlets. -/
theorem slot_end_prefix_payload (meshlets : List Meshlet) (data : StreamData)
    (num_streams M m s c : Nat) (hm : m < M)
    (hs : s < num_streams) (hc : c < meshlet_chunks meshlets.length m) :
    words_before meshlets data num_streams m s c ++ slot_words meshlets data m s c
      <+: (List.range M).flatMap (meshlet_words meshlets data num_streams) :=
  ((slot_end_prefix_stream meshlets data num_streams m s c hc).trans
    (stream_end_prefix_meshlet meshlets data num_streams m (s + 1) hs)).trans
    (meshlet_end_in_payload meshlets data num_streams (m + 1) M hm)

theorem primitive_stream_offsets (meshlets : List Meshlet) (data : StreamData) (m : Nat)
    (p : List Nat) (c : Nat) (hc : c < meshlet_chunks meshlets.length m) :
    (primitive_stream meshlets m p).offsets_in_words.getD c 0
      = (p ++ (List.range c).flatMap (slot_words meshlets data m 0)).length % 2 ^ 32 := by
  unfold primitive_stream
  rw [set_offsets_fold_offsets]
  obtain ⟨_, _, h3⟩ := primitive_chunk_loop meshlets data m
    { payload := p, index_stream := Stream.zero, num_attributes := 0, num_primitives := 0 }
    (meshlet_chunks meshlets.length m)
  have h4 := meshlet_chunks_le meshlets.length m
  have := h3 c (by simp only [Stream.zero, List.length_replicate]; omega)
  rw [if_pos hc] at this
  exact this

theorem attribute_stream_offsets (meshlets : List Meshlet) (data : StreamData)
    (p_aux : List Int) (m s : Nat) (hs : 1 ≤ s) (p : List Nat) (c : Nat)
    (hc : c < meshlet_chunks meshlets.length m) :
    (attribute_stream meshlets data p_aux m s p).offsets_in_words.getD c 0
      = (p ++ (List.range c).flatMap (slot_words meshlets data m s)).length % 2 ^ 32 := by
  unfold attribute_stream
  obtain ⟨_, _, h3⟩ := attribute_chunk_loop meshlets data m s hs
    (p, { Stream.zero with aux := p_aux.getD s 0 }) (meshlet_chunks meshlets.length m)
  have h4 := meshlet_chunks_le meshlets.length m
  have := h3 c (by simp only [Stream.zero, List.length_replicate]; omega)
  rw [if_pos hc] at this
  exact this

/-- The offset recorded for a triple is the number of words appended before
it, as a 32-bit value. -/
theorem encode_mesh_offset (meshlets : List Meshlet) (data : StreamData) (p_aux : List Int)
    (num_streams : Nat) (hns : 1 ≤ num_streams) (hns8 : num_streams ≤ MaxStreams)
    (m s c : Nat) (hm : m < (meshlets.length + NumChunks - 1) / NumChunks)
    (hs : s < num_streams) (hc : c < meshlet_chunks meshlets.length m) :
    (encode_mesh meshlets data p_aux num_streams).offset m s c
      = (words_before meshlets data num_streams m s c).length % 2 ^ 32 := by
  obtain ⟨_, _, _, hspec⟩ := encode_mesh_loop_exact meshlets data p_aux num_streams hns hns8
    ({ payload := [],
       mesh := { stream_count := num_streams, mesh_style := 0, meshlets := [] } }, 0) rfl rfl
    ((meshlets.length + NumChunks - 1) / NumChunks)
  obtain ⟨_, _, h0, hss, _⟩ := hspec m hm
  rw [words_before_zero]
  unfold Encoded.offset
  rw [encode_mesh_eq]
  rcases Nat.eq_zero_or_pos s with rfl | hpos
  · rw [h0]
    exact primitive_stream_offsets meshlets data m _ c hc
  · rw [hss s hpos hs]
    exact attribute_stream_offsets meshlets data p_aux m s hpos _ c hc

theorem encode_mesh_payload (meshlets : List Meshlet) (data : StreamData) (p_aux : List Int)
    (num_streams : Nat) (hns : 1 ≤ num_streams) (hns8 : num_streams ≤ MaxStreams) :
    (encode_mesh meshlets data p_aux num_streams).payload
      = (List.range ((meshlets.length + NumChunks - 1) / NumChunks)).flatMap
          (meshlet_words meshlets data num_streams) := by
  rw [encode_mesh_eq]
  exact (encode_mesh_loop_exact meshlets data p_aux num_streams hns hns8 _ rfl rfl _).1

/-- C22 (payload append order): for `1 <= num_streams <= MaxStreams`, the
payload of `encode_mesh` is, meshlet by meshlet, the words of stream 0 (the
primitive stream) for chunks `0..num_chunks-1`, then those of stream 1, 2, ...
`num_streams-1`, each over chunks `0..num_chunks-1`; the offset recorded for
`(meshlet, stream, chunk)` is the payload length at the moment the words of
that chunk are appended, as a 32-bit value; hence, for a payload of fewer than
`2^32` words, the recorded offsets are non-decreasing in the lexicographic
order of `(meshlet, stream, chunk)`. -/
theorem payload_append_order (meshlets : List Meshlet) (data : StreamData) (p_aux : List Int)
    (num_streams : Nat) (hns : 1 ≤ num_streams) (hns8 : num_streams ≤ MaxStreams) :
    (encode_mesh meshlets data p_aux num_streams).payload
      = (List.range ((meshlets.length + NumChunks - 1) / NumChunks)).flatMap (fun m =>
          (List.range num_streams).flatMap fun s =>
            (List.range (meshlet_chunks meshlets.length m)).flatMap fun c =>
              chunk_words data s (meshlets.getD (m * NumChunks + c) Meshlet.zero)) ∧
    (∀ m s c, m < (meshlets.length + NumChunks - 1) / NumChunks → s < num_streams →
      c < meshlet_chunks meshlets.length m →
      (encode_mesh meshlets data p_aux num_streams).offset m s c
        = (words_before meshlets data num_streams m s c).length % 2 ^ 32) ∧
    ((encode_mesh meshlets data p_aux num_streams).payload.length < 2 ^ 32 →
      ∀ m s c m2 s2 c2, m < (meshlets.length + NumChunks - 1) / NumChunks → s < num_streams →
        c < meshlet_chunks meshlets.length m →
        m2 < (meshlets.length + NumChunks - 1) / NumChunks → s2 < num_streams →
        c2 < meshlet_chunks meshlets.length m2 →
        (m < m2 ∨ (m = m2 ∧ (s < s2 ∨ (s = s2 ∧ c ≤ c2)))) →
        (encode_mesh meshlets data p_aux num_streams).offset m s c
          ≤ (encode_mesh meshlets data p_aux num_streams).offset m2 s2 c2) := by
  have hpay := encode_mesh_payload meshlets data p_aux num_streams hns hns8
  refine ⟨hpay, fun m s c hm hs hc =>
    encode_mesh_offset meshlets data p_aux num_streams hns hns8 m s c hm hs hc, ?_⟩
  intro hlen m s c m2 s2 c2 hm hs hc hm2 hs2 hc2 hle
  rw [encode_mesh_offset meshlets data p_aux num_streams hns hns8 m s c hm hs hc,
    encode_mesh_offset meshlets data p_aux num_streams hns hns8 m2 s2 c2 hm2 hs2 hc2]
  have hin2 := (slot_end_prefix_payload meshlets data num_streams _ m2 s2 c2 hm2 hs2
    hc2).length_le
  rw [← hpay, List.length_append] at hin2
  have hmono : (words_before meshlets data num_streams m s c).length
      ≤ (words_before meshlets data num_streams m2 s2 c2).length := by
    by_cases heq : m = m2 ∧ s = s2 ∧ c = c2
    · obtain ⟨rfl, rfl, rfl⟩ := heq
      exact Nat.le_refl _
    · have hlt : m < m2 ∨ (m = m2 ∧ (s < s2 ∨ (s = s2 ∧ c < c2))) := by omega
      have h := (slot_end_prefix_later meshlets data num_streams m s c m2 s2 c2 hs hc
        hlt).length_le
      rw [List.length_append] at h
      omega
  rw [Nat.mod_eq_of_lt (by omega), Nat.mod_eq_of_lt (by omega)]
  exact hmono

/-- Witness for C22: the two sample chunks with a primitive and a position
stream. -/
theorem payload_append_order_witness :
    (1 ≤ 2 ∧ 2 ≤ MaxStreams) ∧
    (encode_mesh sample_chunks sample_stream_data [0, -2] 2).payload
      = (List.range ((sample_chunks.length + NumChunks - 1) / NumChunks)).flatMap (fun m =>
          (List.range 2).flatMap fun s =>
            (List.range (meshlet_chunks sample_chunks.length m)).flatMap fun c =>
              chunk_words sample_stream_data s
                (sample_chunks.getD (m * NumChunks + c) Meshlet.zero)) :=
  ⟨⟨by decide, by decide⟩,
    (payload_append_order sample_chunks sample_stream_data [0, -2] 2 (by decide)
      (by decide)).1⟩

theorem flatMap_range_cover (f : Nat → List Nat) :
    ∀ n j, j < ((List.range n).flatMap f).length →
      ∃ i, i < n ∧ ((List.range i).flatMap f).length ≤ j ∧
        j < ((List.range i).flatMap f).length + (f i).length := by
  intro n
  induction n with
  | zero => intro j hj; simp at hj
  | succ n ih =>
    intro j hj
    rw [List.range_succ, List.flatMap_append, List.flatMap_singleton, List.length_append] at hj
    by_cases hlt : j < ((List.range n).flatMap f).length
    · obtain ⟨i, hi, h1, h2⟩ := ih j hlt
      exact ⟨i, by omega, h1, h2⟩
    · exact ⟨n, by omega, by omega, hj⟩

theorem length_flatMap_range (f : Nat → List Nat) (n : Nat) :
    ((List.range n).flatMap f).length = ((List.range n).map fun i => (f i).length).sum := by
  rw [List.length_flatMap]
  rfl

/-- C23 (payload regions do not overlap): for `1 <= num_streams <= MaxStreams`
and a payload of fewer than `2^32` words, the word range that starts at the
offset recorded for a `(meshlet, stream, chunk)` triple and has the length of
that chunk's words lies inside the payload, the ranges of two distinct triples
are disjoint, every payload word lies in the range of some triple, and the
payload length is the sum of all chunk lengths. -/
theorem payload_regions_partition (meshlets : List Meshlet) (data : StreamData)
    (p_aux : List Int) (num_streams : Nat) (hns : 1 ≤ num_streams)
    (hns8 : num_streams ≤ MaxStreams)
    (hlen : (encode_mesh meshlets data p_aux num_streams).payload.length < 2 ^ 32) :
    (∀ m s c, m < (meshlets.length + NumChunks - 1) / NumChunks → s < num_streams →
      c < meshlet_chunks meshlets.length m →
      (encode_mesh meshlets data p_aux num_streams).offset m s c
          + (slot_words meshlets data m s c).length
        ≤ (encode_mesh meshlets data p_aux num_streams).payload.length) ∧
    (∀ m s c m2 s2 c2, m < (meshlets.length + NumChunks - 1) / NumChunks → s < num_streams →
      c < meshlet_chunks meshlets.length m →
      m2 < (meshlets.length + NumChunks - 1) / NumChunks → s2 < num_streams →
      c2 < meshlet_chunks meshlets.length m2 →
      (m, s, c) ≠ (m2, s2, c2) →
      (encode_mesh meshlets data p_aux num_streams).offset m s c
          + (slot_words meshlets data m s c).length
        ≤ (encode_mesh meshlets data p_aux num_streams).offset m2 s2 c2 ∨
      (encode_mesh meshlets data p_aux num_streams).offset m2 s2 c2
          + (slot_words meshlets data m2 s2 c2).length
        ≤ (encode_mesh meshlets data p_aux num_streams).offset m s c) ∧
    (∀ j, j < (encode_mesh meshlets data p_aux num_streams).payload.length →
      ∃ m s c, m < (meshlets.length + NumChunks - 1) / NumChunks ∧ s < num_streams ∧
        c < meshlet_chunks meshlets.length m ∧
        (encode_mesh meshlets data p_aux num_streams).offset m s c ≤ j ∧
        j < (encode_mesh meshlets data p_aux num_streams).offset m s c
          + (slot_words meshlets data m s c).length) ∧
    (encode_mesh meshlets data p_aux num_streams).payload.length
      = ((List.range ((meshlets.length + NumChunks - 1) / NumChunks)).map fun m =>
          ((List.range num_streams).map fun s =>
            ((List.range (meshlet_chunks meshlets.length m)).map fun c =>
              (slot_words meshlets data m s c).length).sum).sum).sum := by
  have hpay := encode_mesh_payload meshlets data p_aux num_streams hns hns8
  -- the recorded offset is the number of words before the triple
  have hoff : ∀ m s c, m < (meshlets.length + NumChunks - 1) / NumChunks → s < num_streams →
      c < meshlet_chunks meshlets.length m →
      (encode_mesh meshlets data p_aux num_streams).offset m s c
        = (words_before meshlets data num_streams m s c).length ∧
      (words_before meshlets data num_streams m s c).length
          + (slot_words meshlets data m s c).length
        ≤ (encode_mesh meshlets data p_aux num_streams).payload.length := by
    intro m s c hm hs hc
    have hin := (slot_end_prefix_payload meshlets data num_streams _ m s c hm hs hc).length_le
    rw [← hpay, List.length_append] at hin
    rw [encode_mesh_offset meshlets data p_aux num_streams hns hns8 m s c hm hs hc,
      Nat.mod_eq_of_lt (by omega)]
    exact ⟨rfl, hin⟩
  refine ⟨?_, ?_, ?_, ?_⟩
  · intro m s c hm hs hc
    obtain ⟨h1, h2⟩ := hoff m s c hm hs hc
    rw [h1]
    exact h2
  · intro m s c m2 s2 c2 hm hs hc hm2 hs2 hc2 hne
    rw [(hoff m s c hm hs hc).1, (hoff m2 s2 c2 hm2 hs2 hc2).1]
    have hcases : (m < m2 ∨ (m = m2 ∧ (s < s2 ∨ (s = s2 ∧ c < c2)))) ∨
        (m2 < m ∨ (m2 = m ∧ (s2 < s ∨ (s2 = s ∧ c2 < c)))) := by
      by_contra hcon
      apply hne
      have h1 : m = m2 := by omega
      have h2 : s = s2 := by omega
      have h3 : c = c2 := by omega
      rw [h1, h2, h3]
    rcases hcases with hlt | hlt
    · have h := (slot_end_prefix_later meshlets data num_streams m s c m2 s2 c2 hs hc
        hlt).length_le
      rw [List.length_append] at h
      exact Or.inl h
    · have h := (slot_end_prefix_later meshlets data num_streams m2 s2 c2 m s c hs2 hc2
        hlt).length_le
      rw [List.length_append] at h
      exact Or.inr h
  · intro j hj
    rw [hpay] at hj
    obtain ⟨m, hm, hm1, hm2⟩ := flatMap_range_cover _ _ j hj
    have hj2 : j - ((List.range m).flatMap (meshlet_words meshlets data num_streams)).length
        < ((List.range num_streams).flatMap (stream_words meshlets data m)).length := by
      have : (meshlet_words meshlets data num_streams m).length
          = ((List.range num_streams).flatMap (stream_words meshlets data m)).length := rfl
      omega
    obtain ⟨s, hs, hs1, hs2⟩ := flatMap_range_cover _ _ _ hj2
    have hj3 : j - ((List.range m).flatMap (meshlet_words meshlets data num_streams)).length
          - ((List.range s).flatMap (stream_words meshlets data m)).length
        < ((List.range (meshlet_chunks meshlets.length m)).flatMap
            (slot_words meshlets data m s)).length := by
      have : (stream_words meshlets data m s).length
          = ((List.range (meshlet_chunks meshlets.length m)).flatMap
              (slot_words meshlets data m s)).length := rfl
      omega
    obtain ⟨c, hc, hc1, hc2⟩ := flatMap_range_cover _ _ _ hj3
    refine ⟨m, s, c, hm, hs, hc, ?_⟩
    rw [(hoff m s c hm hs hc).1]
    simp only [words_before, List.length_append]
    omega
  · rw [hpay, length_flatMap_range]
    congr 1
    apply List.map_congr_left
    intro m _
    show ((List.range num_streams).flatMap (stream_words meshlets data m)).length = _
    rw [length_flatMap_range]
    congr 1
    apply List.map_congr_left
    intro s _
    show ((List.range (meshlet_chunks meshlets.length m)).flatMap
      (slot_words meshlets data m s)).length = _
    rw [length_flatMap_range]

set_option maxRecDepth 100000 in
/-- Witness for C23: the two sample chunks with a primitive and a position
stream. -/
theorem payload_regions_partition_witness :
    (1 ≤ 2 ∧ 2 ≤ MaxStreams ∧
      (encode_mesh sample_chunks sample_stream_data [0, -2] 2).payload.length < 2 ^ 32) ∧
    (encode_mesh sample_chunks sample_stream_data [0, -2] 2).payload.length
      = ((List.range ((sample_chunks.length + NumChunks - 1) / NumChunks)).map fun m =>
          ((List.range 2).map fun s =>
            ((List.range (meshlet_chunks sample_chunks.length m)).map fun c =>
              (slot_words sample_chunks sample_stream_data m s c).length).sum).sum).sum :=
  ⟨⟨by decide, by decide, by decide⟩,
    (payload_regions_partition sample_chunks sample_stream_data [0, -2] 2 (by decide)
      (by decide) (by decide)).2.2.2⟩

/-! ## Grouping of chunks into meshlets -/

theorem map_eq_map_range {α β : Type} (l : List α) (d : α) (f : α → β) :
    l.map f = (List.range l.length).map fun i => f (l.getD i d) := by
  apply List.ext_getElem (by simp)
  intro i h1 h2
  simp only [List.length_map] at h1
  simp [List.getElem?_eq_getElem h1]

theorem sum_min_chunks (n : Nat) :
    ∀ M, ((List.range M).map fun m => min (n - 4 * m) 4).sum = min n (4 * M) := by
  intro M
  induction M with
  | zero => simp
  | succ M ih =>
    rw [List.sum_range_succ, ih]
    omega

/-- C28 (meshlet grouping): for a list of `n < 2^32` chunks, `encode_mesh`
produces exactly `ceil(n/4)` meshlets; meshlet `m` has
`num_chunks = min(4, n - 4m)` chunks, between 1 and 4, exactly 4 unless it is
the last one; its chunk slot `c` holds input chunk `4m + c` (the offset
recorded for the slot in the primitive stream points at the index words of
that chunk); and the `num_chunks` values sum to `n`. -/
theorem meshlet_grouping (meshlets : List Meshlet) (data : StreamData) (p_aux : List Int)
    (num_streams : Nat) (hn : meshlets.length < 2 ^ 32) :
    (encode_mesh meshlets data p_aux num_streams).mesh.meshlets.length
      = (meshlets.length + 3) / 4 ∧
    (meshlets.length ≤ 4 * (encode_mesh meshlets data p_aux num_streams).mesh.meshlets.length ∧
      4 * (encode_mesh meshlets data p_aux num_streams).mesh.meshlets.length
        < meshlets.length + 4) ∧
    (∀ m, m < (encode_mesh meshlets data p_aux num_streams).mesh.meshlets.length →
      ((encode_mesh meshlets data p_aux num_streams).mesh.meshlets.getD m
          Metadata.zero).num_chunks = min 4 (meshlets.length - 4 * m) ∧
      1 ≤ ((encode_mesh meshlets data p_aux num_streams).mesh.meshlets.getD m
          Metadata.zero).num_chunks ∧
      ((encode_mesh meshlets data p_aux num_streams).mesh.meshlets.getD m
          Metadata.zero).num_chunks ≤ 4 ∧
      (m + 1 < (encode_mesh meshlets data p_aux num_streams).mesh.meshlets.length →
        ((encode_mesh meshlets data p_aux num_streams).mesh.meshlets.getD m
          Metadata.zero).num_chunks = 4) ∧
      ∀ c, c < ((encode_mesh meshlets data p_aux num_streams).mesh.meshlets.getD m
          Metadata.zero).num_chunks → ∃ off,
        (encode_mesh meshlets data p_aux num_streams).offset m 0 c = off % 2 ^ 32 ∧
        HasSegment (encode_mesh meshlets data p_aux num_streams).payload off
          (index_words (meshlets.getD (4 * m + c) Meshlet.zero))) ∧
    ((encode_mesh meshlets data p_aux num_streams).mesh.meshlets.map
      fun md => md.num_chunks).sum = meshlets.length := by
  obtain ⟨hlen, hspec⟩ := encode_mesh_loop_spec meshlets data p_aux num_streams
    ({ payload := [],
       mesh := { stream_count := num_streams, mesh_style := 0, meshlets := [] } }, 0) rfl
    ((meshlets.length + NumChunks - 1) / NumChunks)
  rw [← encode_mesh_eq] at hlen hspec
  have hM : (meshlets.length + NumChunks - 1) / NumChunks = (meshlets.length + 3) / 4 := rfl
  rw [hM] at hlen hspec
  have hnc : ∀ m, m < (meshlets.length + 3) / 4 →
      ((encode_mesh meshlets data p_aux num_streams).mesh.meshlets.getD m
        Metadata.zero).num_chunks = min (meshlets.length - 4 * m) 4 := by
    intro m hm
    rw [(hspec m hm).1]
    simp only [NumChunks]
    rw [Nat.mod_eq_of_lt (by omega), Nat.mul_comm]
  rw [hlen]
  refine ⟨rfl, by omega, ?_, ?_⟩
  · intro m hm
    have h1 := hnc m hm
    refine ⟨by rw [h1]; exact Nat.min_comm _ _, by rw [h1]; omega, by rw [h1]; omega,
      fun h => by rw [h1]; omega, ?_⟩
    intro c hc
    obtain ⟨off, ho, hs⟩ := (hspec m hm).2 c hc
    refine ⟨off, ho, ?_⟩
    have hidx : 4 * m + c = m * NumChunks + c := by simp only [NumChunks]; omega
    rw [hidx]
    exact hs
  · rw [map_eq_map_range _ Metadata.zero, hlen]
    have hcongr : ((List.range ((meshlets.length + 3) / 4)).map fun i =>
          ((encode_mesh meshlets data p_aux num_streams).mesh.meshlets.getD i
            Metadata.zero).num_chunks)
        = (List.range ((meshlets.length + 3) / 4)).map fun m =>
            min (meshlets.length - 4 * m) 4 := by
      apply List.map_congr_left
      intro m hm
      exact hnc m (List.mem_range.mp hm)
    rw [hcongr, sum_min_chunks]
    omega

/-- Witness for C28: the two sample chunks make one meshlet of two chunks. -/
theorem meshlet_grouping_witness :
    sample_chunks.length < 2 ^ 32 ∧
    (encode_mesh sample_chunks sample_stream_data [0, -2] 2).mesh.meshlets.length
      = (sample_chunks.length + 3) / 4 ∧
    ((encode_mesh sample_chunks sample_stream_data [0, -2] 2).mesh.meshlets.map
      fun md => md.num_chunks).sum = sample_chunks.length :=
  ⟨by decide,
    (meshlet_grouping sample_chunks sample_stream_data [0, -2] 2 (by decide)).1,
    (meshlet_grouping sample_chunks sample_stream_data [0, -2] 2 (by decide)).2.2.2⟩

/-! ## Tangent signs of the normal/tangent stream -/

theorem encode_attribute_stream_aux (T : AttrType) (p : List Nat) (stream : Stream)
    (raw : List (List Nat)) (c : Nat) (remap : Option (List Nat)) (n : Nat) :
    (encode_attribute_stream T p stream raw c remap n).2.aux = stream.aux := rfl

/-- The `NormalTangentOct8` case as one call of `encode_attribute_stream`. -/
theorem encode_normal_tangent_chunk_eq (p : List Nat) (stream : Stream)
    (nt : List NormalTangent) (meshlet : Meshlet) (c : Nat) :
    encode_normal_tangent_chunk p stream nt meshlet c
      = encode_attribute_stream AttrType.u8vec4 p
          { stream with
            aux := Int.lor stream.aux ((nt_aux_code nt meshlet <<< (2 * c) : Nat) : Int) }
          (nt_packed nt meshlet) c none meshlet.vertex_count := by
  unfold encode_normal_tangent_chunk nt_packed nt_aux_code nt_final_mask
  simp only
  generalize nt_sign_mask nt meshlet = M0
  generalize nt_gather nt meshlet = G
  by_cases h1 : meshlet.vertex_count < VerticesPerChunk ∧
      M0 = ((1 <<< meshlet.vertex_count) % 2 ^ 32 + 2 ^ 32 - 1) % 2 ^ 32
  · have e1 : ¬ ((2 : Nat) ^ 32 - 1 = 0) := by norm_num
    simp only [if_pos h1, if_neg e1, if_true]
    have e2 : ¬ ((2 : Nat) = 3) := by norm_num
    rw [if_neg e2]
  · simp only [if_neg h1]
    by_cases h2 : M0 = 0
    · have e2 : ¬ ((1 : Nat) = 3) := by norm_num
      simp only [if_pos h2, if_neg e2]
    · simp only [if_neg h2]
      by_cases h3 : M0 = 2 ^ 32 - 1
      · have e2 : ¬ ((2 : Nat) = 3) := by norm_num
        simp only [if_pos h3, if_neg e2]
      · simp only [if_neg h3, if_true]

theorem sign_mask_fold_testBit (b : Nat → Bool) :
    ∀ k, k ≤ 32 → ∀ j,
      ((List.range k).foldl
        (fun mask i => mask ||| (((if b i then 1 else 0) <<< i) % 2 ^ 32)) 0).testBit j
        = (decide (j < k) && b j) := by
  intro k
  induction k with
  | zero => intro _ j; simp
  | succ k ih =>
    intro hk j
    simp only [List.range_succ, List.foldl_append, List.foldl_cons, List.foldl_nil,
      Nat.testBit_or, ih (by omega) j, Nat.testBit_mod_two_pow, Nat.testBit_shiftLeft]
    by_cases hjk : j = k
    · subst hjk
      have h32 : j < 32 := by omega
      cases hb : b j <;> simp [h32]
    · have hbit : (if b k = true then 1 else 0 : Nat).testBit (j - k) = (decide (j = k) && b k)
          ∨ ¬ (j ≥ k) := by
        by_cases hge : j ≥ k
        · left
          have hpos : j - k = (j - k - 1) + 1 := by omega
          rw [hpos, Nat.testBit_succ]
          cases b k <;> simp [hjk]
        · exact Or.inr hge
      rcases hbit with hbit | hlt
      · rw [hbit]
        by_cases hlt : j < k
        · have : j < k + 1 := by omega
          simp [hlt, this, hjk]
        · have : ¬ j < k + 1 := by omega
          simp [hlt, this, hjk]
      · have h1 : j < k := by omega
        have h2 : j < k + 1 := by omega
        have h3 : ¬ j ≥ k := hlt
        simp [h1, h2, h3]

theorem nt_sign_mask_testBit (nt : List NormalTangent) (meshlet : Meshlet)
    (hvc : meshlet.vertex_count ≤ 32) (j : Nat) :
    (nt_sign_mask nt meshlet).testBit j
      = (decide (j < meshlet.vertex_count) && tangent_sign nt meshlet j) :=
  sign_mask_fold_testBit (tangent_sign nt meshlet) meshlet.vertex_count hvc j

theorem full_mask_eq (vc : Nat) (hvc : vc < 32) :
    ((1 <<< vc) % 2 ^ 32 + 2 ^ 32 - 1) % 2 ^ 32 = 2 ^ vc - 1 := by
  have h1 : (2 : Nat) ^ vc < 2 ^ 32 := Nat.pow_lt_pow_right (by norm_num) hvc
  have h2 : 0 < (2 : Nat) ^ vc := Nat.two_pow_pos vc
  rw [Nat.one_shiftLeft, Nat.mod_eq_of_lt h1]
  generalize (2 : Nat) ^ vc = X at h1 h2
  omega

/-- The mask after the promotion, by the signs of the chunk. -/
theorem nt_final_mask_spec (nt : List NormalTangent) (meshlet : Meshlet)
    (hvc1 : 1 ≤ meshlet.vertex_count) (hvc : meshlet.vertex_count ≤ 32) :
    ((∀ i, i < meshlet.vertex_count → tangent_sign nt meshlet i = false) →
      nt_final_mask nt meshlet = 0) ∧
    ((∀ i, i < meshlet.vertex_count → tangent_sign nt meshlet i = true) →
      nt_final_mask nt meshlet = 2 ^ 32 - 1) ∧
    ((∃ i j, i < meshlet.vertex_count ∧ j < meshlet.vertex_count ∧
        tangent_sign nt meshlet i = true ∧ tangent_sign nt meshlet j = false) →
      nt_final_mask nt meshlet = nt_sign_mask nt meshlet ∧
      nt_final_mask nt meshlet ≠ 0 ∧ nt_final_mask nt meshlet ≠ 2 ^ 32 - 1) := by
  have hbit := nt_sign_mask_testBit nt meshlet hvc
  have hpow1 : 1 < (2 : Nat) ^ meshlet.vertex_count := Nat.one_lt_two_pow (by omega)
  refine ⟨?_, ?_, ?_⟩
  · intro hnone
    have h0 : nt_sign_mask nt meshlet = 0 := by
      apply Nat.eq_of_testBit_eq
      intro j
      rw [hbit j, Nat.zero_testBit]
      by_cases hj : j < meshlet.vertex_count
      · simp [hnone j hj]
      · simp [hj]
    unfold nt_final_mask
    rw [h0]
    have hc : ¬ (meshlet.vertex_count < VerticesPerChunk ∧
        0 = ((1 <<< meshlet.vertex_count) % 2 ^ 32 + 2 ^ 32 - 1) % 2 ^ 32) := by
      rintro ⟨h1, h2⟩
      rw [full_mask_eq _ h1] at h2
      omega
    rw [if_neg hc]
  · intro hall
    have h0 : nt_sign_mask nt meshlet = 2 ^ meshlet.vertex_count - 1 := by
      apply Nat.eq_of_testBit_eq
      intro j
      rw [hbit j, Nat.testBit_two_pow_sub_one]
      by_cases hj : j < meshlet.vertex_count
      · simp [hall j hj, hj]
      · simp [hj]
    unfold nt_final_mask
    by_cases h32 : meshlet.vertex_count < VerticesPerChunk
    · have hc : meshlet.vertex_count < VerticesPerChunk ∧
          nt_sign_mask nt meshlet
            = ((1 <<< meshlet.vertex_count) % 2 ^ 32 + 2 ^ 32 - 1) % 2 ^ 32 :=
        ⟨h32, by rw [full_mask_eq _ h32, h0]⟩
      rw [if_pos hc]
    · have hc : ¬ (meshlet.vertex_count < VerticesPerChunk ∧
          nt_sign_mask nt meshlet
            = ((1 <<< meshlet.vertex_count) % 2 ^ 32 + 2 ^ 32 - 1) % 2 ^ 32) :=
        fun h => h32 h.1
      have h32e : meshlet.vertex_count = 32 := by
        have : VerticesPerChunk = 32 := rfl
        omega
      rw [if_neg hc, h0, h32e]
  · rintro ⟨i, j, hi, hj, hsi, hsj⟩
    have hbi : (nt_sign_mask nt meshlet).testBit i = true := by
      rw [hbit i]; simp [hi, hsi]
    have hbj : (nt_sign_mask nt meshlet).testBit j = false := by
      rw [hbit j]; simp [hsj]
    have hne0 : nt_sign_mask nt meshlet ≠ 0 := by
      intro h
      rw [h, Nat.zero_testBit] at hbi
      cases hbi
    have hnefull : ∀ w, meshlet.vertex_count ≤ w → nt_sign_mask nt meshlet ≠ 2 ^ w - 1 := by
      intro w hw h
      rw [h, Nat.testBit_two_pow_sub_one] at hbj
      have : j < w := by omega
      simp [this] at hbj
    have hc : ¬ (meshlet.vertex_count < VerticesPerChunk ∧
        nt_sign_mask nt meshlet
          = ((1 <<< meshlet.vertex_count) % 2 ^ 32 + 2 ^ 32 - 1) % 2 ^ 32) := by
      rintro ⟨h1, h2⟩
      rw [full_mask_eq _ h1] at h2
      exact hnefull _ (Nat.le_refl _) h2
    unfold nt_final_mask
    rw [if_neg hc]
    exact ⟨rfl, hne0, hnefull 32 hvc⟩

/-- The code written to `aux`, by the signs of the chunk. -/
theorem nt_aux_code_spec (nt : List NormalTangent) (meshlet : Meshlet)
    (hvc1 : 1 ≤ meshlet.vertex_count) (hvc : meshlet.vertex_count ≤ 32) :
    ((∀ i, i < meshlet.vertex_count → tangent_sign nt meshlet i = false) →
      nt_aux_code nt meshlet = 1) ∧
    ((∀ i, i < meshlet.vertex_count → tangent_sign nt meshlet i = true) →
      nt_aux_code nt meshlet = 2) ∧
    ((∃ i j, i < meshlet.vertex_count ∧ j < meshlet.vertex_count ∧
        tangent_sign nt meshlet i = true ∧ tangent_sign nt meshlet j = false) →
      nt_aux_code nt meshlet = 3) := by
  obtain ⟨h1, h2, h3⟩ := nt_final_mask_spec nt meshlet hvc1 hvc
  unfold nt_aux_code
  refine ⟨fun h => ?_, fun h => ?_, fun h => ?_⟩
  · rw [if_pos (h1 h)]
  · have e : ¬ ((2 : Nat) ^ 32 - 1 = 0) := by norm_num
    rw [h2 h, if_neg e, if_pos rfl]
  · obtain ⟨_, g1, g2⟩ := h3 h
    rw [if_neg g1, if_neg g2]

theorem nt_aux_code_range (nt : List NormalTangent) (meshlet : Meshlet) :
    1 ≤ nt_aux_code nt meshlet ∧ nt_aux_code nt meshlet < 4 := by
  unfold nt_aux_code
  split_ifs <;> omega

theorem encode_attribute_chunk_aux (meshlets : List Meshlet) (data : StreamData)
    (m : Nat) (st : List Nat × Stream) (c : Nat) :
    (encode_attribute_chunk meshlets data m 2 st c).2.aux
      = Int.lor st.2.aux
          ((nt_aux_code data.normal_tangent
            (meshlets.getD (m * NumChunks + c) Meshlet.zero) <<< (2 * c) : Nat) : Int) := by
  show (encode_normal_tangent_chunk st.1 _ data.normal_tangent
    (meshlets.getD (m * NumChunks + c) Meshlet.zero) c).2.aux = _
  rw [encode_normal_tangent_chunk_eq, encode_attribute_stream_aux]

/-- The `aux` word of the normal/tangent stream after `k` chunks, started at a
non-negative value: the codes of the chunks, each shifted to its slot. -/
theorem attribute_chunk_loop_aux (meshlets : List Meshlet) (data : StreamData) (m : Nat)
    (st0 : List Nat × Stream) (A0 : Nat) (h0 : st0.2.aux = (A0 : Int)) :
    ∀ k,
      ((List.range k).foldl (encode_attribute_chunk meshlets data m 2) st0).2.aux
        = (((List.range k).foldl
            (fun a c => a ||| (nt_aux_code data.normal_tangent
              (meshlets.getD (m * NumChunks + c) Meshlet.zero) <<< (2 * c))) A0 : Nat) : Int) := by
  intro k
  induction k with
  | zero => simpa using h0
  | succ k ih =>
    simp only [List.range_succ, List.foldl_append, List.foldl_cons, List.foldl_nil]
    rw [encode_attribute_chunk_aux, ih]
    rfl

theorem code_fold_testBit (code : Nat → Nat) (hcode : ∀ c, code c < 4) :
    ∀ k j,
      ((List.range k).foldl (fun a c => a ||| (code c <<< (2 * c))) 0).testBit j
        = (decide (j / 2 < k) && (code (j / 2)).testBit (j % 2)) := by
  intro k
  induction k with
  | zero => intro j; simp
  | succ k ih =>
    intro j
    simp only [List.range_succ, List.foldl_append, List.foldl_cons, List.foldl_nil,
      Nat.testBit_or, ih j, Nat.testBit_shiftLeft]
    rcases Nat.lt_trichotomy (j / 2) k with hlt | heq | hgt
    · have h1 : j / 2 < k + 1 := by omega
      have h2 : ¬ j ≥ 2 * k := by omega
      simp [hlt, h1, h2]
    · have h1 : j / 2 < k + 1 := by omega
      have h2 : j ≥ 2 * k := by omega
      have h3 : ¬ j / 2 < k := by omega
      have h4 : j - 2 * k = j % 2 := by omega
      simp [h1, h2, h3, h4, heq]
    · have h1 : ¬ j / 2 < k + 1 := by omega
      have h3 : ¬ j / 2 < k := by omega
      have h4 : (code k).testBit (j - 2 * k) = false := by
        apply Nat.testBit_lt_two_pow
        calc code k < 4 := hcode k
          _ = 2 ^ 2 := by norm_num
          _ ≤ 2 ^ (j - 2 * k) := Nat.pow_le_pow_right (by norm_num) (by omega)
      simp [h1, h3, h4]

theorem code_fold_field (code : Nat → Nat) (hcode : ∀ c, code c < 4) (k c : Nat) :
    ((List.range k).foldl (fun a c => a ||| (code c <<< (2 * c))) 0) / 2 ^ (2 * c) % 4
      = if c < k then code c else 0 := by
  apply Nat.eq_of_testBit_eq
  intro i
  have h4 : (4 : Nat) = 2 ^ 2 := by norm_num
  rw [h4, Nat.testBit_mod_two_pow, ← Nat.shiftRight_eq_div_pow, Nat.testBit_shiftRight,
    code_fold_testBit code hcode]
  by_cases hi : i < 2
  · have h1 : (2 * c + i) / 2 = c := by omega
    have h2 : (2 * c + i) % 2 = i := by omega
    rw [h1, h2]
    by_cases hck : c < k
    · simp [hi, hck]
    · simp [hi, hck]
  · have hhigh : (code c).testBit i = false := by
      apply Nat.testBit_lt_two_pow
      calc code c < 4 := hcode c
        _ = 2 ^ 2 := by norm_num
        _ ≤ 2 ^ i := Nat.pow_le_pow_right (by norm_num) (by omega)
    by_cases hck : c < k
    · simp [hi, hck, hhigh]
    · simp [hi, hck]

theorem code_fold_lt (code : Nat → Nat) (hcode : ∀ c, code c < 4) (k : Nat) :
    ((List.range k).foldl (fun a c => a ||| (code c <<< (2 * c))) 0) < 2 ^ (2 * k) := by
  apply Nat.lt_pow_two_of_testBit
  intro j hj
  rw [code_fold_testBit code hcode]
  have : ¬ j / 2 < k := by omega
  simp [this]

/-- The sign fields of the normal/tangent stream of an output meshlet: slot
`c` holds the code of input chunk `m * NumChunks + c`, an unused slot holds
0, and nothing is stored beyond the slots. -/
theorem attribute_stream_sign_field (meshlets : List Meshlet) (data : StreamData)
    (p_aux : List Int) (m : Nat) (p : List Nat) (haux : p_aux.getD 2 0 = 0) (c : Nat) :
    (attribute_stream meshlets data p_aux m 2 p).sign_field c
      = (if c < meshlet_chunks meshlets.length m then
          ((nt_aux_code data.normal_tangent
            (meshlets.getD (m * NumChunks + c) Meshlet.zero) : Nat) : Int)
        else 0) ∧
    0 ≤ (attribute_stream meshlets data p_aux m 2 p).aux ∧
    (attribute_stream meshlets data p_aux m 2 p).aux < 256 := by
  have hcode : ∀ c, nt_aux_code data.normal_tangent
      (meshlets.getD (m * NumChunks + c) Meshlet.zero) < 4 :=
    fun c => (nt_aux_code_range _ _).2
  have hfold := attribute_chunk_loop_aux meshlets data m
    (p, { Stream.zero with aux := p_aux.getD 2 0 }) 0 (by simpa using haux)
    (meshlet_chunks meshlets.length m)
  have hA : (attribute_stream meshlets data p_aux m 2 p).aux
      = (((List.range (meshlet_chunks meshlets.length m)).foldl
          (fun a c => a ||| (nt_aux_code data.normal_tangent
            (meshlets.getD (m * NumChunks + c) Meshlet.zero) <<< (2 * c))) 0 : Nat) : Int) :=
    hfold
  have hfield := code_fold_field _ hcode (meshlet_chunks meshlets.length m) c
  have hlt := code_fold_lt _ hcode (meshlet_chunks meshlets.length m)
  have hk := meshlet_chunks_le meshlets.length m
  unfold Stream.sign_field
  rw [hA]
  generalize (List.range (meshlet_chunks meshlets.length m)).foldl
    (fun a c => a ||| (nt_aux_code data.normal_tangent
      (meshlets.getD (m * NumChunks + c) Meshlet.zero) <<< (2 * c))) 0 = A at hfield hlt
  refine ⟨?_, Int.ofNat_nonneg A, ?_⟩
  · have hcast : ((A : Int) / 2 ^ (2 * c)) % 4 = ((A / 2 ^ (2 * c) % 4 : Nat) : Int) := by
      push_cast
      rfl
    rw [hcast, hfield]
    split_ifs <;> rfl
  · have h8 : (2 : Nat) ^ (2 * meshlet_chunks meshlets.length m) ≤ 2 ^ 8 :=
      Nat.pow_le_pow_right (by norm_num) (by omega)
    have : A < 256 := by
      have e : (2 : Nat) ^ 8 = 256 := by norm_num
      omega
    exact_mod_cast this

set_option maxRecDepth 1000000 in
theorem replace_low_bit :
    ∀ v, v < 256 → ∀ b, b < 2 →
      ((v &&& 0xfe) ||| b) % 2 = b ∧ ((v &&& 0xfe) ||| b) / 2 = v / 2 := by
  decide

theorem nt_gather_getD (nt : List NormalTangent) (meshlet : Meshlet) (i : Nat)
    (hi : i < meshlet.vertex_count) (hvc : meshlet.vertex_count ≤ 32) :
    (nt_gather nt meshlet).getD i [] = oct_bytes nt meshlet i := by
  have h32 : i < 32 := by omega
  unfold nt_gather
  rw [List.getD_eq_getElem _ _ (by simpa [VerticesPerChunk, IBOBits] using h32)]
  simp only [List.getElem_map, List.getElem_range, if_pos hi]
  rfl

theorem to_unsigned_lt (w : Nat) (x : Int) : to_unsigned w x < 2 ^ w := by
  unfold to_unsigned
  have hpos : (0 : Int) < 2 ^ w := by positivity
  have h1 := Int.emod_lt_of_pos x hpos
  have h2 := Int.emod_nonneg x (ne_of_gt hpos)
  have h3 : ((x % 2 ^ w).toNat : Int) = x % 2 ^ w := Int.toNat_of_nonneg h2
  have h4 : ((x % 2 ^ w).toNat : Int) < ((2 ^ w : Nat) : Int) := by
    rw [h3]
    exact_mod_cast h1
  exact_mod_cast h4

theorem sign_mask_bit (nt : List NormalTangent) (meshlet : Meshlet) (i : Nat)
    (hi : i < meshlet.vertex_count) (hvc : meshlet.vertex_count ≤ 32) :
    (nt_sign_mask nt meshlet >>> i) &&& 1 = if tangent_sign nt meshlet i then 1 else 0 := by
  rw [Nat.and_one_is_mod, Nat.shiftRight_eq_div_pow, ← Nat.toNat_testBit,
    nt_sign_mask_testBit nt meshlet hvc i]
  cases tangent_sign nt meshlet i <;> simp [hi]

/-- C25 (explicit sign bits only in the mixed case): for a chunk of
`1 <= vertex_count <= 32` vertices, the `NormalTangentOct8` case hands the
array `nt_packed` to `encode_attribute_stream`.  For a chunk with mixed
tangent signs, the first three packed components of vertex `i` are its
octahedral bytes and the fourth is the tangent's second octahedral byte with
its lowest bit replaced by the sign bit of vertex `i`, the upper seven bits
unchanged; for a chunk whose signs are all positive or all negative, the four
packed components of every vertex are its octahedral bytes unchanged. -/
theorem sign_bits_only_when_mixed (nt : List NormalTangent) (meshlet : Meshlet)
    (hvc1 : 1 ≤ meshlet.vertex_count) (hvc : meshlet.vertex_count ≤ 32) :
    (∀ (payload : List Nat) (stream : Stream) (c : Nat),
      encode_normal_tangent_chunk payload stream nt meshlet c
        = encode_attribute_stream AttrType.u8vec4 payload
            { stream with
              aux := Int.lor stream.aux ((nt_aux_code nt meshlet <<< (2 * c) : Nat) : Int) }
            (nt_packed nt meshlet) c none meshlet.vertex_count) ∧
    ((∃ i j, i < meshlet.vertex_count ∧ j < meshlet.vertex_count ∧
        tangent_sign nt meshlet i = true ∧ tangent_sign nt meshlet j = false) →
      ∀ i, i < meshlet.vertex_count →
        ((nt_packed nt meshlet).getD i []).length = 4 ∧
        ((nt_packed nt meshlet).getD i []).getD 0 0 = (oct_bytes nt meshlet i).getD 0 0 ∧
        ((nt_packed nt meshlet).getD i []).getD 1 0 = (oct_bytes nt meshlet i).getD 1 0 ∧
        ((nt_packed nt meshlet).getD i []).getD 2 0 = (oct_bytes nt meshlet i).getD 2 0 ∧
        ((nt_packed nt meshlet).getD i []).getD 3 0 % 2
          = (if tangent_sign nt meshlet i then 1 else 0) ∧
        ((nt_packed nt meshlet).getD i []).getD 3 0 / 2
          = (oct_bytes nt meshlet i).getD 3 0 / 2) ∧
    (((∀ i, i < meshlet.vertex_count → tangent_sign nt meshlet i = false) ∨
        (∀ i, i < meshlet.vertex_count → tangent_sign nt meshlet i = true)) →
      ∀ i, i < meshlet.vertex_count →
        (nt_packed nt meshlet).getD i [] = oct_bytes nt meshlet i) := by
  obtain ⟨hc1, hc2, hc3⟩ := nt_aux_code_spec nt meshlet hvc1 hvc
  obtain ⟨_, _, hm3⟩ := nt_final_mask_spec nt meshlet hvc1 hvc
  refine ⟨fun payload stream c => encode_normal_tangent_chunk_eq payload stream nt meshlet c,
    ?_, ?_⟩
  · intro hmixed i hi
    have h32 : i < 32 := by omega
    have hpacked : (nt_packed nt meshlet).getD i []
        = (oct_bytes nt meshlet i).set 3
            (((oct_bytes nt meshlet i).getD 3 0 &&& 0xfe)
              ||| (if tangent_sign nt meshlet i then 1 else 0)) := by
      unfold nt_packed
      rw [if_pos (hc3 hmixed),
        List.getD_eq_getElem _ _ (by simpa [VerticesPerChunk, IBOBits] using h32)]
      simp only [List.getElem_map, List.getElem_range, if_pos hi]
      rw [nt_gather_getD nt meshlet i hi hvc, (hm3 hmixed).1, sign_mask_bit nt meshlet i hi hvc]
    have hlow := replace_low_bit ((oct_bytes nt meshlet i).getD 3 0)
      (to_unsigned_lt 8 _) (if tangent_sign nt meshlet i then 1 else 0)
      (by split_ifs <;> omega)
    rw [hpacked]
    exact ⟨rfl, rfl, rfl, rfl, hlow.1, hlow.2⟩
  · intro hsame i hi
    have hne : nt_aux_code nt meshlet ≠ 3 := by
      rcases hsame with h | h
      · rw [hc1 h]; decide
      · rw [hc2 h]; decide
    unfold nt_packed
    rw [if_neg hne]
    exact nt_gather_getD nt meshlet i hi hvc

/-- C24 (tangent sign classification): when `encode_mesh` encodes the
normal/tangent stream (`num_streams > 2`, at most `MaxStreams`) with
`p_aux[NormalTangentOct8] = 0`, as the exporter does, then in the `aux` word
of that stream of every output meshlet the two-bit field of a used slot `c`
whose chunk has `1 <= vertex_count <= 32` vertices holds 1 when no vertex of
the chunk has a negative tangent sign, 2 when every vertex has, and 3 when the
signs are mixed; the field of an unused slot is 0; and `aux` has no bit
outside the four fields, each of which is read back on its own. -/
theorem tangent_sign_classification (meshlets : List Meshlet) (data : StreamData)
    (p_aux : List Int) (num_streams : Nat)
    (hns : StreamType.NormalTangentOct8 < num_streams) (hns8 : num_streams ≤ MaxStreams)
    (haux : p_aux.getD StreamType.NormalTangentOct8 0 = 0)
    (m : Nat) (hm : m < (meshlets.length + NumChunks - 1) / NumChunks) (c : Nat) :
    (c < meshlet_chunks meshlets.length m →
      1 ≤ (meshlets.getD (m * NumChunks + c) Meshlet.zero).vertex_count →
      (meshlets.getD (m * NumChunks + c) Meshlet.zero).vertex_count ≤ 32 →
      ((∀ i, i < (meshlets.getD (m * NumChunks + c) Meshlet.zero).vertex_count →
          tangent_sign data.normal_tangent
            (meshlets.getD (m * NumChunks + c) Meshlet.zero) i = false) →
        (((encode_mesh meshlets data p_aux num_streams).mesh.meshlets.getD m
          Metadata.zero).streams.getD StreamType.NormalTangentOct8 Stream.zero).sign_field c
          = 1) ∧
      ((∀ i, i < (meshlets.getD (m * NumChunks + c) Meshlet.zero).vertex_count →
          tangent_sign data.normal_tangent
            (meshlets.getD (m * NumChunks + c) Meshlet.zero) i = true) →
        (((encode_mesh meshlets data p_aux num_streams).mesh.meshlets.getD m
          Metadata.zero).streams.getD StreamType.NormalTangentOct8 Stream.zero).sign_field c
          = 2) ∧
      ((∃ i j, i < (meshlets.getD (m * NumChunks + c) Meshlet.zero).vertex_count ∧
          j < (meshlets.getD (m * NumChunks + c) Meshlet.zero).vertex_count ∧
          tangent_sign data.normal_tangent
            (meshlets.getD (m * NumChunks + c) Meshlet.zero) i = true ∧
          tangent_sign data.normal_tangent
            (meshlets.getD (m * NumChunks + c) Meshlet.zero) j = false) →
        (((encode_mesh meshlets data p_aux num_streams).mesh.meshlets.getD m
          Metadata.zero).streams.getD StreamType.NormalTangentOct8 Stream.zero).sign_field c
          = 3)) ∧
    (meshlet_chunks meshlets.length m ≤ c →
      (((encode_mesh meshlets data p_aux num_streams).mesh.meshlets.getD m
        Metadata.zero).streams.getD StreamType.NormalTangentOct8 Stream.zero).sign_field c
        = 0) ∧
    0 ≤ (((encode_mesh meshlets data p_aux num_streams).mesh.meshlets.getD m
      Metadata.zero).streams.getD StreamType.NormalTangentOct8 Stream.zero).aux ∧
    (((encode_mesh meshlets data p_aux num_streams).mesh.meshlets.getD m
      Metadata.zero).streams.getD StreamType.NormalTangentOct8 Stream.zero).aux < 256 := by
  have h2 : StreamType.NormalTangentOct8 = 2 := rfl
  rw [h2] at hns haux ⊢
  obtain ⟨_, _, _, hspec⟩ := encode_mesh_loop_exact meshlets data p_aux num_streams
    (by omega) hns8
    ({ payload := [],
       mesh := { stream_count := num_streams, mesh_style := 0, meshlets := [] } }, 0) rfl rfl
    ((meshlets.length + NumChunks - 1) / NumChunks)
  obtain ⟨_, _, _, hss, _⟩ := hspec m hm
  rw [encode_mesh_eq, hss 2 (by omega) hns]
  obtain ⟨hfield, hnonneg, hlt⟩ := attribute_stream_sign_field meshlets data p_aux m
    (words_before meshlets data num_streams m 2 0) haux c
  refine ⟨?_, ?_, hnonneg, hlt⟩
  · intro hc hvc1 hvc
    obtain ⟨g1, g2, g3⟩ := nt_aux_code_spec data.normal_tangent
      (meshlets.getD (m * NumChunks + c) Meshlet.zero) hvc1 hvc
    rw [hfield, if_pos hc]
    exact ⟨fun h => by rw [g1 h]; rfl, fun h => by rw [g2 h]; rfl, fun h => by rw [g3 h]; rfl⟩
  · intro hc
    rw [hfield, if_neg (by omega)]

set_option maxRecDepth 100000 in
/-- Witness for C24: the second sample chunk, all of whose tangent signs are
negative. -/
theorem tangent_sign_classification_witness :
    (StreamType.NormalTangentOct8 < 4 ∧ 4 ≤ MaxStreams ∧
      ([0, -2, 0, -3] : List Int).getD StreamType.NormalTangentOct8 0 = 0 ∧
      0 < (sample_chunks.length + NumChunks - 1) / NumChunks) ∧
    (((encode_mesh sample_chunks sample_textured_data [0, -2, 0, -3] 4).mesh.meshlets.getD 0
      Metadata.zero).streams.getD StreamType.NormalTangentOct8 Stream.zero).sign_field 1 = 2 :=
  ⟨⟨by decide, by decide, by decide, by decide⟩,
    ((tangent_sign_classification sample_chunks sample_textured_data [0, -2, 0, -3] 4
      (by decide) (by decide) (by decide) 0 (by decide) 1).1 (by decide) (by decide)
      (by decide)).2.1 (by decide)⟩

/-- Witness for C25: the first sample chunk, whose tangent signs are mixed. -/
theorem sign_bits_only_when_mixed_witness :
    (1 ≤ (sample_chunks.getD 0 Meshlet.zero).vertex_count ∧
      (sample_chunks.getD 0 Meshlet.zero).vertex_count ≤ 32) ∧
    encode_normal_tangent_chunk [] Stream.zero sample_normal_tangent
        (sample_chunks.getD 0 Meshlet.zero) 0
      = encode_attribute_stream AttrType.u8vec4 []
          { Stream.zero with
            aux := Int.lor Stream.zero.aux
              ((nt_aux_code sample_normal_tangent (sample_chunks.getD 0 Meshlet.zero)
                <<< (2 * 0) : Nat) : Int) }
          (nt_packed sample_normal_tangent (sample_chunks.getD 0 Meshlet.zero)) 0 none
          (sample_chunks.getD 0 Meshlet.zero).vertex_count :=
  ⟨⟨by decide, by decide⟩,
    (sign_bits_only_when_mixed sample_normal_tangent (sample_chunks.getD 0 Meshlet.zero)
      (by decide) (by decide)).1 [] Stream.zero 0⟩

/-! ## The exported container by style -/

theorem assign_bounds_length (meshlets : List Metadata) (bounds : List meshopt_Bounds) :
    (assign_bounds meshlets bounds).length = meshlets.length := by
  simp [assign_bounds]

theorem assign_bounds_getD (meshlets : List Metadata) (bounds : List meshopt_Bounds) (m : Nat)
    (hm : m < meshlets.length) :
    ((assign_bounds meshlets bounds).getD m Metadata.zero).streams
        = (meshlets.getD m Metadata.zero).streams ∧
    ((assign_bounds meshlets bounds).getD m Metadata.zero).num_chunks
        = (meshlets.getD m Metadata.zero).num_chunks ∧
    ((assign_bounds meshlets bounds).getD m Metadata.zero).base_vertex_offset
        = (meshlets.getD m Metadata.zero).base_vertex_offset := by
  unfold assign_bounds
  rw [List.getD_eq_getElem _ _ (by simpa using hm)]
  simp [List.getElem_map, List.getElem_range]

/-- What `cluster_and_encode` returns, in terms of the call of `encode_mesh`. -/
theorem cluster_and_encode_fields (lib : MeshOptimizer) (mesh : Mesh) (style : Nat)
    (s : ExportStreams) :
    (cluster_and_encode lib mesh style s).payload
      = (encode_mesh (export_chunks lib mesh s) (export_data s) s.aux
          (s.num_attribute_streams + 1)).payload ∧
    (cluster_and_encode lib mesh style s).mesh.stream_count
      = (encode_mesh (export_chunks lib mesh s) (export_data s) s.aux
          (s.num_attribute_streams + 1)).mesh.stream_count ∧
    (cluster_and_encode lib mesh style s).mesh.mesh_style = style ∧
    (cluster_and_encode lib mesh style s).mesh.meshlets.length
      = (encode_mesh (export_chunks lib mesh s) (export_data s) s.aux
          (s.num_attribute_streams + 1)).mesh.meshlets.length ∧
    ∀ m, m < (encode_mesh (export_chunks lib mesh s) (export_data s) s.aux
          (s.num_attribute_streams + 1)).mesh.meshlets.length →
      ((cluster_and_encode lib mesh style s).mesh.meshlets.getD m Metadata.zero).streams
        = ((encode_mesh (export_chunks lib mesh s) (export_data s) s.aux
            (s.num_attribute_streams + 1)).mesh.meshlets.getD m Metadata.zero).streams ∧
      ((cluster_and_encode lib mesh style s).mesh.meshlets.getD m Metadata.zero).num_chunks
        = ((encode_mesh (export_chunks lib mesh s) (export_data s) s.aux
            (s.num_attribute_streams + 1)).mesh.meshlets.getD m Metadata.zero).num_chunks := by
  refine ⟨rfl, rfl, rfl, assign_bounds_length _ _, fun m hm => ?_⟩
  obtain ⟨h1, h2, _⟩ := assign_bounds_getD
    (encode_mesh (export_chunks lib mesh s) (export_data s) s.aux
      (s.num_attribute_streams + 1)).mesh.meshlets
    (compute_bounds lib
      (build_out_meshlets
        (lib.buildMeshlets ((List.range mesh.count).map fun i => read_u32 mesh.indices i)
          (s.positions.map fun p =>
            decode_snorm_exp p (s.aux.getD StreamType.Position 0))).meshlets
        (lib.buildMeshlets ((List.range mesh.count).map fun i => read_u32 mesh.indices i)
          (s.positions.map fun p =>
            decode_snorm_exp p
              (s.aux.getD StreamType.Position 0))).out_vertex_redirection_buffer
        (lib.buildMeshlets ((List.range mesh.count).map fun i => read_u32 mesh.indices i)
          (s.positions.map fun p =>
            decode_snorm_exp p (s.aux.getD StreamType.Position 0))).local_index_buffer).1
      (build_out_meshlets
        (lib.buildMeshlets ((List.range mesh.count).map fun i => read_u32 mesh.indices i)
          (s.positions.map fun p =>
            decode_snorm_exp p (s.aux.getD StreamType.Position 0))).meshlets
        (lib.buildMeshlets ((List.range mesh.count).map fun i => read_u32 mesh.indices i)
          (s.positions.map fun p =>
            decode_snorm_exp p
              (s.aux.getD StreamType.Position 0))).out_vertex_redirection_buffer
        (lib.buildMeshlets ((List.range mesh.count).map fun i => read_u32 mesh.indices i)
          (s.positions.map fun p =>
            decode_snorm_exp p (s.aux.getD StreamType.Position 0))).local_index_buffer).2
      (s.positions.map fun p => decode_snorm_exp p (s.aux.getD StreamType.Position 0)))
    m hm
  exact ⟨h1, h2⟩

/-- A call of `export_mesh_to_meshlet` that returns `true` passed the index
optimisation and the `switch` on the style, and the file was opened and
mapped. -/
theorem export_success (env : Environment) (path : String) (mesh : Mesh) (style : Nat)
    (h : (export_mesh_to_meshlet env path mesh style).result = true) :
    ∃ s, extract_streams env (mesh_deduplicate_vertices env.hash mesh) style = Except.ok s ∧
      export_mesh_to_meshlet env path mesh style
        = ExportOutcome.exported
            (cluster_and_encode env.lib (mesh_deduplicate_vertices env.hash mesh) style s)
            (export_encoded_mesh env.fs path
              (cluster_and_encode env.lib (mesh_deduplicate_vertices env.hash mesh) style s)) ∧
      env.fs.can_open path = true ∧
      env.fs.can_map path (required_size
        (cluster_and_encode env.lib (mesh_deduplicate_vertices env.hash mesh) style s)) = true := by
  by_cases hok : env.mesh_ok (mesh_optimize_index_buffer env.hash env.lib
      (mesh_deduplicate_vertices env.hash mesh) false) = true
  · cases hs : extract_streams env (mesh_deduplicate_vertices env.hash mesh) style with
    | error e =>
      rw [export_eq_of_error env path mesh style e hok hs] at h
      have hb := extract_streams_error_before env _ style e hs
      rw [(before_clustering_fails e hb).1] at h
      cases h
    | ok s =>
      have he := export_of_ok env path mesh style s hok hs
      refine ⟨s, rfl, he, ?_⟩
      rw [he] at h
      have hr : (export_encoded_mesh env.fs path
          (cluster_and_encode env.lib (mesh_deduplicate_vertices env.hash mesh) style
            s)).result = true := h
      unfold export_encoded_mesh at hr
      by_cases hopen : env.fs.can_open path = true
      · by_cases hmap : env.fs.can_map path (required_size
            (cluster_and_encode env.lib (mesh_deduplicate_vertices env.hash mesh) style s))
            = true
        · exact ⟨hopen, hmap⟩
        · have hf : env.fs.can_map path (required_size
              (cluster_and_encode env.lib (mesh_deduplicate_vertices env.hash mesh) style s))
              = false := by simpa using hmap
          have ho : ¬ (env.fs.can_open path = false) := by simp [hopen]
          rw [if_neg ho, if_pos hf] at hr
          cases hr
      · have hf : env.fs.can_open path = false := by simpa using hopen
        rw [if_pos hf] at hr
        cases hr
  · have hf : env.mesh_ok (mesh_optimize_index_buffer env.hash env.lib
        (mesh_deduplicate_vertices env.hash mesh) false) = false := by simpa using hok
    unfold export_mesh_to_meshlet at h
    simp only [hf, if_true] at h
    cases h

/-- The streams that the `switch` on the style leaves: one attribute stream
for `Wireframe`, three for `Textured`, with `aux` zero for the normal/tangent
stream. -/
theorem extract_streams_ok (env : Environment) (mesh : Mesh) (style : Nat)
    (s : ExportStreams) (h : extract_streams env mesh style = Except.ok s) :
    ((style = MeshStyle.Wireframe ∧ s.num_attribute_streams = 1) ∨
      (style = MeshStyle.Textured ∧ s.num_attribute_streams = 3)) ∧
    s.aux.getD StreamType.NormalTangentOct8 0 = 0 := by
  rw [extract_streams_eq] at h
  split_ifs at h with h1 h2 h3 h4 h5
  · rw [extract_positions_eq] at h
    split_ifs at h
    cases h
    exact ⟨Or.inr ⟨h2, rfl⟩, by
      simp [StreamType.NormalTangentOct8, StreamType.UV, StreamType.Position, MaxStreams,
        List.replicate]⟩
  · rw [extract_positions_eq] at h
    split_ifs at h
    cases h
    exact ⟨Or.inl ⟨h5, rfl⟩, by
      simp [StreamType.NormalTangentOct8, StreamType.Position, MaxStreams, List.replicate]⟩

/-- The records of `encode_mesh`: the stream count, the number of meshlets,
and in each meshlet the primitive stream at index 0, the attribute stream of
type `j` at index `j` below the stream count, and zeroed records beyond. -/
theorem encode_mesh_records (meshlets : List Meshlet) (data : StreamData) (p_aux : List Int)
    (num_streams : Nat) (hns : 1 ≤ num_streams) (hns8 : num_streams ≤ MaxStreams) :
    (encode_mesh meshlets data p_aux num_streams).mesh.stream_count = num_streams ∧
    (encode_mesh meshlets data p_aux num_streams).mesh.meshlets.length
      = (meshlets.length + NumChunks - 1) / NumChunks ∧
    ∀ m, m < (meshlets.length + NumChunks - 1) / NumChunks →
      ((encode_mesh meshlets data p_aux num_streams).mesh.meshlets.getD m
        Metadata.zero).num_chunks = meshlet_chunks meshlets.length m ∧
      ((encode_mesh meshlets data p_aux num_streams).mesh.meshlets.getD m
        Metadata.zero).streams.getD 0 Stream.zero
        = primitive_stream meshlets m (words_before meshlets data num_streams m 0 0) ∧
      (∀ j, 1 ≤ j → j < num_streams →
        ((encode_mesh meshlets data p_aux num_streams).mesh.meshlets.getD m
          Metadata.zero).streams.getD j Stream.zero
          = attribute_stream meshlets data p_aux m j
              (words_before meshlets data num_streams m j 0)) ∧
      (∀ j, num_streams ≤ j →
        ((encode_mesh meshlets data p_aux num_streams).mesh.meshlets.getD m
          Metadata.zero).streams.getD j Stream.zero = Stream.zero) := by
  obtain ⟨_, hsc, hlen, hspec⟩ := encode_mesh_loop_exact meshlets data p_aux num_streams hns
    hns8
    ({ payload := [],
       mesh := { stream_count := num_streams, mesh_style := 0, meshlets := [] } }, 0) rfl rfl
    ((meshlets.length + NumChunks - 1) / NumChunks)
  rw [← encode_mesh_eq] at hsc hlen hspec
  refine ⟨hsc, hlen, fun m hm => ?_⟩
  obtain ⟨h1, _, h3, h4, h5⟩ := hspec m hm
  exact ⟨h1, h3, h4, h5⟩

/-- C26 (streams per style): style `Skinned` always fails; a successful export
has style `Wireframe` and a stream count of 2, or style `Textured` and a
stream count of 4; every meshlet record of the encoded mesh holds the
primitive stream at index 0, at every index `j` from 1 up to the stream count
the attribute stream that the case `StreamType(j)` of `encode_mesh` produces
(index 1 the positions as `u16vec3`, index 2 normal and tangent, index 3 the
UVs as `u16vec2`), and zeroed records from the stream count on. -/
theorem streams_per_style (env : Environment) (path : String) (mesh : Mesh) (style : Nat) :
    (style = MeshStyle.Skinned →
      (export_mesh_to_meshlet env path mesh style).result = false) ∧
    ((export_mesh_to_meshlet env path mesh style).result = true →
      ∃ (s : ExportStreams) (encoded : Encoded) (file : WriteOutcome),
        extract_streams env (mesh_deduplicate_vertices env.hash mesh) style = Except.ok s ∧
        export_mesh_to_meshlet env path mesh style = ExportOutcome.exported encoded file ∧
        ((style = MeshStyle.Wireframe ∧ encoded.mesh.stream_count = 2) ∨
          (style = MeshStyle.Textured ∧ encoded.mesh.stream_count = 4)) ∧
        encoded.mesh.meshlets.length
          = ((export_chunks env.lib (mesh_deduplicate_vertices env.hash mesh) s).length
              + NumChunks - 1) / NumChunks ∧
        ∀ m, m < encoded.mesh.meshlets.length →
          (encoded.mesh.meshlets.getD m Metadata.zero).streams.getD 0 Stream.zero
            = primitive_stream
                (export_chunks env.lib (mesh_deduplicate_vertices env.hash mesh) s) m
                (words_before (export_chunks env.lib (mesh_deduplicate_vertices env.hash mesh) s)
                  (export_data s) encoded.mesh.stream_count m 0 0) ∧
          (∀ j, 1 ≤ j → j < encoded.mesh.stream_count →
            (encoded.mesh.meshlets.getD m Metadata.zero).streams.getD j Stream.zero
              = attribute_stream
                  (export_chunks env.lib (mesh_deduplicate_vertices env.hash mesh) s)
                  (export_data s) s.aux m j
                  (words_before
                    (export_chunks env.lib (mesh_deduplicate_vertices env.hash mesh) s)
                    (export_data s) encoded.mesh.stream_count m j 0)) ∧
          (∀ j, encoded.mesh.stream_count ≤ j →
            (encoded.mesh.meshlets.getD m Metadata.zero).streams.getD j Stream.zero
              = Stream.zero)) ∧
    (∀ (chunks : List Meshlet) (data : StreamData) (m : Nat) (st : List Nat × Stream) (c : Nat),
      encode_attribute_chunk chunks data m StreamType.Position st c
        = encode_attribute_stream AttrType.u16vec3 st.1
            { st.2 with
              offsets_in_words := st.2.offsets_in_words.set c (st.1.length % 2 ^ 32) }
            data.position c
            (some (chunks.getD (m * NumChunks + c) Meshlet.zero).attribute_remap)
            (chunks.getD (m * NumChunks + c) Meshlet.zero).vertex_count ∧
      encode_attribute_chunk chunks data m StreamType.NormalTangentOct8 st c
        = encode_normal_tangent_chunk st.1
            { st.2 with
              offsets_in_words := st.2.offsets_in_words.set c (st.1.length % 2 ^ 32) }
            data.normal_tangent (chunks.getD (m * NumChunks + c) Meshlet.zero) c ∧
      encode_attribute_chunk chunks data m StreamType.UV st c
        = encode_attribute_stream AttrType.u16vec2 st.1
            { st.2 with
              offsets_in_words := st.2.offsets_in_words.set c (st.1.length % 2 ^ 32) }
            data.uv c
            (some (chunks.getD (m * NumChunks + c) Meshlet.zero).attribute_remap)
            (chunks.getD (m * NumChunks + c) Meshlet.zero).vertex_count) := by
  refine ⟨?_, ?_, fun chunks data m st c => ⟨rfl, rfl, rfl⟩⟩
  · intro hsk
    cases hres : (export_mesh_to_meshlet env path mesh style).result with
    | false => rfl
    | true =>
      obtain ⟨s, hs, _, _, _⟩ := export_success env path mesh style hres
      rcases (extract_streams_ok env _ style s hs).1 with ⟨h, _⟩ | ⟨h, _⟩
      · rw [hsk] at h; exact absurd h (by decide)
      · rw [hsk] at h; exact absurd h (by decide)
  · intro hres
    obtain ⟨s, hs, he, _, _⟩ := export_success env path mesh style hres
    obtain ⟨hstyle, _⟩ := extract_streams_ok env _ style s hs
    have hns : 1 ≤ s.num_attribute_streams + 1 := by omega
    have hns8 : s.num_attribute_streams + 1 ≤ MaxStreams := by
      have : MaxStreams = 8 := rfl
      rcases hstyle with ⟨_, h⟩ | ⟨_, h⟩ <;> omega
    obtain ⟨_, hc2, _, hc4, hc5⟩ := cluster_and_encode_fields env.lib
      (mesh_deduplicate_vertices env.hash mesh) style s
    obtain ⟨hr1, hr2, hr3⟩ := encode_mesh_records
      (export_chunks env.lib (mesh_deduplicate_vertices env.hash mesh) s) (export_data s)
      s.aux (s.num_attribute_streams + 1) hns hns8
    have hcount : (cluster_and_encode env.lib (mesh_deduplicate_vertices env.hash mesh) style
        s).mesh.stream_count = s.num_attribute_streams + 1 := by rw [hc2, hr1]
    refine ⟨s, _, _, hs, he, ?_, by rw [hc4, hr2], ?_⟩
    · rcases hstyle with ⟨h1, h2⟩ | ⟨h1, h2⟩
      · exact Or.inl ⟨h1, by rw [hcount, h2]⟩
      · exact Or.inr ⟨h1, by rw [hcount, h2]⟩
    · intro m hm
      rw [hc4] at hm
      rw [(hc5 m hm).1, hcount]
      rw [hr2] at hm
      obtain ⟨_, g0, gj, gz⟩ := hr3 m hm
      exact ⟨g0, gj, gz⟩

/-- C21 (header consistency): when `export_mesh_to_meshlet` returns `true`
for an encoded mesh of fewer than `2^32` meshlets and payload words whose
container size fits `size_t`, the container begins with the 8-byte magic
followed by the `FormatHeader` whose `style` is the requested style, whose
`stream_count` is the number of streams that `encode_mesh` was asked to
encode per meshlet, whose `meshlet_count` is the number of meshlets and whose
`payload_size_words` is the number of payload words; and the copies that
follow the header are one `Header` and one `Bound` per meshlet, `stream_count`
`Stream` records per meshlet, the payload words and the pad word. -/
theorem header_consistency (env : Environment) (path : String) (mesh : Mesh) (style : Nat)
    (encoded : Encoded) (file : WriteOutcome)
    (h : export_mesh_to_meshlet env path mesh style = ExportOutcome.exported encoded file)
    (hres : file.result = true)
    (hN : encoded.mesh.meshlets.length < 2 ^ 32)
    (hP : encoded.payload.length < 2 ^ 32)
    (hsize : payload_offset encoded.mesh.meshlets.length encoded.mesh.stream_count
      + (encoded.payload.length + 1) * sizeof_PayloadWord < 2 ^ 64) :
    ∃ (s : ExportStreams) (m : Mapping) (rest : List Nat),
      extract_streams env (mesh_deduplicate_vertices env.hash mesh) style = Except.ok s ∧
      file = WriteOutcome.written (required_size encoded) m ∧
      m.data = magic
        ++ FormatHeader.bytes ⟨style, s.num_attribute_streams + 1,
            encoded.mesh.meshlets.length, encoded.payload.length⟩
        ++ rest ∧
      encoded.payload
        = (encode_mesh (export_chunks env.lib (mesh_deduplicate_vertices env.hash mesh) s)
            (export_data s) s.aux (s.num_attribute_streams + 1)).payload ∧
      m.writes.map Prod.snd
        = [sizeof_magic, sizeof_FormatHeader]
          ++ List.replicate encoded.mesh.meshlets.length sizeof_Header
          ++ List.replicate encoded.mesh.meshlets.length sizeof_Bound
          ++ List.replicate (encoded.mesh.meshlets.length * (s.num_attribute_streams + 1))
              sizeof_Stream
          ++ [encoded.payload.length * sizeof_PayloadWord, sizeof_PayloadWord] := by
  have hr : (export_mesh_to_meshlet env path mesh style).result = true := by
    rw [h]; exact hres
  obtain ⟨s, hs, he, hopen, hmap⟩ := export_success env path mesh style hr
  rw [h] at he
  injection he with henc hfile
  obtain ⟨hstyle, _⟩ := extract_streams_ok env _ style s hs
  have hns : 1 ≤ s.num_attribute_streams + 1 := by omega
  have hns8 : s.num_attribute_streams + 1 ≤ MaxStreams := by
    have : MaxStreams = 8 := rfl
    rcases hstyle with ⟨_, h⟩ | ⟨_, h⟩ <;> omega
  obtain ⟨hc1, hc2, hc3, _, _⟩ := cluster_and_encode_fields env.lib
    (mesh_deduplicate_vertices env.hash mesh) style s
  obtain ⟨hr1, _, _⟩ := encode_mesh_records
    (export_chunks env.lib (mesh_deduplicate_vertices env.hash mesh) s) (export_data s)
    s.aux (s.num_attribute_streams + 1) hns hns8
  rw [← henc] at hc1 hc2 hc3 hmap
  rw [hr1] at hc2
  obtain ⟨m, hm, hdata, _, hwrites⟩ := export_encoded_mesh_written env.fs path encoded hopen
    hmap hN hsize
  have hheader : format_header encoded
      = ⟨style, s.num_attribute_streams + 1, encoded.mesh.meshlets.length,
          encoded.payload.length⟩ := by
    unfold format_header
    rw [hc2, hc3, Nat.mod_eq_of_lt hN, Nat.mod_eq_of_lt hP]
  refine ⟨s, m,
    ((List.range encoded.mesh.meshlets.length).flatMap fun i =>
        (encoded.mesh.meshlets.getD i Metadata.zero).header_bytes)
      ++ ((List.range encoded.mesh.meshlets.length).flatMap fun i =>
        (encoded.mesh.meshlets.getD i Metadata.zero).bound_bytes)
      ++ ((List.range encoded.mesh.meshlets.length).flatMap fun i =>
        (List.range encoded.mesh.stream_count).flatMap fun j =>
          ((encoded.mesh.meshlets.getD i Metadata.zero).streams.getD j Stream.zero).bytes)
      ++ encoded.payload.flatMap u32_bytes
      ++ List.replicate sizeof_PayloadWord 0,
    hs, by rw [hfile, ← henc]; exact hm, ?_, hc1, ?_⟩
  · rw [hdata]
    unfold container_bytes
    rw [hheader]
    simp only [List.append_assoc]
  · rw [hwrites]
    unfold container_writes
    rw [hc2]

/-- The sample triangle is exported as a wireframe in the sample environment. -/
theorem sample_export_result :
    (export_mesh_to_meshlet sample_env "mesh.msh" sample_triangle
      MeshStyle.Wireframe).result = true := by
  obtain ⟨s, hs, _⟩ := extract_streams_wireframe sample_env
    (mesh_deduplicate_vertices sample_env.hash sample_triangle) (Or.inl rfl) (by decide)
  have he := export_of_ok sample_env "mesh.msh" sample_triangle MeshStyle.Wireframe s rfl hs
  obtain ⟨m, hm⟩ := export_encoded_mesh_result sample_env.fs "mesh.msh"
    (cluster_and_encode sample_env.lib
      (mesh_deduplicate_vertices sample_env.hash sample_triangle) MeshStyle.Wireframe s)
    rfl rfl
  rw [he]
  show (export_encoded_mesh sample_env.fs "mesh.msh"
    (cluster_and_encode sample_env.lib
      (mesh_deduplicate_vertices sample_env.hash sample_triangle) MeshStyle.Wireframe
      s)).result = true
  rw [hm]
  rfl

/-- Witness for C26: the sample triangle exported as a wireframe. -/
theorem streams_per_style_witness :
    (export_mesh_to_meshlet sample_env "mesh.msh" sample_triangle
      MeshStyle.Wireframe).result = true ∧
    (export_mesh_to_meshlet sample_env "mesh.msh" sample_triangle
      MeshStyle.Skinned).result = false ∧
    ∃ (encoded : Encoded) (file : WriteOutcome),
      export_mesh_to_meshlet sample_env "mesh.msh" sample_triangle MeshStyle.Wireframe
        = ExportOutcome.exported encoded file ∧
      encoded.mesh.stream_count = 2 := by
  obtain ⟨_, encoded, file, _, he, hcount, _⟩ :=
    (streams_per_style sample_env "mesh.msh" sample_triangle MeshStyle.Wireframe).2.1
      sample_export_result
  refine ⟨sample_export_result,
    (streams_per_style sample_env "mesh.msh" sample_triangle MeshStyle.Skinned).1 rfl,
    encoded, file, he, ?_⟩
  rcases hcount with ⟨_, h⟩ | ⟨h, _⟩
  · exact h
  · exact absurd h (by decide)

/-! ## The trim and the stored bit width -/

theorem to_signed_to_unsigned_16 (c : Int) (h : -32768 ≤ c ∧ c ≤ 32767) :
    to_signed 16 (to_unsigned 16 c) = c := by
  unfold to_signed to_unsigned
  have hnn : 0 ≤ c % 2 ^ 16 := Int.emod_nonneg c (by norm_num)
  have hlt : c % 2 ^ 16 < 2 ^ 16 := Int.emod_lt_of_pos c (by norm_num)
  have hcast : (((c % 2 ^ 16).toNat : Nat) : Int) = c % 2 ^ 16 := Int.toNat_of_nonneg hnn
  have hmod : (c % 2 ^ 16).toNat % 2 ^ 16 = (c % 2 ^ 16).toNat := by
    apply Nat.mod_eq_of_lt
    have : (((c % 2 ^ 16).toNat : Nat) : Int) < ((2 ^ 16 : Nat) : Int) := by
      rw [hcast]; exact_mod_cast hlt
    exact_mod_cast this
  rw [hmod]
  norm_num at hnn hlt hcast ⊢
  split_ifs with hs <;> omega

theorem i16_getD_getD (values : List (List Int))
    (h16 : ∀ v ∈ values, ∀ c ∈ v, -32768 ≤ c ∧ c ≤ 32767) (i j : Nat) :
    -32768 ≤ (values.getD i []).getD j 0 ∧ (values.getD i []).getD j 0 ≤ 32767 := by
  by_cases hi : i < values.length
  · rw [List.getD_eq_getElem _ _ hi]
    by_cases hj : j < (values[i]).length
    · rw [List.getD_eq_getElem _ _ hj]
      exact h16 _ (List.getElem_mem hi) _ (List.getElem_mem hj)
    · rw [List.getD_eq_default _ _ (Nat.le_of_not_lt hj)]
      omega
  · rw [List.getD_eq_default _ _ (Nat.le_of_not_lt hi)]
    simp

theorem as_u16_getD (values : List (List Int)) (i j : Nat) :
    ((as_u16 values).getD i []).getD j 0 = to_unsigned 16 ((values.getD i []).getD j 0) := by
  unfold as_u16
  have e1 : (values.map fun p => p.map fun c => to_unsigned 16 c).getD i
      ((fun p : List Int => p.map fun c => to_unsigned 16 c) [])
      = (values.getD i []).map fun c => to_unsigned 16 c := List.getD_map _ _ _
  have e0 : (fun p : List Int => p.map fun c => to_unsigned 16 c) [] = [] := rfl
  rw [e0] at e1
  rw [e1]
  have e2 : ((values.getD i []).map fun c => to_unsigned 16 c).getD j
      ((fun c : Int => to_unsigned 16 c) 0)
      = to_unsigned 16 ((values.getD i []).getD j 0) := List.getD_map _ _ _
  have e3 : (fun c : Int => to_unsigned 16 c) 0 = 0 := by simp [to_unsigned]
  rw [e3] at e2
  exact e2

theorem as_u16_wf (T : AttrType) (hT : T.bits_per_component = 16) (values : List (List Int))
    (hlen : ∀ v ∈ values, v.length = T.components) : WellFormedAttrs T (as_u16 values) := by
  intro p hp
  unfold as_u16 at hp
  rw [List.mem_map] at hp
  obtain ⟨v, hv, rfl⟩ := hp
  refine ⟨by rw [List.length_map]; exact hlen v hv, fun k hk => ?_⟩
  rw [hT, getD_map_of_lt _ _ k (by rw [hlen v hv]; exact hk) 0 0]
  exact to_unsigned_lt 16 _

theorem compute_required_bits_unsigned_mono (d1 d2 : Nat) (h : d1 ≤ d2) (h2 : d2 < 2 ^ 32) :
    compute_required_bits_unsigned d1 ≤ compute_required_bits_unsigned d2 := by
  have hd2 : d2 < 2 ^ compute_required_bits_unsigned d2 :=
    (compute_required_bits_unsigned_spec d2 h2 _).2 (Nat.le_refl _)
  exact (compute_required_bits_unsigned_spec d1 (by omega) _).1 (by omega)

/-- The signed reading of a chunk's values after the shift by `k`: the largest
signed delta does not grow. -/
theorem trimmed_signed_delta_le (T : AttrType) (hT : T.bits_per_component = 16)
    (values : List (List Int)) (k : Nat)
    (h16 : ∀ v ∈ values, ∀ c ∈ v, -32768 ≤ c ∧ c ≤ 32767)
    (hdvd : ∀ v ∈ values, ∀ c ∈ v, (2 : Int) ^ k ∣ c)
    (remap : Option (List Nat)) (n : Nat) (hn1 : 1 ≤ n) (d d2 : Int) (hd0 : 0 ≤ d)
    (h1 : IsMaxDelta (to_signed T.bits_per_component) T.components
      (gather_attributes (as_u16 values) remap n) d)
    (h2 : IsMaxDelta (to_signed T.bits_per_component) T.components
      (gather_attributes
        (as_u16 (values.map fun value => value.map fun c => Int.shiftRight c k)) remap n) d2) :
    d2 ≤ d := by
  obtain ⟨kk, hkk, p, hp, q, hq, hatt⟩ := h2.2
  obtain ⟨i, hi, rfl⟩ := (gather_attributes_mem _ remap n hn1 p).1 hp
  obtain ⟨j, hj, rfl⟩ := (gather_attributes_mem _ remap n hn1 q).1 hq
  have hb := h1.1 kk hkk _ ((gather_attributes_mem _ remap n hn1 _).2 ⟨i, hi, rfl⟩)
    _ ((gather_attributes_mem _ remap n hn1 _).2 ⟨j, hj, rfl⟩)
  rw [hT] at hb hatt
  rw [as_u16_getD, as_u16_getD] at hb hatt
  rw [getD_getD_map_shift, getD_getD_map_shift] at hatt
  have ra := i16_getD_getD values h16 (remap_index remap i) kk
  have rb := i16_getD_getD values h16 (remap_index remap j) kk
  have da := dvd_getD_getD values _ hdvd (remap_index remap i) kk
  have db := dvd_getD_getD values _ hdvd (remap_index remap j) kk
  generalize (values.getD (remap_index remap i) []).getD kk 0 = a at hb hatt ra rb da
  generalize (values.getD (remap_index remap j) []).getD kk 0 = b at hb hatt rb db
  rw [to_signed_to_unsigned_16 a ra, to_signed_to_unsigned_16 b rb] at hb
  obtain ⟨a', rfl⟩ := da
  obtain ⟨b', rfl⟩ := db
  have hpos : (0 : Int) < 2 ^ k := by positivity
  have hsa : Int.shiftRight (2 ^ k * a') k = a' := by
    rw [show Int.shiftRight (2 ^ k * a') k = (2 ^ k * a') / ((2 ^ k : Nat) : Int) from
      Int.shiftRight_eq_div_pow _ k]
    push_cast
    exact Int.mul_ediv_cancel_left a' (ne_of_gt hpos)
  have hsb : Int.shiftRight (2 ^ k * b') k = b' := by
    rw [show Int.shiftRight (2 ^ k * b') k = (2 ^ k * b') / ((2 ^ k : Nat) : Int) from
      Int.shiftRight_eq_div_pow _ k]
    push_cast
    exact Int.mul_ediv_cancel_left b' (ne_of_gt hpos)
  rw [hsa, hsb] at hatt
  have hone : (1 : Int) ≤ 2 ^ k := by omega
  have ra' : -32768 ≤ a' ∧ a' ≤ 32767 := by
    constructor
    · by_contra hcon
      have : 2 ^ k * a' ≤ 1 * a' := by nlinarith
      omega
    · by_contra hcon
      have : 1 * a' ≤ 2 ^ k * a' := by nlinarith
      omega
  have rb' : -32768 ≤ b' ∧ b' ≤ 32767 := by
    constructor
    · by_contra hcon
      have : 2 ^ k * b' ≤ 1 * b' := by nlinarith
      omega
    · by_contra hcon
      have : 1 * b' ≤ 2 ^ k * b' := by nlinarith
      omega
  rw [to_signed_to_unsigned_16 a' ra', to_signed_to_unsigned_16 b' rb'] at hatt
  rw [← hatt]
  by_cases hneg : a' - b' ≤ 0
  · omega
  · have : a' - b' ≤ 2 ^ k * (a' - b') := by nlinarith
    have e : 2 ^ k * (a' - b') = 2 ^ k * a' - 2 ^ k * b' := by ring
    omega

theorem adjust_quant_wf (T : AttrType) (values : List (List Int)) (exp : Int)
    (hlen : ∀ v ∈ values, v.length = T.components) :
    ∀ v ∈ (adjust_quant values exp).1, v.length = T.components := by
  unfold adjust_quant
  split_ifs
  · exact hlen
  · intro v hv
    simp only [List.mem_map] at hv
    obtain ⟨u, hu, rfl⟩ := hv
    rw [List.length_map]
    exact hlen u hu

/-- C27 (amended). The trim does not raise the stored bit width of a chunk
whose untrimmed values are at least as close together in the signed reading as
in the unsigned one: for every list of encoded 16-bit vectors, every chunk of
at least one vertex drawn from it and every slot `c < 4`, if the largest
per-component delta that `encode_attribute_stream` computes for the untrimmed
chunk under the signed interpretation is not larger than the one under the
unsigned interpretation, then the bit width it stores for the chunk of the
list trimmed by `adjust_quant` is at most the width it stores for the same
chunk of the untrimmed list. -/
theorem trim_keeps_width_of_signed_chunk (T : AttrType) (hT : T.bits_per_component = 16)
    (values : List (List Int)) (exp : Int)
    (h16 : ∀ v ∈ values, ∀ c ∈ v, -32768 ≤ c ∧ c ≤ 32767)
    (hlen : ∀ v ∈ values, v.length = T.components)
    (remap : Option (List Nat)) (n c : Nat) (hn1 : 1 ≤ n) (hc : c < 4)
    (hidx : ∀ i, i < n → remap_index remap i < values.length)
    (hsu : (chunk_stats T (gather_attributes (as_u16 values) remap n)).diff_max_signed
      ≤ (chunk_stats T (gather_attributes (as_u16 values) remap n)).diff_max_unsigned)
    (payload payload2 : List Nat) :
    (encode_attribute_stream T payload2 Stream.zero (as_u16 (adjust_quant values exp).1) c
        remap n).2.chunk_bits c
      ≤ (encode_attribute_stream T payload Stream.zero (as_u16 values) c remap n).2.chunk_bits
          c := by
  -- both lists are well formed and the chunk indexes into both
  have hwf1 := as_u16_wf T hT values hlen
  have hwf2 := as_u16_wf T hT (adjust_quant values exp).1 (adjust_quant_wf T values exp hlen)
  have hidx1 : ∀ i, i < n → remap_index remap i < (as_u16 values).length := by
    intro i hi
    simp only [as_u16, List.length_map]
    exact hidx i hi
  have hidx2 : ∀ i, i < n → remap_index remap i < (as_u16 (adjust_quant values exp).1).length := by
    intro i hi
    simp only [as_u16, List.length_map, adjust_quant_length]
    exact hidx i hi
  rw [(encode_attribute_stream_stored T payload2 _ c remap n hn1 hc hwf2 hidx2).1,
    (encode_attribute_stream_stored T payload _ c remap n hn1 hc hwf1 hidx1).1]
  -- the signed deltas of the two chunks
  obtain ⟨hne1, hg1⟩ := gather_attributes_wf T _ remap n hn1 hwf1 hidx1
  obtain ⟨hne2, hg2⟩ := gather_attributes_wf T _ remap n hn1 hwf2 hidx2
  obtain ⟨_, _, hd1, hlt1⟩ := chunk_stats_signed T _ hne1 hg1
  obtain ⟨_, _, hd2, _⟩ := chunk_stats_signed T _ hne2 hg2
  obtain ⟨k, hdvd, htrim, _⟩ := adjust_quant_shift values exp h16
  rw [htrim] at hd2 ⊢
  have hle : ((chunk_stats T (gather_attributes
      (as_u16 (values.map fun value => value.map fun c => Int.shiftRight c k)) remap
        n)).diff_max_signed : Int)
      ≤ ((chunk_stats T (gather_attributes (as_u16 values) remap n)).diff_max_signed : Int) :=
    trimmed_signed_delta_le T hT values k h16 hdvd remap n hn1 _ _ (Int.ofNat_nonneg _) hd1 hd2
  have hle' : (chunk_stats T (gather_attributes
      (as_u16 (values.map fun value => value.map fun c => Int.shiftRight c k)) remap
        n)).diff_max_signed
      ≤ (chunk_stats T (gather_attributes (as_u16 values) remap n)).diff_max_signed := by
    exact_mod_cast hle
  have hlt1' : (chunk_stats T (gather_attributes (as_u16 values) remap n)).diff_max_signed
      < 2 ^ 32 := by
    rw [hT] at hlt1
    omega
  have hmono := compute_required_bits_unsigned_mono
    (min (chunk_stats T (gather_attributes
        (as_u16 (values.map fun value => value.map fun c => Int.shiftRight c k)) remap
          n)).diff_max_signed
      (chunk_stats T (gather_attributes
        (as_u16 (values.map fun value => value.map fun c => Int.shiftRight c k)) remap
          n)).diff_max_unsigned)
    (min (chunk_stats T (gather_attributes (as_u16 values) remap n)).diff_max_signed
      (chunk_stats T (gather_attributes (as_u16 values) remap n)).diff_max_unsigned)
    (by omega) (by omega)
  rw [chunk_stats_bits_eq, chunk_stats_bits_eq T (gather_attributes (as_u16 values) remap n)]
  by_cases h3 : T = AttrType.u16vec3
  · simp only [h3, true_and] at hmono ⊢
    split_ifs <;> omega
  · simp only [h3, false_and, if_false]
    exact hmono

set_option maxRecDepth 100000 in
/-- C27, counterexample.  The encoded positions `(-32768, 0, 0)` and
`(32766, 0, 0)` are 16-bit values; `adjust_quant` shifts them by one bit; as
one chunk of two vertices, `encode_attribute_stream` stores the width 2 for the
untrimmed values and the width 16 for the trimmed ones. -/
theorem trim_can_widen_chunk :
    (∀ v ∈ wrap_quant, ∀ c ∈ v, -32768 ≤ c ∧ c ≤ (32767 : Int)) ∧
    (adjust_quant wrap_quant 0).1 = [[-16384, 0, 0], [16383, 0, 0]] ∧
    (encode_attribute_stream AttrType.u16vec3 [] Stream.zero (as_u16 wrap_quant) 0 none
      2).2.chunk_bits 0 = 2 ∧
    (encode_attribute_stream AttrType.u16vec3 [] Stream.zero
      (as_u16 (adjust_quant wrap_quant 0).1) 0 none 2).2.chunk_bits 0 = 16 := by
  decide

set_option maxRecDepth 100000 in
/-- Witness for C27 (amended): the sample values of the trim as one chunk of
two vertices. -/
theorem trim_keeps_width_of_signed_chunk_witness :
    ((∀ v ∈ sample_quant, ∀ c ∈ v, -32768 ≤ c ∧ c ≤ (32767 : Int)) ∧
      (chunk_stats AttrType.u16vec3
          (gather_attributes (as_u16 sample_quant) none 2)).diff_max_signed
        ≤ (chunk_stats AttrType.u16vec3
          (gather_attributes (as_u16 sample_quant) none 2)).diff_max_unsigned) ∧
    (encode_attribute_stream AttrType.u16vec3 [] Stream.zero
        (as_u16 (adjust_quant sample_quant (-12)).1) 0 none 2).2.chunk_bits 0
      ≤ (encode_attribute_stream AttrType.u16vec3 [] Stream.zero (as_u16 sample_quant) 0 none
          2).2.chunk_bits 0 :=
  ⟨⟨by decide, by decide⟩,
    trim_keeps_width_of_signed_chunk AttrType.u16vec3 rfl sample_quant (-12) (by decide)
      (by decide) none 2 0 (by decide) (by decide) (by decide) (by decide) [] []⟩

/-! ## The trim is maximal -/
theorem trailing_zeroes_odd (x : Nat) (hx : x < 2 ^ 32) (hodd : x % 2 = 1) :
    trailing_zeroes x = 0 := by
  unfold trailing_zeroes
  rw [Nat.mod_eq_of_lt hx]
  have hne : x ≠ 0 := by omega
  rw [if_neg hne]
  show (if x % 2 = 1 then 0 else count_trailing 31 (x / 2) + 1) = 0
  rw [if_pos hodd]

theorem map_shiftRight_zero (values : List (List Int)) :
    (values.map fun value => value.map fun c => Int.shiftRight c 0) = values := by
  have hid : (fun c : Int => Int.shiftRight c 0) = id := by
    funext c
    rw [show Int.shiftRight c 0 = c / ((2 ^ 0 : Nat) : Int) from Int.shiftRight_eq_div_pow c 0]
    simp
  rw [hid]
  simp

/-- A list with an odd component is left as it is by `adjust_quant`. -/
theorem adjust_quant_of_odd (values : List (List Int)) (exp : Int)
    (hodd : ∃ v ∈ values, ∃ c ∈ v, c % 2 = 1) :
    adjust_quant values exp = (values, exp) := by
  obtain ⟨v, hv, c, hc, hc1⟩ := hodd
  have hnd : ¬ 2 ^ 1 ∣ active_bits values := by
    intro h
    have h2 := (two_pow_dvd_active_bits 1 values).1 h v hv c hc
    rw [to_unsigned_dvd 1 (by norm_num) c] at h2
    omega
  have hoddA : active_bits values % 2 = 1 := by omega
  have htz := trailing_zeroes_odd (active_bits values) (active_bits_lt values) hoddA
  unfold adjust_quant
  split_ifs
  · rfl
  · simp only [htz, map_shiftRight_zero]
    simp

/-- C40 (the trim is maximal and idempotent): for every list of 16-bit values
with at least one non-zero component, after `adjust_quant` at least one
component is odd, and applying `adjust_quant` to its result changes neither
the values nor the exponent. -/
theorem trim_is_maximal_and_idempotent (values : List (List Int)) (exp : Int)
    (h16 : ∀ v ∈ values, ∀ c ∈ v, -32768 ≤ c ∧ c ≤ 32767)
    (hnz : ∃ v ∈ values, ∃ c ∈ v, c ≠ 0) :
    (∃ v ∈ (adjust_quant values exp).1, ∃ c ∈ v, c % 2 = 1) ∧
    adjust_quant (adjust_quant values exp).1 (adjust_quant values exp).2
      = adjust_quant values exp := by
  have hA : active_bits values ≠ 0 := by
    intro h0
    obtain ⟨v, hv, c, hc, hne⟩ := hnz
    exact hne ((active_bits_eq_zero_iff values h16).1 h0 v hv c hc)
  obtain ⟨k, _, _, hall, ⟨v, hv, c, hc, hnd⟩, hval, _⟩ := adjust_quant_nonzero values exp h16 hA
  have hodd : ∃ v ∈ (adjust_quant values exp).1, ∃ c ∈ v, c % 2 = 1 := by
    refine ⟨v.map fun c => Int.shiftRight c k, ?_, Int.shiftRight c k,
      List.mem_map_of_mem _ hc, ?_⟩
    · rw [hval]
      exact List.mem_map_of_mem _ hv
    · have hcancel := shiftRight_mul_cancel c k (hall v hv c hc)
      by_contra hne
      have heven : (2 : Int) ∣ Int.shiftRight c k := by omega
      obtain ⟨t, ht⟩ := heven
      apply hnd
      refine ⟨t, ?_⟩
      rw [← hcancel, ht, pow_succ]
      ring
  exact ⟨hodd, adjust_quant_of_odd _ _ hodd⟩

/-- Witness for C40: the sample values of the trim. -/
theorem trim_is_maximal_and_idempotent_witness :
    ((∀ v ∈ sample_quant, ∀ c ∈ v, -32768 ≤ c ∧ c ≤ (32767 : Int)) ∧
      ∃ v ∈ sample_quant, ∃ c ∈ v, c ≠ 0) ∧
    adjust_quant (adjust_quant sample_quant (-12)).1 (adjust_quant sample_quant (-12)).2
      = adjust_quant sample_quant (-12) :=
  ⟨⟨by decide, by decide⟩,
    (trim_is_maximal_and_idempotent sample_quant (-12) (by decide) (by decide)).2⟩

/-! ## Scale normalisation -/
/-- The integer logarithm brackets a positive value between two powers of
two. -/
theorem floor_log2_spec (M : ℚ) (hM : 0 < M) :
    (2 : ℚ) ^ floor_log2 M ≤ M ∧ M < (2 : ℚ) ^ (floor_log2 M + 1) := by
  unfold floor_log2
  constructor
  · have := Int.zpow_log_le_self (R := ℚ) (b := 2) (by norm_num) hM
    simpa using this
  · have := Int.lt_zpow_succ_log_self (R := ℚ) (b := 2) (by norm_num) M
    simpa using this

/-- With the scale `14 - floor(log2 M)`, a component of magnitude at most `M`
stays below `2^15` after scaling. -/
theorem scaled_lt_unclamped (M v : ℚ) (hM : 0 < M) (hv : abs v ≤ M) :
    abs (ldexp v (compute_log2_scale M)) < 32768 := by
  obtain ⟨_, hlog⟩ := floor_log2_spec M hM
  unfold ldexp compute_log2_scale
  have hpos : ∀ e : Int, (0 : ℚ) < 2 ^ e := fun e => zpow_pos (by norm_num) e
  rw [abs_mul, abs_of_pos (hpos _)]
  calc abs v * 2 ^ (14 - floor_log2 M)
      ≤ M * 2 ^ (14 - floor_log2 M) := mul_le_mul_of_nonneg_right hv (le_of_lt (hpos _))
    _ < 2 ^ (floor_log2 M + 1) * 2 ^ (14 - floor_log2 M) :=
        mul_lt_mul_of_pos_right hlog (hpos _)
    _ = 32768 := by
        rw [← zpow_add₀ (by norm_num : (2 : ℚ) ≠ 0)]
        have : floor_log2 M + 1 + (14 - floor_log2 M) = 15 := by ring
        rw [this]
        norm_num

/-- With the real logarithm in place of the float one, the scale normalises:
for every `max_value > 0` and `s = 14 - floor(log2(max_value))`, the value
`max_value * 2^(s - 14)` lies in `[1, 2)` and `max_value * 2^s` lies in
`[2^14, 2^15)`, and every component of magnitude at most `max_value` has a
magnitude below `2^15` after scaling by `2^s` and by `2^min(s, 12)`. -/
theorem scale_in_exact_arithmetic (max_value : ℚ) (hM : 0 < max_value) :
    compute_log2_scale max_value = 14 - floor_log2 max_value ∧
    (1 ≤ ldexp max_value (compute_log2_scale max_value - 14) ∧
      ldexp max_value (compute_log2_scale max_value - 14) < 2) ∧
    (16384 ≤ ldexp max_value (compute_log2_scale max_value) ∧
      ldexp max_value (compute_log2_scale max_value) < 32768) ∧
    ∀ v : ℚ, abs v ≤ max_value →
      abs (ldexp v (compute_log2_scale max_value)) < 32768 ∧
      abs (ldexp v (min (compute_log2_scale max_value) 12)) < 32768 := by
  obtain ⟨hlo, hhi⟩ := floor_log2_spec max_value hM
  have hpos : ∀ e : Int, (0 : ℚ) < 2 ^ e := fun e => zpow_pos (by norm_num) e
  have h2 : (2 : ℚ) ≠ 0 := by norm_num
  have hs14 : compute_log2_scale max_value - 14 = -floor_log2 max_value := by
    unfold compute_log2_scale
    ring
  have hnorm1 : 1 ≤ ldexp max_value (compute_log2_scale max_value - 14) := by
    rw [hs14]
    unfold ldexp
    calc (1 : ℚ) = 2 ^ floor_log2 max_value * 2 ^ (-floor_log2 max_value) := by
          rw [← zpow_add₀ h2]; simp
      _ ≤ max_value * 2 ^ (-floor_log2 max_value) :=
          mul_le_mul_of_nonneg_right hlo (le_of_lt (hpos _))
  have hnorm2 : ldexp max_value (compute_log2_scale max_value - 14) < 2 := by
    rw [hs14]
    unfold ldexp
    calc max_value * 2 ^ (-floor_log2 max_value)
        < 2 ^ (floor_log2 max_value + 1) * 2 ^ (-floor_log2 max_value) :=
          mul_lt_mul_of_pos_right hhi (hpos _)
      _ = 2 := by
          rw [← zpow_add₀ h2]
          have : floor_log2 max_value + 1 + -floor_log2 max_value = 1 := by ring
          rw [this]
          norm_num
  have hsplit : ldexp max_value (compute_log2_scale max_value)
      = ldexp max_value (compute_log2_scale max_value - 14) * 16384 := by
    unfold ldexp
    rw [mul_assoc]
    congr 1
    have : (16384 : ℚ) = 2 ^ (14 : Int) := by norm_num
    rw [this, ← zpow_add₀ h2]
    congr 1
    ring
  refine ⟨rfl, ⟨hnorm1, hnorm2⟩, ⟨?_, ?_⟩, fun v hv => ⟨?_, ?_⟩⟩
  · rw [hsplit]
    linarith
  · rw [hsplit]
    linarith
  · exact scaled_lt_unclamped max_value v hM hv
  · exact scaled_lt max_value v hM hv

/-- With the exact logarithm as `log2f`, the float version of
`compute_log2_scale` is the exact one. -/
theorem compute_log2_scale_float_exact (max_value : ℚ) :
    compute_log2_scale_float (fun x => (floor_log2 x : ℚ)) max_value
      = compute_log2_scale max_value := by
  unfold compute_log2_scale_float compute_log2_scale
  rw [Int.floor_intCast]

/-- The real logarithm of `2^24 - 1` lies less than `2^-21`, a quarter of the
float spacing `2^-19`, below 24. -/
theorem logb_near_24 :
    (24 : ℝ) - 2 ^ (-21 : ℤ) < Real.logb 2 16777215 ∧ Real.logb 2 16777215 < 24 := by
  have h2 : (1 : ℝ) < 2 := by norm_num
  constructor
  · rw [Real.lt_logb_iff_rpow_lt h2 (by norm_num)]
    have hε : ((2 : ℝ) ^ (-21 : ℤ)) = 1 / 2097152 := by norm_num
    rw [hε, Real.rpow_sub (by norm_num)]
    have h24 : (2 : ℝ) ^ (24 : ℝ) = 16777216 := by
      have : ((24 : ℕ) : ℝ) = (24 : ℝ) := by norm_num
      rw [← this, Real.rpow_natCast]
      norm_num
    rw [h24]
    -- t = 2^(1/2097152) satisfies t^2097152 = 2
    set t : ℝ := (2 : ℝ) ^ ((1 : ℝ) / 2097152) with ht
    have htpos : 0 < t := Real.rpow_pos_of_pos (by norm_num) _
    have hpow : t ^ (2097152 : ℕ) = 2 := by
      rw [ht, ← Real.rpow_natCast, ← Real.rpow_mul (by norm_num)]
      norm_num
    -- were 2^24 / t >= 2^24 - 1, Bernoulli would give (1/t)^2097152 >= 7/8
    by_contra hcon
    push_neg at hcon
    have hu : (16777215 / 16777216 : ℝ) ≤ t⁻¹ := by
      rw [div_eq_mul_inv] at hcon
      linarith
    have hmono : (16777215 / 16777216 : ℝ) ^ (2097152 : ℕ) ≤ t⁻¹ ^ (2097152 : ℕ) :=
      pow_le_pow_left₀ (by norm_num) hu _
    rw [inv_pow, hpow] at hmono
    have hbern := one_add_mul_le_pow (show (-2 : ℝ) ≤ -(1 / 16777216) by norm_num) 2097152
    have he : (1 : ℝ) + -(1 / 16777216) = 16777215 / 16777216 := by norm_num
    rw [he] at hbern
    have h78 : (1 : ℝ) + ((2097152 : ℕ) : ℝ) * -(1 / 16777216) = 7 / 8 := by norm_num
    rw [h78] at hbern
    have : (7 / 8 : ℝ) ≤ 2⁻¹ := le_trans hbern hmono
    norm_num at this
  · rw [Real.logb_lt_iff_lt_rpow h2 (by norm_num)]
    have : ((24 : ℕ) : ℝ) = (24 : ℝ) := by norm_num
    rw [← this, Real.rpow_natCast]
    norm_num

/-- The only float within one float spacing `2^-19` of 24 is 24. -/
theorem binary32_near_24 (l : ℚ) (hf : is_binary32 l)
    (hlo : (24 : ℚ) - 1 / 524288 < l) (hhi : l < 24 + 1 / 524288) : l = 24 := by
  obtain ⟨m, e, hm, _, _, rfl⟩ := hf
  have hpos : (0 : ℚ) < (2 : ℚ) ^ e := by positivity
  have hm24 : (m : ℚ) < 2 ^ 24 := by
    have := (abs_lt.1 hm).2
    exact_mod_cast this
  have hmpos : (0 : ℚ) < m := by
    by_contra hc
    push_neg at hc
    have := mul_nonpos_of_nonpos_of_nonneg hc (le_of_lt hpos)
    linarith
  have he : -19 ≤ e := by
    by_contra hc
    push_neg at hc
    have h1 : (2 : ℚ) ^ e ≤ (2 : ℚ) ^ (-20 : ℤ) := zpow_le_zpow_right₀ (by norm_num) (by omega)
    have h2 : (m : ℚ) * (2 : ℚ) ^ e ≤ 2 ^ 24 * (2 : ℚ) ^ (-20 : ℤ) :=
      mul_le_mul (le_of_lt hm24) h1 (le_of_lt hpos) (by norm_num)
    norm_num at h2
    linarith
  obtain ⟨n, hn⟩ : ∃ n : ℕ, e = (n : ℤ) - 19 := ⟨(e + 19).toNat, by omega⟩
  subst hn
  have hz : (2 : ℚ) ^ ((n : ℤ) - 19) = (2 : ℚ) ^ n / 524288 := by
    rw [zpow_sub₀ (by norm_num), zpow_natCast]
    norm_num
  rw [hz] at hlo hhi ⊢
  have hcast : ((m * 2 ^ n : ℤ) : ℚ) = (m : ℚ) * (2 : ℚ) ^ n := by push_cast; rfl
  have hK1 : ((24 * 524288 - 1 : ℤ) : ℚ) < ((m * 2 ^ n : ℤ) : ℚ) := by
    rw [hcast]
    push_cast
    have := mul_lt_mul_of_pos_right hlo (show (0 : ℚ) < 524288 by norm_num)
    have e1 : (m : ℚ) * ((2 : ℚ) ^ n / 524288) * 524288 = (m : ℚ) * (2 : ℚ) ^ n := by
      field_simp
    rw [e1] at this
    linarith
  have hK2 : ((m * 2 ^ n : ℤ) : ℚ) < ((24 * 524288 + 1 : ℤ) : ℚ) := by
    rw [hcast]
    push_cast
    have := mul_lt_mul_of_pos_right hhi (show (0 : ℚ) < 524288 by norm_num)
    have e1 : (m : ℚ) * ((2 : ℚ) ^ n / 524288) * 524288 = (m : ℚ) * (2 : ℚ) ^ n := by
      field_simp
    rw [e1] at this
    linarith
  have hK1z : (24 * 524288 - 1 : ℤ) < m * 2 ^ n := by exact_mod_cast hK1
  have hK2z : m * 2 ^ n < (24 * 524288 + 1 : ℤ) := by exact_mod_cast hK2
  have hK : m * 2 ^ n = (24 * 524288 : ℤ) := by
    generalize m * 2 ^ n = K at hK1z hK2z
    omega
  have hKq : (m : ℚ) * (2 : ℚ) ^ n = 24 * 524288 := by
    rw [← hcast, hK]
    norm_num
  rw [← mul_div_assoc, hKq]
  norm_num

/-- C36, the divergence: `2^24 - 1 = 16777215` is a float, and for every float
logarithm `log2f` whose value at it is a float within `3 * 2^-21` of the real
logarithm (three quarters of the spacing `2^-19` of the floats near 24; a
correctly rounded logarithm is within half the spacing), that value is 24,
because `log2(16777215) = 24 - 8.6e-8` is nearer to 24 than to any other
float.  So `compute_log2_scale` returns `s = 14 - 24 = -10` and not
`14 - 23 = -9`, and `max_value * 2^(s - 14)` is `16777215 / 16777216`, below 1:
outside the interval `[1, 2)`; likewise `max_value * 2^s` is below `2^14`. -/
theorem scale_normalisation_fails_below_power_of_two (log2f : ℚ → ℚ)
    (hfloat : is_binary32 (log2f 16777215))
    (hnear : abs (((log2f 16777215 : ℚ) : ℝ) - Real.logb 2 16777215) ≤ 3 * 2 ^ (-21 : ℤ)) :
    is_binary32 16777215 ∧
    log2f 16777215 = 24 ∧
    compute_log2_scale_float log2f 16777215 = -10 ∧
    ldexp 16777215 (compute_log2_scale_float log2f 16777215 - 14) = 16777215 / 16777216 ∧
    ¬ (1 ≤ ldexp 16777215 (compute_log2_scale_float log2f 16777215 - 14)) ∧
    ¬ (2 ^ 14 ≤ ldexp 16777215 (compute_log2_scale_float log2f 16777215)) := by
  obtain ⟨hL1, hL2⟩ := logb_near_24
  obtain ⟨h1, h2⟩ := abs_le.1 hnear
  have hε21 : ((2 : ℝ) ^ (-21 : ℤ)) = 1 / 2097152 := by norm_num
  rw [hε21] at hL1 h1 h2
  have hlo : (((24 : ℚ) - 1 / 524288 : ℚ) : ℝ) < ((log2f 16777215 : ℚ) : ℝ) := by
    push_cast
    linarith
  have hhi : ((log2f 16777215 : ℚ) : ℝ) < (((24 : ℚ) + 1 / 524288 : ℚ) : ℝ) := by
    push_cast
    linarith
  have h24 : log2f 16777215 = 24 :=
    binary32_near_24 _ hfloat (by exact_mod_cast hlo) (by exact_mod_cast hhi)
  have hs : compute_log2_scale_float log2f 16777215 = -10 := by
    unfold compute_log2_scale_float
    rw [h24]
    norm_num
  refine ⟨⟨16777215, 0, by norm_num, by norm_num, by norm_num, by norm_num⟩, h24, hs, ?_, ?_, ?_⟩
  · rw [hs]
    unfold ldexp
    norm_num
  · rw [hs]
    unfold ldexp
    norm_num
  · rw [hs]
    unfold ldexp
    norm_num

/-- Witness for C36: the sample float logarithm, whose value 24 at `16777215`
is a float within `2^-21` of the real logarithm. -/
theorem scale_normalisation_fails_below_power_of_two_witness :
    (is_binary32 (sample_log2f 16777215) ∧
      abs (((sample_log2f 16777215 : ℚ) : ℝ) - Real.logb 2 16777215) ≤ 3 * 2 ^ (-21 : ℤ)) ∧
    compute_log2_scale_float sample_log2f 16777215 = -10 ∧
    ¬ (1 ≤ ldexp 16777215 (compute_log2_scale_float sample_log2f 16777215 - 14)) :=
  have hval : sample_log2f 16777215 = 24 := by simp [sample_log2f]
  have hfloat : is_binary32 (sample_log2f 16777215) := by
    rw [hval]
    exact ⟨3, 3, by norm_num, by norm_num, by norm_num, by norm_num⟩
  have hnear : abs (((sample_log2f 16777215 : ℚ) : ℝ) - Real.logb 2 16777215)
      ≤ 3 * 2 ^ (-21 : ℤ) := by
    rw [hval, abs_le]
    have h := logb_near_24
    have hε21 : ((2 : ℝ) ^ (-21 : ℤ)) = 1 / 2097152 := by norm_num
    rw [hε21] at h ⊢
    push_cast
    constructor <;> linarith [h.1, h.2]
  ⟨⟨hfloat, hnear⟩,
    (scale_normalisation_fails_below_power_of_two sample_log2f hfloat hnear).2.2.1,
    (scale_normalisation_fails_below_power_of_two sample_log2f hfloat hnear).2.2.2.2.1⟩

/-! ## Round trip of UVs -/
/-- Every component of a list of `vec2` is bounded in magnitude by the larger
component of the running maximum of absolute values. -/
theorem max_extent_bound_vec2 (uvs : List (List ℚ)) (hlen : ∀ p ∈ uvs, p.length = 2) :
    ∀ p ∈ uvs, ∀ k, k < 2 →
      abs (p.getD k 0) ≤
        max ((uvs.foldl (fun m p => List.zipWith max m (p.map fun x => abs x)) [0, 0]).getD 0 0)
          ((uvs.foldl (fun m p => List.zipWith max m (p.map fun x => abs x)) [0, 0]).getD 1 0) := by
  intro p hp k hk
  have hfold : uvs.foldl (fun m p => List.zipWith max m (p.map fun x => abs x)) [0, 0]
      = (uvs.map (List.map fun x => abs x)).foldl (fun m p => List.zipWith max m p)
          (List.replicate 2 0) := by
    rw [List.foldl_map]
    rfl
  rw [hfold]
  have hne : uvs.map (List.map fun x : ℚ => abs x) ≠ [] := by
    intro h
    rw [List.map_eq_nil_iff] at h
    rw [h] at hp
    simp at hp
  obtain ⟨_, hmax⟩ := col_max_spec (uvs.map (List.map fun x : ℚ => abs x)) 2 0 0 hne
    (by
      intro q hq
      obtain ⟨q0, hq0, rfl⟩ := List.mem_map.1 hq
      simpa using hlen q0 hq0)
    (by
      intro q hq j hj
      obtain ⟨q0, hq0, rfl⟩ := List.mem_map.1 hq
      rw [getD_map_of_lt _ q0 j (by rw [hlen q0 hq0]; exact hj) 0 0]
      exact abs_nonneg _)
  have hk' := (hmax k hk).2 _ (List.mem_map_of_mem _ hp)
  rw [getD_map_of_lt _ p k (by rw [hlen p hp]; exact hk) 0 0] at hk'
  generalize (uvs.map (List.map fun x : ℚ => abs x)).foldl
    (fun m p => List.zipWith max m p) (List.replicate 2 0) = r at hk'
  interval_cases k
  · exact le_trans hk' (le_max_left _ _)
  · exact le_trans hk' (le_max_right _ _)

/-- Scale, round, clamp and trim of a list of vectors whose scaled components
stay below `2^15`: decoding a component with the returned exponent gives the
component back up to one unit of the returned exponent. -/
theorem quantise_roundtrip (rnd : ℚ → Int)
    (hr : ∀ x, abs (((rnd x : Int) : ℚ) - x) ≤ 1 / 2)
    (vals : List (List ℚ)) (s : Int)
    (hsmall : ∀ i k, abs (ldexp ((vals.getD i []).getD k 0) s) < 32768)
    (i k : Nat) (hi : i < vals.length) (hk : k < (vals.getD i []).length) :
    abs (ldexp ((((adjust_quant (vals.map fun p => p.map fun x =>
              min (max (rnd (ldexp x s)) (-0x8000)) 0x7fff) (-s)).1.getD i []).getD k 0 : Int) : ℚ)
            (adjust_quant (vals.map fun p => p.map fun x =>
              min (max (rnd (ldexp x s)) (-0x8000)) 0x7fff) (-s)).2
          - (vals.getD i []).getD k 0)
      ≤ (2 : ℚ) ^ (adjust_quant (vals.map fun p => p.map fun x =>
              min (max (rnd (ldexp x s)) (-0x8000)) 0x7fff) (-s)).2 := by
  have hpos : ∀ e : Int, (0 : ℚ) < 2 ^ e := fun e => zpow_pos (by norm_num) e
  have h16 : ∀ v ∈ vals.map (fun p => p.map fun x =>
        min (max (rnd (ldexp x s)) (-0x8000)) 0x7fff),
      ∀ c ∈ v, -32768 ≤ c ∧ c ≤ 32767 := by
    intro v hv c hc
    obtain ⟨p, _, rfl⟩ := List.mem_map.1 hv
    obtain ⟨x, _, rfl⟩ := List.mem_map.1 hc
    exact clamp_range _
  obtain ⟨kk, hall, hval, hexp⟩ := adjust_quant_shift _ (-s) h16
  rw [hval, hexp, getD_getD_map_shift]
  have hdvd := dvd_getD_getD _ _ hall i k
  have hcancel := shiftRight_mul_cancel _ kk hdvd
  have henc : ((vals.map fun p => p.map fun x =>
        min (max (rnd (ldexp x s)) (-0x8000)) 0x7fff).getD i []).getD k 0
      = min (max (rnd (ldexp ((vals.getD i []).getD k 0) s)) (-0x8000)) 0x7fff := by
    rw [getD_map_of_lt _ vals i hi [] [], getD_map_of_lt _ _ k hk 0 0]
  rw [henc] at hcancel ⊢
  have hx := hsmall i k
  generalize (vals.getD i []).getD k 0 = v at hcancel hx ⊢
  have herr := clamp_round_error rnd hr (ldexp v s) hx
  generalize min (max (rnd (ldexp v s)) (-0x8000)) 0x7fff = q0 at hcancel herr ⊢
  generalize Int.shiftRight q0 kk = q at hcancel
  have hq : ldexp ((q : Int) : ℚ) (-s + kk) = ((q0 : Int) : ℚ) * 2 ^ (-s) := by
    unfold ldexp
    rw [← hcancel, zpow_add₀ (by norm_num : (2 : ℚ) ≠ 0), zpow_natCast]
    push_cast
    ring
  have hvx : v = ldexp v s * 2 ^ (-s) := by
    unfold ldexp
    rw [mul_assoc, ← zpow_add₀ (by norm_num : (2 : ℚ) ≠ 0)]
    simp
  rw [hq]
  have hdiff : ((q0 : Int) : ℚ) * 2 ^ (-s) - v = (((q0 : Int) : ℚ) - ldexp v s) * 2 ^ (-s) := by
    conv_lhs => rw [hvx]
    ring
  rw [hdiff, abs_mul, abs_of_pos (hpos _)]
  have hmono : (2 : ℚ) ^ (-s) ≤ 2 ^ (-s + (kk : Int)) :=
    zpow_le_zpow_right₀ (by norm_num) (by omega)
  calc abs (((q0 : Int) : ℚ) - ldexp v s) * 2 ^ (-s)
      ≤ 1 * 2 ^ (-s) := mul_le_mul_of_nonneg_right herr (le_of_lt (hpos _))
    _ = 2 ^ (-s) := one_mul _
    _ ≤ 2 ^ (-s + (kk : Int)) := hmono

/-- The round-trip bound of lines 276-294 of `mesh_extract_uv_snorm_scale`, on
the decoded UVs. -/
theorem encode_uvs_roundtrip (rnd : ℚ → Int)
    (hr : ∀ x, abs (((rnd x : Int) : ℚ) - x) ≤ 1 / 2)
    (uvs : List (List ℚ)) (hlen : ∀ uv ∈ uvs, uv.length = 2)
    (hnz : ∃ uv ∈ uvs, ∃ k, k < 2 ∧ uv.getD k 0 ≠ 1 / 2) :
    ∀ i k, i < uvs.length → k < 2 →
      abs (1 / 2 * ldexp ((((encode_uvs_snorm_scale rnd uvs).1.getD i []).getD k 0 : Int) : ℚ)
              (encode_uvs_snorm_scale rnd uvs).2 + 1 / 2
            - (uvs.getD i []).getD k 0)
        ≤ (2 : ℚ) ^ ((encode_uvs_snorm_scale rnd uvs).2 - 1) := by
  intro i k hi hk
  -- the remapped UVs
  have hlen2 : ∀ p ∈ uvs.map (fun uv => uv.map fun (x : ℚ) => 2 * x - 1), p.length = 2 := by
    intro p hp
    obtain ⟨uv, huv, rfl⟩ := List.mem_map.1 hp
    rw [List.length_map]
    exact hlen uv huv
  have hget : ∀ i k, i < uvs.length → k < 2 →
      ((uvs.map fun uv => uv.map fun (x : ℚ) => 2 * x - 1).getD i []).getD k 0
        = 2 * (uvs.getD i []).getD k 0 - 1 := by
    intro i k hi hk
    have hmem : uvs.getD i [] ∈ uvs := by
      rw [List.getD_eq_getElem _ _ hi]
      exact List.getElem_mem _
    rw [getD_map_of_lt _ uvs i hi [] [], getD_map_of_lt _ _ k (by rw [hlen _ hmem]; exact hk) 0 0]
  have hbound := max_extent_bound_vec2 _ hlen2
  unfold encode_uvs_snorm_scale encode_vec2_to_snorm_exp
  simp only
  generalize hM : max (((uvs.map fun uv => uv.map fun (x : ℚ) => 2 * x - 1).foldl
        (fun m uv => List.zipWith max m (uv.map fun x => abs x)) [0, 0]).getD 0 0)
      (((uvs.map fun uv => uv.map fun (x : ℚ) => 2 * x - 1).foldl
        (fun m uv => List.zipWith max m (uv.map fun x => abs x)) [0, 0]).getD 1 0) = M
    at hbound
  have hMpos : 0 < M := by
    obtain ⟨uv, huv, j, hj, hne⟩ := hnz
    have hb := hbound _ (List.mem_map_of_mem (fun uv => uv.map fun (x : ℚ) => 2 * x - 1) huv)
      j hj
    rw [getD_map_of_lt _ uv j (by rw [hlen uv huv]; exact hj) 0 0] at hb
    have hne' : 2 * uv.getD j 0 - 1 ≠ 0 := by
      intro h0
      apply hne
      linarith
    exact lt_of_lt_of_le (abs_pos.2 hne') hb
  have hsmall : ∀ i k, abs (ldexp
      (((uvs.map fun uv => uv.map fun (x : ℚ) => 2 * x - 1).getD i []).getD k 0)
      (compute_log2_scale M)) < 32768 := by
    intro i k
    apply scaled_lt_unclamped M _ hMpos
    by_cases hi : i < (uvs.map fun uv => uv.map fun (x : ℚ) => 2 * x - 1).length
    · have hmem : (uvs.map fun uv => uv.map fun (x : ℚ) => 2 * x - 1).getD i []
          ∈ uvs.map fun uv => uv.map fun (x : ℚ) => 2 * x - 1 := by
        rw [List.getD_eq_getElem _ _ hi]
        exact List.getElem_mem _
      by_cases hk : k < 2
      · exact hbound _ hmem k hk
      · rw [List.getD_eq_default _ _ (by rw [hlen2 _ hmem]; omega)]
        simpa using le_of_lt hMpos
    · rw [List.getD_eq_default _ _ (Nat.le_of_not_lt hi)]
      simpa using le_of_lt hMpos
  have hi2 : i < (uvs.map fun uv => uv.map fun (x : ℚ) => 2 * x - 1).length := by
    simpa using hi
  have hk2 : k < ((uvs.map fun uv => uv.map fun (x : ℚ) => 2 * x - 1).getD i []).length := by
    have hmem : (uvs.map fun uv => uv.map fun (x : ℚ) => 2 * x - 1).getD i []
        ∈ uvs.map fun uv => uv.map fun (x : ℚ) => 2 * x - 1 := by
      rw [List.getD_eq_getElem _ _ hi2]
      exact List.getElem_mem _
    rw [hlen2 _ hmem]
    exact hk
  have hrt := quantise_roundtrip rnd hr _ (compute_log2_scale M) hsmall i k hi2 hk2
  rw [hget i k hi hk] at hrt
  generalize (adjust_quant ((uvs.map fun uv => uv.map fun (x : ℚ) => 2 * x - 1).map
    fun p => p.map fun x =>
      min (max (rnd (ldexp x (compute_log2_scale M))) (-0x8000)) 0x7fff)
    (-(compute_log2_scale M))) = r at hrt ⊢
  generalize ldexp (((r.1.getD i []).getD k 0 : Int) : ℚ) r.2 = d at hrt ⊢
  generalize (uvs.getD i []).getD k 0 = u at hrt ⊢
  have hhalf : (2 : ℚ) ^ (r.2 - 1) = 2 ^ r.2 / 2 := by
    rw [zpow_sub₀ (by norm_num : (2 : ℚ) ≠ 0)]
    simp
  rw [hhalf]
  have hd : 1 / 2 * d + 1 / 2 - u = (d - (2 * u - 1)) / 2 := by ring
  rw [hd, abs_div]
  have h2 : abs (2 : ℚ) = 2 := abs_of_pos (by norm_num)
  rw [h2]
  exact div_le_div_of_nonneg_right hrt (by norm_num)

/-- The UVs that `mesh_extract_uv_snorm_scale` decodes have two components. -/
theorem read_uvs_length (float_of_bytes : List Nat → ℚ) (mesh : Mesh) (uvs : List (List ℚ))
    (h : read_uvs float_of_bytes mesh = some uvs) : ∀ uv ∈ uvs, uv.length = 2 := by
  unfold read_uvs at h
  simp only at h
  intro uv huv
  split_ifs at h
  · cases h
    obtain ⟨i, _, rfl⟩ := List.mem_map.1 huv
    simp [read_floats]
  · cases h
    obtain ⟨i, _, rfl⟩ := List.mem_map.1 huv
    simp
  · cases h
    rw [List.eq_of_mem_replicate huv]
    rfl

/-- C37 (round-trip bound for UVs), in exact arithmetic: when
`mesh_extract_uv_snorm_scale` decodes the non-empty list `uvs` from the mesh
and some component differs from `0.5`, then with `q` and `aux` the encoded
values and the exponent it returns (remap `u -> 2u - 1`, scale, round to
nearest, clamp, trim), every component `u` of every UV satisfies
`|0.5 * (q * 2^aux) + 0.5 - u| <= 2^(aux - 1)`. -/
theorem uv_roundtrip_bound (float_of_bytes : List Nat → ℚ) (rnd : ℚ → Int)
    (hr : ∀ x, abs (((rnd x : Int) : ℚ) - x) ≤ 1 / 2)
    (mesh : Mesh) (exp : Int) (uvs : List (List ℚ))
    (hread : read_uvs float_of_bytes mesh = some uvs)
    (hnz : ∃ uv ∈ uvs, ∃ k, k < 2 ∧ uv.getD k 0 ≠ 1 / 2) :
    ∀ i k, i < uvs.length → k < 2 →
      abs (1 / 2 * ldexp
              ((((mesh_extract_uv_snorm_scale float_of_bytes rnd mesh exp).1.getD i []).getD k 0 :
                Int) : ℚ)
              (mesh_extract_uv_snorm_scale float_of_bytes rnd mesh exp).2 + 1 / 2
            - (uvs.getD i []).getD k 0)
        ≤ (2 : ℚ) ^ ((mesh_extract_uv_snorm_scale float_of_bytes rnd mesh exp).2 - 1) := by
  have hlen := read_uvs_length float_of_bytes mesh uvs hread
  have heq : mesh_extract_uv_snorm_scale float_of_bytes rnd mesh exp
      = encode_uvs_snorm_scale rnd uvs := by
    unfold mesh_extract_uv_snorm_scale
    rw [hread]
  rw [heq]
  exact encode_uvs_roundtrip rnd hr uvs hlen hnz

/-- Witness for C37: two UVs in the format `R16G16_UNORM`, rounded with
round-half-up. -/
theorem uv_roundtrip_bound_witness :
    ((∀ x : ℚ, abs (((round x : Int) : ℚ) - x) ≤ 1 / 2) ∧
      read_uvs (fun _ => 0) sample_uv_mesh = some sample_uvs ∧
      (∃ uv ∈ sample_uvs, ∃ k, k < 2 ∧ uv.getD k 0 ≠ 1 / 2)) ∧
    abs (1 / 2 * ldexp
            ((((mesh_extract_uv_snorm_scale (fun _ => 0) round sample_uv_mesh 0).1.getD 1
              []).getD 0 0 : Int) : ℚ)
            (mesh_extract_uv_snorm_scale (fun _ => 0) round sample_uv_mesh 0).2 + 1 / 2
          - (sample_uvs.getD 1 []).getD 0 0)
      ≤ (2 : ℚ) ^ ((mesh_extract_uv_snorm_scale (fun _ => 0) round sample_uv_mesh 0).2 - 1) :=
  have hround : ∀ x : ℚ, abs (((round x : Int) : ℚ) - x) ≤ 1 / 2 := fun x => by
    rw [abs_sub_comm]; exact abs_sub_round x
  have hread : read_uvs (fun _ => 0) sample_uv_mesh = some sample_uvs := by
    unfold read_uvs
    simp only
    rw [if_neg (by decide), if_pos (by decide)]
    rfl
  have hval : sample_uvs = [[0, 1], [1 / 3, 49151 / 65535]] := by
    simp [sample_uvs, sample_uv_mesh, List.range_succ]
    norm_num
  have hz : ∃ uv ∈ sample_uvs, ∃ k, k < 2 ∧ uv.getD k 0 ≠ 1 / 2 :=
    ⟨[0, 1], by rw [hval]; simp, 0, by norm_num, by norm_num⟩
  ⟨⟨hround, hread, hz⟩,
    uv_roundtrip_bound (fun _ => 0) round hround sample_uv_mesh 0 sample_uvs hread hz 1 0
      (by rw [hval]; simp) (by norm_num)⟩

/-! ## Packed bit widths -/
theorem max_component_sub_wrap_lt (w : Nat) (a b : List Nat) :
    max_component (List.zipWith (sub_wrap w) a b) < 2 ^ w := by
  rcases (max_component_spec (List.zipWith (sub_wrap w) a b)).2 with h | h
  · rw [h]; exact Nat.two_pow_pos w
  · obtain ⟨i, hi, he⟩ := List.getElem_of_mem h
    rw [← he, List.getElem_zipWith]
    exact sub_wrap_lt _ _ _

/-- The width of a chunk never exceeds the width of the scalar, whatever the
attributes are. -/
theorem chunk_stats_bits_le (T : AttrType) (attrs : List (List Nat)) :
    (chunk_stats T attrs).bits ≤ T.bits_per_component := by
  have hw := bits_per_component_cases T
  have h32 : (2 : Nat) ^ T.bits_per_component ≤ 2 ^ 32 :=
    Nat.pow_le_pow_right (by norm_num) (by rcases hw with h | h <;> omega)
  have hs : (chunk_stats T attrs).diff_max_signed < 2 ^ T.bits_per_component :=
    max_component_sub_wrap_lt _ _ _
  have hdmin : min (chunk_stats T attrs).diff_max_signed (chunk_stats T attrs).diff_max_unsigned
      < 2 ^ T.bits_per_component := lt_of_le_of_lt (min_le_left _ _) hs
  have hb0w := (compute_required_bits_unsigned_spec _ (lt_of_lt_of_le hdmin h32)
    T.bits_per_component).1 hdmin
  rw [chunk_stats_bits_eq]
  split_ifs with h
  · rw [h.1]; simp [AttrType.bits_per_component]
  · exact hb0w

theorem chunk_width_le (data : StreamData) (s : Nat) (chunk : Meshlet) :
    chunk_width data s chunk ≤ 16 := by
  obtain _ | _ | _ | _ | s := s
  · simp [chunk_width]
  · exact chunk_stats_bits_le AttrType.u16vec3 _
  · exact le_trans (chunk_stats_bits_le AttrType.u8vec4 _) (by simp [AttrType.bits_per_component])
  · exact chunk_stats_bits_le AttrType.u16vec2 _
  · simp [chunk_width]

theorem encode_attribute_chunk_bits (meshlets : List Meshlet) (data : StreamData)
    (m s : Nat) (hs : 1 ≤ s) (st : List Nat × Stream) (c : Nat) :
    (encode_attribute_chunk meshlets data m s st c).2.bits_per_chunk
      = st.2.bits_per_chunk
          ||| ((chunk_width data s (meshlets.getD (m * NumChunks + c) Meshlet.zero)
                <<< (8 * c)) % 2 ^ 32) := by
  obtain _ | _ | _ | _ | s := s
  · omega
  · rfl
  · show (encode_normal_tangent_chunk st.1 _ data.normal_tangent
      (meshlets.getD (m * NumChunks + c) Meshlet.zero) c).2.bits_per_chunk = _
    rw [encode_normal_tangent_chunk_eq, encode_attribute_stream_bits]
    rfl
  · rfl
  · simp [encode_attribute_chunk, chunk_width]

theorem attribute_chunk_loop_bits (meshlets : List Meshlet) (data : StreamData) (m s : Nat)
    (hs : 1 ≤ s) (st0 : List Nat × Stream) :
    ∀ k,
      ((List.range k).foldl (encode_attribute_chunk meshlets data m s) st0).2.bits_per_chunk
        = (List.range k).foldl
            (fun a c => a ||| ((chunk_width data s
                (meshlets.getD (m * NumChunks + c) Meshlet.zero) <<< (8 * c)) % 2 ^ 32))
            st0.2.bits_per_chunk := by
  intro k
  induction k with
  | zero => rfl
  | succ k ih =>
    simp only [List.range_succ, List.foldl_append, List.foldl_cons, List.foldl_nil]
    rw [encode_attribute_chunk_bits _ _ _ _ hs, ih]

/-- Bit `j` of a word built by or-ing 8-bit fields, each shifted to its byte
and truncated to 32 bits. -/
theorem byte_fold_testBit (code : Nat → Nat) (hcode : ∀ c, code c < 256) :
    ∀ k j,
      ((List.range k).foldl (fun a c => a ||| ((code c <<< (8 * c)) % 2 ^ 32)) 0).testBit j
        = (decide (j < 32) && decide (j / 8 < k) && (code (j / 8)).testBit (j % 8)) := by
  intro k
  induction k with
  | zero => intro j; simp
  | succ k ih =>
    intro j
    simp only [List.range_succ, List.foldl_append, List.foldl_cons, List.foldl_nil,
      Nat.testBit_or, ih j, Nat.testBit_mod_two_pow, Nat.testBit_shiftLeft]
    by_cases h32 : j < 32
    · rcases Nat.lt_trichotomy (j / 8) k with hlt | heq | hgt
      · have h1 : j / 8 < k + 1 := by omega
        have h2 : ¬ j ≥ 8 * k := by omega
        simp [hlt, h1, h2]
      · have h1 : j / 8 < k + 1 := by omega
        have h2 : j ≥ 8 * k := by omega
        have h3 : ¬ j / 8 < k := by omega
        have h4 : j - 8 * k = j % 8 := by omega
        simp [h1, h2, h3, h4, heq, h32]
      · have h1 : ¬ j / 8 < k + 1 := by omega
        have h3 : ¬ j / 8 < k := by omega
        have h4 : (code k).testBit (j - 8 * k) = false := by
          apply Nat.testBit_lt_two_pow
          calc code k < 256 := hcode k
            _ = 2 ^ 8 := by norm_num
            _ ≤ 2 ^ (j - 8 * k) := Nat.pow_le_pow_right (by norm_num) (by omega)
        simp [h1, h3, h4]
    · simp [h32]

theorem byte_fold_field (code : Nat → Nat) (hcode : ∀ c, code c < 256) (k c : Nat)
    (hk : k ≤ 4) :
    ((List.range k).foldl (fun a c => a ||| ((code c <<< (8 * c)) % 2 ^ 32)) 0)
        / 2 ^ (8 * c) % 256
      = if c < k then code c else 0 := by
  apply Nat.eq_of_testBit_eq
  intro i
  have h256 : (256 : Nat) = 2 ^ 8 := by norm_num
  rw [h256, Nat.testBit_mod_two_pow, ← Nat.shiftRight_eq_div_pow, Nat.testBit_shiftRight,
    byte_fold_testBit code hcode]
  by_cases hi : i < 8
  · have h1 : (8 * c + i) / 8 = c := by omega
    have h2 : (8 * c + i) % 8 = i := by omega
    rw [h1, h2]
    by_cases hck : c < k
    · have h32 : 8 * c + i < 32 := by omega
      simp [hi, hck, h32]
    · simp [hi, hck]
  · have hhigh : (code c).testBit i = false := by
      apply Nat.testBit_lt_two_pow
      calc code c < 256 := hcode c
        _ = 2 ^ 8 := by norm_num
        _ ≤ 2 ^ i := Nat.pow_le_pow_right (by norm_num) (by omega)
    by_cases hck : c < k
    · simp [hi, hck, hhigh]
    · simp [hi, hck]

theorem byte_fold_lt (code : Nat → Nat) (hcode : ∀ c, code c < 256) (k : Nat) :
    ((List.range k).foldl (fun a c => a ||| ((code c <<< (8 * c)) % 2 ^ 32)) 0) < 2 ^ 32 := by
  apply Nat.lt_pow_two_of_testBit
  intro j hj
  rw [byte_fold_testBit code hcode]
  have : ¬ j < 32 := by omega
  simp [this]

/-- The packed widths of an attribute stream of an output meshlet: byte `c`
of `bits_per_chunk` is the width of input chunk `m * NumChunks + c` for a used
slot and 0 for every other `c`. -/
theorem attribute_stream_chunk_bits (meshlets : List Meshlet) (data : StreamData)
    (p_aux : List Int) (m s : Nat) (hs : 1 ≤ s) (p : List Nat) :
    (attribute_stream meshlets data p_aux m s p).bits_per_chunk < 2 ^ 32 ∧
    ∀ c, (attribute_stream meshlets data p_aux m s p).chunk_bits c
      = if c < meshlet_chunks meshlets.length m then
          chunk_width data s (meshlets.getD (m * NumChunks + c) Meshlet.zero)
        else 0 := by
  have hcode : ∀ c, chunk_width data s (meshlets.getD (m * NumChunks + c) Meshlet.zero) < 256 :=
    fun c => lt_of_le_of_lt (chunk_width_le _ _ _) (by norm_num)
  have hB : (attribute_stream meshlets data p_aux m s p).bits_per_chunk
      = (List.range (meshlet_chunks meshlets.length m)).foldl
          (fun a c => a ||| ((chunk_width data s
              (meshlets.getD (m * NumChunks + c) Meshlet.zero) <<< (8 * c)) % 2 ^ 32)) 0 :=
    attribute_chunk_loop_bits meshlets data m s hs
      (p, { Stream.zero with aux := p_aux.getD s 0 }) (meshlet_chunks meshlets.length m)
  refine ⟨?_, ?_⟩
  · rw [hB]
    exact byte_fold_lt _ hcode _
  · intro c
    unfold Stream.chunk_bits
    rw [hB]
    exact byte_fold_field _ hcode _ c (meshlet_chunks_le _ _)

/-- C31 (packed bit widths): for every output meshlet `m` and attribute stream
`s` (`1 <= s < num_streams <= MaxStreams`) of `encode_mesh`'s output,
`bits_per_chunk` is a 32-bit word whose byte `c` (bits `8c..8c+7`) is the
width computed for input chunk `m * NumChunks + c` for every `c < num_chunks`
and 0 for every `c >= num_chunks`; each width is at most 16, so no width
reaches beyond its byte. -/
theorem packed_bit_widths (meshlets : List Meshlet) (data : StreamData) (p_aux : List Int)
    (num_streams : Nat) (hns8 : num_streams ≤ MaxStreams)
    (m s : Nat) (hm : m < (meshlets.length + NumChunks - 1) / NumChunks)
    (hs1 : 1 ≤ s) (hs : s < num_streams) :
    (((encode_mesh meshlets data p_aux num_streams).mesh.meshlets.getD m
        Metadata.zero).streams.getD s Stream.zero).bits_per_chunk < 2 ^ 32 ∧
    (∀ c, c < ((encode_mesh meshlets data p_aux num_streams).mesh.meshlets.getD m
          Metadata.zero).num_chunks →
      (((encode_mesh meshlets data p_aux num_streams).mesh.meshlets.getD m
          Metadata.zero).streams.getD s Stream.zero).chunk_bits c
        = chunk_width data s (meshlets.getD (m * NumChunks + c) Meshlet.zero) ∧
      chunk_width data s (meshlets.getD (m * NumChunks + c) Meshlet.zero) < 2 ^ 8) ∧
    (∀ c, ((encode_mesh meshlets data p_aux num_streams).mesh.meshlets.getD m
          Metadata.zero).num_chunks ≤ c →
      (((encode_mesh meshlets data p_aux num_streams).mesh.meshlets.getD m
          Metadata.zero).streams.getD s Stream.zero).chunk_bits c = 0) := by
  obtain ⟨_, _, hrec⟩ := encode_mesh_records meshlets data p_aux num_streams (by omega) hns8
  obtain ⟨hnc, _, hattr, _⟩ := hrec m hm
  obtain ⟨hlt, hbyte⟩ := attribute_stream_chunk_bits meshlets data p_aux m s hs1
    (words_before meshlets data num_streams m s 0)
  rw [hattr s hs1 hs, hnc]
  refine ⟨hlt, ?_, ?_⟩
  · intro c hc
    rw [hbyte c, if_pos hc]
    exact ⟨rfl, lt_of_le_of_lt (chunk_width_le _ _ _) (by norm_num)⟩
  · intro c hc
    rw [hbyte c, if_neg (by omega)]

set_option maxRecDepth 100000 in
/-- Witness for C31: the position stream of the meshlet encoded from the two
sample chunks. -/
theorem packed_bit_widths_witness :
    (2 ≤ MaxStreams ∧ 0 < (sample_chunks.length + NumChunks - 1) / NumChunks ∧ 1 ≤ 1 ∧ 1 < 2) ∧
    (((encode_mesh sample_chunks sample_stream_data [0, 0] 2).mesh.meshlets.getD 0
        Metadata.zero).streams.getD 1 Stream.zero).chunk_bits 2 = 0 :=
  ⟨⟨by decide, by decide, by decide, by decide⟩,
    (packed_bit_widths sample_chunks sample_stream_data [0, 0] 2 (by decide) 0 1 (by decide)
      (by decide) (by decide)).2.2 2 (by decide)⟩

/-! ## Base values per chunk -/
theorem base_slot_disjoint (T : AttrType) (c c2 k t : Nat) (hne : c2 ≠ c)
    (hk : k < T.components) (ht : t < T.bits_per_component) :
    ¬ (c * T.components * T.bits_per_component
          ≤ (c2 * T.components + k) * T.bits_per_component + t ∧
        (c2 * T.components + k) * T.bits_per_component + t
          < (c + 1) * T.components * T.bits_per_component) := by
  cases T <;> simp only [AttrType.components, AttrType.bits_per_component] at hk ht ⊢ <;> omega

theorem base_slot_inside (T : AttrType) (c k t : Nat)
    (hk : k < T.components) (ht : t < T.bits_per_component) :
    (c * T.components * T.bits_per_component
          ≤ (c * T.components + k) * T.bits_per_component + t ∧
        (c * T.components + k) * T.bits_per_component + t
          < (c + 1) * T.components * T.bits_per_component) ∧
    ((c * T.components + k) * T.bits_per_component + t
        - c * T.components * T.bits_per_component) / T.bits_per_component = k ∧
    ((c * T.components + k) * T.bits_per_component + t
        - c * T.components * T.bits_per_component) % T.bits_per_component = t := by
  cases T <;> simp only [AttrType.components, AttrType.bits_per_component] at hk ht ⊢ <;> omega

theorem base_slot_fits (T : AttrType) (c : Nat) (hc : c < NumChunks) :
    (c + 1) * T.components * T.bits_per_component ≤ 192 := by
  have h4 : c < 4 := hc
  cases T <;> simp only [AttrType.components, AttrType.bits_per_component] <;> omega

/-- C32 (base values per chunk): for each of the three stream types, `C * w`
is 48 or 32; `encode_attribute_stream` for chunk slot `c < NumChunks` writes
into the six words of `base_value` only bits `[c*C*w, (c+1)*C*w)`, which lie
within the 192 bits of the array: the array keeps its six words, every bit
outside that range is unchanged, bit `t` of component `k` of the slot is the
old bit or-ed with bit `t` of the base, the bases of the other slots read
back unchanged, and when the slot was zero before, its components read back
as the base chosen for the chunk. -/
theorem base_values_per_chunk (T : AttrType) (payload : List Nat) (stream : Stream)
    (raw : List (List Nat)) (c : Nat) (remap : Option (List Nat)) (n : Nat)
    (hlen : stream.base_value.length = 6) (hc : c < NumChunks) :
    (T.components * T.bits_per_component = 48 ∨ T.components * T.bits_per_component = 32) ∧
    (c + 1) * T.components * T.bits_per_component ≤ 32 * stream.base_value.length ∧
    32 * stream.base_value.length = 192 ∧
    (encode_attribute_stream T payload stream raw c remap n).2.base_value.length = 6 ∧
    (∀ j, ¬ (c * T.components * T.bits_per_component ≤ j ∧
          j < (c + 1) * T.components * T.bits_per_component) →
      getBit (encode_attribute_stream T payload stream raw c remap n).2.base_value j
        = getBit stream.base_value j) ∧
    (∀ k t, k < T.components → t < T.bits_per_component →
      getBit (encode_attribute_stream T payload stream raw c remap n).2.base_value
          ((c * T.components + k) * T.bits_per_component + t)
        = (getBit stream.base_value ((c * T.components + k) * T.bits_per_component + t)
            || ((chunk_stats T (gather_attributes raw remap n)).base.getD k 0).testBit t)) ∧
    (∀ c2 k, c2 ≠ c → k < T.components →
      Stream.chunk_base T (encode_attribute_stream T payload stream raw c remap n).2 c2 k
        = Stream.chunk_base T stream c2 k) ∧
    ((∀ j, c * T.components * T.bits_per_component ≤ j →
        j < (c + 1) * T.components * T.bits_per_component →
        getBit stream.base_value j = false) →
      ∀ k, k < T.components →
        Stream.chunk_base T (encode_attribute_stream T payload stream raw c remap n).2 c k
          = (chunk_stats T (gather_attributes raw remap n)).base.getD k 0
              % 2 ^ T.bits_per_component) := by
  have hfit : (c + 1) * T.components * T.bits_per_component ≤ 32 * stream.base_value.length := by
    rw [hlen]; exact base_slot_fits T c hc
  have hl27 : stream.base_value.length ≤ 2 ^ 27 := by rw [hlen]; norm_num
  have hbit := getBit_write_bits stream.base_value
    (chunk_stats T (gather_attributes raw remap n)).base T.components c T.bits_per_component
    hfit hl27
  rw [encode_attribute_stream_base]
  refine ⟨?_, hfit, by rw [hlen], ?_, ?_, ?_, ?_, ?_⟩
  · cases T <;> simp [AttrType.components, AttrType.bits_per_component]
  · rw [length_write_bits _ _ _ _ _ hfit hl27, hlen]
  · intro j hj
    rw [hbit j]
    simp [hj]
  · intro k t hk ht
    obtain ⟨hin, hdiv, hmod⟩ := base_slot_inside T c k t hk ht
    rw [hbit, hdiv, hmod]
    simp [hin]
  · intro c2 k hne hk
    unfold Stream.chunk_base
    rw [encode_attribute_stream_base]
    apply read_bits_congr
    intro t ht
    rw [hbit]
    have hout := base_slot_disjoint T c c2 k t hne hk ht
    simp [hout]
  · intro hzero k hk
    unfold Stream.chunk_base
    rw [encode_attribute_stream_base]
    apply read_bits_eq_mod
    intro t ht
    obtain ⟨hin, hdiv, hmod⟩ := base_slot_inside T c k t hk ht
    rw [hbit, hdiv, hmod, hzero _ hin.1 hin.2]
    simp [hin]

/-- Witness for C32: slot 2 of a zeroed position stream, with the base of the
sample positions. -/
theorem base_values_per_chunk_witness :
    (Stream.zero.base_value.length = 6 ∧ 2 < NumChunks) ∧
    ∀ c2 k, c2 ≠ 2 → k < AttrType.u16vec3.components →
      Stream.chunk_base AttrType.u16vec3
          (encode_attribute_stream AttrType.u16vec3 [] Stream.zero sample_u16vec3 2 none 2).2 c2 k
        = Stream.chunk_base AttrType.u16vec3 Stream.zero c2 k :=
  ⟨⟨by decide, by decide⟩,
    (base_values_per_chunk AttrType.u16vec3 [] Stream.zero sample_u16vec3 2 none 2 (by decide)
      (by decide)).2.2.2.2.2.2.1⟩

/-! ## Base vertex offsets -/
theorem vertices_before_succ (meshlets : List Meshlet) (k : Nat) :
    vertices_before meshlets (k + 1)
      = vertices_before meshlets k + (meshlets.getD k Meshlet.zero).vertex_count := by
  simp [vertices_before, List.range_succ]

theorem vertices_before_mono (meshlets : List Meshlet) (a b : Nat) (h : a ≤ b) :
    vertices_before meshlets a ≤ vertices_before meshlets b := by
  induction b with
  | zero => have : a = 0 := by omega
            rw [this]
  | succ b ih =>
    rcases Nat.lt_or_ge a (b + 1) with h1 | h1
    · rw [vertices_before_succ]
      have := ih (by omega)
      omega
    · have : a = b + 1 := by omega
      rw [this]

/-- The counters of the primitive-stream loop after `k` chunks of output
meshlet `m`: the sums of the counts of its first `k` chunks, in 32-bit
arithmetic. -/
theorem primitive_chunk_loop_counts (meshlets : List Meshlet) (m : Nat) (st0 : PrimState) :
    ∀ k,
      ((List.range k).foldl (encode_primitive_chunk meshlets m) st0).num_attributes % 2 ^ 32
        = (st0.num_attributes + ((List.range k).map fun c =>
            (meshlets.getD (m * NumChunks + c) Meshlet.zero).vertex_count).sum) % 2 ^ 32 ∧
      ((List.range k).foldl (encode_primitive_chunk meshlets m) st0).num_primitives % 2 ^ 32
        = (st0.num_primitives + ((List.range k).map fun c =>
            (meshlets.getD (m * NumChunks + c) Meshlet.zero).primitive_count).sum) % 2 ^ 32 := by
  intro k
  induction k with
  | zero => simp
  | succ k ih =>
    simp only [List.range_succ, List.foldl_append, List.foldl_cons, List.foldl_nil,
      List.map_append, List.map_cons, List.map_nil, List.sum_append, List.sum_cons,
      List.sum_nil, Nat.add_zero]
    obtain ⟨ih1, ih2⟩ := ih
    constructor
    · show ((((List.range k).foldl (encode_primitive_chunk meshlets m) st0).num_attributes
          + (meshlets.getD (m * NumChunks + k) Meshlet.zero).vertex_count) % 2 ^ 32) % 2 ^ 32 = _
      rw [Nat.mod_mod, Nat.add_mod, ih1]
      omega
    · show ((((List.range k).foldl (encode_primitive_chunk meshlets m) st0).num_primitives
          + (meshlets.getD (m * NumChunks + k) Meshlet.zero).primitive_count) % 2 ^ 32)
          % 2 ^ 32 = _
      rw [Nat.mod_mod, Nat.add_mod, ih2]
      omega

theorem primitive_chunk_loop_counts_lt (meshlets : List Meshlet) (m : Nat) (st0 : PrimState)
    (h1 : st0.num_attributes < 2 ^ 32) (h2 : st0.num_primitives < 2 ^ 32) :
    ∀ k,
      ((List.range k).foldl (encode_primitive_chunk meshlets m) st0).num_attributes < 2 ^ 32 ∧
      ((List.range k).foldl (encode_primitive_chunk meshlets m) st0).num_primitives < 2 ^ 32 := by
  intro k
  induction k with
  | zero => exact ⟨h1, h2⟩
  | succ k ih =>
    simp only [List.range_succ, List.foldl_append, List.foldl_cons, List.foldl_nil]
    exact ⟨Nat.mod_lt _ (by norm_num), Nat.mod_lt _ (by norm_num)⟩

/-- The vertex counter that output meshlet `m` adds to `base_vertex_offset`. -/
theorem primitive_loop_num_attributes (meshlets : List Meshlet) (m : Nat) (p : List Nat) :
    (primitive_loop meshlets m p).num_attributes = meshlet_vertices meshlets m % 2 ^ 32 := by
  have h := (primitive_chunk_loop_counts meshlets m
    { payload := p, index_stream := Stream.zero, num_attributes := 0, num_primitives := 0 }
    (meshlet_chunks meshlets.length m)).1
  have hlt := (primitive_chunk_loop_counts_lt meshlets m
    { payload := p, index_stream := Stream.zero, num_attributes := 0, num_primitives := 0 }
    (by norm_num) (by norm_num) (meshlet_chunks meshlets.length m)).1
  rw [Nat.mod_eq_of_lt hlt] at h
  simpa [primitive_loop, meshlet_vertices] using h

theorem encode_meshlet_offset (meshlets : List Meshlet) (data : StreamData) (p_aux : List Int)
    (num_streams : Nat) (st : Encoded × Nat) (m : Nat) :
    (encode_meshlet meshlets data p_aux num_streams st m).2
      = (st.2 + (primitive_loop meshlets m st.1.payload).num_attributes) % 2 ^ 32 ∧
    ∃ md : Metadata,
      (encode_meshlet meshlets data p_aux num_streams st m).1.mesh.meshlets
        = st.1.mesh.meshlets ++ [md] ∧
      md.base_vertex_offset = st.2 ∧
      md.num_chunks = meshlet_chunks meshlets.length m :=
  ⟨rfl, _, rfl, rfl, rfl⟩

/-- The loop over output meshlets keeps `base_vertex_offset` equal to the
32-bit sum of the vertex counts of the meshlets already encoded, and records
it in each meshlet. -/
theorem encode_mesh_loop_offsets (meshlets : List Meshlet) (data : StreamData)
    (p_aux : List Int) (num_streams : Nat) (st0 : Encoded × Nat)
    (h0 : st0.1.mesh.meshlets = []) (hb0 : st0.2 = 0) :
    ∀ M,
      ((List.range M).foldl (encode_meshlet meshlets data p_aux num_streams) st0).2
        = ((List.range M).map (meshlet_vertices meshlets)).sum % 2 ^ 32 ∧
      ((List.range M).foldl (encode_meshlet meshlets data p_aux num_streams)
        st0).1.mesh.meshlets.length = M ∧
      ∀ m, m < M →
        (((List.range M).foldl (encode_meshlet meshlets data p_aux num_streams)
          st0).1.mesh.meshlets.getD m Metadata.zero).base_vertex_offset
          = ((List.range m).map (meshlet_vertices meshlets)).sum % 2 ^ 32 := by
  intro M
  induction M with
  | zero => simp [h0, hb0]
  | succ M ih =>
    obtain ⟨ih1, ih2, ih3⟩ := ih
    simp only [List.range_succ, List.foldl_append, List.foldl_cons, List.foldl_nil,
      List.map_append, List.map_cons, List.map_nil, List.sum_append, List.sum_cons,
      List.sum_nil, Nat.add_zero]
    obtain ⟨hst, md, hmd, hbvo, _⟩ := encode_meshlet_offset meshlets data p_aux num_streams
      ((List.range M).foldl (encode_meshlet meshlets data p_aux num_streams) st0) M
    refine ⟨?_, ?_, ?_⟩
    · rw [hst, ih1, primitive_loop_num_attributes]
      omega
    · rw [hmd, List.length_append, ih2]
      rfl
    · intro m hm
      rw [hmd]
      rcases Nat.lt_or_ge m M with h | h
      · rw [List.getD_append _ _ _ _ (by rw [ih2]; exact h)]
        exact ih3 m h
      · have hmM : m = M := by omega
        rw [List.getD_append_right _ _ _ _ (by rw [ih2]; omega), ih2, hmM, Nat.sub_self]
        show md.base_vertex_offset = _
        rw [hbvo, ih1]

/-- Every output meshlet before the last is full. -/
theorem meshlet_chunks_full (n m : Nat) (hn : n < 2 ^ 32) (hm : m * NumChunks + NumChunks ≤ n) :
    meshlet_chunks n m = NumChunks := by
  unfold meshlet_chunks
  simp only [NumChunks] at hm ⊢
  rw [Nat.mod_eq_of_lt (by omega)]
  omega

theorem meshlet_vertices_eq (meshlets : List Meshlet) (m : Nat) :
    vertices_before meshlets (m * NumChunks + meshlet_chunks meshlets.length m)
      = vertices_before meshlets (m * NumChunks) + meshlet_vertices meshlets m := by
  unfold meshlet_vertices
  generalize meshlet_chunks meshlets.length m = k
  induction k with
  | zero => simp
  | succ k ih =>
    rw [← Nat.add_assoc, vertices_before_succ, ih]
    simp [List.range_succ, Nat.add_assoc]

/-- The vertex counts of the meshlets before `m` add up to those of the
chunks before `m * NumChunks`. -/
theorem sum_meshlet_vertices (meshlets : List Meshlet) (hn : meshlets.length < 2 ^ 32) :
    ∀ m, m * NumChunks ≤ meshlets.length →
      ((List.range m).map (meshlet_vertices meshlets)).sum
        = vertices_before meshlets (m * NumChunks) := by
  intro m
  induction m with
  | zero => intro _; simp [vertices_before]
  | succ m ih =>
    intro hm
    have hm1 : m * NumChunks + NumChunks ≤ meshlets.length := by
      simp only [NumChunks] at hm ⊢; omega
    have hfull := meshlet_chunks_full meshlets.length m hn hm1
    have h := meshlet_vertices_eq meshlets m
    rw [hfull] at h
    have e : (m + 1) * NumChunks = m * NumChunks + NumChunks := by ring
    simp only [List.range_succ, List.map_append, List.map_cons, List.map_nil, List.sum_append,
      List.sum_cons, List.sum_nil, Nat.add_zero]
    rw [ih (by omega), e, h]

theorem meshlet_start_le (n m : Nat) (hm : m < (n + NumChunks - 1) / NumChunks) :
    m * NumChunks < n := by
  simp only [NumChunks] at hm ⊢
  omega

/-- C33 (base vertex offsets are prefix sums): for every list of fewer than
`2^32` chunks, the `base_vertex_offset` of output meshlet `m` is the sum of
`vertex_count` over all chunks of the meshlets before it (the chunks with
index below `m * NumChunks`; 0 for the first meshlet), in the 32-bit
arithmetic of the field.  When the vertex counts of all chunks add up to less
than `2^32`, the sum is exact, and the offset of meshlet `m + 1` is the offset
of meshlet `m` plus the vertex count of the chunks of meshlet `m`, so the
vertex ranges of consecutive meshlets are contiguous and disjoint. -/
theorem base_vertex_offsets_are_sums (meshlets : List Meshlet) (data : StreamData)
    (p_aux : List Int) (num_streams : Nat) (hn : meshlets.length < 2 ^ 32)
    (m : Nat) (hm : m < (meshlets.length + NumChunks - 1) / NumChunks) :
    ((encode_mesh meshlets data p_aux num_streams).mesh.meshlets.getD m
        Metadata.zero).base_vertex_offset
      = vertices_before meshlets (m * NumChunks) % 2 ^ 32 ∧
    (m = 0 → ((encode_mesh meshlets data p_aux num_streams).mesh.meshlets.getD m
        Metadata.zero).base_vertex_offset = 0) ∧
    (vertices_before meshlets meshlets.length < 2 ^ 32 →
      ((encode_mesh meshlets data p_aux num_streams).mesh.meshlets.getD m
          Metadata.zero).base_vertex_offset
        = vertices_before meshlets (m * NumChunks) ∧
      (m + 1 < (meshlets.length + NumChunks - 1) / NumChunks →
        ((encode_mesh meshlets data p_aux num_streams).mesh.meshlets.getD (m + 1)
            Metadata.zero).base_vertex_offset
          = ((encode_mesh meshlets data p_aux num_streams).mesh.meshlets.getD m
              Metadata.zero).base_vertex_offset + meshlet_vertices meshlets m)) := by
  have hloop := encode_mesh_loop_offsets meshlets data p_aux num_streams
    ({ payload := [],
       mesh := { stream_count := num_streams, mesh_style := 0, meshlets := [] } }, 0)
    rfl rfl ((meshlets.length + NumChunks - 1) / NumChunks)
  rw [← encode_mesh_eq] at hloop
  obtain ⟨_, _, hbvo⟩ := hloop
  have hstart := meshlet_start_le meshlets.length m hm
  have hsum := sum_meshlet_vertices meshlets hn m (le_of_lt hstart)
  have hm0 : ((encode_mesh meshlets data p_aux num_streams).mesh.meshlets.getD m
      Metadata.zero).base_vertex_offset = vertices_before meshlets (m * NumChunks) % 2 ^ 32 := by
    rw [hbvo m hm, hsum]
  refine ⟨hm0, ?_, ?_⟩
  · intro h0
    rw [hm0, h0]
    rfl
  · intro htotal
    have hle := vertices_before_mono meshlets (m * NumChunks) meshlets.length (le_of_lt hstart)
    have hexact : ((encode_mesh meshlets data p_aux num_streams).mesh.meshlets.getD m
        Metadata.zero).base_vertex_offset = vertices_before meshlets (m * NumChunks) := by
      rw [hm0, Nat.mod_eq_of_lt (lt_of_le_of_lt hle htotal)]
    refine ⟨hexact, ?_⟩
    intro hm1
    have hstart1 := meshlet_start_le meshlets.length (m + 1) hm1
    have hsum1 := sum_meshlet_vertices meshlets hn (m + 1) (le_of_lt hstart1)
    have hle1 := vertices_before_mono meshlets ((m + 1) * NumChunks) meshlets.length
      (le_of_lt hstart1)
    rw [hbvo (m + 1) hm1, hsum1, hexact, Nat.mod_eq_of_lt (lt_of_le_of_lt hle1 htotal),
      ← hsum1, ← hsum]
    simp [List.range_succ]

set_option maxRecDepth 100000 in
/-- Witness for C33: the second of the two meshlets encoded from six chunks,
three copies of the two sample chunks. -/
theorem base_vertex_offsets_are_sums_witness :
    ((sample_chunks ++ sample_chunks ++ sample_chunks).length < 2 ^ 32 ∧
      1 < ((sample_chunks ++ sample_chunks ++ sample_chunks).length + NumChunks - 1)
        / NumChunks) ∧
    ((encode_mesh (sample_chunks ++ sample_chunks ++ sample_chunks) sample_stream_data [0, 0]
        2).mesh.meshlets.getD 1 Metadata.zero).base_vertex_offset
      = vertices_before (sample_chunks ++ sample_chunks ++ sample_chunks) (1 * NumChunks)
          % 2 ^ 32 :=
  ⟨⟨by decide, by decide⟩,
    (base_vertex_offsets_are_sums (sample_chunks ++ sample_chunks ++ sample_chunks)
      sample_stream_data [0, 0] 2 (by decide) 1 (by decide)).1⟩

/-! ## Primitive and vertex offset table -/
theorem offsets_before_succ (count : Meshlet → Nat) (meshlets : List Meshlet) (m c : Nat) :
    offsets_before count meshlets m (c + 1)
      = offsets_before count meshlets m c
          + count (meshlets.getD (m * NumChunks + c) Meshlet.zero) := by
  simp [offsets_before, List.range_succ]

theorem offsets_before_le (count : Meshlet → Nat) (meshlets : List Meshlet) (m cap : Nat) :
    ∀ c, (∀ i, i < c → count (meshlets.getD (m * NumChunks + i) Meshlet.zero) ≤ cap) →
      offsets_before count meshlets m c ≤ cap * c := by
  intro c
  induction c with
  | zero => intro _; simp [offsets_before]
  | succ c ih =>
    intro h
    rw [offsets_before_succ, Nat.mul_succ]
    have h1 := ih fun i hi => h i (by omega)
    have h2 := h c (by omega)
    omega

theorem offsets_word_fields (P A : Nat) :
    (P % 2 ^ 16 + (A % 2 ^ 16) * 2 ^ 16) % 2 ^ 16 = P % 2 ^ 16 ∧
    (P % 2 ^ 16 + (A % 2 ^ 16) * 2 ^ 16) / 2 ^ 16 % 2 ^ 16 = A % 2 ^ 16 := by
  have e : (2 : Nat) ^ 16 = 65536 := by norm_num
  rw [e]
  omega

theorem encode_primitive_chunk_base (meshlets : List Meshlet) (m : Nat) (st : PrimState)
    (c : Nat) :
    (encode_primitive_chunk meshlets m st c).index_stream.base_value
      = st.index_stream.base_value.set c
          (st.num_primitives % 2 ^ 16 + (st.num_attributes % 2 ^ 16) * 2 ^ 16) := rfl

/-- The offsets table after `k` iterations of the primitive-stream loop: entry
`c < k` holds the running counts of the chunks before `c`; the other entries
are untouched. -/
theorem primitive_chunk_loop_table (meshlets : List Meshlet) (m : Nat) (st0 : PrimState)
    (hA : st0.num_attributes = 0) (hP : st0.num_primitives = 0) :
    ∀ k, k ≤ st0.index_stream.base_value.length →
      ((List.range k).foldl (encode_primitive_chunk meshlets m)
        st0).index_stream.base_value.length = st0.index_stream.base_value.length ∧
      ((List.range k).foldl (encode_primitive_chunk meshlets m) st0).num_primitives
        = offsets_before Meshlet.primitive_count meshlets m k % 2 ^ 32 ∧
      ((List.range k).foldl (encode_primitive_chunk meshlets m) st0).num_attributes
        = offsets_before Meshlet.vertex_count meshlets m k % 2 ^ 32 ∧
      ∀ c,
        ((List.range k).foldl (encode_primitive_chunk meshlets m)
          st0).index_stream.base_value.getD c 0
          = if c < k then
              offsets_before Meshlet.primitive_count meshlets m c % 2 ^ 16
                + (offsets_before Meshlet.vertex_count meshlets m c % 2 ^ 16) * 2 ^ 16
            else st0.index_stream.base_value.getD c 0 := by
  intro k
  induction k with
  | zero =>
    intro _
    simp [hA, hP, offsets_before]
  | succ k ih =>
    intro hk
    obtain ⟨ihl, ihp, iha, ihc⟩ := ih (by omega)
    simp only [List.range_succ, List.foldl_append, List.foldl_cons, List.foldl_nil]
    rw [encode_primitive_chunk_base]
    refine ⟨by rw [List.length_set, ihl], ?_, ?_, ?_⟩
    · show (((List.range k).foldl (encode_primitive_chunk meshlets m) st0).num_primitives
          + (meshlets.getD (m * NumChunks + k) Meshlet.zero).primitive_count) % 2 ^ 32 = _
      rw [ihp, offsets_before_succ]
      omega
    · show (((List.range k).foldl (encode_primitive_chunk meshlets m) st0).num_attributes
          + (meshlets.getD (m * NumChunks + k) Meshlet.zero).vertex_count) % 2 ^ 32 = _
      rw [iha, offsets_before_succ]
      omega
    · intro c
      by_cases hck : c = k
      · subst hck
        rw [List.getD_eq_getElem _ _ (by rw [List.length_set, ihl]; omega), List.getElem_set_self,
          ihp, iha, if_pos (by omega)]
        have e : (2 : Nat) ^ 32 = 2 ^ 16 * 2 ^ 16 := by norm_num
        rw [e, Nat.mod_mul_left_mod, Nat.mod_mul_left_mod]
      · rw [List.getD_eq_getElem?_getD, List.getElem?_set_ne (by omega),
          ← List.getD_eq_getElem?_getD, ihc c]
        by_cases h1 : c < k
        · rw [if_pos h1, if_pos (by omega)]
        · rw [if_neg h1, if_neg (by omega)]

/-- The loop that fills the remaining entries of the offsets table
(meshlet_export.cpp:516-521). -/
theorem set_offsets_tail (P A : Nat) :
    ∀ len a (s0 : Stream),
      ((List.range' a len).foldl (fun s c => set_offsets s c P A) s0).base_value.length
        = s0.base_value.length ∧
      ∀ c, c < s0.base_value.length →
        ((List.range' a len).foldl (fun s c => set_offsets s c P A) s0).base_value.getD c 0
          = if a ≤ c ∧ c < a + len then P % 2 ^ 16 + (A % 2 ^ 16) * 2 ^ 16
            else s0.base_value.getD c 0 := by
  intro len
  induction len with
  | zero =>
    intro a s0
    refine ⟨rfl, ?_⟩
    intro c _
    rw [if_neg (by omega)]
    rfl
  | succ len ih =>
    intro a s0
    obtain ⟨ihl, ihc⟩ := ih a s0
    rw [List.range'_1_concat, List.foldl_append]
    simp only [List.foldl_cons, List.foldl_nil]
    show (List.set _ _ _).length = _ ∧ ∀ c, c < _ → (List.set _ _ _).getD c 0 = _
    refine ⟨by rw [List.length_set, ihl], ?_⟩
    intro c hc
    by_cases hck : c = a + len
    · subst hck
      rw [List.getD_eq_getElem _ _ (by rw [List.length_set, ihl]; exact hc),
        List.getElem_set_self, if_pos (by omega)]
    · rw [List.getD_eq_getElem?_getD, List.getElem?_set_ne (by omega),
        ← List.getD_eq_getElem?_getD, ihc c hc]
      by_cases h1 : a ≤ c ∧ c < a + len
      · rw [if_pos h1, if_pos (by omega)]
      · rw [if_neg h1, if_neg (by omega)]

/-- The offsets table of the primitive stream of output meshlet `m`: entry
`c <= NumChunks` holds the 16-bit counts of the meshlet's chunks with index
below `c`. -/
theorem primitive_stream_table (meshlets : List Meshlet) (m : Nat) (p : List Nat) (c : Nat)
    (hc : c ≤ NumChunks) :
    (primitive_stream meshlets m p).prim_offset c
      = offsets_before Meshlet.primitive_count meshlets m
          (min c (meshlet_chunks meshlets.length m)) % 2 ^ 16 ∧
    (primitive_stream meshlets m p).attr_offset c
      = offsets_before Meshlet.vertex_count meshlets m
          (min c (meshlet_chunks meshlets.length m)) % 2 ^ 16 := by
  have hnc := meshlet_chunks_le meshlets.length m
  have hc4 : c ≤ 4 := hc
  obtain ⟨hl, hp, ha, hloop⟩ := primitive_chunk_loop_table meshlets m
    { payload := p, index_stream := Stream.zero, num_attributes := 0, num_primitives := 0 }
    rfl rfl (meshlet_chunks meshlets.length m)
    (by show _ ≤ (List.replicate 6 0).length; simp; omega)
  have hl6 : (primitive_loop meshlets m p).index_stream.base_value.length = 6 := by
    have h6 : (Stream.zero).base_value.length = 6 := rfl
    rw [← h6]
    exact hl
  obtain ⟨_, htail⟩ := set_offsets_tail (primitive_loop meshlets m p).num_primitives
    (primitive_loop meshlets m p).num_attributes
    (NumChunks + 1 - meshlet_chunks meshlets.length m) (meshlet_chunks meshlets.length m)
    (primitive_loop meshlets m p).index_stream
  have hword : (primitive_stream meshlets m p).base_value.getD c 0
      = offsets_before Meshlet.primitive_count meshlets m
            (min c (meshlet_chunks meshlets.length m)) % 2 ^ 16
          + (offsets_before Meshlet.vertex_count meshlets m
            (min c (meshlet_chunks meshlets.length m)) % 2 ^ 16) * 2 ^ 16 := by
    have h1 := htail c (by rw [hl6]; omega)
    have hp2 : (primitive_loop meshlets m p).num_primitives
        = offsets_before Meshlet.primitive_count meshlets m (meshlet_chunks meshlets.length m)
          % 2 ^ 32 := hp
    have ha2 : (primitive_loop meshlets m p).num_attributes
        = offsets_before Meshlet.vertex_count meshlets m (meshlet_chunks meshlets.length m)
          % 2 ^ 32 := ha
    have hloop2 : (primitive_loop meshlets m p).index_stream.base_value.getD c 0
        = if c < meshlet_chunks meshlets.length m then
            offsets_before Meshlet.primitive_count meshlets m c % 2 ^ 16
              + (offsets_before Meshlet.vertex_count meshlets m c % 2 ^ 16) * 2 ^ 16
          else (Stream.zero).base_value.getD c 0 := hloop c
    have e : (2 : Nat) ^ 32 = 2 ^ 16 * 2 ^ 16 := by norm_num
    have hps : (primitive_stream meshlets m p).base_value.getD c 0
        = ((List.range' (meshlet_chunks meshlets.length m)
            (NumChunks + 1 - meshlet_chunks meshlets.length m)).foldl
            (fun s c => set_offsets s c (primitive_loop meshlets m p).num_primitives
              (primitive_loop meshlets m p).num_attributes)
            (primitive_loop meshlets m p).index_stream).base_value.getD c 0 := rfl
    rw [hps, h1]
    by_cases hlt : c < meshlet_chunks meshlets.length m
    · rw [if_neg (by omega), hloop2, if_pos hlt, min_eq_left (le_of_lt hlt)]
    · rw [if_pos (by simp only [NumChunks]; omega), hp2, ha2, min_eq_right (by omega), e,
        Nat.mod_mul_left_mod, Nat.mod_mul_left_mod]
  unfold Stream.prim_offset Stream.attr_offset
  rw [hword]
  exact offsets_word_fields _ _

/-- C34 (primitive/vertex offset table): for every output meshlet `m` of
`encode_mesh` and every entry `c = 0..NumChunks` of the offsets table of its
primitive stream, `prim_offset` is the sum of `primitive_count` and
`attr_offset` the sum of `vertex_count` over the meshlet's chunks with index
below `c` (below `num_chunks` for the entries `num_chunks..NumChunks`, which
therefore hold the meshlet totals), as 16-bit fields; when the meshlet's chunks
respect the caps of 64 primitives and 32 vertices, the sums are at most 256
and 128 and the fields hold them without truncation. -/
theorem offsets_table (meshlets : List Meshlet) (data : StreamData) (p_aux : List Int)
    (num_streams : Nat) (hns : 1 ≤ num_streams) (hns8 : num_streams ≤ MaxStreams)
    (m : Nat) (hm : m < (meshlets.length + NumChunks - 1) / NumChunks)
    (c : Nat) (hc : c ≤ NumChunks) :
    (((encode_mesh meshlets data p_aux num_streams).mesh.meshlets.getD m
        Metadata.zero).streams.getD 0 Stream.zero).prim_offset c
      = offsets_before Meshlet.primitive_count meshlets m
          (min c ((encode_mesh meshlets data p_aux num_streams).mesh.meshlets.getD m
            Metadata.zero).num_chunks) % 2 ^ 16 ∧
    (((encode_mesh meshlets data p_aux num_streams).mesh.meshlets.getD m
        Metadata.zero).streams.getD 0 Stream.zero).attr_offset c
      = offsets_before Meshlet.vertex_count meshlets m
          (min c ((encode_mesh meshlets data p_aux num_streams).mesh.meshlets.getD m
            Metadata.zero).num_chunks) % 2 ^ 16 ∧
    ((∀ i, i < ((encode_mesh meshlets data p_aux num_streams).mesh.meshlets.getD m
          Metadata.zero).num_chunks →
        (meshlets.getD (m * NumChunks + i) Meshlet.zero).primitive_count ≤ PrimitivesPerChunk ∧
        (meshlets.getD (m * NumChunks + i) Meshlet.zero).vertex_count ≤ VerticesPerChunk) →
      offsets_before Meshlet.primitive_count meshlets m
          (min c ((encode_mesh meshlets data p_aux num_streams).mesh.meshlets.getD m
            Metadata.zero).num_chunks) ≤ MaxElementsPrim ∧
      offsets_before Meshlet.vertex_count meshlets m
          (min c ((encode_mesh meshlets data p_aux num_streams).mesh.meshlets.getD m
            Metadata.zero).num_chunks) ≤ MaxElementsVert ∧
      (((encode_mesh meshlets data p_aux num_streams).mesh.meshlets.getD m
          Metadata.zero).streams.getD 0 Stream.zero).prim_offset c
        = offsets_before Meshlet.primitive_count meshlets m
            (min c ((encode_mesh meshlets data p_aux num_streams).mesh.meshlets.getD m
              Metadata.zero).num_chunks) ∧
      (((encode_mesh meshlets data p_aux num_streams).mesh.meshlets.getD m
          Metadata.zero).streams.getD 0 Stream.zero).attr_offset c
        = offsets_before Meshlet.vertex_count meshlets m
            (min c ((encode_mesh meshlets data p_aux num_streams).mesh.meshlets.getD m
              Metadata.zero).num_chunks)) := by
  obtain ⟨_, _, hrec⟩ := encode_mesh_records meshlets data p_aux num_streams hns hns8
  obtain ⟨hnc, hprim, _, _⟩ := hrec m hm
  obtain ⟨hp, ha⟩ := primitive_stream_table meshlets m
    (words_before meshlets data num_streams m 0 0) c hc
  have hle := meshlet_chunks_le meshlets.length m
  rw [hprim, hnc]
  refine ⟨hp, ha, ?_⟩
  intro hcap
  have hmin : min c (meshlet_chunks meshlets.length m) ≤ 4 := le_trans (min_le_right _ _) hle
  have hP := offsets_before_le Meshlet.primitive_count meshlets m 64
    (min c (meshlet_chunks meshlets.length m))
    (fun i hi => (hcap i (lt_of_lt_of_le hi (min_le_right _ _))).1)
  have hA := offsets_before_le Meshlet.vertex_count meshlets m 32
    (min c (meshlet_chunks meshlets.length m))
    (fun i hi => (hcap i (lt_of_lt_of_le hi (min_le_right _ _))).2)
  have hP256 : offsets_before Meshlet.primitive_count meshlets m
      (min c (meshlet_chunks meshlets.length m)) ≤ 256 := by omega
  have hA128 : offsets_before Meshlet.vertex_count meshlets m
      (min c (meshlet_chunks meshlets.length m)) ≤ 128 := by omega
  refine ⟨hP256, hA128, ?_, ?_⟩
  · rw [hp, Nat.mod_eq_of_lt (by norm_num at hP256 ⊢; omega)]
  · rw [ha, Nat.mod_eq_of_lt (by norm_num at hA128 ⊢; omega)]

/-- Witness for C34: the last entry of the table of the first of two meshlets
encoded from six chunks at the caps. -/
theorem offsets_table_witness :
    (1 ≤ 2 ∧ 2 ≤ MaxStreams ∧ 0 < (full_chunks.length + NumChunks - 1) / NumChunks ∧
      4 ≤ NumChunks) ∧
    (((encode_mesh full_chunks sample_stream_data [0, 0] 2).mesh.meshlets.getD 0
        Metadata.zero).streams.getD 0 Stream.zero).prim_offset 4
      = offsets_before Meshlet.primitive_count full_chunks 0
          (min 4 ((encode_mesh full_chunks sample_stream_data [0, 0] 2).mesh.meshlets.getD 0
            Metadata.zero).num_chunks) % 2 ^ 16 :=
  ⟨⟨by decide, by decide, by decide, by decide⟩,
    (offsets_table full_chunks sample_stream_data [0, 0] 2 (by decide) (by decide) 0 (by decide)
      4 (by decide)).1⟩

/-! ## Scratch buffers -/
theorem foldl_fst {α β ι : Type} (f : α → ι → α) (g : α × β → ι → α × β)
    (h : ∀ s i, (g s i).1 = f s.1 i) :
    ∀ (l : List ι) (s0 : α × β), (l.foldl g s0).1 = l.foldl f s0.1 := by
  intro l
  induction l with
  | nil => intro s0; rfl
  | cons a l ih =>
    intro s0
    simp only [List.foldl_cons]
    rw [ih, h]

theorem write_component_logged_fst (b : Nat) (st : (List Nat × Nat) × List Nat) (v : Nat) :
    (write_component_logged b st v).1 = write_component b st.1 v :=
  foldl_fst (write_bit v) (write_bit_logged v) (fun _ _ => rfl) _ st

/-- Erasing the log of `write_bits_logged` gives `write_bits`. -/
theorem write_bits_logged_fst (st : List Nat × List Nat) (values : List Nat) (C e b : Nat) :
    (write_bits_logged st values C e b).1 = write_bits st.1 values C e b := by
  unfold write_bits_logged write_bits
  simp only
  rw [foldl_fst (fun st c => write_component b st (values.getD c 0))
    (fun st c => write_component_logged b st (values.getD c 0))
    (fun s c => write_component_logged_fst b s (values.getD c 0))]

/-- The cursor and the log after one component: `n` stores, at the words of
the bits `p, p + 1, ...` (the cursor wraps at `2^32`). -/
theorem write_component_logged_log (v : Nat) (w : List Nat) (p : Nat) (log : List Nat) :
    ∀ n,
      (write_component_logged n ((w, p % 2 ^ 32), log) v).1.2 = (p + n) % 2 ^ 32 ∧
      (write_component_logged n ((w, p % 2 ^ 32), log) v).2
        = log ++ (List.range n).map fun t => (p + t) % 2 ^ 32 / 32 := by
  intro n
  induction n with
  | zero => simp [write_component_logged]
  | succ n ih =>
    obtain ⟨ih1, ih2⟩ := ih
    unfold write_component_logged at ih1 ih2 ⊢
    simp only [List.range_succ, List.foldl_append, List.foldl_cons, List.foldl_nil,
      List.map_append, List.map_cons, List.map_nil]
    constructor
    · show (((List.range n).foldl (write_bit_logged v) ((w, p % 2 ^ 32), log)).1.2 + 1) % 2 ^ 32
        = _
      rw [ih1]
      omega
    · show ((List.range n).foldl (write_bit_logged v) ((w, p % 2 ^ 32), log)).2
          ++ [((List.range n).foldl (write_bit_logged v) ((w, p % 2 ^ 32), log)).1.2 / 32] = _
      rw [ih1, ih2, List.append_assoc]

theorem write_bits_loop_log (values : List Nat) (b : Nat) (w : List Nat) (o : Nat)
    (log : List Nat) :
    ∀ c,
      ((List.range c).foldl (fun st k => write_component_logged b st (values.getD k 0))
        ((w, o % 2 ^ 32), log)).1.2 = (o + c * b) % 2 ^ 32 ∧
      ((List.range c).foldl (fun st k => write_component_logged b st (values.getD k 0))
        ((w, o % 2 ^ 32), log)).2
        = log ++ (List.range (c * b)).map fun t => (o + t) % 2 ^ 32 / 32 := by
  intro c
  induction c with
  | zero => simp
  | succ c ih =>
    obtain ⟨ih1, ih2⟩ := ih
    simp only [List.range_succ, List.foldl_append, List.foldl_cons, List.foldl_nil]
    generalize hS : (List.range c).foldl
      (fun st k => write_component_logged b st (values.getD k 0)) ((w, o % 2 ^ 32), log) = S
      at ih1 ih2
    obtain ⟨⟨w1, p1⟩, log1⟩ := S
    simp only at ih1 ih2
    subst ih1
    obtain ⟨h1, h2⟩ := write_component_logged_log (values.getD c 0) w1 (o + c * b) log1 b
    refine ⟨?_, ?_⟩
    · rw [h1]
      congr 1
      ring
    · rw [h2, ih2, List.append_assoc]
      congr 1
      have e : (c + 1) * b = c * b + b := by ring
      rw [e, List.range_add, List.map_append, List.map_map]
      congr 1
      apply List.map_congr_left
      intro t _
      simp [Nat.add_assoc]

/-- The log of `write_bits`: one store for each of the `C * b` bits of the
element, at the word of its bit offset. -/
theorem write_bits_logged_log (st : List Nat × List Nat) (values : List Nat) (C e b : Nat) :
    (write_bits_logged st values C e b).2
      = st.2 ++ (List.range (C * b)).map fun t => (e * C * b + t) % 2 ^ 32 / 32 :=
  (write_bits_loop_log values b st.1 (e * C * b) st.2 C).2

/-- The loop over the elements of a chunk, logged: the buffer is the one of the
plain loop and the log lists the stores of the elements in order. -/
theorem element_loop_logged (vals : Nat → List Nat) (C b : Nat) (p0 : List Nat) :
    ∀ n,
      ((List.range n).foldl (fun st i => write_bits_logged st (vals i) C i b) (p0, [])).1
        = (List.range n).foldl (fun p i => write_bits p (vals i) C i b) p0 ∧
      ((List.range n).foldl (fun st i => write_bits_logged st (vals i) C i b) (p0, [])).2
        = (List.range n).flatMap fun i =>
            (List.range (C * b)).map fun t => (i * C * b + t) % 2 ^ 32 / 32 := by
  intro n
  induction n with
  | zero => simp
  | succ n ih =>
    obtain ⟨ih1, ih2⟩ := ih
    simp only [List.range_succ, List.foldl_append, List.foldl_cons, List.foldl_nil,
      List.flatMap_append, List.flatMap_cons, List.flatMap_nil, List.append_nil]
    exact ⟨by rw [write_bits_logged_fst, ih1], by rw [write_bits_logged_log, ih2]⟩

/-- Every store of a chunk loop of `n` elements of `C * b` bits lands in a
buffer of `N` words when the `n * C * b` bits fit into it. -/
theorem element_loop_log_lt (C b n N : Nat) (hfit : n * (C * b) ≤ 32 * N)
    (hN : N ≤ 2 ^ 27) :
    ∀ idx ∈ (List.range n).flatMap (fun i =>
        (List.range (C * b)).map fun t => (i * C * b + t) % 2 ^ 32 / 32), idx < N := by
  intro idx hidx
  obtain ⟨i, hi, hmem⟩ := List.mem_flatMap.1 hidx
  obtain ⟨t, ht, rfl⟩ := List.mem_map.1 hmem
  rw [List.mem_range] at hi ht
  have h1 : i * C * b + t < n * (C * b) := by
    have h2 : (i + 1) * (C * b) ≤ n * (C * b) := Nat.mul_le_mul_right _ hi
    have h3 : (i + 1) * (C * b) = i * C * b + C * b := by ring
    omega
  have h4 : i * C * b + t < 2 ^ 32 := by
    have : 32 * N ≤ 32 * 2 ^ 27 := Nat.mul_le_mul_left _ hN
    have e : 32 * 2 ^ 27 = 2 ^ 32 := by norm_num
    omega
  rw [Nat.mod_eq_of_lt h4]
  omega

theorem foldl_length_inv {α ι : Type} (len : α → Nat) (f : α → ι → α)
    (h : ∀ s i, len (f s i) = len s) :
    ∀ (l : List ι) (s0 : α), len (l.foldl f s0) = len s0 := by
  intro l
  induction l with
  | nil => intro s0; rfl
  | cons a l ih =>
    intro s0
    simp only [List.foldl_cons]
    rw [ih, h]

/-- A call of `write_bits` never changes the number of words of the buffer. -/
theorem write_bits_length (words values : List Nat) (C e b : Nat) :
    (write_bits words values C e b).length = words.length := by
  unfold write_bits
  refine foldl_length_inv (fun st : List Nat × Nat => st.1.length) _ ?_ _ _
  intro s c
  unfold write_component
  refine foldl_length_inv (fun st : List Nat × Nat => st.1.length) _ ?_ _ _
  intro s i
  simp [write_bit, or_word]

theorem element_loop_length (vals : Nat → List Nat) (C b : Nat) (p0 : List Nat) (n : Nat) :
    ((List.range n).foldl (fun p i => write_bits p (vals i) C i b) p0).length = p0.length :=
  foldl_length_inv List.length _ (fun _ _ => write_bits_length _ _ _ _ _) _ _

/-- The logged loop of `encode_index_stream`: its buffer is the scratch array
of `encode_index_stream`, of 30 words, and its log lists one store for each of
the 15 bits of each primitive. -/
theorem encode_index_stream_logged_spec (stream_buffer : List (List Nat)) (count : Nat) :
    (∀ out, encode_index_stream out stream_buffer count
      = out ++ (encode_index_stream_logged stream_buffer count).1.take
          (((IBOBits * 3 * count + 31) % 2 ^ 32) / 32)) ∧
    (encode_index_stream_logged stream_buffer count).1.length
      = (IBOBits * 3 * PrimitivesPerChunk + 31) / 32 ∧
    (encode_index_stream_logged stream_buffer count).2
      = (List.range count).flatMap fun i =>
          (List.range (3 * IBOBits)).map fun t => (i * 3 * IBOBits + t) % 2 ^ 32 / 32 := by
  obtain ⟨h1, h2⟩ := element_loop_logged (fun i => stream_buffer.getD i []) 3 IBOBits
    (List.replicate ((IBOBits * 3 * PrimitivesPerChunk + 31) / 32) 0) count
  refine ⟨?_, ?_, h2⟩
  · intro out
    unfold encode_index_stream encode_index_stream_logged
    rw [h1]
  · unfold encode_index_stream_logged
    rw [h1, element_loop_length, List.length_replicate]

/-- The logged loops of `encode_bitplane`: the buffer is the scratch array of
`encode_bitplane`, of `bits_per_component * components` words, and the log
lists one store for each of the `components * encoded_bits` bits of each
element. -/
theorem encode_bitplane_logged_spec (T : AttrType) (values : List (List Nat))
    (encoded_bits count : Nat) :
    (∀ out, encode_bitplane T out values encoded_bits count
      = out ++ (encode_bitplane_logged T values encoded_bits count).1.take
          (((encoded_bits * T.components * count + 31) % 2 ^ 32) / 32)) ∧
    (encode_bitplane_logged T values encoded_bits count).1.length
      = T.bits_per_component * T.components * (VerticesPerChunk / 32) ∧
    (encode_bitplane_logged T values encoded_bits count).2
      = (List.range count).flatMap fun i =>
          (List.range (T.components * encoded_bits)).map fun t =>
            (i * T.components * encoded_bits + t) % 2 ^ 32 / 32 := by
  cases T
  · obtain ⟨h1, h2⟩ := element_loop_logged (fun i => values.getD i []) 3 encoded_bits
      (List.replicate (16 * 3 * (VerticesPerChunk / 32)) 0) count
    refine ⟨?_, ?_, h2⟩
    · intro out
      show encode_bitplane_16_inner 3 out values encoded_bits count = _
      unfold encode_bitplane_16_inner encode_bitplane_logged encode_bitplane_16_inner_logged
      rw [h1]
      rfl
    · show (encode_bitplane_16_inner_logged 3 values encoded_bits count).1.length = _
      unfold encode_bitplane_16_inner_logged
      rw [h1, element_loop_length, List.length_replicate]
      rfl
  · obtain ⟨h1, h2⟩ := element_loop_logged (fun i => values.getD i []) 2 encoded_bits
      (List.replicate (16 * 2 * (VerticesPerChunk / 32)) 0) count
    refine ⟨?_, ?_, h2⟩
    · intro out
      show encode_bitplane_16_inner 2 out values encoded_bits count = _
      unfold encode_bitplane_16_inner encode_bitplane_logged encode_bitplane_16_inner_logged
      rw [h1]
      rfl
    · show (encode_bitplane_16_inner_logged 2 values encoded_bits count).1.length = _
      unfold encode_bitplane_16_inner_logged
      rw [h1, element_loop_length, List.length_replicate]
      rfl
  · obtain ⟨h1, h2⟩ := element_loop_logged (fun i => values.getD i []) 4 encoded_bits
      (List.replicate (8 * 4 * (VerticesPerChunk / 32)) 0) count
    refine ⟨?_, ?_, h2⟩
    · intro out
      show encode_bitplane_u8vec4 out values encoded_bits count = _
      unfold encode_bitplane_u8vec4 encode_bitplane_logged encode_bitplane_u8vec4_logged
      rw [h1]
      rfl
    · show (encode_bitplane_u8vec4_logged values encoded_bits count).1.length = _
      unfold encode_bitplane_u8vec4_logged
      rw [h1, element_loop_length, List.length_replicate]
      rfl

/-- C38 (scratch buffers are large enough): for a chunk of at most 64
primitives and at most 32 vertices, every word index that `write_bits` stores
to is inside its target buffer: below 30, the length of the scratch array, in
`encode_index_stream`; and for `encode_bitplane` with a width of at most 16
for the 16-bit scalars and at most 8 for the 8-bit scalars, below the length
of the scratch array, which is 48 for three 16-bit components, 32 for two and
32 for four 8-bit components.  The width that `encode_attribute_stream`
computes from any attributes satisfies that bound. -/
theorem scratch_buffers_large_enough (stream_buffer : List (List Nat)) (primitive_count : Nat)
    (hprim : primitive_count ≤ PrimitivesPerChunk)
    (T : AttrType) (values : List (List Nat)) (encoded_bits vertex_count : Nat)
    (hvert : vertex_count ≤ VerticesPerChunk) (hbits : encoded_bits ≤ T.bits_per_component)
    (attributes : List (List Nat)) :
    (∀ idx ∈ (encode_index_stream_logged stream_buffer primitive_count).2,
      idx < (encode_index_stream_logged stream_buffer primitive_count).1.length ∧ idx < 30) ∧
    (∀ idx ∈ (encode_bitplane_logged T values encoded_bits vertex_count).2,
      idx < (encode_bitplane_logged T values encoded_bits vertex_count).1.length ∧
      idx < (match T with
        | AttrType.u16vec3 => 48
        | AttrType.u16vec2 => 32
        | AttrType.u8vec4 => 32)) ∧
    (chunk_stats T attributes).bits ≤ T.bits_per_component := by
  obtain ⟨_, hl, hlog⟩ := encode_index_stream_logged_spec stream_buffer primitive_count
  obtain ⟨_, hbl, hblog⟩ := encode_bitplane_logged_spec T values encoded_bits vertex_count
  have h64 : primitive_count ≤ 64 := hprim
  have h32 : vertex_count ≤ 32 := by simpa [VerticesPerChunk, IBOBits] using hvert
  refine ⟨?_, ?_, chunk_stats_bits_le T attributes⟩
  · intro idx hidx
    rw [hl, hlog] at *
    have hlt := element_loop_log_lt 3 IBOBits primitive_count 30
      (by simp only [IBOBits]; omega) (by norm_num) idx hidx
    exact ⟨by simpa [IBOBits, PrimitivesPerChunk] using hlt, hlt⟩
  · intro idx hidx
    rw [hbl]
    rw [hblog] at hidx
    have hCb : T.components * encoded_bits ≤ T.components * T.bits_per_component :=
      Nat.mul_le_mul_left _ hbits
    have hfit : vertex_count * (T.components * encoded_bits)
        ≤ 32 * (T.bits_per_component * T.components) :=
      le_trans (Nat.mul_le_mul h32 hCb) (by rw [Nat.mul_comm T.components])
    have hlt := element_loop_log_lt T.components encoded_bits vertex_count
      (T.bits_per_component * T.components) hfit
      (by cases T <;> simp [AttrType.components, AttrType.bits_per_component]) idx hidx
    cases T <;>
      simp only [AttrType.components, AttrType.bits_per_component, VerticesPerChunk, IBOBits]
        at hlt ⊢ <;> omega

/-- Witness for C38: a chunk of 64 primitives and 32 three-component
positions of full width. -/
theorem scratch_buffers_large_enough_witness :
    (64 ≤ PrimitivesPerChunk ∧ 32 ≤ VerticesPerChunk ∧
      16 ≤ AttrType.u16vec3.bits_per_component) ∧
    ∀ idx ∈ (encode_bitplane_logged AttrType.u16vec3 [] 16 32).2,
      idx < (encode_bitplane_logged AttrType.u16vec3 [] 16 32).1.length ∧ idx < 48 :=
  ⟨⟨by decide, by decide, by decide⟩,
    (scratch_buffers_large_enough [] 64 (by decide) AttrType.u16vec3 [] 16 32 (by decide)
      (by decide) []).2.1⟩

/-! ## Bounds match meshlets -/
theorem length_chunk_triangles (chunk : Meshlet) :
    (chunk_triangles chunk).length = chunk.primitive_count := by
  simp [chunk_triangles]

theorem length_flatMap_range_le {β : Type} (f : Nat → List β) (cap : Nat) :
    ∀ k, (∀ c, c < k → (f c).length ≤ cap) → ((List.range k).flatMap f).length ≤ cap * k := by
  intro k
  induction k with
  | zero => intro _; simp
  | succ k ih =>
    intro h
    simp only [List.range_succ, List.flatMap_append, List.flatMap_cons, List.flatMap_nil,
      List.append_nil, List.length_append]
    have h1 := ih fun c hc => h c (by omega)
    have h2 := h k (by omega)
    rw [Nat.mul_succ]
    omega

/-- The triangles gathered for a group of chunks fit the array `tmp_indices`
when every chunk respects the cap on primitives. -/
theorem gather_tmp_indices_length (out_meshlets : List Meshlet)
    (out_index_buffer : List (List Nat))
    (hcaps : ∀ ch ∈ out_meshlets, ch.primitive_count ≤ PrimitivesPerChunk) (i : Nat) :
    (gather_tmp_indices out_meshlets out_index_buffer i).length ≤ MaxElementsPrim := by
  unfold gather_tmp_indices
  have h := length_flatMap_range_le
    (fun chunk =>
      (List.range (out_meshlets.getD (i + chunk) Meshlet.zero).primitive_count).map fun k =>
        out_index_buffer.getD
          ((out_meshlets.getD (i + chunk) Meshlet.zero).global_indices_offset + k) [0, 0, 0])
    PrimitivesPerChunk (min (out_meshlets.length - i) NumChunks)
    (by
      intro c hc
      simp only [List.length_map, List.length_range]
      have hlt : i + c < out_meshlets.length := by
        have := lt_of_lt_of_le hc (min_le_left _ _)
        omega
      rw [List.getD_eq_getElem _ _ hlt]
      exact hcaps _ (List.getElem_mem hlt))
  have h4 : min (out_meshlets.length - i) NumChunks ≤ NumChunks := min_le_right _ _
  have h5 : PrimitivesPerChunk * min (out_meshlets.length - i) NumChunks
      ≤ PrimitivesPerChunk * NumChunks := Nat.mul_le_mul_left _ h4
  exact le_trans h h5

/-- The loop over the clusterer's meshlets records, for every chunk, the
position of its triangles in `out_index_buffer`. -/
theorem build_out_meshlets_offsets (redir loc : List Nat) :
    ∀ (cl : List meshopt_Meshlet) (acc : List Meshlet × List (List Nat)),
      (acc.2 = acc.1.flatMap chunk_triangles ∧
        ∀ i, i < acc.1.length →
          (acc.1.getD i Meshlet.zero).global_indices_offset
            = ((acc.1.take i).flatMap chunk_triangles).length % 2 ^ 32) →
      (cl.foldl (build_out_meshlet redir loc) acc).2
          = (cl.foldl (build_out_meshlet redir loc) acc).1.flatMap chunk_triangles ∧
        ∀ i, i < (cl.foldl (build_out_meshlet redir loc) acc).1.length →
          ((cl.foldl (build_out_meshlet redir loc) acc).1.getD i
              Meshlet.zero).global_indices_offset
            = (((cl.foldl (build_out_meshlet redir loc) acc).1.take i).flatMap
                chunk_triangles).length % 2 ^ 32 := by
  intro cl
  induction cl with
  | nil => intro acc h; exact h
  | cons ml cl ih =>
    intro acc h
    simp only [List.foldl_cons]
    apply ih
    have hbuf := build_out_meshlets_triangles redir loc [ml] acc h.1
    simp only [List.foldl_cons, List.foldl_nil] at hbuf
    refine ⟨hbuf, ?_⟩
    intro i hi
    have hfst : (build_out_meshlet redir loc acc ml).1
        = acc.1 ++ [{ local_indices := loc.drop ml.triangle_offset
                      attribute_remap := redir.drop ml.vertex_offset
                      primitive_count := ml.triangle_count
                      vertex_count := ml.vertex_count
                      global_indices_offset := acc.2.length % 2 ^ 32 }] := rfl
    rw [hfst] at hi ⊢
    rw [List.length_append, List.length_singleton] at hi
    rcases Nat.lt_or_ge i acc.1.length with hlt | hge
    · rw [List.getD_append _ _ _ _ hlt, List.take_append_of_le_length (le_of_lt hlt)]
      exact h.2 i hlt
    · have hie : i = acc.1.length := by omega
      rw [List.getD_append_right _ _ _ _ hge, hie, Nat.sub_self,
        List.take_append_of_le_length (le_refl _), List.take_length, ← h.1]
      rfl

theorem getD_flatMap_block {α β : Type} (f : α → List β) (d : β) (L1 : List α) (x : α)
    (L2 : List α) (j : Nat) (hj : j < (f x).length) :
    ((L1 ++ x :: L2).flatMap f).getD ((L1.flatMap f).length + j) d = (f x).getD j d := by
  rw [List.flatMap_append, List.flatMap_cons,
    List.getD_append_right _ _ _ _ (Nat.le_add_right _ _), Nat.add_sub_cancel_left,
    List.getD_append _ _ _ _ hj]

theorem list_eq_map_getD {β : Type} (l : List β) (d : β) :
    (List.range l.length).map (fun j => l.getD j d) = l := by
  apply List.ext_getElem
  · simp
  · intro i h1 h2
    simp [List.getElem?_eq_getElem h2]

/-- The slice of `out_index_buffer` that belongs to a chunk is the list of the
chunk's triangles. -/
theorem out_index_buffer_slice (chunks : List Meshlet) (hsize :
    (chunks.flatMap chunk_triangles).length < 2 ^ 32)
    (hoff : ∀ i, i < chunks.length →
      (chunks.getD i Meshlet.zero).global_indices_offset
        = ((chunks.take i).flatMap chunk_triangles).length % 2 ^ 32)
    (i : Nat) (hi : i < chunks.length) :
    ((List.range (chunks.getD i Meshlet.zero).primitive_count).map fun k =>
        (chunks.flatMap chunk_triangles).getD
          ((chunks.getD i Meshlet.zero).global_indices_offset + k) [0, 0, 0])
      = chunk_triangles (chunks.getD i Meshlet.zero) := by
  have hsplit : chunks = chunks.take i ++ chunks.getD i Meshlet.zero :: chunks.drop (i + 1) := by
    rw [List.getD_eq_getElem _ _ hi, ← List.drop_eq_getElem_cons hi, List.take_append_drop]
  have hle : ((chunks.take i).flatMap chunk_triangles).length
      ≤ (chunks.flatMap chunk_triangles).length := by
    conv_rhs => rw [hsplit]
    rw [List.flatMap_append, List.length_append]
    omega
  rw [hoff i hi, Nat.mod_eq_of_lt (lt_of_le_of_lt hle hsize)]
  conv_rhs => rw [← list_eq_map_getD (chunk_triangles (chunks.getD i Meshlet.zero)) [0, 0, 0]]
  rw [length_chunk_triangles]
  apply List.map_congr_left
  intro k hk
  rw [List.mem_range] at hk
  have hget := getD_flatMap_block chunk_triangles [0, 0, 0] (chunks.take i)
    (chunks.getD i Meshlet.zero) (chunks.drop (i + 1)) k
    (by rw [length_chunk_triangles]; exact hk)
  rw [← hsplit] at hget
  exact hget

/-- The triangles gathered for the group that starts at chunk `i` are the
triangles of the chunks of the group. -/
theorem gather_tmp_indices_eq (chunks : List Meshlet)
    (hsize : (chunks.flatMap chunk_triangles).length < 2 ^ 32)
    (hoff : ∀ i, i < chunks.length →
      (chunks.getD i Meshlet.zero).global_indices_offset
        = ((chunks.take i).flatMap chunk_triangles).length % 2 ^ 32)
    (i : Nat) :
    gather_tmp_indices chunks (chunks.flatMap chunk_triangles) i
      = (List.range (min (chunks.length - i) NumChunks)).flatMap fun c =>
          chunk_triangles (chunks.getD (i + c) Meshlet.zero) := by
  unfold gather_tmp_indices
  apply List.flatMap_congr
  intro c hc
  rw [List.mem_range] at hc
  have hlt : i + c < chunks.length := by
    have := lt_of_lt_of_le hc (min_le_left _ _)
    omega
  exact out_index_buffer_slice chunks hsize hoff (i + c) hlt

theorem compute_bounds_length (lib : MeshOptimizer) (out_meshlets : List Meshlet)
    (out_index_buffer : List (List Nat)) (position_buffer : List (List ℚ)) :
    (compute_bounds lib out_meshlets out_index_buffer position_buffer).length
      = (out_meshlets.length + NumChunks - 1) / NumChunks := by
  simp [compute_bounds]

theorem compute_bounds_getD (lib : MeshOptimizer) (out_meshlets : List Meshlet)
    (out_index_buffer : List (List Nat)) (position_buffer : List (List ℚ)) (k : Nat)
    (hk : k < (out_meshlets.length + NumChunks - 1) / NumChunks) (d : meshopt_Bounds) :
    (compute_bounds lib out_meshlets out_index_buffer position_buffer).getD k d
      = lib.computeClusterBounds
          (gather_tmp_indices out_meshlets out_index_buffer (k * NumChunks)) position_buffer := by
  unfold compute_bounds
  rw [List.getD_eq_getElem _ _ (by simpa using hk)]
  simp

theorem assign_bounds_bound (meshlets : List Metadata) (bounds : List meshopt_Bounds) (m : Nat)
    (hm : m < meshlets.length) :
    ((assign_bounds meshlets bounds).getD m Metadata.zero).bound
      = bound_words
          (bounds.getD m { center := [], radius := 0, cone_axis := [], cone_cutoff := 0 }) := by
  unfold assign_bounds
  rw [List.getD_eq_getElem _ _ (by simpa using hm)]
  simp [List.getElem_map, List.getElem_range]

/-- C39 (bounds match meshlets): for the chunks and the index buffer that
`export_mesh_to_meshlet` builds from any clusterer output in which every chunk
has at most 64 primitives (the chunk count and the triangle count fitting the
32-bit fields), every group of `NumChunks` chunks gathers at most 256
triangles into `tmp_indices`; the number of bounds is `ceil(n / 4)`, the
number of meshlets that `encode_mesh` records, so the assertion
`bounds.size() == encoded.mesh.meshlets.size()` holds; and bound `k`, the one
stored in meshlet `k`, is computed over exactly the triangles of the chunks of
meshlet `k`, in chunk order. -/
theorem bounds_match_meshlets (lib : MeshOptimizer) (cl : List meshopt_Meshlet)
    (redir loc : List Nat) (data : StreamData) (p_aux : List Int) (num_streams : Nat)
    (position_buffer : List (List ℚ))
    (hcaps : ∀ ch ∈ (build_out_meshlets cl redir loc).1,
      ch.primitive_count ≤ PrimitivesPerChunk)
    (hcount : (build_out_meshlets cl redir loc).1.length < 2 ^ 32)
    (hsize : (build_out_meshlets cl redir loc).2.length < 2 ^ 32) :
    (∀ g, (gather_tmp_indices (build_out_meshlets cl redir loc).1
        (build_out_meshlets cl redir loc).2 (g * NumChunks)).length ≤ MaxElementsPrim) ∧
    (compute_bounds lib (build_out_meshlets cl redir loc).1 (build_out_meshlets cl redir loc).2
        position_buffer).length = ((build_out_meshlets cl redir loc).1.length + 3) / 4 ∧
    (compute_bounds lib (build_out_meshlets cl redir loc).1 (build_out_meshlets cl redir loc).2
        position_buffer).length
      = (encode_mesh (build_out_meshlets cl redir loc).1 data p_aux
          num_streams).mesh.meshlets.length ∧
    ∀ k, k < (encode_mesh (build_out_meshlets cl redir loc).1 data p_aux
        num_streams).mesh.meshlets.length →
      (compute_bounds lib (build_out_meshlets cl redir loc).1
          (build_out_meshlets cl redir loc).2 position_buffer).getD k
          { center := [], radius := 0, cone_axis := [], cone_cutoff := 0 }
        = lib.computeClusterBounds
            ((List.range ((encode_mesh (build_out_meshlets cl redir loc).1 data p_aux
                num_streams).mesh.meshlets.getD k Metadata.zero).num_chunks).flatMap fun c =>
              chunk_triangles
                ((build_out_meshlets cl redir loc).1.getD (k * NumChunks + c) Meshlet.zero))
            position_buffer ∧
      ((assign_bounds
          (encode_mesh (build_out_meshlets cl redir loc).1 data p_aux num_streams).mesh.meshlets
          (compute_bounds lib (build_out_meshlets cl redir loc).1
            (build_out_meshlets cl redir loc).2 position_buffer)).getD k Metadata.zero).bound
        = bound_words (lib.computeClusterBounds
            ((List.range ((encode_mesh (build_out_meshlets cl redir loc).1 data p_aux
                num_streams).mesh.meshlets.getD k Metadata.zero).num_chunks).flatMap fun c =>
              chunk_triangles
                ((build_out_meshlets cl redir loc).1.getD (k * NumChunks + c) Meshlet.zero))
            position_buffer) := by
  obtain ⟨hbuf, hoff⟩ := build_out_meshlets_offsets redir loc cl ([], [])
    ⟨rfl, fun i hi => absurd hi (Nat.not_lt_zero i)⟩
  have hbuf2 : (build_out_meshlets cl redir loc).2
      = (build_out_meshlets cl redir loc).1.flatMap chunk_triangles := hbuf
  have hoff2 : ∀ i, i < (build_out_meshlets cl redir loc).1.length →
      ((build_out_meshlets cl redir loc).1.getD i Meshlet.zero).global_indices_offset
        = (((build_out_meshlets cl redir loc).1.take i).flatMap chunk_triangles).length
          % 2 ^ 32 := hoff
  generalize build_out_meshlets cl redir loc = out at hcaps hcount hsize hbuf2 hoff2 ⊢
  obtain ⟨chunks, oib⟩ := out
  simp only at hcaps hcount hsize hbuf2 hoff2 ⊢
  subst hbuf2
  have hloop := encode_mesh_loop_spec chunks data p_aux num_streams
    ({ payload := [],
       mesh := { stream_count := num_streams, mesh_style := 0, meshlets := [] } }, 0)
    rfl ((chunks.length + NumChunks - 1) / NumChunks)
  rw [← encode_mesh_eq] at hloop
  obtain ⟨hlen, hmd⟩ := hloop
  have hblen := compute_bounds_length lib chunks (chunks.flatMap chunk_triangles)
    position_buffer
  refine ⟨fun g => gather_tmp_indices_length chunks _ hcaps _, ?_, ?_, ?_⟩
  · rw [hblen]
    rfl
  · rw [hblen, hlen]
  · intro k hk
    rw [hlen] at hk
    have hnc := (hmd k hk).1
    have hk4 : k * 4 < chunks.length := by
      simp only [NumChunks] at hk
      omega
    have hmin : min ((chunks.length - k * NumChunks) % 2 ^ 32) NumChunks
        = min (chunks.length - k * NumChunks) NumChunks := by
      simp only [NumChunks]
      rw [Nat.mod_eq_of_lt (by omega)]
    have hb := compute_bounds_getD lib chunks (chunks.flatMap chunk_triangles) position_buffer k
      hk { center := [], radius := 0, cone_axis := [], cone_cutoff := 0 }
    rw [gather_tmp_indices_eq chunks hsize hoff2] at hb
    rw [hnc, hmin, assign_bounds_bound _ _ k (by rw [hlen]; exact hk), hb]
    exact ⟨rfl, rfl⟩

/-- Witness for C39: the chunks built from the sample clusterer output. -/
theorem bounds_match_meshlets_witness :
    ((∀ ch ∈ (build_out_meshlets sample_clusters sample_redirection sample_local_indices).1,
        ch.primitive_count ≤ PrimitivesPerChunk) ∧
      (build_out_meshlets sample_clusters sample_redirection sample_local_indices).1.length
        < 2 ^ 32 ∧
      (build_out_meshlets sample_clusters sample_redirection sample_local_indices).2.length
        < 2 ^ 32) ∧
    (compute_bounds sample_optimizer
        (build_out_meshlets sample_clusters sample_redirection sample_local_indices).1
        (build_out_meshlets sample_clusters sample_redirection sample_local_indices).2
        []).length
      = (encode_mesh
          (build_out_meshlets sample_clusters sample_redirection sample_local_indices).1
          sample_stream_data [0, 0] 2).mesh.meshlets.length :=
  have hcaps : ∀ ch ∈
      (build_out_meshlets sample_clusters sample_redirection sample_local_indices).1,
      ch.primitive_count ≤ PrimitivesPerChunk := by decide
  have hcount :
      (build_out_meshlets sample_clusters sample_redirection sample_local_indices).1.length
        < 2 ^ 32 := by decide
  have hsize :
      (build_out_meshlets sample_clusters sample_redirection sample_local_indices).2.length
        < 2 ^ 32 := by decide
  ⟨⟨hcaps, hcount, hsize⟩,
    (bounds_match_meshlets sample_optimizer sample_clusters sample_redirection
      sample_local_indices sample_stream_data [0, 0] 2 [] hcaps hcount hsize).2.2.1⟩

/-! ## Dedup preserves the geometry -/
/-- The unique vertices are recorded in increasing source order, and each is
the first vertex with its hash. -/
theorem build_index_remap_loop_first (hash : List Nat → Nat) (mesh : Mesh) :
    ∀ n, n < 2 ^ 32 →
      (∀ u v, u < v →
        v < (build_index_remap_loop hash mesh n).unique_attrib_to_source_index.length →
        (build_index_remap_loop hash mesh n).unique_attrib_to_source_index.getD u 0
          < (build_index_remap_loop hash mesh n).unique_attrib_to_source_index.getD v 0) ∧
      (∀ u, u < (build_index_remap_loop hash mesh n).unique_attrib_to_source_index.length →
        ∀ j, j < (build_index_remap_loop hash mesh n).unique_attrib_to_source_index.getD u 0 →
          hash (vertex_key mesh j)
            ≠ hash (vertex_key mesh
                ((build_index_remap_loop hash mesh n).unique_attrib_to_source_index.getD u 0))) := by
  intro n
  induction n with
  | zero =>
    intro _
    refine ⟨?_, ?_⟩
    · intro u v _ hv
      simp [build_index_remap_loop] at hv
    · intro u hu
      simp [build_index_remap_loop] at hu
  | succ n ih =>
    intro hn
    obtain ⟨i7, i8⟩ := ih (by omega)
    obtain ⟨i1, i2, i3, i4, i5, i6⟩ := build_index_remap_loop_inv hash mesh n (by omega)
    rw [build_index_remap_loop_succ]
    generalize build_index_remap_loop hash mesh n = st at i1 i2 i3 i4 i5 i6 i7 i8
    unfold build_index_remap_step
    cases hl : st.attribute_remapper.lookup (hash (vertex_key mesh n)) with
    | some idx =>
      simp only
      exact ⟨i7, i8⟩
    | none =>
      simp only
      refine ⟨?_, ?_⟩
      · intro u v huv hv
        rw [List.length_append] at hv
        simp only [List.length_singleton] at hv
        rw [List.getD_append _ _ _ _ (by omega)]
        by_cases hvl : v < st.unique_attrib_to_source_index.length
        · rw [List.getD_append _ _ _ _ hvl]
          exact i7 u v huv hvl
        · have hve : v = st.unique_attrib_to_source_index.length := by omega
          rw [hve, List.getD_append_right _ _ _ _ (le_refl _)]
          simp only [Nat.sub_self, List.getD_cons_zero]
          exact i5 u (by omega)
      · intro u hu
        rw [List.length_append] at hu
        simp only [List.length_singleton] at hu
        by_cases hul : u < st.unique_attrib_to_source_index.length
        · rw [List.getD_append _ _ _ _ hul]
          exact i8 u hul
        · have hue : u = st.unique_attrib_to_source_index.length := by omega
          rw [hue, List.getD_append_right _ _ _ _ (le_refl _)]
          simp only [Nat.sub_self, List.getD_cons_zero]
          intro j hj he
          obtain ⟨h1, h2⟩ := i6 j hj
          have := (i4 _ _).2 ⟨h1, h2.trans he⟩
          rw [hl] at this
          exact Option.noConfusion this

theorem vertex_offsets_small (mesh : Mesh) (hwf : WellFormedMesh mesh) (a : Nat)
    (ha : a < attribute_count mesh) :
    a * mesh.position_stride < 2 ^ 32 ∧ a * mesh.attribute_stride < 2 ^ 32 := by
  obtain ⟨hs, hp, hat, hattr, _⟩ := hwf
  have hnle : attribute_count mesh ≤ mesh.positions.length / mesh.position_stride := by
    unfold attribute_count
    exact Nat.mod_le _ _
  have h1 : attribute_count mesh * mesh.position_stride ≤ mesh.positions.length :=
    le_trans (Nat.mul_le_mul_right _ hnle) (Nat.div_mul_le_self _ _)
  have h2 : a * mesh.position_stride ≤ attribute_count mesh * mesh.position_stride :=
    Nat.mul_le_mul_right _ (le_of_lt ha)
  have h3 : a * mesh.attribute_stride ≤ attribute_count mesh * mesh.attribute_stride :=
    Nat.mul_le_mul_right _ (le_of_lt ha)
  have h4 : attribute_count mesh * mesh.attribute_stride
      = mesh.attribute_stride * attribute_count mesh := Nat.mul_comm _ _
  exact ⟨by omega, by omega⟩

theorem read_bytes_nil (start len : Nat) :
    read_bytes [] start len = List.replicate len 0 := by
  apply List.ext_getElem
  · simp [read_bytes]
  · intro i h1 h2
    simp [read_bytes]

/-- Two vertices feed the hasher the same bytes exactly when their position
and attribute bytes are the same. -/
theorem vertex_key_eq_iff (mesh : Mesh) (hwf : WellFormedMesh mesh) (a b : Nat)
    (ha : a < attribute_count mesh) (hb : b < attribute_count mesh) :
    vertex_key mesh a = vertex_key mesh b ↔ vertex_content mesh a = vertex_content mesh b := by
  obtain ⟨ha1, ha2⟩ := vertex_offsets_small mesh hwf a ha
  obtain ⟨hb1, hb2⟩ := vertex_offsets_small mesh hwf b hb
  unfold vertex_key vertex_content
  rw [Nat.mod_eq_of_lt ha1, Nat.mod_eq_of_lt ha2, Nat.mod_eq_of_lt hb1, Nat.mod_eq_of_lt hb2]
  by_cases hempty : mesh.attributes = []
  · simp only [hempty, if_true, List.append_nil, read_bytes_nil, Prod.mk.injEq, and_true]
  · simp only [hempty, if_false, Prod.mk.injEq]
    constructor
    · intro h
      exact List.append_inj h (by rw [read_bytes_length, read_bytes_length])
    · rintro ⟨h1, h2⟩
      rw [h1, h2]

/-- Vertex `u` of the deduplicated mesh has the bytes of the source vertex it
was copied from. -/
theorem vertex_content_dedup (hash : List Nat → Nat) (mesh : Mesh) (hwf : WellFormedMesh mesh)
    (u : Nat)
    (hu : u < (build_index_remap_loop hash mesh
      (attribute_count mesh)).unique_attrib_to_source_index.length) :
    vertex_content (mesh_deduplicate_vertices hash mesh) u
      = vertex_content mesh ((build_index_remap_loop hash mesh
          (attribute_count mesh)).unique_attrib_to_source_index.getD u 0) := by
  have hn : attribute_count mesh < 2 ^ 32 := Nat.mod_lt _ (by norm_num)
  obtain ⟨_, _, _, _, i5, _⟩ := build_index_remap_loop_inv hash mesh _ hn
  obtain ⟨h1, h2⟩ := vertex_offsets_small mesh hwf _ (i5 u hu)
  have hpos : (mesh_deduplicate_vertices hash mesh).positions
      = rebuild_buffer mesh.positions mesh.position_stride
          (build_index_remap_loop hash mesh
            (attribute_count mesh)).unique_attrib_to_source_index := rfl
  have hatt : (mesh_deduplicate_vertices hash mesh).attributes
      = if mesh.attribute_stride ≠ 0 then
          rebuild_buffer mesh.attributes mesh.attribute_stride
            (build_index_remap_loop hash mesh
              (attribute_count mesh)).unique_attrib_to_source_index
        else [] := rfl
  have hst1 : (mesh_deduplicate_vertices hash mesh).position_stride
      = mesh.position_stride := rfl
  have hst2 : (mesh_deduplicate_vertices hash mesh).attribute_stride
      = mesh.attribute_stride := rfl
  unfold vertex_content
  rw [hpos, hatt, hst1, hst2, read_bytes_rebuild_buffer _ _ _ u hu, Nat.mod_eq_of_lt h1]
  congr 1
  by_cases ha : mesh.attribute_stride = 0
  · rw [ha]
    simp [read_bytes]
  · simp only [ha, ne_eq, not_false_eq_true, if_true]
    rw [read_bytes_rebuild_buffer _ _ _ u hu, Nat.mod_eq_of_lt h2]

/-- The canonical index buffer of a mesh whose index positions can all be
read: one entry for each position, the remapped source index. -/
theorem canonical_index_buffer_getD (mesh : Mesh) (index_remap : List Nat)
    (hin : ∀ k, k < mesh.count → ∃ i, source_index mesh k = some i) :
    (build_canonical_index_buffer mesh index_remap).length = mesh.count ∧
    ∀ k i, k < mesh.count → source_index mesh k = some i →
      (build_canonical_index_buffer mesh index_remap).getD k 0 = index_remap.getD i 0 := by
  unfold build_canonical_index_buffer
  by_cases hempty : mesh.indices = []
  · simp only [hempty, if_true]
    refine ⟨by simp, ?_⟩
    intro k i hk hsrc
    simp only [source_index, hempty, if_true, Option.some.injEq] at hsrc
    rw [List.getD_eq_getElem _ _ (by simpa using hk)]
    simp [hsrc]
  · simp only [hempty, if_false]
    cases hty : mesh.index_type with
    | uint32 =>
      simp only
      refine ⟨by simp, ?_⟩
      intro k i hk hsrc
      simp only [source_index, hempty, if_false, hty, Option.some.injEq] at hsrc
      rw [List.getD_eq_getElem _ _ (by simpa using hk)]
      simp [hsrc]
    | uint16 =>
      simp only
      refine ⟨by simp, ?_⟩
      intro k i hk hsrc
      simp only [source_index, hempty, if_false, hty, Option.some.injEq] at hsrc
      rw [List.getD_eq_getElem _ _ (by simpa using hk)]
      simp [hsrc]
    | other =>
      simp only
      have hzero : mesh.count = 0 := by
        by_contra hne
        obtain ⟨i, hi⟩ := hin 0 (Nat.pos_of_ne_zero hne)
        simp [source_index, hempty, hty] at hi
      refine ⟨by simp [hzero], ?_⟩
      intro k i hk
      omega

/-- C35 (dedup preserves the geometry): for every well-formed mesh whose
`count` index positions each hold a readable index below the vertex count
(position `k` itself when there is no index buffer) and in which two vertices
with the same hash feed the hasher the same bytes, after
`mesh_deduplicate_vertices` the index count is unchanged, the index type is
32-bit, every output index is below the number of output vertices, and the
output vertex referenced by the new index at position `k` has the position and
attribute bytes of the input vertex referenced by the old index at position
`k` (input vertex `k` when the input had no index buffer).  The unique
vertices are kept in order of first occurrence: output vertex `u` is a copy of
input vertex `unique_attrib_to_source_index[u]`, these source indices increase
with `u`, and no earlier input vertex has the same bytes. -/
theorem dedup_preserves_geometry (hash : List Nat → Nat) (mesh : Mesh)
    (hwf : WellFormedMesh mesh)
    (hin : ∀ k, k < mesh.count →
      ∃ i, source_index mesh k = some i ∧ i < attribute_count mesh)
    (hinj : ∀ a b, a < attribute_count mesh → b < attribute_count mesh →
      hash (vertex_key mesh a) = hash (vertex_key mesh b) →
      vertex_key mesh a = vertex_key mesh b) :
    (mesh_deduplicate_vertices hash mesh).count = mesh.count ∧
    (mesh_deduplicate_vertices hash mesh).index_type = IndexType.uint32 ∧
    (mesh_deduplicate_vertices hash mesh).indices.length = 4 * mesh.count ∧
    (∀ k i, k < mesh.count → source_index mesh k = some i →
      read_u32 (mesh_deduplicate_vertices hash mesh).indices k
        < attribute_count (mesh_deduplicate_vertices hash mesh) ∧
      vertex_content (mesh_deduplicate_vertices hash mesh)
          (read_u32 (mesh_deduplicate_vertices hash mesh).indices k)
        = vertex_content mesh i) ∧
    (mesh.indices = [] → ∀ k, k < mesh.count →
      vertex_content (mesh_deduplicate_vertices hash mesh)
          (read_u32 (mesh_deduplicate_vertices hash mesh).indices k)
        = vertex_content mesh k) ∧
    (∀ u, u < attribute_count (mesh_deduplicate_vertices hash mesh) →
      (build_index_remap_list hash mesh).unique_attrib_to_source_index.getD u 0
        < attribute_count mesh ∧
      vertex_content (mesh_deduplicate_vertices hash mesh) u
        = vertex_content mesh
            ((build_index_remap_list hash mesh).unique_attrib_to_source_index.getD u 0) ∧
      (∀ j, j < (build_index_remap_list hash mesh).unique_attrib_to_source_index.getD u 0 →
        vertex_content mesh j
          ≠ vertex_content mesh
              ((build_index_remap_list hash mesh).unique_attrib_to_source_index.getD u 0)) ∧
      ∀ v, u < v → v < attribute_count (mesh_deduplicate_vertices hash mesh) →
        (build_index_remap_list hash mesh).unique_attrib_to_source_index.getD u 0
          < (build_index_remap_list hash mesh).unique_attrib_to_source_index.getD v 0) := by
  have hn : attribute_count mesh < 2 ^ 32 := Nat.mod_lt _ (by norm_num)
  obtain ⟨i1, i2, i3, i4, i5, i6⟩ := build_index_remap_loop_inv hash mesh _ hn
  obtain ⟨i7, i8⟩ := build_index_remap_loop_first hash mesh _ hn
  have hU := attribute_count_dedup hash mesh hwf.1
  have hcnt : mesh.count < 2 ^ 32 := hwf.2.2.2.2
  obtain ⟨hlen, hget⟩ := canonical_index_buffer_getD mesh
    (build_index_remap_list hash mesh).index_remap
    (fun k hk => (hin k hk).imp fun _ h => h.1)
  have hidx : (mesh_deduplicate_vertices hash mesh).indices
      = (build_canonical_index_buffer mesh
          (build_index_remap_list hash mesh).index_remap).flatMap u32_bytes := rfl
  have hcount : (mesh_deduplicate_vertices hash mesh).count
      = (build_canonical_index_buffer mesh
          (build_index_remap_list hash mesh).index_remap).length % 2 ^ 32 := rfl
  have hunique : (build_index_remap_list hash mesh).unique_attrib_to_source_index
      = (build_index_remap_loop hash mesh
          (attribute_count mesh)).unique_attrib_to_source_index := rfl
  have hremap : (build_index_remap_list hash mesh).index_remap
      = (build_index_remap_loop hash mesh (attribute_count mesh)).index_remap := rfl
  -- every index position
  have hpos : ∀ k i, k < mesh.count → source_index mesh k = some i →
      read_u32 (mesh_deduplicate_vertices hash mesh).indices k
        < attribute_count (mesh_deduplicate_vertices hash mesh) ∧
      vertex_content (mesh_deduplicate_vertices hash mesh)
          (read_u32 (mesh_deduplicate_vertices hash mesh).indices k)
        = vertex_content mesh i := by
    intro k i hk hsrc
    obtain ⟨i', hsrc', hi'⟩ := hin k hk
    have hii : i' = i := Option.some.inj (hsrc'.symm.trans hsrc)
    subst hii
    obtain ⟨hlt, hhash⟩ := i6 i' hi'
    have hentry : (build_canonical_index_buffer mesh
        (build_index_remap_list hash mesh).index_remap).getD k 0
        = (build_index_remap_loop hash mesh (attribute_count mesh)).index_remap.getD i' 0 :=
      hget k i' hk hsrc
    have hread : read_u32 (mesh_deduplicate_vertices hash mesh).indices k
        = (build_index_remap_loop hash mesh (attribute_count mesh)).index_remap.getD i' 0 := by
      rw [hidx, read_u32_flatMap _ k (by rw [hlen]; exact hk) (by rw [hentry]; omega), hentry]
    rw [hread, hU]
    refine ⟨hlt, ?_⟩
    rw [vertex_content_dedup hash mesh hwf _ hlt]
    exact (vertex_key_eq_iff mesh hwf _ _ (i5 _ hlt) hi').1
      (hinj _ _ (i5 _ hlt) hi' hhash)
  refine ⟨by rw [hcount, hlen, Nat.mod_eq_of_lt hcnt], rfl, ?_, hpos, ?_, ?_⟩
  · rw [hidx, flatMap_block_length u32_bytes 4 (fun _ => rfl), hlen, Nat.mul_comm]
  · intro hempty k hk
    exact (hpos k k hk (by simp [source_index, hempty])).2
  · intro u hu
    rw [hU] at hu
    rw [hunique]
    refine ⟨i5 u hu, vertex_content_dedup hash mesh hwf u hu, ?_, ?_⟩
    · intro j hj hc
      have hjn : j < attribute_count mesh := lt_trans hj (i5 u hu)
      have hkey := (vertex_key_eq_iff mesh hwf _ _ hjn (i5 u hu)).2 hc
      exact i8 u hu j hj (by rw [hkey])
    · intro v huv hv
      rw [hU] at hv
      exact i7 u v huv hv

/-- Witness for C35: the sample mesh, whose differing vertices have different
byte sums, at index position 2. -/
theorem dedup_preserves_geometry_witness :
    (WellFormedMesh sample_mesh ∧
      (∀ k, k < sample_mesh.count →
        ∃ i, source_index sample_mesh k = some i ∧ i < attribute_count sample_mesh) ∧
      (∀ a b, a < attribute_count sample_mesh → b < attribute_count sample_mesh →
        sample_hash (vertex_key sample_mesh a) = sample_hash (vertex_key sample_mesh b) →
        vertex_key sample_mesh a = vertex_key sample_mesh b)) ∧
    vertex_content (mesh_deduplicate_vertices sample_hash sample_mesh)
        (read_u32 (mesh_deduplicate_vertices sample_hash sample_mesh).indices 2)
      = vertex_content sample_mesh 2 :=
  have hwf : WellFormedMesh sample_mesh := by
    unfold WellFormedMesh
    decide
  have hin : ∀ k, k < sample_mesh.count →
      ∃ i, source_index sample_mesh k = some i ∧ i < attribute_count sample_mesh := by
    intro k hk
    refine ⟨read_u16 sample_mesh.indices k, rfl, ?_⟩
    have h6 : k < 6 := hk
    interval_cases k <;> decide
  have hinj : ∀ a b, a < attribute_count sample_mesh → b < attribute_count sample_mesh →
      sample_hash (vertex_key sample_mesh a) = sample_hash (vertex_key sample_mesh b) →
      vertex_key sample_mesh a = vertex_key sample_mesh b := by
    intro a b ha hb
    have ha5 : a < 5 := ha
    have hb5 : b < 5 := hb
    interval_cases a <;> interval_cases b <;> decide
  ⟨⟨hwf, hin, hinj⟩,
    ((dedup_preserves_geometry sample_hash sample_mesh hwf hin hinj).2.2.2.1 2 2
      (by decide) rfl).2⟩

/-! ## A non-empty export and its header -/
/-- The words of one chunk in one stream fit the largest scratch array. -/
theorem chunk_words_length_le (data : StreamData) (s : Nat) (chunk : Meshlet) :
    (chunk_words data s chunk).length ≤ 48 := by
  have hbit : ∀ (T : AttrType) (values : List (List Nat)) (bits n : Nat),
      (encode_bitplane T [] values bits n).length ≤ 48 := by
    intro T values bits n
    obtain ⟨h1, h2, _⟩ := encode_bitplane_logged_spec T values bits n
    rw [h1 [], List.nil_append, List.length_take]
    have h3 : (encode_bitplane_logged T values bits n).1.length ≤ 48 := by
      rw [h2]
      cases T <;> decide
    exact le_trans (min_le_right _ _) h3
  obtain _ | _ | _ | _ | s := s
  · show (encode_index_stream [] _ _).length ≤ 48
    obtain ⟨h1, h2, _⟩ := encode_index_stream_logged_spec (index_stream_buffer chunk)
      chunk.primitive_count
    rw [h1 [], List.nil_append, List.length_take]
    have h3 : (encode_index_stream_logged (index_stream_buffer chunk)
        chunk.primitive_count).1.length ≤ 48 := by
      rw [h2]
      decide
    exact le_trans (min_le_right _ _) h3
  · show (encode_attribute_stream AttrType.u16vec3 [] Stream.zero data.position 0
      (some chunk.attribute_remap) chunk.vertex_count).1.length ≤ 48
    rw [encode_attribute_stream_fst]
    exact hbit _ _ _ _
  · show (encode_normal_tangent_chunk [] Stream.zero data.normal_tangent chunk 0).1.length ≤ 48
    rw [encode_normal_tangent_chunk_eq, encode_attribute_stream_fst]
    exact hbit _ _ _ _
  · show (encode_attribute_stream AttrType.u16vec2 [] Stream.zero data.uv 0
      (some chunk.attribute_remap) chunk.vertex_count).1.length ≤ 48
    rw [encode_attribute_stream_fst]
    exact hbit _ _ _ _
  · simp [chunk_words]

/-- The payload of `encode_mesh` has at most 48 words for each chunk slot of
each stream of each meshlet. -/
theorem encode_mesh_payload_length_le (meshlets : List Meshlet) (data : StreamData)
    (p_aux : List Int) (num_streams : Nat) (hns : 1 ≤ num_streams)
    (hns8 : num_streams ≤ MaxStreams) :
    (encode_mesh meshlets data p_aux num_streams).payload.length
      ≤ 48 * NumChunks * num_streams * ((meshlets.length + NumChunks - 1) / NumChunks) := by
  rw [encode_mesh_payload meshlets data p_aux num_streams hns hns8]
  apply length_flatMap_range_le
  intro m _
  unfold meshlet_words
  apply length_flatMap_range_le
  intro s _
  unfold stream_words
  refine le_trans (length_flatMap_range_le _ 48 _ ?_)
    (Nat.mul_le_mul_left _ (meshlet_chunks_le _ _))
  intro c _
  exact chunk_words_length_le _ _ _

/-- The streams that the `switch` extracts from the sample triangle for the
style `Wireframe` in the sample environment. -/
theorem sample_env_streams :
    extract_streams sample_env (mesh_deduplicate_vertices sample_env.hash sample_triangle)
      MeshStyle.Wireframe = Except.ok sample_wireframe_streams := by
  have hne : (mesh_extract_position_snorm_exp_of_mesh sample_env.float_of_bytes
      sample_env.rnd (mesh_deduplicate_vertices sample_env.hash sample_triangle)
      ((List.replicate MaxStreams (0 : Int)).getD StreamType.Position 0)).1 ≠ [] := by
    intro hnil
    have := mesh_extract_position_length sample_env.float_of_bytes sample_env.rnd
      (mesh_deduplicate_vertices sample_env.hash sample_triangle)
      ((List.replicate MaxStreams (0 : Int)).getD StreamType.Position 0) (Or.inl rfl)
    rw [hnil] at this
    exact absurd this (by decide)
  rw [extract_streams_eq, if_neg (by decide), if_neg (by decide), if_pos rfl,
    extract_positions_eq, if_neg hne]
  rfl

set_option maxRecDepth 100000 in
/-- The index words of the chunk of the sample export: the triangle
`(0, 1, 2)` in three 5-bit fields. -/
theorem sample_index_words :
    index_words ((export_chunks sample_env.lib
      (mesh_deduplicate_vertices sample_env.hash sample_triangle)
      sample_wireframe_streams).getD 0 Meshlet.zero) = [0x820] := by decide

set_option maxRecDepth 100000 in
/-- The payload of the sample export starts with the index word. -/
theorem sample_payload_head :
    ∃ rest, (encode_mesh (export_chunks sample_env.lib
      (mesh_deduplicate_vertices sample_env.hash sample_triangle) sample_wireframe_streams)
      (export_data sample_wireframe_streams) sample_wireframe_streams.aux
      (sample_wireframe_streams.num_attribute_streams + 1)).payload = 0x820 :: rest := by
  have hn : (export_chunks sample_env.lib
      (mesh_deduplicate_vertices sample_env.hash sample_triangle)
      sample_wireframe_streams).length = 1 := by decide
  rw [encode_mesh_payload _ _ _ _ (by decide) (by decide), hn]
  have h1 : (1 + NumChunks - 1) / NumChunks = 1 := by decide
  have h2 : sample_wireframe_streams.num_attribute_streams + 1 = 2 := rfl
  rw [h1, h2]
  have hr1 : List.range 1 = [0] := rfl
  have hr2 : List.range 2 = [0, 1] := rfl
  have h3 : meshlet_chunks 1 0 = 1 := by decide
  rw [hr1, List.flatMap_cons, List.flatMap_nil, List.append_nil]
  unfold meshlet_words
  rw [hr2, List.flatMap_cons]
  unfold stream_words
  rw [hn, h3, hr1, List.flatMap_cons, List.flatMap_nil, List.append_nil]
  have h4 : slot_words (export_chunks sample_env.lib
      (mesh_deduplicate_vertices sample_env.hash sample_triangle) sample_wireframe_streams)
      (export_data sample_wireframe_streams) 0 0 0 = [0x820] := sample_index_words
  rw [h4]
  exact ⟨_, rfl⟩

set_option maxRecDepth 100000 in
/-- The sample export is not empty: one meshlet, two streams, and a payload
of at least one and at most 384 words. -/
theorem sample_exported_counts :
    sample_exported.mesh.meshlets.length = 1 ∧ sample_exported.mesh.stream_count = 2 ∧
    sample_exported.payload.length ≤ 384 ∧ 0 < sample_exported.payload.length := by
  obtain ⟨hp, hc, _, _, _⟩ := cluster_and_encode_fields sample_env.lib
    (mesh_deduplicate_vertices sample_env.hash sample_triangle) MeshStyle.Wireframe
    sample_wireframe_streams
  have hn : (export_chunks sample_env.lib
      (mesh_deduplicate_vertices sample_env.hash sample_triangle)
      sample_wireframe_streams).length = 1 := by decide
  have hle := encode_mesh_payload_length_le
    (export_chunks sample_env.lib (mesh_deduplicate_vertices sample_env.hash sample_triangle)
      sample_wireframe_streams)
    (export_data sample_wireframe_streams) sample_wireframe_streams.aux
    (sample_wireframe_streams.num_attribute_streams + 1) (by decide) (by decide)
  rw [hn] at hle
  refine ⟨by decide, ?_, ?_, ?_⟩
  · show (cluster_and_encode _ _ _ _).mesh.stream_count = 2
    rw [hc]
    rfl
  · show (cluster_and_encode _ _ _ _).payload.length ≤ 384
    rw [hp]
    exact hle
  · show 0 < (cluster_and_encode _ _ _ _).payload.length
    obtain ⟨rest, hrest⟩ := sample_payload_head
    rw [hp, hrest]
    exact Nat.succ_pos _

/-- Witness for C21: the sample triangle exported as a wireframe in the sample
environment, an export of one meshlet with two streams and a payload. -/
theorem header_consistency_witness :
    (export_mesh_to_meshlet sample_env "mesh.msh" sample_triangle MeshStyle.Wireframe
        = ExportOutcome.exported sample_exported
            (export_encoded_mesh sample_env.fs "mesh.msh" sample_exported) ∧
      (export_encoded_mesh sample_env.fs "mesh.msh" sample_exported).result = true ∧
      sample_exported.mesh.meshlets.length < 2 ^ 32 ∧
      sample_exported.payload.length < 2 ^ 32 ∧
      payload_offset sample_exported.mesh.meshlets.length sample_exported.mesh.stream_count
        + (sample_exported.payload.length + 1) * sizeof_PayloadWord < 2 ^ 64) ∧
    (sample_exported.mesh.meshlets.length = 1 ∧ 0 < sample_exported.payload.length) ∧
    ∃ (m : Mapping) (rest : List Nat),
      export_encoded_mesh sample_env.fs "mesh.msh" sample_exported
        = WriteOutcome.written (required_size sample_exported) m ∧
      m.data = magic
        ++ FormatHeader.bytes ⟨MeshStyle.Wireframe, 2, 1, sample_exported.payload.length⟩
        ++ rest := by
  obtain ⟨hN1, hS, hP, hP0⟩ := sample_exported_counts
  have hexp : export_mesh_to_meshlet sample_env "mesh.msh" sample_triangle MeshStyle.Wireframe
      = ExportOutcome.exported sample_exported
          (export_encoded_mesh sample_env.fs "mesh.msh" sample_exported) :=
    export_of_ok sample_env "mesh.msh" sample_triangle MeshStyle.Wireframe
      sample_wireframe_streams rfl sample_env_streams
  have hres : (export_encoded_mesh sample_env.fs "mesh.msh" sample_exported).result = true := by
    obtain ⟨m, hm⟩ := export_encoded_mesh_result sample_env.fs "mesh.msh" sample_exported
      rfl rfl
    rw [hm]
    rfl
  have hN : sample_exported.mesh.meshlets.length < 2 ^ 32 := by
    rw [hN1]
    norm_num
  have hPlt : sample_exported.payload.length < 2 ^ 32 := lt_of_le_of_lt hP (by norm_num)
  have hsize : payload_offset sample_exported.mesh.meshlets.length
      sample_exported.mesh.stream_count
      + (sample_exported.payload.length + 1) * sizeof_PayloadWord < 2 ^ 64 := by
    rw [hN1, hS]
    have h1 : payload_offset 1 2 ≤ 1024 := by decide
    have h2 : sizeof_PayloadWord = 4 := rfl
    rw [h2]
    omega
  obtain ⟨s, m, rest, hs, hfile, hdata, _, _⟩ := header_consistency sample_env "mesh.msh"
    sample_triangle MeshStyle.Wireframe sample_exported _ hexp hres hN hPlt hsize
  have hse : s = sample_wireframe_streams := by
    rw [sample_env_streams] at hs
    exact (Except.ok.inj hs).symm
  rw [hse, hN1] at hdata
  exact ⟨⟨hexp, hres, hN, hPlt, hsize⟩, ⟨hN1, hP0⟩, m, rest, hfile, hdata⟩

end Granite
